import Mathlib

/-! # Triple-tree depth-first traversal (`core::gnp::TripletreeDfs`)

A shallow embedding of `tripletree_dfs_dev.h` instantiated with the N-body
problem types of `nbody_simulator_tripletree.h`.

Conventions of the embedding

* `double` is a type parameter `α` carrying the operations the code uses, so
  the definitions run on any arithmetic.  The general theorems take `α` to be
  a linearly ordered field (exact arithmetic).  Where the outcome depends on
  the order of the additions, the statement follows the order of the code and
  is also evaluated on `Double`, the arithmetic with rounding to 53 bits.
* A tree node pointer (`TreeType *`) is a `TreeType`: the address of the node
  (its path from the root) together with the subtree stored there.  Pointer
  comparison compares addresses.
* `table_->get_node_stat(node)` is a partial map from addresses to statistics;
  dereferencing a missing statistic aborts the computation (`none`).
* `std::vector`s indexed by point id (`NbodySimulatorResult`) are total maps
  from the index; the short vectors of length three are lists.
* The mutual recursion of `RecursionHelper_` and `TripletreeCanonical_` is
  driven by a fuel counter; running out of fuel is `none`.
* Calls are recorded in a ghost log (`State.log`), which the code itself does
  not have: it exists so that statements about "every call" can be written.
-/

namespace Tripletree

/-! ## `core::math::Range` -/

/-- Modelled from the spec: `core::math::Range`, whose header is not part of
the sources.  A pair of bounds `[lo, hi]` with endpoint-wise addition
(`operator+`, `operator+=`), interval hull (`operator|=`), midpoint and width. -/
structure Range (α : Type) where
  lo : α
  hi : α
deriving DecidableEq

namespace Range

variable {α : Type} [Zero α] [One α] [Add α] [Sub α] [Neg α] [Mul α] [Div α] [OfNat α 2]
  [LT α] [LE α] [Min α] [Max α] [∀ a b : α, Decidable (a < b)] [∀ a b : α, Decidable (a ≤ b)]

/-- Modelled from the spec: `Range::Init(lo, hi)`. -/
def Init (lo hi : α) : Range α := ⟨lo, hi⟩

/-- Modelled from the spec: `operator+` and `operator+=` of two ranges. -/
def add (a b : Range α) : Range α := ⟨a.lo + b.lo, a.hi + b.hi⟩

/-- Modelled from the spec: `operator|=`, the hull of two ranges. -/
def hull (a b : Range α) : Range α := ⟨min a.lo b.lo, max a.hi b.hi⟩

/-- Modelled from the spec: `Range::mid()`. -/
def mid (a : Range α) : α := (a.lo + a.hi) / 2

/-- Modelled from the spec: `Range::width()`. -/
def width (a : Range α) : α := a.hi - a.lo

end Range

/-! ## Problem types of `nbody_simulator_tripletree.h` -/

/-- The class `NbodySimulatorPostponed`. -/
structure NbodySimulatorPostponed (α : Type) where
  negative_potential_ : Range α
  positive_potential_ : Range α
  pruned_ : α
  used_error_ : α
deriving DecidableEq

/-- The class `NbodySimulatorDelta`; the four vectors have length three. -/
structure NbodySimulatorDelta (α : Type) where
  negative_potential_ : List (Range α)
  positive_potential_ : List (Range α)
  pruned_ : List α
  used_error_ : List α
deriving DecidableEq

/-- The class `NbodySimulatorResult`; each vector is a map from the point
index. -/
structure NbodySimulatorResult (α : Type) where
  negative_potential_ : Nat → Range α
  positive_potential_ : Nat → Range α
  potential_e_ : Nat → α
  pruned_ : Nat → α
  used_error_ : Nat → α

/-- The class `NbodySimulatorSummary`. -/
structure NbodySimulatorSummary (α : Type) where
  negative_potential_ : Range α
  positive_potential_ : Range α
  pruned_ : α
  used_error_ : α
deriving DecidableEq

/-- The class `NbodySimulatorStatistic`. -/
structure NbodySimulatorStatistic (α : Type) where
  postponed_ : NbodySimulatorPostponed α
  summary_ : NbodySimulatorSummary α
deriving DecidableEq

/-! ## Tree, node pointers, iterators -/

/-- Modelled from the spec: the spatial tree (`TableType::TreeType`), whose
header is not part of the sources.  Every node has a half-open index range
`[begin, end)`; an internal node owns a left and a right child. -/
inductive Tree where
  | leaf (begin_ end_ : Nat) : Tree
  | node (begin_ end_ : Nat) (left right : Tree) : Tree
deriving DecidableEq

namespace Tree

/-- Modelled from the spec: `begin()` of a node. -/
def begin_ : Tree → Nat
  | leaf b _ => b
  | node b _ _ _ => b

/-- Modelled from the spec: `end()` of a node. -/
def end_ : Tree → Nat
  | leaf _ e => e
  | node _ e _ _ => e

/-- Modelled from the spec: `is_leaf()` of a node. -/
def is_leaf : Tree → Bool
  | leaf _ _ => true
  | node _ _ _ _ => false

/-- Height of a tree, a leaf having height zero. -/
def height : Tree → Nat
  | leaf _ _ => 0
  | node _ _ l r => max l.height r.height + 1

/-- Well-formed tree: every leaf has a non-empty range, and the ranges of the
two children of an internal node are contiguous and partition the range of the
parent. -/
def WellFormed : Tree → Prop
  | leaf b e => b < e
  | node b e l r =>
      l.begin_ = b ∧ l.end_ = r.begin_ ∧ r.end_ = e ∧ l.WellFormed ∧ r.WellFormed

instance decWellFormed : (t : Tree) → Decidable t.WellFormed
  | leaf b e => by unfold WellFormed; exact inferInstance
  | node b e l r => by
      unfold WellFormed
      have := decWellFormed l
      have := decWellFormed r
      exact inferInstance

end Tree

/-- A node pointer `TreeType *`: the address of the node, which is the list of
child choices leading to it from the root (last choice first, `false` for
left), and the subtree stored at that address. -/
structure TreeType where
  addr : List Bool
  tree : Tree
deriving DecidableEq

namespace TreeType

/-- The pointer to the root of a tree (`table_->get_tree()`). -/
def root (t : Tree) : TreeType := ⟨[], t⟩

/-- The member `begin()`. -/
def begin_ (n : TreeType) : Nat := n.tree.begin_

/-- The member `end()`. -/
def end_ (n : TreeType) : Nat := n.tree.end_

/-- The member `is_leaf()` (and `table_->node_is_leaf`). -/
def is_leaf (n : TreeType) : Bool := n.tree.is_leaf

/-- The member `left()` (and `table_->get_node_left_child`).  The code calls
it on internal nodes only; on a leaf the embedding returns the node itself. -/
def left (n : TreeType) : TreeType :=
  match n.tree with
  | Tree.leaf _ _ => n
  | Tree.node _ _ l _ => ⟨false :: n.addr, l⟩

/-- The member `right()` (and `table_->get_node_right_child`). -/
def right (n : TreeType) : TreeType :=
  match n.tree with
  | Tree.leaf _ _ => n
  | Tree.node _ _ _ r => ⟨true :: n.addr, r⟩

/-- Pointer comparison `a == b`. -/
def ptr_eq (a b : TreeType) : Bool := decide (a.addr = b.addr)

end TreeType

/-- Modelled from the spec: `TableType::TreeIterator`, whose header is not
part of the sources: a cursor over the indices `begin .. end - 1` of a node,
in increasing order. -/
structure TreeIterator where
  current : Nat
  end_ : Nat
deriving DecidableEq

namespace TreeIterator

/-- Modelled from the spec: `TreeIterator::HasNext()`. -/
def HasNext (it : TreeIterator) : Bool := decide (it.current < it.end_)

/-- Modelled from the spec: `TreeIterator::Next(&point, &index)`: the index of
the next point and the advanced cursor.  Calling it on an exhausted iterator is
a contract violation (`none`). -/
def Next (it : TreeIterator) : Option (Nat × TreeIterator) :=
  if it.current < it.end_ then some (it.current, ⟨it.current + 1, it.end_⟩) else none

/-- Number of points the iterator still has to yield. -/
def remaining (it : TreeIterator) : Nat := it.end_ - it.current

end TreeIterator

/-- Modelled from the spec: `table_->get_node_iterator(node)`. -/
def get_node_iterator (node : TreeType) : TreeIterator := ⟨node.begin_, node.end_⟩

/-! ## `TripleDistanceSq` and `TripleRangeDistanceSq` -/

/-- Modelled from the spec: `core::gnp::TripleDistanceSq`, whose header is not
part of the sources: the three concrete points currently chosen, each
identified by its index. -/
structure TripleDistanceSq where
  p0 : Nat
  p1 : Nat
  p2 : Nat
deriving DecidableEq

/-- Modelled from the spec: `TripleDistanceSq::ReplaceOnePoint(metric, point,
slot)`. -/
def TripleDistanceSq.ReplaceOnePoint (d : TripleDistanceSq) (point : Nat) (slot : Nat) :
    TripleDistanceSq :=
  match slot with
  | 0 => { d with p0 := point }
  | 1 => { d with p1 := point }
  | _ => { d with p2 := point }

/-- Modelled from the spec: `core::gnp::TripleRangeDistanceSq`, whose header
is not part of the sources: the three node pointers currently chosen, one per
slot.  The cached distance bounds are left out; what the code reads from them
(`num_tuples`, the potential range) is a parameter of the problem. -/
structure TripleRangeDistanceSq where
  node0 : TreeType
  node1 : TreeType
  node2 : TreeType
deriving DecidableEq

namespace TripleRangeDistanceSq

/-- Modelled from the spec: `TripleRangeDistanceSq::Init(metric, table,
nodes)` with the three given nodes. -/
def Init (n0 n1 n2 : TreeType) : TripleRangeDistanceSq := ⟨n0, n1, n2⟩

/-- Modelled from the spec: `TripleRangeDistanceSq::node(i)`. -/
def node (r : TripleRangeDistanceSq) (i : Nat) : TreeType :=
  match i with
  | 0 => r.node0
  | 1 => r.node1
  | _ => r.node2

/-- Modelled from the spec: `TripleRangeDistanceSq::ReplaceOneNode(metric,
table, new_node, slot)`. -/
def ReplaceOneNode (r : TripleRangeDistanceSq) (new_node : TreeType) (slot : Nat) :
    TripleRangeDistanceSq :=
  match slot with
  | 0 => { r with node0 := new_node }
  | 1 => { r with node1 := new_node }
  | _ => { r with node2 := new_node }

end TripleRangeDistanceSq

/-! ## Operations of the problem types -/

section Operations

variable {α : Type} [Zero α] [One α] [Add α] [Sub α] [Neg α] [Mul α] [Div α] [OfNat α 2]
  [LT α] [LE α] [Min α] [Max α] [∀ a b : α, Decidable (a < b)] [∀ a b : α, Decidable (a ≤ b)]

namespace NbodySimulatorPostponed

/-- The member `SetZero` (and the default constructor, through `Init`). -/
def SetZero : NbodySimulatorPostponed α :=
  { negative_potential_ := Range.Init 0 0
    positive_potential_ := Range.Init 0 0
    pruned_ := 0
    used_error_ := 0 }

/-- The member `Init(num_tuples)`. -/
def Init (num_tuples : α) : NbodySimulatorPostponed α :=
  { negative_potential_ := Range.Init 0 0
    positive_potential_ := Range.Init 0 0
    pruned_ := num_tuples
    used_error_ := 0 }

/-- The member `ApplyDelta(delta_in, node_index, query_results)`. -/
def ApplyDelta (self : NbodySimulatorPostponed α) (delta_in : NbodySimulatorDelta α)
    (node_index : Nat) : NbodySimulatorPostponed α :=
  { negative_potential_ :=
      self.negative_potential_.add (delta_in.negative_potential_.getD node_index (Range.Init 0 0))
    positive_potential_ :=
      self.positive_potential_.add (delta_in.positive_potential_.getD node_index (Range.Init 0 0))
    pruned_ := self.pruned_ + delta_in.pruned_.getD node_index 0
    used_error_ := self.used_error_ + delta_in.used_error_.getD node_index 0 }

/-- The member `ApplyPostponed(other_postponed)`. -/
def ApplyPostponed (self other_postponed : NbodySimulatorPostponed α) :
    NbodySimulatorPostponed α :=
  { negative_potential_ := self.negative_potential_.add other_postponed.negative_potential_
    positive_potential_ := self.positive_potential_.add other_postponed.positive_potential_
    pruned_ := self.pruned_ + other_postponed.pruned_
    used_error_ := self.used_error_ + other_postponed.used_error_ }

end NbodySimulatorPostponed

/-- Modelled from the spec: what the engine reads from collaborators whose
headers are not part of the sources: `AxilrodTeller::EvalUnnormOnSq` (the
exact contribution of three concrete points), `AxilrodTeller::RangeUnnormOnSq`
(the range of the potential over a node triple),
`TripleRangeDistanceSq::num_tuples(i)` and
`std::numeric_limits<double>::max()`. -/
structure Collaborators (α : Type) where
  EvalUnnormOnSq : TripleDistanceSq → α
  RangeUnnormOnSq : TripleRangeDistanceSq → Range α
  num_tuples : TripleRangeDistanceSq → Nat → α
  dbl_max : α

/-- The class `NbodySimulatorGlobal`: the fields the engine reads, and the
collaborators reached through it. -/
structure NbodySimulatorGlobal (α : Type) where
  relative_error_ : α
  probability_ : α
  total_num_tuples_ : α
  ext : Collaborators α

namespace NbodySimulatorDelta

/-- The member `SetZero` on the vectors of the constructor (`resize(3)`). -/
def SetZero : NbodySimulatorDelta α :=
  { negative_potential_ := List.replicate 3 (Range.Init 0 0)
    positive_potential_ := List.replicate 3 (Range.Init 0 0)
    pruned_ := List.replicate 3 0
    used_error_ := List.replicate 3 0 }

/-- One pass of the loop body of `DeterministicCompute` at index `i`. -/
def DeterministicComputeStep (global : NbodySimulatorGlobal α)
    (triple_range_distance_sq : TripleRangeDistanceSq) (potential_range : Range α)
    (self : NbodySimulatorDelta α) (i : Nat) : NbodySimulatorDelta α :=
  let pruned_i := global.ext.num_tuples triple_range_distance_sq i
  let used_error_i := pruned_i * (1 / 2) * potential_range.width
  let los : α × α :=
    if potential_range.lo < 0 then (pruned_i * potential_range.lo, 0)
    else (0, pruned_i * potential_range.lo)
  let his : α × α :=
    if potential_range.hi > 0 then (0, pruned_i * potential_range.hi)
    else (pruned_i * potential_range.hi, 0)
  { negative_potential_ := self.negative_potential_.set i ⟨los.1, his.1⟩
    positive_potential_ := self.positive_potential_.set i ⟨los.2, his.2⟩
    pruned_ := self.pruned_.set i pruned_i
    used_error_ := self.used_error_.set i used_error_i }

/-- The member `DeterministicCompute(metric, global, triple_range_distance_sq)`:
the loop runs over `i < pruned_.size()`. -/
def DeterministicCompute (self : NbodySimulatorDelta α) (global : NbodySimulatorGlobal α)
    (triple_range_distance_sq : TripleRangeDistanceSq) : NbodySimulatorDelta α :=
  let potential_range := global.ext.RangeUnnormOnSq triple_range_distance_sq
  (List.range self.pruned_.length).foldl
    (DeterministicComputeStep global triple_range_distance_sq potential_range) self

end NbodySimulatorDelta

namespace NbodySimulatorResult

/-- The member `SetZero` (every entry of every vector). -/
def SetZero : NbodySimulatorResult α :=
  { negative_potential_ := fun _ => Range.Init 0 0
    positive_potential_ := fun _ => Range.Init 0 0
    potential_e_ := fun _ => 0
    pruned_ := fun _ => 0
    used_error_ := fun _ => 0 }

/-- The member `Init(num_points)`: resize, then `SetZero`. -/
def Init (_num_points : Nat) : NbodySimulatorResult α := SetZero

/-- The member `PostProcess(metric, q_index, global)`. -/
def PostProcess (self : NbodySimulatorResult α) (q_index : Nat) : NbodySimulatorResult α :=
  { self with
    potential_e_ := Function.update self.potential_e_ q_index
      ((self.negative_potential_ q_index).mid + (self.positive_potential_ q_index).mid) }

/-- The member `ApplyPostponed(q_index, postponed_in)`. -/
def ApplyPostponed (self : NbodySimulatorResult α) (q_index : Nat)
    (postponed_in : NbodySimulatorPostponed α) : NbodySimulatorResult α :=
  { self with
    negative_potential_ := Function.update self.negative_potential_ q_index
      ((self.negative_potential_ q_index).add postponed_in.negative_potential_)
    positive_potential_ := Function.update self.positive_potential_ q_index
      ((self.positive_potential_ q_index).add postponed_in.positive_potential_)
    pruned_ := Function.update self.pruned_ q_index
      (self.pruned_ q_index + postponed_in.pruned_)
    used_error_ := Function.update self.used_error_ q_index
      (self.used_error_ q_index + postponed_in.used_error_) }

end NbodySimulatorResult

namespace NbodySimulatorGlobal

/-- The member `ApplyContribution(range_in, postponeds)`: every element of
the vector is overwritten. -/
def ApplyContribution (self : NbodySimulatorGlobal α) (range_in : TripleDistanceSq)
    (postponeds : List (NbodySimulatorPostponed α)) : List (NbodySimulatorPostponed α) :=
  let potential_value := self.ext.EvalUnnormOnSq range_in
  let postponeds :=
    if potential_value < 0 then
      postponeds.map fun p =>
        { p with
          negative_potential_ := Range.Init potential_value potential_value
          positive_potential_ := Range.Init 0 0 }
    else
      postponeds.map fun p =>
        { p with
          negative_potential_ := Range.Init 0 0
          positive_potential_ := Range.Init potential_value potential_value }
  postponeds.map fun p => { p with pruned_ := 0, used_error_ := 0 }

end NbodySimulatorGlobal

namespace NbodySimulatorSummary

/-- The member `SetZero`. -/
def SetZero : NbodySimulatorSummary α :=
  { negative_potential_ := Range.Init 0 0
    positive_potential_ := Range.Init 0 0
    pruned_ := 0
    used_error_ := 0 }

/-- The member `CanSummarize(global, delta, triple_range_distance_sq,
node_index, query_results)`. -/
def CanSummarize (self : NbodySimulatorSummary α) (global : NbodySimulatorGlobal α)
    (delta : NbodySimulatorDelta α) (node_index : Nat) : Bool :=
  let left_hand_side := delta.used_error_.getD node_index 0
  let right_hand_side :=
    delta.pruned_.getD node_index 0 *
      (global.relative_error_ *
          max (- self.negative_potential_.hi) self.positive_potential_.lo - self.used_error_) /
      (global.total_num_tuples_ - self.pruned_)
  decide (left_hand_side ≤ right_hand_side)

/-- The member `StartReaccumulate`. -/
def StartReaccumulate (global : NbodySimulatorGlobal α) : NbodySimulatorSummary α :=
  { negative_potential_ := Range.Init global.ext.dbl_max (- global.ext.dbl_max)
    positive_potential_ := Range.Init global.ext.dbl_max (- global.ext.dbl_max)
    pruned_ := global.ext.dbl_max
    used_error_ := 0 }

/-- The member `Accumulate(results, q_index)`. -/
def Accumulate (self : NbodySimulatorSummary α) (results : NbodySimulatorResult α)
    (q_index : Nat) : NbodySimulatorSummary α :=
  { negative_potential_ := self.negative_potential_.hull (results.negative_potential_ q_index)
    positive_potential_ := self.positive_potential_.hull (results.positive_potential_ q_index)
    pruned_ := min self.pruned_ (results.pruned_ q_index)
    used_error_ := max self.used_error_ (results.used_error_ q_index) }

/-- The member `Accumulate(summary_in)`. -/
def AccumulateSummary (self summary_in : NbodySimulatorSummary α) : NbodySimulatorSummary α :=
  { negative_potential_ := self.negative_potential_.hull summary_in.negative_potential_
    positive_potential_ := self.positive_potential_.hull summary_in.positive_potential_
    pruned_ := min self.pruned_ summary_in.pruned_
    used_error_ := max self.used_error_ summary_in.used_error_ }

/-- The member `Accumulate(summary_in, postponed_in)`.  The positive part is
assigned (`=`), the negative part is merged (`|=`), as in the source. -/
def AccumulatePostponed (self summary_in : NbodySimulatorSummary α)
    (postponed_in : NbodySimulatorPostponed α) : NbodySimulatorSummary α :=
  { negative_potential_ :=
      self.negative_potential_.hull
        (summary_in.negative_potential_.add postponed_in.negative_potential_)
    positive_potential_ :=
      summary_in.positive_potential_.add postponed_in.positive_potential_
    pruned_ := min self.pruned_ (summary_in.pruned_ + postponed_in.pruned_)
    used_error_ := max self.used_error_ (summary_in.used_error_ + postponed_in.used_error_) }

/-- The member `ApplyDelta(delta_in, node_index)`. -/
def ApplyDelta (self : NbodySimulatorSummary α) (delta_in : NbodySimulatorDelta α)
    (node_index : Nat) : NbodySimulatorSummary α :=
  { self with
    negative_potential_ :=
      self.negative_potential_.add (delta_in.negative_potential_.getD node_index (Range.Init 0 0))
    positive_potential_ :=
      self.positive_potential_.add (delta_in.positive_potential_.getD node_index (Range.Init 0 0)) }

/-- The member `ApplyPostponed(postponed_in)`. -/
def ApplyPostponed (self : NbodySimulatorSummary α) (postponed_in : NbodySimulatorPostponed α) :
    NbodySimulatorSummary α :=
  { negative_potential_ := self.negative_potential_.add postponed_in.negative_potential_
    positive_potential_ := self.positive_potential_.add postponed_in.positive_potential_
    pruned_ := self.pruned_ + postponed_in.pruned_
    used_error_ := self.used_error_ + postponed_in.used_error_ }

end NbodySimulatorSummary

/-- The member `NbodySimulatorStatistic::SetZero`. -/
def NbodySimulatorStatistic.SetZero : NbodySimulatorStatistic α :=
  { postponed_ := NbodySimulatorPostponed.SetZero
    summary_ := NbodySimulatorSummary.SetZero }

end Operations

/-! ## The engine `TripletreeDfs` -/

/-- Ghost events recorded by the embedding: entry of `RecursionHelper_`
(level, the three slot nodes, the flag `all_leaves`), entry of
`TripletreeCanonical_`, entry of `TripletreeBase_`, and one evaluation of the
exact contribution on the three points held by the `TripleDistanceSq`. -/
inductive Event where
  | helper (level : Nat) (nodes : TripleRangeDistanceSq) (all_leaves : Bool) : Event
  | canonical (nodes : TripleRangeDistanceSq) : Event
  | base (nodes : TripleRangeDistanceSq) : Event
  | exact (points : TripleDistanceSq) : Event
deriving DecidableEq

/-- The mutable state the engine works on: the statistics owned by the nodes
of the table (`get_node_stat`, `none` for a node without a statistic), the
result buffer `*query_results`, and the ghost log. -/
structure State (α : Type) where
  stat : List Bool → Option (NbodySimulatorStatistic α)
  query_results : NbodySimulatorResult α
  log : List Event

/-- Append an event to the ghost log. -/
def State.record {α : Type} (st : State α) (e : Event) : State α :=
  { st with log := st.log ++ [e] }

section Engine

variable {α : Type} [Zero α] [One α] [Add α] [Sub α] [Neg α] [Mul α] [Div α] [OfNat α 2]
  [LT α] [LE α] [Min α] [Max α] [∀ a b : α, Decidable (a < b)] [∀ a b : α, Decidable (a ≤ b)]

/-- The recursion of `ResetStatisticRecursion_` on the node at `addr`: the old
statistic, if any, is deleted and a new zero statistic is installed. -/
def ResetStatisticRecursion_ (stat : List Bool → Option (NbodySimulatorStatistic α)) :
    List Bool → Tree → List Bool → Option (NbodySimulatorStatistic α)
  | addr, Tree.leaf _ _ => Function.update stat addr (some NbodySimulatorStatistic.SetZero)
  | addr, Tree.node _ _ l r =>
      let stat1 := Function.update stat addr (some NbodySimulatorStatistic.SetZero)
      let stat2 := ResetStatisticRecursion_ stat1 (false :: addr) l
      ResetStatisticRecursion_ stat2 (true :: addr) r

/-- The member `ResetStatistic`. -/
def ResetStatistic (t : Tree) (st : State α) : State α :=
  { st with stat := ResetStatisticRecursion_ st.stat [] t }

/-- The member `Init(problem_in)`: it stores the problem and its table and
calls `ResetStatistic`. -/
def Init (t : Tree) (st : State α) : State α := ResetStatistic t st

/-- The member `PreProcess_` on the node at `addr`. -/
def PreProcess_ : List Bool → Tree → State α → Option (State α)
  | addr, Tree.leaf _ _, st =>
      match st.stat addr with
      | none => none
      | some _ =>
          some { st with stat := Function.update st.stat addr (some NbodySimulatorStatistic.SetZero) }
  | addr, Tree.node _ _ l r, st =>
      match st.stat addr with
      | none => none
      | some _ =>
          let st1 : State α :=
            { st with stat := Function.update st.stat addr (some NbodySimulatorStatistic.SetZero) }
          match PreProcess_ (false :: addr) l st1 with
          | none => none
          | some st2 => PreProcess_ (true :: addr) r st2

/-- The member `GetNextNodeIterator_`. -/
def GetNextNodeIterator_ (range_sq_in : TripleRangeDistanceSq) (node_index : Nat)
    (it_in : TreeIterator) : TreeIterator :=
  if ! (range_sq_in.node node_index).ptr_eq (range_sq_in.node (node_index + 1)) then
    get_node_iterator (range_sq_in.node (node_index + 1))
  else
    it_in

/-- Local variables of `TripletreeBase_` that live across the triple loop. -/
structure BaseLocals (α : Type) where
  point_postponeds : List (NbodySimulatorPostponed α)
  distance_sq_set : TripleDistanceSq

/-- The innermost loop of `TripletreeBase_` (`while(third_node_it.HasNext())`).
The first argument bounds the number of iterations; the caller passes the
number of points the iterator has left, so the loop never stops early. -/
def TripletreeBase_thirdLoop (global : NbodySimulatorGlobal α)
    (first_point_index second_point_index : Nat) :
    Nat → TreeIterator → BaseLocals α → State α → Option (BaseLocals α × State α)
  | 0, _, loc, st => some (loc, st)
  | n + 1, third_node_it, loc, st =>
      if third_node_it.HasNext then
        match third_node_it.Next with
        | none => none
        | some (third_point_index, third_node_it) =>
            let distance_sq_set := loc.distance_sq_set.ReplaceOnePoint third_point_index 2
            let st := st.record (Event.exact distance_sq_set)
            let point_postponeds := global.ApplyContribution distance_sq_set loc.point_postponeds
            let qr := st.query_results.ApplyPostponed first_point_index
              (point_postponeds.getD 0 NbodySimulatorPostponed.SetZero)
            let qr := qr.ApplyPostponed second_point_index
              (point_postponeds.getD 1 NbodySimulatorPostponed.SetZero)
            let qr := qr.ApplyPostponed third_point_index
              (point_postponeds.getD 2 NbodySimulatorPostponed.SetZero)
            TripletreeBase_thirdLoop global first_point_index second_point_index n third_node_it
              ⟨point_postponeds, distance_sq_set⟩ { st with query_results := qr }
      else
        some (loc, st)

/-- The middle loop of `TripletreeBase_` (`while(second_node_it.HasNext())`). -/
def TripletreeBase_secondLoop (global : NbodySimulatorGlobal α)
    (range_sq_in : TripleRangeDistanceSq) (first_point_index : Nat) :
    Nat → TreeIterator → BaseLocals α → State α → Option (BaseLocals α × State α)
  | 0, _, loc, st => some (loc, st)
  | n + 1, second_node_it, loc, st =>
      if second_node_it.HasNext then
        match second_node_it.Next with
        | none => none
        | some (second_point_index, second_node_it) =>
            let loc : BaseLocals α :=
              { loc with
                distance_sq_set := loc.distance_sq_set.ReplaceOnePoint second_point_index 1 }
            let third_node_it := GetNextNodeIterator_ range_sq_in 1 second_node_it
            match TripletreeBase_thirdLoop global first_point_index second_point_index
                third_node_it.remaining third_node_it loc st with
            | none => none
            | some (loc, st) =>
                TripletreeBase_secondLoop global range_sq_in first_point_index n second_node_it
                  loc st
      else
        some (loc, st)

/-- The outer loop of `TripletreeBase_` (`do ... while(first_node_it.HasNext())`):
the body runs before the test, so `Next` is called on the iterator as it is. -/
def TripletreeBase_firstLoop (global : NbodySimulatorGlobal α)
    (range_sq_in : TripleRangeDistanceSq) :
    Nat → TreeIterator → BaseLocals α → State α → Option (BaseLocals α × State α)
  | 0, _, _, _ => none
  | n + 1, first_node_it, loc, st =>
      match first_node_it.Next with
      | none => none
      | some (first_point_index, first_node_it) =>
          let loc : BaseLocals α :=
            { loc with
              distance_sq_set := loc.distance_sq_set.ReplaceOnePoint first_point_index 0 }
          let second_node_it := GetNextNodeIterator_ range_sq_in 0 first_node_it
          match TripletreeBase_secondLoop global range_sq_in first_point_index
              second_node_it.remaining second_node_it loc st with
          | none => none
          | some (loc, st) =>
              if first_node_it.HasNext then
                TripletreeBase_firstLoop global range_sq_in n first_node_it loc st
              else
                some (loc, st)

/-- The loop over the points of one node in the second half of
`TripletreeBase_`: the postponed of the node is applied to each point and the
summary is refined with the updated result. -/
def TripletreeBase_flushLoop (postponed : NbodySimulatorPostponed α) :
    Nat → TreeIterator → NbodySimulatorSummary α → NbodySimulatorResult α →
      Option (NbodySimulatorSummary α × NbodySimulatorResult α)
  | 0, _, summary, qr => some (summary, qr)
  | n + 1, node_iterator, summary, qr =>
      if node_iterator.HasNext then
        match node_iterator.Next with
        | none => none
        | some (q_index, node_iterator) =>
            let qr := qr.ApplyPostponed q_index postponed
            let summary := summary.Accumulate qr q_index
            TripletreeBase_flushLoop postponed n node_iterator summary qr
      else
        some (summary, qr)

/-- The body of `for(node_index = 0; node_index < 3; node_index++)` in
`TripletreeBase_`. -/
def TripletreeBase_flushNode (global : NbodySimulatorGlobal α)
    (range_sq_in : TripleRangeDistanceSq) (node_index : Nat) (st : State α) :
    Option (State α) :=
  if node_index = 0 ∨
      ! (range_sq_in.node node_index).ptr_eq (range_sq_in.node (node_index - 1)) then
    let node := range_sq_in.node node_index
    match st.stat node.addr with
    | none => none
    | some node_stat =>
        let summary := NbodySimulatorSummary.StartReaccumulate global
        let node_iterator := get_node_iterator node
        let postponed : NbodySimulatorPostponed α :=
          { node_stat.postponed_ with
            pruned_ := node_stat.postponed_.pruned_ + global.ext.num_tuples range_sq_in node_index }
        match TripletreeBase_flushLoop postponed node_iterator.remaining node_iterator summary
            st.query_results with
        | none => none
        | some (summary, qr) =>
            some
              { st with
                stat := Function.update st.stat node.addr
                  (some { postponed_ := NbodySimulatorPostponed.SetZero, summary_ := summary })
                query_results := qr }
  else
    some st

/-- The member `TripletreeBase_`. -/
def TripletreeBase_ (global : NbodySimulatorGlobal α) (range_sq_in : TripleRangeDistanceSq)
    (st : State α) : Option (State α) :=
  let st := st.record (Event.base range_sq_in)
  let loc : BaseLocals α :=
    { point_postponeds := List.replicate 3 NbodySimulatorPostponed.SetZero
      distance_sq_set := ⟨0, 0, 0⟩ }
  let first_node_it := get_node_iterator (range_sq_in.node 0)
  match TripletreeBase_firstLoop global range_sq_in (first_node_it.remaining + 1) first_node_it
      loc st with
  | none => none
  | some (_, st) =>
      match TripletreeBase_flushNode global range_sq_in 0 st with
      | none => none
      | some st =>
          match TripletreeBase_flushNode global range_sq_in 1 st with
          | none => none
          | some st => TripletreeBase_flushNode global range_sq_in 2 st

/-- The member `CanSummarize_`. -/
def CanSummarize_ (_triple_range_distance_sq_in : TripleRangeDistanceSq)
    (_delta : NbodySimulatorDelta α) (_query_results : NbodySimulatorResult α) : Bool :=
  false

/-- The member `Summarize_`, whose body is empty. -/
def Summarize_ (_triple_range_distance_sq : TripleRangeDistanceSq)
    (_delta : NbodySimulatorDelta α) (st : State α) : State α :=
  st

/-- The member `NodeIsAgreeable_`. -/
def NodeIsAgreeable_ (node next_node : TreeType) : Bool :=
  node.ptr_eq next_node || decide (node.end_ ≤ next_node.begin_)

/-- The result of one call of `RecursionHelper_`: the triple-range and the
state it leaves behind, and the value of `*deterministic_approximation`. -/
abbrev HelperResult (α : Type) := TripleRangeDistanceSq × State α × Bool

/-- The result of one call of `TripletreeCanonical_`: the returned flag, and
the triple-range and the state it leaves behind. -/
abbrev CanonicalResult (α : Type) := Bool × TripleRangeDistanceSq × State α

mutual

/-- The member `RecursionHelper_`, with the prune test of the canonical step
taken as the parameter `can_summarize`.  The first argument is the fuel. -/
def RecursionHelperWith
    (can_summarize : TripleRangeDistanceSq → NbodySimulatorDelta α → NbodySimulatorResult α → Bool)
    (global : NbodySimulatorGlobal α) :
    Nat → TripleRangeDistanceSq → α → α → State α → Nat → Bool → Bool →
      Option (HelperResult α)
  | 0, _, _, _, _, _, _, _ => none
  | fuel + 1, triple_range_distance_sq, relative_error, failure_probability, st, level,
      all_leaves, deterministic_approximation =>
      let st := st.record (Event.helper level triple_range_distance_sq all_leaves)
      if level = 3 then
        if all_leaves then
          match TripletreeBase_ global triple_range_distance_sq st with
          | none => none
          | some st => some (triple_range_distance_sq, st, deterministic_approximation)
        else
          match TripletreeCanonicalWith can_summarize global fuel triple_range_distance_sq
              relative_error failure_probability st with
          | none => none
          | some (exact_computation, triple_range_distance_sq, st) =>
              some (triple_range_distance_sq, st,
                deterministic_approximation && exact_computation)
      else
        let current_node := triple_range_distance_sq.node level
        if current_node.is_leaf then
          if level = 0 ∨
              NodeIsAgreeable_ (triple_range_distance_sq.node (level - 1)) current_node then
            RecursionHelperWith can_summarize global fuel triple_range_distance_sq
              relative_error failure_probability st (level + 1) all_leaves
              deterministic_approximation
          else
            some (triple_range_distance_sq, st, deterministic_approximation)
        else
          let after_left : Option (Bool × HelperResult α) :=
            if level = 0 ∨
                NodeIsAgreeable_ (triple_range_distance_sq.node (level - 1))
                  current_node.left then
              match RecursionHelperWith can_summarize global fuel
                  (triple_range_distance_sq.ReplaceOneNode current_node.left level)
                  relative_error failure_probability st (level + 1) false
                  deterministic_approximation with
              | none => none
              | some r => some (true, r)
            else
              some (false, triple_range_distance_sq, st, deterministic_approximation)
          match after_left with
          | none => none
          | some (replaced_left, triple_range_distance_sq, st, deterministic_approximation) =>
              let after_right : Option (Bool × HelperResult α) :=
                if level = 0 ∨
                    NodeIsAgreeable_ (triple_range_distance_sq.node (level - 1))
                      current_node.right then
                  match RecursionHelperWith can_summarize global fuel
                      (triple_range_distance_sq.ReplaceOneNode current_node.right level)
                      relative_error failure_probability st (level + 1) false
                      deterministic_approximation with
                  | none => none
                  | some r => some (true, r)
                else
                  some (replaced_left, triple_range_distance_sq, st,
                    deterministic_approximation)
              match after_right with
              | none => none
              | some (replaced_node_on_current_level, triple_range_distance_sq, st,
                  deterministic_approximation) =>
                  if replaced_node_on_current_level then
                    some (triple_range_distance_sq.ReplaceOneNode current_node level, st,
                      deterministic_approximation)
                  else
                    some (triple_range_distance_sq, st, deterministic_approximation)

/-- The member `TripletreeCanonical_`, with the prune test taken as the
parameter `can_summarize`.  The first argument is the fuel. -/
def TripletreeCanonicalWith
    (can_summarize : TripleRangeDistanceSq → NbodySimulatorDelta α → NbodySimulatorResult α → Bool)
    (global : NbodySimulatorGlobal α) :
    Nat → TripleRangeDistanceSq → α → α → State α → Option (CanonicalResult α)
  | 0, _, _, _, _ => none
  | fuel + 1, triple_range_distance_sq, relative_error, failure_probability, st =>
      let st := st.record (Event.canonical triple_range_distance_sq)
      let delta :=
        (NbodySimulatorDelta.SetZero : NbodySimulatorDelta α).DeterministicCompute global
          triple_range_distance_sq
      if can_summarize triple_range_distance_sq delta st.query_results then
        some (true, triple_range_distance_sq, st)
      else
        match RecursionHelperWith can_summarize global fuel triple_range_distance_sq
            relative_error failure_probability st 0 true true with
        | none => none
        | some (triple_range_distance_sq, st, deterministic_approximation) =>
            some (deterministic_approximation, triple_range_distance_sq, st)

end

/-- The member `RecursionHelper_`: the prune test is `CanSummarize_`. -/
def RecursionHelper_ (global : NbodySimulatorGlobal α) :
    Nat → TripleRangeDistanceSq → α → α → State α → Nat → Bool → Bool →
      Option (HelperResult α) :=
  RecursionHelperWith CanSummarize_ global

/-- The member `TripletreeCanonical_`: the prune test is `CanSummarize_`. -/
def TripletreeCanonical_ (global : NbodySimulatorGlobal α) :
    Nat → TripleRangeDistanceSq → α → α → State α → Option (CanonicalResult α) :=
  TripletreeCanonicalWith CanSummarize_ global

/-- The loop over the points of a leaf in `PostProcess_`. -/
def PostProcess_leafLoop (postponed : NbodySimulatorPostponed α) :
    Nat → TreeIterator → NbodySimulatorResult α → Option (NbodySimulatorResult α)
  | 0, _, qr => some qr
  | n + 1, qnode_iterator, qr =>
      if qnode_iterator.HasNext then
        match qnode_iterator.Next with
        | none => none
        | some (q_index, qnode_iterator) =>
            let qr := qr.ApplyPostponed q_index postponed
            let qr := qr.PostProcess q_index
            PostProcess_leafLoop postponed n qnode_iterator qr
      else
        some qr

/-- The member `PostProcess_` on the node at `addr`. -/
def PostProcess_ : List Bool → Tree → State α → Option (State α)
  | addr, Tree.leaf b e, st =>
      match st.stat addr with
      | none => none
      | some qnode_stat =>
          let qnode_iterator := get_node_iterator ⟨addr, Tree.leaf b e⟩
          match PostProcess_leafLoop qnode_stat.postponed_ qnode_iterator.remaining
              qnode_iterator st.query_results with
          | none => none
          | some qr =>
              some
                { st with
                  stat := Function.update st.stat addr
                    (some { qnode_stat with postponed_ := NbodySimulatorPostponed.SetZero })
                  query_results := qr }
  | addr, Tree.node _ _ l r, st =>
      match st.stat addr, st.stat (false :: addr), st.stat (true :: addr) with
      | some qnode_stat, some qnode_left_stat, some qnode_right_stat =>
          let stat := Function.update st.stat (false :: addr)
            (some { qnode_left_stat with
                    postponed_ := qnode_left_stat.postponed_.ApplyPostponed qnode_stat.postponed_ })
          let stat := Function.update stat (true :: addr)
            (some { qnode_right_stat with
                    postponed_ :=
                      qnode_right_stat.postponed_.ApplyPostponed qnode_stat.postponed_ })
          let stat := Function.update stat addr
            (some { qnode_stat with postponed_ := NbodySimulatorPostponed.SetZero })
          match PostProcess_ (false :: addr) l { st with stat := stat } with
          | none => none
          | some st => PostProcess_ (true :: addr) r st
      | _, _, _ => none

/-- Fuel that suffices for `TripletreeCanonical_` on three copies of the root:
every round of `RecursionHelper_` takes five units and lowers the sum of the
heights of the three slot nodes. -/
def computeFuel (t : Tree) : Nat := 5 * (3 * t.height + 1)

/-- The member `Compute`. -/
def Compute (global : NbodySimulatorGlobal α) (t : Tree) (st : State α) : Option (State α) :=
  let st : State α := { st with query_results := NbodySimulatorResult.Init (t.end_ - t.begin_) }
  let root := TreeType.root t
  let triple_range_distance_sq := TripleRangeDistanceSq.Init root root root
  match PreProcess_ [] t st with
  | none => none
  | some st =>
      match TripletreeCanonical_ global (computeFuel t) triple_range_distance_sq
          global.relative_error_ (1 - global.probability_) st with
      | none => none
      | some (_, _, st) => PostProcess_ [] t st

end Engine

/-! ## Specification-side definitions -/

/-- The child of a tree chosen by `c` (`false` for left), if there is one. -/
def Tree.child : Bool → Tree → Option Tree
  | false, Tree.node _ _ l _ => some l
  | true, Tree.node _ _ _ r => some r
  | _, Tree.leaf _ _ => none

/-- The subtree of `t` stored at an address (last choice first). -/
def Tree.subtree (t : Tree) : List Bool → Option Tree
  | [] => some t
  | c :: a => (t.subtree a).bind (Tree.child c)

/-- A node pointer is valid for the tree `t` when the subtree it carries is
the one stored in `t` at its address. -/
def TreeType.Valid (t : Tree) (n : TreeType) : Prop := t.subtree n.addr = some n.tree

instance TreeType.decValid (t : Tree) (n : TreeType) : Decidable (n.Valid t) := by
  unfold TreeType.Valid; exact inferInstance

/-- The agreement rule as a proposition. -/
def Agree (a b : TreeType) : Prop := a.addr = b.addr ∨ a.end_ ≤ b.begin_

instance decAgree (a b : TreeType) : Decidable (Agree a b) := by
  unfold Agree; exact inferInstance

/-- The relation between the node `m` already chosen for a slot in the current
round of `RecursionHelper_` and the node `n` still to be refined in the next
slot: `m` lies before `n`, or both are the same leaf, or `m` is a child of the
internal node `n`. -/
def Junction (m n : TreeType) : Prop :=
  m.end_ ≤ n.begin_ ∨ (m.addr = n.addr ∧ n.is_leaf = true) ∨
    (n.is_leaf = false ∧ (m = n.left ∨ m = n.right))

instance decJunction (m n : TreeType) : Decidable (Junction m n) := by
  unfold Junction; exact inferInstance

/-- The relation between the nodes of slots `i` and `i + 1` while
`RecursionHelper_` is at `level`. -/
def PairInv (level i : Nat) (a b : TreeType) : Prop :=
  if i + 1 = level then Junction a b else Agree a b

instance decPairInv (level i : Nat) (a b : TreeType) : Decidable (PairInv level i a b) := by
  unfold PairInv; exact inferInstance

/-- The invariant of the triple-range at the entry of `RecursionHelper_` at
`level` (and, for `level = 0`, at the entry of `TripletreeCanonical_`): the
three pointers are valid, neighbouring slots are related by `PairInv`, and the
flag `all_leaves` is true only if the slots already passed hold leaves. -/
def SlotInv (t : Tree) (level : Nat) (all_leaves : Bool) (r : TripleRangeDistanceSq) : Prop :=
  r.node0.Valid t ∧ r.node1.Valid t ∧ r.node2.Valid t ∧
    PairInv level 0 r.node0 r.node1 ∧ PairInv level 1 r.node1 r.node2 ∧
    (all_leaves = true → ∀ i, i < level → (r.node i).is_leaf = true)

instance decSlotInv (t : Tree) (level : Nat) (all_leaves : Bool) (r : TripleRangeDistanceSq) :
    Decidable (SlotInv t level all_leaves r) := by
  unfold SlotInv; exact inferInstance

/-- Sum of the heights of the three slot nodes. -/
def heightSum (r : TripleRangeDistanceSq) : Nat :=
  r.node0.tree.height + r.node1.tree.height + r.node2.tree.height

/-- Fuel that suffices for `RecursionHelper_` at `level`. -/
def helperFuel (level : Nat) (all_leaves : Bool) (r : TripleRangeDistanceSq) : Nat :=
  (4 - level) + 5 * (heightSum r + if all_leaves then 0 else 1)

/-- The point indices of a node, in increasing order. -/
def pointsOf (n : TreeType) : List Nat := List.range' n.begin_ (n.end_ - n.begin_)

/-- The index triples `p0 < p1 < p2` with `p_s` in the node of slot `s`, as a
multiset. -/
def tripleSet (r : TripleRangeDistanceSq) : Multiset TripleDistanceSq :=
  (pointsOf r.node0 : Multiset Nat).bind fun i =>
    (pointsOf r.node1 : Multiset Nat).bind fun j =>
      (pointsOf r.node2 : Multiset Nat).bind fun k =>
        if i < j ∧ j < k then {(⟨i, j, k⟩ : TripleDistanceSq)} else 0

/-- The index triples on which the exact contribution was evaluated, in the
order of evaluation. -/
def exactEvents (log : List Event) : List TripleDistanceSq :=
  log.filterMap fun e =>
    match e with
    | Event.exact d => some d
    | _ => none

/-- The points an iterator still has to yield. -/
def TreeIterator.toList (it : TreeIterator) : List Nat := List.range' it.current it.remaining

/-- The index triples visited by the triple loop of `TripletreeBase_`, in the
order of the loop: the cursor of an inner loop continues after the point of
the outer slot when both slots hold the same node, and restarts otherwise. -/
def baseTriples (r : TripleRangeDistanceSq) : List TripleDistanceSq :=
  (get_node_iterator (r.node 0)).toList.flatMap fun i =>
    (GetNextNodeIterator_ r 0 ⟨i + 1, (r.node 0).end_⟩).toList.flatMap fun j =>
      (GetNextNodeIterator_ r 1
          ⟨j + 1, (GetNextNodeIterator_ r 0 ⟨i + 1, (r.node 0).end_⟩).end_⟩).toList.map fun k =>
        (⟨i, j, k⟩ : TripleDistanceSq)

section SpecFunctions

variable {α : Type} [Zero α] [One α] [Add α] [Sub α] [Neg α] [Mul α] [Div α] [OfNat α 2]
  [LT α] [LE α] [Min α] [Max α] [∀ a b : α, Decidable (a < b)] [∀ a b : α, Decidable (a ≤ b)]

/-- The postponed that `ApplyContribution` writes into every element of the
vector for the triple `d`. -/
def contribution (global : NbodySimulatorGlobal α) (d : TripleDistanceSq) :
    NbodySimulatorPostponed α :=
  if global.ext.EvalUnnormOnSq d < 0 then
    { negative_potential_ := Range.Init (global.ext.EvalUnnormOnSq d) (global.ext.EvalUnnormOnSq d)
      positive_potential_ := Range.Init 0 0
      pruned_ := 0
      used_error_ := 0 }
  else
    { negative_potential_ := Range.Init 0 0
      positive_potential_ := Range.Init (global.ext.EvalUnnormOnSq d) (global.ext.EvalUnnormOnSq d)
      pruned_ := 0
      used_error_ := 0 }

/-- The effect of one pass of the innermost loop of `TripletreeBase_` on the
result buffer: the contribution of the triple is applied to its three points. -/
def applyExact (global : NbodySimulatorGlobal α) (qr : NbodySimulatorResult α)
    (d : TripleDistanceSq) : NbodySimulatorResult α :=
  ((qr.ApplyPostponed d.p0 (contribution global d)).ApplyPostponed d.p1
    (contribution global d)).ApplyPostponed d.p2 (contribution global d)

end SpecFunctions

section SpecFunctions2

variable {α : Type} [Zero α] [One α] [Add α] [Sub α] [Neg α] [Mul α] [Div α] [OfNat α 2]
  [LT α] [LE α] [Min α] [Max α] [∀ a b : α, Decidable (a < b)] [∀ a b : α, Decidable (a ≤ b)]

/-- The flush loop of the base case as a fold over the points of a node: the
postponed is applied to each point and the summary is refined with the
updated result. -/
def flushFold (postponed : NbodySimulatorPostponed α) (pts : List Nat)
    (summary : NbodySimulatorSummary α) (qr : NbodySimulatorResult α) :
    NbodySimulatorSummary α × NbodySimulatorResult α :=
  pts.foldl
    (fun (acc : NbodySimulatorSummary α × NbodySimulatorResult α) q =>
      ((acc.1).Accumulate (acc.2.ApplyPostponed q postponed) q,
        acc.2.ApplyPostponed q postponed))
    (summary, qr)

/-- The postponed of the node at an address (zero for a node without a
statistic). -/
def postponedAt (stat : List Bool → Option (NbodySimulatorStatistic α)) (a : List Bool) :
    NbodySimulatorPostponed α :=
  match stat a with
  | some s => s.postponed_
  | none => NbodySimulatorPostponed.SetZero

/-- Every node of the tree rooted at `addr` owns a statistic. -/
def StatsPresent (stat : List Bool → Option (NbodySimulatorStatistic α)) (addr : List Bool)
    (t : Tree) : Prop :=
  ∀ a s, t.subtree a = some s → (stat (a ++ addr)).isSome = true

/-- The four accumulated fields of the result of point `p`, packaged as a
postponed. -/
def NbodySimulatorResult.entry (qr : NbodySimulatorResult α) (p : Nat) :
    NbodySimulatorPostponed α :=
  { negative_potential_ := qr.negative_potential_ p
    positive_potential_ := qr.positive_potential_ p
    pruned_ := qr.pruned_ p
    used_error_ := qr.used_error_ p }

end SpecFunctions2

/-- The addresses of the nodes on the path from the node at `addr` down to the
leaf whose range contains `p`, each once. -/
def pathNodes : List Bool → Tree → Nat → List (List Bool)
  | addr, Tree.leaf _ _, _ => [addr]
  | addr, Tree.node _ _ l r, p =>
      addr :: (if p < l.end_ then pathNodes (false :: addr) l p
        else pathNodes (true :: addr) r p)

/-- The postponed values of all nodes on the path from the node at `addr` down
to the leaf containing `p`, combined with `ApplyPostponed`, each once. -/
def pathPostponed {α : Type} [Zero α] [Add α]
    (stat : List Bool → Option (NbodySimulatorStatistic α)) (addr : List Bool) (t : Tree)
    (p : Nat) : NbodySimulatorPostponed α :=
  ((pathNodes addr t p).map (postponedAt stat)).foldr NbodySimulatorPostponed.ApplyPostponed
    NbodySimulatorPostponed.SetZero

section SpecFunctions3

variable {α : Type} [Zero α] [One α] [Add α] [Sub α] [Neg α] [Mul α] [Div α] [OfNat α 2]
  [LT α] [LE α] [Min α] [Max α] [∀ a b : α, Decidable (a < b)] [∀ a b : α, Decidable (a ≤ b)]

/-- The body of the flush loop of `TripletreeBase_` for one slot, with the
loop over the points written as `flushFold`; a node without a statistic is
left alone. -/
def flushNodeSpec (global : NbodySimulatorGlobal α) (r : TripleRangeDistanceSq)
    (node_index : Nat) (st : State α) : State α :=
  if node_index = 0 ∨ ! (r.node node_index).ptr_eq (r.node (node_index - 1)) then
    match st.stat (r.node node_index).addr with
    | none => st
    | some node_stat =>
        let out := flushFold
          { node_stat.postponed_ with
            pruned_ := node_stat.postponed_.pruned_ + global.ext.num_tuples r node_index }
          (pointsOf (r.node node_index)) (NbodySimulatorSummary.StartReaccumulate global)
          st.query_results
        { st with
          stat := Function.update st.stat (r.node node_index).addr
            (some { postponed_ := NbodySimulatorPostponed.SetZero, summary_ := out.1 })
          query_results := out.2 }
  else
    st

/-- The state after the triple loop of `TripletreeBase_`. -/
def baseLoopSpec (global : NbodySimulatorGlobal α) (r : TripleRangeDistanceSq) (st : State α) :
    State α :=
  { stat := st.stat
    query_results := (baseTriples r).foldl (applyExact global) st.query_results
    log := st.log ++ Event.base r :: (baseTriples r).map Event.exact }

/-- The state after `TripletreeBase_`. -/
def baseSpec (global : NbodySimulatorGlobal α) (r : TripleRangeDistanceSq) (st : State α) :
    State α :=
  flushNodeSpec global r 2 (flushNodeSpec global r 1 (flushNodeSpec global r 0
    (baseLoopSpec global r st)))

/-- The negative part of a value. -/
def negPart (v : α) : α := if v < 0 then v else 0

/-- The positive part of a value. -/
def posPart (v : α) : α := if v < 0 then 0 else v

end SpecFunctions3

/-- The point `p` is one of the three points of the triple `d`. -/
def TripleDistanceSq.has (d : TripleDistanceSq) (p : Nat) : Prop :=
  p = d.p0 ∨ p = d.p1 ∨ p = d.p2

instance TripleDistanceSq.decHas (d : TripleDistanceSq) (p : Nat) : Decidable (d.has p) := by
  unfold TripleDistanceSq.has; exact inferInstance

/-- Reference enumeration of all index triples `i < j < k` of `[0, N)`. -/
def bruteForceTriples (N : Nat) : List TripleDistanceSq :=
  (List.range N).flatMap fun i =>
    (List.range N).flatMap fun j =>
      ((List.range N).filter fun k => decide (i < j ∧ j < k)).map fun k =>
        (⟨i, j, k⟩ : TripleDistanceSq)

section BruteForce

variable {α : Type} [Zero α] [Add α] [LT α] [LE α] [∀ a b : α, Decidable (a < b)]
  [∀ a b : α, Decidable (a ≤ b)]

/-- Reference value: the sum of the negative exact contributions of the
triples containing `p`. -/
def bruteForceNegative (global : NbodySimulatorGlobal α) (N p : Nat) : α :=
  (((bruteForceTriples N).filter fun d =>
    decide (d.has p ∧ global.ext.EvalUnnormOnSq d < 0)).map global.ext.EvalUnnormOnSq).sum

/-- Reference value: the sum of the non-negative exact contributions of the
triples containing `p`. -/
def bruteForcePositive (global : NbodySimulatorGlobal α) (N p : Nat) : α :=
  (((bruteForceTriples N).filter fun d =>
    decide (d.has p ∧ 0 ≤ global.ext.EvalUnnormOnSq d)).map global.ext.EvalUnnormOnSq).sum

end BruteForce

section BruteForceSums

variable {α : Type} [LinearOrderedField α]

/-- The sum over a multiset of triples of the negative parts of the exact
contributions of the triples containing `p`. -/
def negSum (global : NbodySimulatorGlobal α) (acc : Multiset TripleDistanceSq) (p : Nat) : α :=
  (acc.map fun d => if d.has p then negPart (global.ext.EvalUnnormOnSq d) else 0).sum

/-- The sum over a multiset of triples of the positive parts of the exact
contributions of the triples containing `p`. -/
def posSum (global : NbodySimulatorGlobal α) (acc : Multiset TripleDistanceSq) (p : Nat) : α :=
  (acc.map fun d => if d.has p then posPart (global.ext.EvalUnnormOnSq d) else 0).sum

end BruteForceSums

/-- The invariant of the state during the traversal of `Compute` on the tree
`t`, after the triples of `acc` were evaluated: every node of the tree owns a
statistic whose postponed is zero, the log holds the triples `acc0` it held
before together with `acc`, and the negative and positive potential of every
point are the degenerate intervals at the sums over `acc`. -/
def RunInv {α : Type} [LinearOrderedField α] (global : NbodySimulatorGlobal α) (t : Tree)
    (acc0 acc : Multiset TripleDistanceSq) (st : State α) : Prop :=
  (∀ n : TreeType, n.Valid t →
      ∃ s, st.stat n.addr = some s ∧ s.postponed_ = NbodySimulatorPostponed.SetZero) ∧
    (exactEvents st.log : Multiset TripleDistanceSq) = acc0 + acc ∧
    ∀ p, st.query_results.negative_potential_ p =
          Range.Init (negSum global acc p) (negSum global acc p) ∧
        st.query_results.positive_potential_ p =
          Range.Init (posSum global acc p) (posSum global acc p)

/-! ## Concrete inputs -/

/-- A tree over four points with two leaves of two points each. -/
def exampleTree : Tree := Tree.node 0 4 (Tree.leaf 0 2) (Tree.leaf 2 4)

/-- A tree that is a single leaf of three points. -/
def exampleLeaf : Tree := Tree.leaf 0 3

/-- A configuration over the rationals whose exact contribution takes both
signs. -/
def exampleGlobal : NbodySimulatorGlobal ℚ :=
  { relative_error_ := 1 / 10
    probability_ := 9 / 10
    total_num_tuples_ := 3
    ext :=
      { EvalUnnormOnSq := fun d => (d.p0 : ℚ) + d.p1 - d.p2
        RangeUnnormOnSq := fun _ => ⟨-1, 2⟩
        num_tuples := fun _ _ => 1
        dbl_max := 1000000 } }

/-- A configuration over the rationals whose exact contribution is the
constant `5`. -/
def exampleConstGlobal : NbodySimulatorGlobal ℚ :=
  { exampleGlobal with
    ext := { exampleGlobal.ext with EvalUnnormOnSq := fun _ => 5 } }

/-- A state in which no node owns a statistic, with a zero result buffer and
an empty log. -/
def exampleState : State ℚ :=
  { stat := fun _ => none
    query_results := NbodySimulatorResult.SetZero
    log := [] }

/-- The triple-range holding the root of `exampleLeaf` in all three slots. -/
def exampleLeafTriple : TripleRangeDistanceSq :=
  TripleRangeDistanceSq.Init (TreeType.root exampleLeaf) (TreeType.root exampleLeaf)
    (TreeType.root exampleLeaf)

/-- The left leaf of `exampleTree` as a node pointer. -/
def exampleLeft : TreeType := (TreeType.root exampleTree).left

/-- The right leaf of `exampleTree` as a node pointer. -/
def exampleRight : TreeType := (TreeType.root exampleTree).right

/-- The triple-range holding the root of `exampleTree` in all three slots. -/
def exampleRootTriple : TripleRangeDistanceSq :=
  TripleRangeDistanceSq.Init (TreeType.root exampleTree) (TreeType.root exampleTree)
    (TreeType.root exampleTree)

/-- The triple-range holding the left leaf of `exampleTree` in all three
slots. -/
def exampleLeftTriple : TripleRangeDistanceSq :=
  TripleRangeDistanceSq.Init exampleLeft exampleLeft exampleLeft

/-- The point `p` of a result buffer is finalised: `potential_e_` is the sum
of the midpoints of its two potential ranges. -/
def NbodySimulatorResult.Settled {α : Type} [LinearOrderedField α]
    (qr : NbodySimulatorResult α) (p : Nat) : Prop :=
  qr.potential_e_ p = (qr.negative_potential_ p).mid + (qr.positive_potential_ p).mid

/-- The point `p` lies in the range of some leaf of the tree. -/
def Tree.HasLeafPoint (t : Tree) (p : Nat) : Prop :=
  ∃ a b e, t.subtree a = some (Tree.leaf b e) ∧ b ≤ p ∧ p < e

/-- The value `v` is the least of the values `f p` over the points `p` of the
list. -/
def IsMinOver {α : Type} [LinearOrderedField α] (v : α) (f : Nat → α) (pts : List Nat) : Prop :=
  (∀ p ∈ pts, v ≤ f p) ∧ ∃ p ∈ pts, v = f p

/-- The value `v` is the greatest of the values `f p` over the points `p` of
the list. -/
def IsMaxOver {α : Type} [LinearOrderedField α] (v : α) (f : Nat → α) (pts : List Nat) : Prop :=
  (∀ p ∈ pts, f p ≤ v) ∧ ∃ p ∈ pts, v = f p

/-- The summary obtained by `StartReaccumulate` followed by one `Accumulate`
of the result of each point of the list. -/
def summaryOver {α : Type} [LinearOrderedField α] (global : NbodySimulatorGlobal α)
    (qr : NbodySimulatorResult α) (pts : List Nat) : NbodySimulatorSummary α :=
  pts.foldl (fun s q => s.Accumulate qr q) (NbodySimulatorSummary.StartReaccumulate global)

/-- The first slot of the triple-range that holds the node of slot `i`. -/
def firstSlot (r : TripleRangeDistanceSq) (i : Nat) : Nat :=
  if (r.node 0).ptr_eq (r.node i) then 0 else if (r.node 1).ptr_eq (r.node i) then 1 else i

/-- The slots whose pass of the flush loop of `TripletreeBase_` runs its body
(`node_index == 0 || node(node_index) != node(node_index - 1)`) on the node of
slot `i`. -/
def flushedAt (r : TripleRangeDistanceSq) (i : Nat) : List Nat :=
  (List.range 3).filter fun j =>
    (decide (j = 0) || ! (r.node j).ptr_eq (r.node (j - 1))) && (r.node j).ptr_eq (r.node i)

/-- The node `n` owns a statistic whose summary is the one accumulated, after
`StartReaccumulate`, over the results of the points beneath `n` as they stand
in the state. -/
def SummaryRefined {α : Type} [LinearOrderedField α] (global : NbodySimulatorGlobal α)
    (st : State α) (n : TreeType) : Prop :=
  ∃ s, st.stat n.addr = some s ∧
    s.summary_ = summaryOver global st.query_results (pointsOf n)

/-- The postponed that the flush loop of `TripletreeBase_` applies to the
points of a node in the pass of slot `j`: the postponed `pp` of the node with
`pruned_` increased by `num_tuples(j)`. -/
def flushedPostponed {α : Type} [LinearOrderedField α] (global : NbodySimulatorGlobal α)
    (r : TripleRangeDistanceSq) (j : Nat) (pp : NbodySimulatorPostponed α) :
    NbodySimulatorPostponed α :=
  { pp with pruned_ := pp.pruned_ + global.ext.num_tuples r j }

/-- The accumulated fields of the result of point `p` lie within the range of
a `double`: between `-max()` and `max()`, where `max()` is
`std::numeric_limits<double>::max()`. -/
def Representable {α : Type} [LinearOrderedField α] (global : NbodySimulatorGlobal α)
    (qr : NbodySimulatorResult α) (p : Nat) : Prop :=
  (qr.negative_potential_ p).lo ≤ global.ext.dbl_max ∧
    - global.ext.dbl_max ≤ (qr.negative_potential_ p).hi ∧
    (qr.positive_potential_ p).lo ≤ global.ext.dbl_max ∧
    - global.ext.dbl_max ≤ (qr.positive_potential_ p).hi ∧
    qr.pruned_ p ≤ global.ext.dbl_max

/-- The triple-range holding the left leaf of `exampleTree` in slots 0 and 1
and the right leaf in slot 2. -/
def exampleMixedTriple : TripleRangeDistanceSq :=
  TripleRangeDistanceSq.Init exampleLeft exampleLeft exampleRight

instance decRepresentable {α : Type} [LinearOrderedField α] (global : NbodySimulatorGlobal α)
    (qr : NbodySimulatorResult α) (p : Nat) : Decidable (Representable global qr p) := by
  unfold Representable; exact inferInstance

/-- The interval `a` contains the interval `b`. -/
def Range.contains {α : Type} [LinearOrderedField α] (a b : Range α) : Prop :=
  a.lo ≤ b.lo ∧ b.hi ≤ a.hi

instance Range.decContains {α : Type} [LinearOrderedField α] (a b : Range α) :
    Decidable (a.contains b) := by
  unfold Range.contains; exact inferInstance

/-- Summary soundness of the node `n` in a state: the node owns a statistic
and each of its two summary intervals, after the postponed of the node was
added, contains the corresponding result interval of every point beneath the
node. -/
def SummarySound {α : Type} [LinearOrderedField α] (st : State α) (n : TreeType) : Prop :=
  ∃ s, st.stat n.addr = some s ∧
    ∀ p ∈ pointsOf n,
      (s.summary_.negative_potential_.add s.postponed_.negative_potential_).contains
          (st.query_results.negative_potential_ p) ∧
        (s.summary_.positive_potential_.add s.postponed_.positive_potential_).contains
          (st.query_results.positive_potential_ p)

instance decSummarySound {α : Type} [LinearOrderedField α] (st : State α) (n : TreeType) :
    Decidable (SummarySound st n) := by
  unfold SummarySound
  cases h : st.stat n.addr with
  | none => exact isFalse (by simp)
  | some s =>
    exact decidable_of_iff
      (∀ p ∈ pointsOf n,
        (s.summary_.negative_potential_.add s.postponed_.negative_potential_).contains
            (st.query_results.negative_potential_ p) ∧
          (s.summary_.positive_potential_.add s.postponed_.positive_potential_).contains
            (st.query_results.positive_potential_ p))
      ⟨fun hp => ⟨s, rfl, hp⟩, fun ⟨s', hs', hp⟩ => by cases hs'; exact hp⟩

/-- The state in which `Compute` on `exampleTree`, called right after `Init`,
enters the traversal: the result buffer is initialised and `PreProcess_` has
run. -/
def exampleTraversalStart : Option (State ℚ) :=
  PreProcess_ [] exampleTree
    { Init exampleTree exampleState with
      query_results := NbodySimulatorResult.Init (exampleTree.end_ - exampleTree.begin_) }

/-- Summary soundness of the leaves of the tree `t` in a state: every node of
the tree owns a statistic, and `SummarySound` holds for every leaf. -/
def LeafSummariesSound {α : Type} [LinearOrderedField α] (t : Tree) (st : State α) : Prop :=
  StatsPresent st.stat [] t ∧
    ∀ n : TreeType, n.Valid t → n.is_leaf = true → SummarySound st n

/-- The triple-range `r` refines `r0`: the node of every slot of `r` is the
node of that slot of `r0` or lies below it, and the sum of the heights of the
slot nodes of `r` is smaller than that of `r0`. -/
def StrictlyRefines (r0 r : TripleRangeDistanceSq) : Prop :=
  (∀ i, (r0.node i).addr <:+ (r.node i).addr) ∧ heightSum r < heightSum r0

/-! ## Tuple totals of the global configurations -/

/-- Modelled from the spec: `core::math::BinomialCoefficient<double>(n, k)` and
`math::BinomialCoefficient(n, k)`, the number of `k`-element subsets of a set
of `n` elements as a double; it is zero unless `0 ≤ k ≤ n`. -/
def BinomialCoefficient {α : Type} [LinearOrderedField α] (n k : Int) : α :=
  if 0 ≤ k ∧ k ≤ n then ((Nat.choose n.toNat k.toNat : Nat) : α) else 0

/-- The member `NbodySimulatorGlobal::Init(table_in, relative_error_in,
probability_in)`; of the table only `n_entries()` is read, and the potential
object reached through the configuration is passed as `ext`. -/
def NbodySimulatorGlobal.Init {α : Type} [LinearOrderedField α] (ext : Collaborators α)
    (n_entries : Int) (relative_error_in probability_in : α) : NbodySimulatorGlobal α :=
  { relative_error_ := relative_error_in
    probability_ := probability_in
    total_num_tuples_ := BinomialCoefficient (n_entries - 1) 2
    ext := ext }

/-! ## Problem types of `multibody_force_problem.h` -/

namespace AxilrodTellerForceProblem

/-- The constant `order`: the interaction is a 3-tuple problem. -/
def order : Int := 3

/-- The constant `relative_error_`. -/
def relative_error_ {α : Type} [LinearOrderedField α] : α := 1 / 10

/-- The class `MultiTreeDelta`.  `Init` hard-codes three components for every
vector and three columns of three components for every matrix; a matrix maps
the column index to the column. -/
structure MultiTreeDelta (α : Type) where
  negative_force_vector_e : Fin 3 → Fin 3 → α
  l1_norm_negative_force_vector_u : Fin 3 → α
  l1_norm_positive_force_vector_l : Fin 3 → α
  positive_force_vector_e : Fin 3 → Fin 3 → α
  n_pruned : Fin 3 → α
  used_error : Fin 3 → α
  probabilistic_used_error : Fin 3 → α
deriving DecidableEq

/-- The class `MultiTreeQueryPostponed`; the force vectors have three
components. -/
structure MultiTreeQueryPostponed (α : Type) where
  negative_force_vector_e : Fin 3 → α
  l1_norm_negative_force_vector_u : α
  l1_norm_positive_force_vector_l : α
  positive_force_vector_e : Fin 3 → α
  n_pruned : α
  used_error : α
  probabilistic_used_error : α
deriving DecidableEq

/-- The class `MultiTreeQuerySummary`. -/
structure MultiTreeQuerySummary (α : Type) where
  l1_norm_negative_force_vector_u : α
  l1_norm_positive_force_vector_l : α
  n_pruned_l : α
  used_error_u : α
  probabilistic_used_error_u : α
deriving DecidableEq

/-- The class `MultiTreeQueryStat`. -/
structure MultiTreeQueryStat (α : Type) where
  postponed : MultiTreeQueryPostponed α
  summary : MultiTreeQuerySummary α
deriving DecidableEq

/-- The class `MultiTreeQueryResult`; a vector maps the query index to the
entry and a matrix maps it to the column.  The two counters are C++ `int`s
that only ever grow by one; they are unbounded integers here (signed overflow
is undefined behaviour). -/
structure MultiTreeQueryResult (α : Type) where
  l1_norm_positive_force_vector_l : Nat → α
  positive_force_vector_e : Nat → Fin 3 → α
  negative_force_vector_e : Nat → Fin 3 → α
  l1_norm_negative_force_vector_u : Nat → α
  final_results : Nat → Fin 3 → α
  n_pruned : Nat → α
  used_error : Nat → α
  probabilistic_used_error : Nat → α
  num_finite_difference_prunes : Int
  num_monte_carlo_prunes : Int

/-- Modelled from the spec: the collaborators of the force module that are
not in the sources.  `ComputeFiniteDifference` is the member of
`AxilrodTellerForceKernelAux` of that name: from the node pointers, the
per-slot tuple totals and the delta handed in it computes the delta fields it
is given by reference and the flag it returns (false when a distance
evaluation gave a zero minimum distance); it reads the nodes and the
configuration and writes nothing else.  `sqrt` is the function of `<cmath>`. -/
structure KernelAux (ι α : Type) where
  ComputeFiniteDifference : (Fin 3 → ι) → (Fin 3 → α) → MultiTreeDelta α → Bool × MultiTreeDelta α
  sqrt : α → α

/-- The class `MultiTreeGlobal`: the kernel object and the stored tuple
total. -/
structure MultiTreeGlobal (ι α : Type) where
  kernel_aux : KernelAux ι α
  total_n_minus_one_tuples : α

/-- The member `MultiTreeGlobal::Init(total_num_particles, dimension_in,
reference_targets, module_in)`; the kernel object is passed as
`kernel_aux`. -/
def MultiTreeGlobal.Init {ι α : Type} [LinearOrderedField α] (kernel_aux : KernelAux ι α)
    (total_num_particles : Int) : MultiTreeGlobal ι α :=
  { kernel_aux := kernel_aux
    total_n_minus_one_tuples := BinomialCoefficient (total_num_particles - 1) (order - 1) }

/-- The state `ConsiderTupleExact` works on: the statistic owned by each
hybrid node (`stat()`) and the result object. -/
structure ForceState (ι α : Type) where
  stat : ι → MultiTreeQueryStat α
  results : MultiTreeQueryResult α

section ForceOperations

variable {ι α : Type} [DecidableEq ι] [LinearOrderedField α]

/-- Modelled from the spec: `math::Sqr`. -/
def Sqr (x : α) : α := x * x

/-- The member `MultiTreeDelta::SetZero`; `n_pruned` is not cleared. -/
def MultiTreeDelta.SetZero (self : MultiTreeDelta α) : MultiTreeDelta α :=
  { self with
    negative_force_vector_e := fun _ _ => 0
    l1_norm_negative_force_vector_u := fun _ => 0
    l1_norm_positive_force_vector_l := fun _ => 0
    positive_force_vector_e := fun _ _ => 0
    used_error := fun _ => 0
    probabilistic_used_error := fun _ => 0 }

/-- The member `MultiTreeDelta::Init(total_n_minus_one_tuples)`: the vectors
are allocated (`self` is their content before), the tuple totals are copied
into `n_pruned`, then `SetZero`. -/
def MultiTreeDelta.Init (self : MultiTreeDelta α) (total_n_minus_one_tuples : Fin 3 → α) :
    MultiTreeDelta α :=
  MultiTreeDelta.SetZero { self with n_pruned := total_n_minus_one_tuples }

/-- A delta before `Init`; `Init` overwrites every field of it. -/
def MultiTreeDelta.fresh : MultiTreeDelta α :=
  { negative_force_vector_e := fun _ _ => 0
    l1_norm_negative_force_vector_u := fun _ => 0
    l1_norm_positive_force_vector_l := fun _ => 0
    positive_force_vector_e := fun _ _ => 0
    n_pruned := fun _ => 0
    used_error := fun _ => 0
    probabilistic_used_error := fun _ => 0 }

/-- The member `MultiTreeDelta::ComputeFiniteDifference(globals, nodes,
total_n_minus_one_tuples)`: the kernel object fills the six fields passed to
it (`probabilistic_used_error` is not among them) and its flag is returned. -/
def MultiTreeDelta.ComputeFiniteDifference (self : MultiTreeDelta α)
    (globals : MultiTreeGlobal ι α) (nodes : Fin 3 → ι)
    (total_n_minus_one_tuples : Fin 3 → α) : Bool × MultiTreeDelta α :=
  let out := globals.kernel_aux.ComputeFiniteDifference nodes total_n_minus_one_tuples self
  (out.1, { out.2 with probabilistic_used_error := self.probabilistic_used_error })

/-- The member `MultiTreeQueryPostponed::ApplyDelta(delta_in, node_index)`. -/
def MultiTreeQueryPostponed.ApplyDelta (sqrt : α → α) (self : MultiTreeQueryPostponed α)
    (delta_in : MultiTreeDelta α) (node_index : Fin 3) : MultiTreeQueryPostponed α :=
  { negative_force_vector_e := fun k =>
      self.negative_force_vector_e k + delta_in.negative_force_vector_e node_index k
    l1_norm_negative_force_vector_u :=
      self.l1_norm_negative_force_vector_u + delta_in.l1_norm_negative_force_vector_u node_index
    l1_norm_positive_force_vector_l :=
      self.l1_norm_positive_force_vector_l + delta_in.l1_norm_positive_force_vector_l node_index
    positive_force_vector_e := fun k =>
      self.positive_force_vector_e k + delta_in.positive_force_vector_e node_index k
    n_pruned := self.n_pruned + delta_in.n_pruned node_index
    used_error := self.used_error + delta_in.used_error node_index
    probabilistic_used_error :=
      sqrt (Sqr self.probabilistic_used_error + Sqr (delta_in.probabilistic_used_error node_index)) }

/-- The copy made by `InitCopy` (generated by `OT_DEF_BASIC`). -/
def MultiTreeQuerySummary.InitCopy (other : MultiTreeQuerySummary α) : MultiTreeQuerySummary α :=
  other

/-- The member `MultiTreeQuerySummary::ApplyDelta(delta_in, delta_index)`. -/
def MultiTreeQuerySummary.ApplyDelta (self : MultiTreeQuerySummary α)
    (delta_in : MultiTreeDelta α) (delta_index : Fin 3) : MultiTreeQuerySummary α :=
  { self with
    l1_norm_negative_force_vector_u :=
      self.l1_norm_negative_force_vector_u + delta_in.l1_norm_negative_force_vector_u delta_index
    l1_norm_positive_force_vector_l :=
      self.l1_norm_positive_force_vector_l + delta_in.l1_norm_positive_force_vector_l delta_index }

/-- The member `MultiTreeQuerySummary::ApplyPostponed(postponed_in)`. -/
def MultiTreeQuerySummary.ApplyPostponed (sqrt : α → α) (self : MultiTreeQuerySummary α)
    (postponed_in : MultiTreeQueryPostponed α) : MultiTreeQuerySummary α :=
  { l1_norm_negative_force_vector_u :=
      self.l1_norm_negative_force_vector_u + postponed_in.l1_norm_negative_force_vector_u
    l1_norm_positive_force_vector_l :=
      self.l1_norm_positive_force_vector_l + postponed_in.l1_norm_positive_force_vector_l
    n_pruned_l := self.n_pruned_l + postponed_in.n_pruned
    used_error_u := self.used_error_u + postponed_in.used_error
    probabilistic_used_error_u :=
      sqrt (Sqr self.probabilistic_used_error_u + Sqr postponed_in.probabilistic_used_error) }

/-- The guard of both loops of `ConsiderTupleExact`: slot `i` is the first
slot or holds another node than the slot before it. -/
def ConsiderTupleExact_distinct (hybrid_nodes : Fin 3 → ι) (i : Fin 3) : Bool :=
  decide (i = 0 ∨ hybrid_nodes i ≠ hybrid_nodes (i - 1))

/-- The error test of `ConsiderTupleExact` at slot `i`, without the guard:
`true` when the two nested conditions hold, that is, when the function
returns `false` there. -/
def ConsiderTupleExact_fails (globals : MultiTreeGlobal ι α) (stat : ι → MultiTreeQueryStat α)
    (hybrid_nodes : Fin 3 → ι) (delta : MultiTreeDelta α)
    (total_n_minus_one_tuples_root : α) (total_n_minus_one_tuples : Fin 3 → α) (i : Fin 3) :
    Bool :=
  let new_summary := MultiTreeQuerySummary.InitCopy (stat (hybrid_nodes i)).summary
  let new_summary :=
    new_summary.ApplyPostponed globals.kernel_aux.sqrt (stat (hybrid_nodes i)).postponed
  let new_summary := new_summary.ApplyDelta delta i
  let difference :=
    |new_summary.l1_norm_negative_force_vector_u - new_summary.l1_norm_positive_force_vector_l|
  if (relative_error_ * difference -
        (new_summary.used_error_u + new_summary.probabilistic_used_error_u)) *
      total_n_minus_one_tuples i <
      delta.used_error i * (total_n_minus_one_tuples_root - new_summary.n_pruned_l) then
    decide (((difference + delta.used_error i) - difference) * 15 > difference * relative_error_)
  else
    false

/-- The first loop of `ConsiderTupleExact` over the slots still to visit:
`false` when the function returns `false` inside the loop. -/
def ConsiderTupleExact_testLoop (globals : MultiTreeGlobal ι α) (stat : ι → MultiTreeQueryStat α)
    (hybrid_nodes : Fin 3 → ι) (delta : MultiTreeDelta α)
    (total_n_minus_one_tuples_root : α) (total_n_minus_one_tuples : Fin 3 → α) :
    List (Fin 3) → Bool
  | [] => true
  | i :: rest =>
      if ConsiderTupleExact_distinct hybrid_nodes i &&
          ConsiderTupleExact_fails globals stat hybrid_nodes delta total_n_minus_one_tuples_root
            total_n_minus_one_tuples i then
        false
      else
        ConsiderTupleExact_testLoop globals stat hybrid_nodes delta total_n_minus_one_tuples_root
          total_n_minus_one_tuples rest

/-- The second loop of `ConsiderTupleExact` over the slots still to visit: the
delta is added to the postponed of the node of every slot that passes the
guard. -/
def ConsiderTupleExact_applyLoop (globals : MultiTreeGlobal ι α) (hybrid_nodes : Fin 3 → ι)
    (delta : MultiTreeDelta α) : List (Fin 3) → (ι → MultiTreeQueryStat α) →
      ι → MultiTreeQueryStat α
  | [], stat => stat
  | i :: rest, stat =>
      let stat :=
        if ConsiderTupleExact_distinct hybrid_nodes i then
          Function.update stat (hybrid_nodes i)
            { stat (hybrid_nodes i) with
              postponed :=
                (stat (hybrid_nodes i)).postponed.ApplyDelta globals.kernel_aux.sqrt delta i }
        else
          stat
      ConsiderTupleExact_applyLoop globals hybrid_nodes delta rest stat

/-- The static member `ConsiderTupleExact`; of its arguments, the sets and the
query and reference nodes are not read.  The result is the returned flag and
the state after the call. -/
def ConsiderTupleExact (globals : MultiTreeGlobal ι α) (st : ForceState ι α)
    (hybrid_nodes : Fin 3 → ι) (_total_num_tuples : α) (total_n_minus_one_tuples_root : α)
    (total_n_minus_one_tuples : Fin 3 → α) : Bool × ForceState ι α :=
  let delta := (MultiTreeDelta.fresh : MultiTreeDelta α).Init total_n_minus_one_tuples
  let computed := delta.ComputeFiniteDifference globals hybrid_nodes total_n_minus_one_tuples
  if ! computed.1 then
    (false, st)
  else if ! ConsiderTupleExact_testLoop globals st.stat hybrid_nodes computed.2
      total_n_minus_one_tuples_root total_n_minus_one_tuples [0, 1, 2] then
    (false, st)
  else
    (true,
      { stat := ConsiderTupleExact_applyLoop globals hybrid_nodes computed.2 [0, 1, 2] st.stat
        results :=
          { st.results with
            num_finite_difference_prunes := st.results.num_finite_difference_prunes + 1 } })

end ForceOperations

end AxilrodTellerForceProblem

/-- A kernel object over the rationals for the examples: the evaluation
fails when the three slots hold the same node; otherwise it reports, for
every slot, the negative bound `2`, the positive bound `0` and the error
`total_n_minus_one_tuples[i] - 1`.  Its `sqrt` is only applied to `0`. -/
def exampleKernelAux : AxilrodTellerForceProblem.KernelAux Nat ℚ :=
  { ComputeFiniteDifference := fun nodes total delta =>
      (decide (¬ (nodes 0 = nodes 1 ∧ nodes 1 = nodes 2)),
        { delta with
          l1_norm_negative_force_vector_u := fun _ => 2
          l1_norm_positive_force_vector_l := fun _ => 0
          used_error := fun i => total i - 1 })
    sqrt := fun x => x }

/-- A configuration of the force problem for four particles. -/
def exampleForceGlobal : AxilrodTellerForceProblem.MultiTreeGlobal Nat ℚ :=
  AxilrodTellerForceProblem.MultiTreeGlobal.Init exampleKernelAux 4

/-- A state of the force problem in which every statistic and every result is
zero. -/
def exampleForceState : AxilrodTellerForceProblem.ForceState Nat ℚ :=
  { stat := fun _ =>
      { postponed := ⟨fun _ => 0, 0, 0, fun _ => 0, 0, 0, 0⟩
        summary := ⟨0, 0, 0, 0, 0⟩ }
    results :=
      { l1_norm_positive_force_vector_l := fun _ => 0
        positive_force_vector_e := fun _ _ => 0
        negative_force_vector_e := fun _ _ => 0
        l1_norm_negative_force_vector_u := fun _ => 0
        final_results := fun _ _ => 0
        n_pruned := fun _ => 0
        used_error := fun _ => 0
        probabilistic_used_error := fun _ => 0
        num_finite_difference_prunes := 0
        num_monte_carlo_prunes := 0 } }

/-- Three distinct hybrid nodes. -/
def exampleHybridNodes : Fin 3 → Nat := fun i => i.val + 1

/-! ## The engine with the agreement test as a parameter -/

section AgreeableEngine

variable {α : Type} [Zero α] [One α] [Add α] [Sub α] [Neg α] [Mul α] [Div α] [OfNat α 2]
  [LT α] [LE α] [Min α] [Max α] [∀ a b : α, Decidable (a < b)] [∀ a b : α, Decidable (a ≤ b)]

mutual

/-- The member `RecursionHelper_` with the calls of `NodeIsAgreeable_`
replaced by calls of the parameter `agreeable`; everything else is as in
`RecursionHelperWith` with the prune test `CanSummarize_`.  The first argument
after the configuration is the fuel. -/
def RecursionHelperAgreeable (agreeable : TreeType → TreeType → Bool)
    (global : NbodySimulatorGlobal α) :
    Nat → TripleRangeDistanceSq → α → α → State α → Nat → Bool → Bool →
      Option (HelperResult α)
  | 0, _, _, _, _, _, _, _ => none
  | fuel + 1, triple_range_distance_sq, relative_error, failure_probability, st, level,
      all_leaves, deterministic_approximation =>
      let st := st.record (Event.helper level triple_range_distance_sq all_leaves)
      if level = 3 then
        if all_leaves then
          match TripletreeBase_ global triple_range_distance_sq st with
          | none => none
          | some st => some (triple_range_distance_sq, st, deterministic_approximation)
        else
          match TripletreeCanonicalAgreeable agreeable global fuel triple_range_distance_sq
              relative_error failure_probability st with
          | none => none
          | some (exact_computation, triple_range_distance_sq, st) =>
              some (triple_range_distance_sq, st,
                deterministic_approximation && exact_computation)
      else
        let current_node := triple_range_distance_sq.node level
        if current_node.is_leaf then
          if level = 0 ∨
              agreeable (triple_range_distance_sq.node (level - 1)) current_node then
            RecursionHelperAgreeable agreeable global fuel triple_range_distance_sq
              relative_error failure_probability st (level + 1) all_leaves
              deterministic_approximation
          else
            some (triple_range_distance_sq, st, deterministic_approximation)
        else
          let after_left : Option (Bool × HelperResult α) :=
            if level = 0 ∨
                agreeable (triple_range_distance_sq.node (level - 1)) current_node.left then
              match RecursionHelperAgreeable agreeable global fuel
                  (triple_range_distance_sq.ReplaceOneNode current_node.left level)
                  relative_error failure_probability st (level + 1) false
                  deterministic_approximation with
              | none => none
              | some r => some (true, r)
            else
              some (false, triple_range_distance_sq, st, deterministic_approximation)
          match after_left with
          | none => none
          | some (replaced_left, triple_range_distance_sq, st, deterministic_approximation) =>
              let after_right : Option (Bool × HelperResult α) :=
                if level = 0 ∨
                    agreeable (triple_range_distance_sq.node (level - 1))
                      current_node.right then
                  match RecursionHelperAgreeable agreeable global fuel
                      (triple_range_distance_sq.ReplaceOneNode current_node.right level)
                      relative_error failure_probability st (level + 1) false
                      deterministic_approximation with
                  | none => none
                  | some r => some (true, r)
                else
                  some (replaced_left, triple_range_distance_sq, st,
                    deterministic_approximation)
              match after_right with
              | none => none
              | some (replaced_node_on_current_level, triple_range_distance_sq, st,
                  deterministic_approximation) =>
                  if replaced_node_on_current_level then
                    some (triple_range_distance_sq.ReplaceOneNode current_node level, st,
                      deterministic_approximation)
                  else
                    some (triple_range_distance_sq, st, deterministic_approximation)

/-- The member `TripletreeCanonical_` calling `RecursionHelperAgreeable`. -/
def TripletreeCanonicalAgreeable (agreeable : TreeType → TreeType → Bool)
    (global : NbodySimulatorGlobal α) :
    Nat → TripleRangeDistanceSq → α → α → State α → Option (CanonicalResult α)
  | 0, _, _, _, _ => none
  | fuel + 1, triple_range_distance_sq, relative_error, failure_probability, st =>
      let st := st.record (Event.canonical triple_range_distance_sq)
      let delta :=
        (NbodySimulatorDelta.SetZero : NbodySimulatorDelta α).DeterministicCompute global
          triple_range_distance_sq
      if CanSummarize_ triple_range_distance_sq delta st.query_results then
        some (true, triple_range_distance_sq, st)
      else
        match RecursionHelperAgreeable agreeable global fuel triple_range_distance_sq
            relative_error failure_probability st 0 true true with
        | none => none
        | some (triple_range_distance_sq, st, deterministic_approximation) =>
            some (deterministic_approximation, triple_range_distance_sq, st)

end

/-- The member `Compute` calling `TripletreeCanonicalAgreeable`. -/
def ComputeAgreeable (agreeable : TreeType → TreeType → Bool) (global : NbodySimulatorGlobal α)
    (t : Tree) (st : State α) : Option (State α) :=
  let st : State α := { st with query_results := NbodySimulatorResult.Init (t.end_ - t.begin_) }
  let root := TreeType.root t
  let triple_range_distance_sq := TripleRangeDistanceSq.Init root root root
  match PreProcess_ [] t st with
  | none => none
  | some st =>
      match TripletreeCanonicalAgreeable agreeable global (computeFuel t)
          triple_range_distance_sq global.relative_error_ (1 - global.probability_) st with
      | none => none
      | some (_, _, st) => PostProcess_ [] t st

end AgreeableEngine

/-- The leaves of a tree stored at `addr`, from left to right, as node
pointers. -/
def Tree.leavesAt : List Bool → Tree → List TreeType
  | addr, Tree.leaf b e => [⟨addr, Tree.leaf b e⟩]
  | addr, Tree.node _ _ l r => Tree.leavesAt (false :: addr) l ++ Tree.leavesAt (true :: addr) r

/-- The leaves below a node (the node itself when it is a leaf), from left to
right. -/
def leavesOf (n : TreeType) : List TreeType := Tree.leavesAt n.addr n.tree

/-- The index triples visited by the triple loop of `TripletreeBase_` on every
ordered triple of leaves, one below each slot node, as a multiset. -/
def allLeafTriples (r : TripleRangeDistanceSq) : Multiset TripleDistanceSq :=
  (leavesOf r.node0 : Multiset TreeType).bind fun x =>
    (leavesOf r.node1 : Multiset TreeType).bind fun y =>
      (leavesOf r.node2 : Multiset TreeType).bind fun z =>
        (baseTriples (TripleRangeDistanceSq.Init x y z) : Multiset TripleDistanceSq)

/-- The number of slots of the triple `d` that hold the point `p`. -/
def TripleDistanceSq.occurrences (d : TripleDistanceSq) (p : Nat) : Nat :=
  (if p = d.p0 then 1 else 0) + (if p = d.p1 then 1 else 0) + (if p = d.p2 then 1 else 0)

/-- The sum over a multiset of triples of the negative parts of the exact
contributions, each counted once for every slot that holds `p`. -/
def negSumAll {α : Type} [LinearOrderedField α] (global : NbodySimulatorGlobal α)
    (acc : Multiset TripleDistanceSq) (p : Nat) : α :=
  (acc.map fun d => (d.occurrences p : α) * negPart (global.ext.EvalUnnormOnSq d)).sum

/-- The sum over a multiset of triples of the positive parts of the exact
contributions, each counted once for every slot that holds `p`. -/
def posSumAll {α : Type} [LinearOrderedField α] (global : NbodySimulatorGlobal α)
    (acc : Multiset TripleDistanceSq) (p : Nat) : α :=
  (acc.map fun d => (d.occurrences p : α) * posPart (global.ext.EvalUnnormOnSq d)).sum

namespace AxilrodTellerForceProblem

section ForcePostponed

variable {α : Type} [LinearOrderedField α]

/-- The member `MultiTreeQueryPostponed::ApplyPostponed(postponed_in)`;
`la::AddTo(3, x, y)` adds `x` to `y` in each of the three components. -/
def MultiTreeQueryPostponed.ApplyPostponed (sqrt : α → α) (self : MultiTreeQueryPostponed α)
    (postponed_in : MultiTreeQueryPostponed α) : MultiTreeQueryPostponed α :=
  { negative_force_vector_e := fun k =>
      self.negative_force_vector_e k + postponed_in.negative_force_vector_e k
    l1_norm_negative_force_vector_u :=
      self.l1_norm_negative_force_vector_u + postponed_in.l1_norm_negative_force_vector_u
    l1_norm_positive_force_vector_l :=
      self.l1_norm_positive_force_vector_l + postponed_in.l1_norm_positive_force_vector_l
    positive_force_vector_e := fun k =>
      self.positive_force_vector_e k + postponed_in.positive_force_vector_e k
    n_pruned := self.n_pruned + postponed_in.n_pruned
    used_error := self.used_error + postponed_in.used_error
    probabilistic_used_error :=
      sqrt (Sqr self.probabilistic_used_error + Sqr postponed_in.probabilistic_used_error) }

/-- The member `MultiTreeQueryPostponed::SetZero`: every field is overwritten,
so the value left does not depend on the object. -/
def MultiTreeQueryPostponed.SetZero : MultiTreeQueryPostponed α :=
  { negative_force_vector_e := fun _ => 0
    l1_norm_negative_force_vector_u := 0
    l1_norm_positive_force_vector_l := 0
    positive_force_vector_e := fun _ => 0
    n_pruned := 0
    used_error := 0
    probabilistic_used_error := 0 }

/-- The member `MultiTreeQueryPostponed::Init`: the vectors get three
components, then `SetZero`. -/
def MultiTreeQueryPostponed.Init : MultiTreeQueryPostponed α :=
  MultiTreeQueryPostponed.SetZero

end ForcePostponed

end AxilrodTellerForceProblem

/-- A summary over the rationals whose positive part is `[0, 10]`. -/
def exampleSummary : NbodySimulatorSummary ℚ :=
  { negative_potential_ := ⟨-3, -1⟩
    positive_potential_ := ⟨0, 10⟩
    pruned_ := 5
    used_error_ := 1 }

/-- An incoming summary over the rationals whose positive part is `[1, 2]`. -/
def exampleSummaryIn : NbodySimulatorSummary ℚ :=
  { negative_potential_ := ⟨-2, -1⟩
    positive_potential_ := ⟨1, 2⟩
    pruned_ := 3
    used_error_ := 0 }

/-- Sign separation of the four accumulated fields of one point: the negative
interval is ordered and lies at or below zero, the positive interval is
ordered and lies at or above zero, and the two counters are not negative. -/
def NbodySimulatorPostponed.Signed {α : Type} [LinearOrderedField α]
    (x : NbodySimulatorPostponed α) : Prop :=
  x.negative_potential_.lo ≤ x.negative_potential_.hi ∧ x.negative_potential_.hi ≤ 0 ∧
    0 ≤ x.positive_potential_.lo ∧ x.positive_potential_.lo ≤ x.positive_potential_.hi ∧
    0 ≤ x.pruned_ ∧ 0 ≤ x.used_error_

/-- Sign separation of a state for the tree `t`: every node of the tree owns a
statistic whose postponed is zero, and the result of every point is
`Signed`. -/
def SignSeparated {α : Type} [LinearOrderedField α] (t : Tree) (st : State α) : Prop :=
  (∀ n : TreeType, n.Valid t →
      ∃ s, st.stat n.addr = some s ∧ s.postponed_ = NbodySimulatorPostponed.SetZero) ∧
    ∀ p, (st.query_results.entry p).Signed

/-- Two states hold the same result buffer and the same statistic for every
node of the tree `t`; they may differ in the ghost log and at addresses that
are not nodes of the tree. -/
def SameOnTree {α : Type} [LinearOrderedField α] (t : Tree) (s1 s2 : State α) : Prop :=
  s1.query_results = s2.query_results ∧
    ∀ n : TreeType, n.Valid t → ∃ s, s1.stat n.addr = some s ∧ s2.stat n.addr = some s

/-- A state left behind by an earlier run: every address owns a statistic
whose postponed and summary are not zero, the result buffer holds values, and
the log is not empty. -/
def exampleDirtyState : State ℚ :=
  { stat := fun _ =>
      some
        { postponed_ := ⟨⟨-1, -1⟩, ⟨2, 2⟩, 3, 1⟩
          summary_ := ⟨⟨-5, -4⟩, ⟨6, 8⟩, 2, 1⟩ }
    query_results :=
      { negative_potential_ := fun _ => ⟨-7, -2⟩
        positive_potential_ := fun _ => ⟨1, 9⟩
        potential_e_ := fun _ => 3
        pruned_ := fun _ => 11
        used_error_ := fun _ => 4 }
    log := [Event.canonical exampleRootTriple] }

/-! ## The best-first single-tree traverser of the rectangle tree -/

namespace SingleTreeTraverser

/-- Modelled from the spec: the class `RectangleTree`, whose header is not
part of the sources; the traverser reads `IsLeaf()`, the points of the node
(`Count()`, `Points()[i]`) and its children (`NumChildren()`,
`Children()[i]`). -/
inductive RectangleTree where
  | mk (is_leaf : Bool) (points : List Nat) (children : List RectangleTree)

namespace RectangleTree

/-- Modelled from the spec: `RectangleTree::IsLeaf()`. -/
def IsLeaf : RectangleTree → Bool
  | mk b _ _ => b

/-- Modelled from the spec: `RectangleTree::Points()`, the `Count()` points
held by the node, in index order. -/
def Points : RectangleTree → List Nat
  | mk _ p _ => p

/-- Modelled from the spec: `RectangleTree::Children()`, the `NumChildren()`
children of the node, in index order. -/
def Children : RectangleTree → List RectangleTree
  | mk _ _ c => c

/-- Modelled from the spec: `RectangleTree::Count()`. -/
def Count (n : RectangleTree) : Nat := n.Points.length

/-- Modelled from the spec: `RectangleTree::NumChildren()`. -/
def NumChildren (n : RectangleTree) : Nat := n.Children.length

mutual
/-- Number of levels of a node. -/
def height : RectangleTree → Nat
  | mk _ _ c => heightList c + 1
/-- Largest number of levels among the nodes of a list. -/
def heightList : List RectangleTree → Nat
  | [] => 0
  | n :: l => max (height n) (heightList l)
end

end RectangleTree

/-- Modelled from the spec: the rule object `RuleType`, whose class is a
template parameter: `BaseCase(queryIndex, referenceIndex)`,
`Score(queryIndex, node)` and `Rescore(queryIndex, node, oldScore)` act on the
state `σ` of the rule; the value returned by `BaseCase` is not read by the
traverser. -/
structure RuleType (σ α : Type) where
  BaseCase : σ → Nat → Nat → σ
  Score : σ → Nat → RectangleTree → α × σ
  Rescore : σ → Nat → RectangleTree → α → α × σ

/-- Modelled from the spec: the struct `NodeAndScore`, declared in the header
that is not part of the sources. -/
structure NodeAndScore (α : Type) where
  node : RectangleTree
  score : α

/-- The fields of the class `SingleTreeTraverser`: the rule and the counter
`numPrunes`, a `size_t`. -/
structure Traverser (σ : Type) where
  rule : σ
  numPrunes : Nat
deriving DecidableEq

/-- The constructor `SingleTreeTraverser(rule)`. -/
def Traverser.init {σ : Type} (rule : σ) : Traverser σ :=
  { rule := rule, numPrunes := 0 }

section Traverse

variable {σ α : Type} [LinearOrderedField α]

/-- The loop of `Traverse` over the points of a leaf
(`for(size_t i = 0; i < referenceNode.Count(); i++)`). -/
def Traverse_leafLoop (rule : RuleType σ α) (queryIndex : Nat) : List Nat → σ → σ
  | [], s => s
  | p :: rest, s => Traverse_leafLoop rule queryIndex rest (rule.BaseCase s queryIndex p)

/-- The loop of `Traverse` that fills `nodesAndScores` with the children and
their scores, in index order. -/
def Traverse_scoreLoop (rule : RuleType σ α) (queryIndex : Nat) :
    List RectangleTree → σ → List (NodeAndScore α) × σ
  | [], s => ([], s)
  | c :: rest, s =>
      let scored := rule.Score s queryIndex c
      let out := Traverse_scoreLoop rule queryIndex rest scored.2
      (⟨c, scored.1⟩ :: out.1, out.2)

/-- The last loop of `Traverse`, over the sorted entries from position `i` on;
`descend` is the recursive call of `Traverse`, `numChildren` is
`referenceNode.NumChildren()`.  The counter is a `size_t`, so it is advanced
modulo `2 ^ 64`. -/
def Traverse_pruneLoop (rule : RuleType σ α) (dbl_max : α)
    (descend : RectangleTree → Traverser σ → Option (Traverser σ)) (queryIndex : Nat)
    (numChildren : Nat) : Nat → List (NodeAndScore α) → Traverser σ → Option (Traverser σ)
  | _, [], tr => some tr
  | i, e :: rest, tr =>
      let rescored := rule.Rescore tr.rule queryIndex e.node e.score
      if rescored.1 ≠ dbl_max then
        match descend e.node { tr with rule := rescored.2 } with
        | none => none
        | some tr =>
            Traverse_pruneLoop rule dbl_max descend queryIndex numChildren (i + 1) rest tr
      else
        some { rule := rescored.2, numPrunes := (tr.numPrunes + (numChildren - i)) % 2 ^ 64 }

/-- The member `SingleTreeTraverser::Traverse(queryIndex, referenceNode)`.
`sortEntries` is `std::sort` with `nodeComparator` and `dbl_max` is `DBL_MAX`,
both declared outside the sources; what is printed to `std::cout` is not
modelled.  The first argument bounds the depth of the recursion. -/
def Traverse (rule : RuleType σ α)
    (sortEntries : List (NodeAndScore α) → List (NodeAndScore α)) (dbl_max : α) :
    Nat → Nat → RectangleTree → Traverser σ → Option (Traverser σ)
  | 0, _, _, _ => none
  | fuel + 1, queryIndex, referenceNode, tr =>
      if referenceNode.IsLeaf then
        some { tr with rule := Traverse_leafLoop rule queryIndex referenceNode.Points tr.rule }
      else
        let scored := Traverse_scoreLoop rule queryIndex referenceNode.Children tr.rule
        let nodesAndScores := sortEntries scored.1
        Traverse_pruneLoop rule dbl_max
          (Traverse rule sortEntries dbl_max fuel queryIndex) queryIndex
          referenceNode.NumChildren 0 nodesAndScores { tr with rule := scored.2 }

/-- The effect of traversing the given entries one after the other, each
after a call of `Rescore` that did not return `DBL_MAX`; it fails when one of
the calls of `Rescore` returns `DBL_MAX` or one of the traversals fails. -/
def traverseInOrder (rule : RuleType σ α) (dbl_max : α)
    (descend : RectangleTree → Traverser σ → Option (Traverser σ)) (queryIndex : Nat) :
    List (NodeAndScore α) → Traverser σ → Option (Traverser σ)
  | [], tr => some tr
  | e :: rest, tr =>
      if (rule.Rescore tr.rule queryIndex e.node e.score).1 = dbl_max then none
      else
        (descend e.node
          { tr with rule := (rule.Rescore tr.rule queryIndex e.node e.score).2 }).bind
          (traverseInOrder rule dbl_max descend queryIndex rest)

end Traverse

/-- A rule over the rationals that records its calls: the state is the list of
the points passed to `BaseCase`; the score of a node is the number of its
points, and `Rescore` returns `DBL_MAX` for a node with more than two points. -/
def exampleRule : RuleType (List Nat) ℚ :=
  { BaseCase := fun s _ p => s ++ [p]
    Score := fun s _ n => ((n.Count : ℚ), s)
    Rescore := fun s _ n old => (if 2 < n.Count then 1000 else old, s) }

/-- A node with three leaves of one, three and two points. -/
def exampleRectangleTree : RectangleTree :=
  RectangleTree.mk false []
    [RectangleTree.mk true [7] [], RectangleTree.mk true [1, 2, 3] [],
      RectangleTree.mk true [4, 5] []]

/-- Modelled from the spec: `std::sort` with `nodeComparator`, which orders
the entries by score; here by insertion, in increasing order. -/
def exampleSort (l : List (NodeAndScore ℚ)) : List (NodeAndScore ℚ) :=
  l.insertionSort (fun a b => a.score ≤ b.score)

end SingleTreeTraverser

/-! ## The objective `SmallSdpNmf` of the convex NMF optimizer -/

/-- Modelled from the spec: the class `Matrix` of the linear algebra library,
whose header is not part of the sources: the entry at a row and a column. -/
def GenMatrix (α : Type) : Type := Nat → Nat → α

namespace GenMatrix

variable {α : Type}

/-- Modelled from the spec: `Matrix::get(r, c)`. -/
def get (m : GenMatrix α) (r c : Nat) : α := m r c

/-- Modelled from the spec: `Matrix::set(r, c, v)`. -/
def set (m : GenMatrix α) (r c : Nat) (v : α) : GenMatrix α :=
  fun r' c' => if r' = r ∧ c' = c then v else m r' c'

end GenMatrix

/-- The fields of the class `SmallSdpNmf` that `Init` and `ComputeGradient`
use. -/
structure SmallSdpNmf (α : Type) where
  new_dim_ : Nat
  rows_ : List Nat
  columns_ : List Nat
  values_ : List α
  num_of_rows_ : Nat
  num_of_columns_ : Nat
  offset_h_ : Nat
  offset_tw_ : Nat
  offset_th_ : Nat
  offset_v_ : Nat
  objective_factor_ : GenMatrix α
  sigma_ : α

namespace SmallSdpNmf

variable {α : Type} [LinearOrderedField α]

/-- The member `SmallSdpNmf::Init(module, rows, columns, values)`.  The
parameter `new_dim` is read from the module; `sigma_` is not assigned here,
the value the object holds is passed through.  `std::max_element` of an empty
list has no value (`none`).  The matrix `objective_factor_` has `new_dim_`
rows and `2 * (num_of_rows_ + num_of_columns_) + values_.size()` columns. -/
def Init (sigma : α) (new_dim : Nat) (rows columns : List Nat) (values : List α) :
    Option (SmallSdpNmf α) :=
  match rows.max?, columns.max? with
  | some max_row, some max_column =>
      let num_of_rows := max_row + 1
      let num_of_columns := max_column + 1
      let offset_h := num_of_rows
      let offset_tw := offset_h + num_of_columns
      let offset_th := offset_tw + num_of_rows
      let offset_v := offset_th + num_of_columns
      some
        { new_dim_ := new_dim
          rows_ := rows
          columns_ := columns
          values_ := values
          num_of_rows_ := num_of_rows
          num_of_columns_ := num_of_columns
          offset_h_ := offset_h
          offset_tw_ := offset_tw
          offset_th_ := offset_th
          offset_v_ := offset_v
          objective_factor_ := fun j i =>
            if j < new_dim ∧ i < 2 * (num_of_rows + num_of_columns) + values.length then
              (if i < num_of_rows + num_of_columns then 0 else 1)
            else 0
          sigma_ := sigma }
  | _, _ => none

/-- The first two statements of `ComputeGradient`:
`gradient->CopyValues(objective_factor_)` and `la::Scale(sigma_, gradient)`. -/
def ComputeGradient_objective (self : SmallSdpNmf α) : GenMatrix α :=
  fun j i => self.sigma_ * self.objective_factor_.get j i

/-- The loop of `ComputeGradient` over the LP cones. -/
def ComputeGradient_lpCones (self : SmallSdpNmf α) (coordinates gradient : GenMatrix α) :
    GenMatrix α :=
  (List.range self.values_.length).foldl
    (fun gradient i =>
      let v_i := self.offset_v_ + i
      let diff := (List.range self.new_dim_).foldl (fun diff j => diff + coordinates.get j v_i) 0
      let diff := diff - self.values_.getD i 0
      (List.range self.new_dim_).foldl
        (fun gradient j => gradient.set j v_i (gradient.get j v_i - 1 / diff)) gradient)
    gradient

/-- The body of the inner loop of `ComputeGradient` over the SDP cones, for
the observed value `i` and the dimension `j`; `math::Pow<2,1>(x)` is the
square of `x`, and `DEBUG_ERR_MSG_IF` changes nothing. -/
def ComputeGradient_sdpStep (self : SmallSdpNmf α) (coordinates : GenMatrix α) (i j : Nat)
    (gradient : GenMatrix α) : GenMatrix α :=
  let w_i := self.rows_.getD i 0
  let h_i := self.offset_h_ + self.columns_.getD i 0
  let t1_i := self.offset_tw_ + self.rows_.getD i 0
  let t2_i := self.offset_th_ + self.columns_.getD i 0
  let v_i := self.offset_v_ + i
  let w := coordinates.get j w_i
  let h := coordinates.get j h_i
  let t1 := coordinates.get j t1_i
  let t2 := coordinates.get j t2_i
  let v := coordinates.get j v_i
  let t1_minus_ww := t1 - w * w
  let t2_minus_hh := t2 - h * h
  let wh_minus_v := w * h - v
  let determinant := t1_minus_ww * t2_minus_hh - wh_minus_v * wh_minus_v
  let dw := (-2 * w * t2_minus_hh - 2 * h * wh_minus_v) / determinant
  let dh := (-2 * h * t1_minus_ww - 2 * w * wh_minus_v) / determinant
  let dt1 := t2_minus_hh / determinant
  let dt2 := t1_minus_ww / determinant
  let dv := 2 * wh_minus_v / determinant
  let gradient := gradient.set j w_i (gradient.get j w_i - dw)
  let gradient := gradient.set j h_i (gradient.get j h_i - dh)
  let gradient := gradient.set j t1_i (gradient.get j t1_i - dt1)
  let gradient := gradient.set j t2_i (gradient.get j t1_i - dt2)
  gradient.set j v_i (gradient.get j v_i - dv)

/-- The loop of `ComputeGradient` over the SDP cones. -/
def ComputeGradient_sdpCones (self : SmallSdpNmf α) (coordinates gradient : GenMatrix α) :
    GenMatrix α :=
  (List.range self.values_.length).foldl
    (fun gradient i =>
      (List.range self.new_dim_).foldl
        (fun gradient j => self.ComputeGradient_sdpStep coordinates i j gradient) gradient)
    gradient

/-- The member `SmallSdpNmf::ComputeGradient(coordinates, gradient)`; what
`gradient` held before is overwritten by `CopyValues`. -/
def ComputeGradient (self : SmallSdpNmf α) (coordinates _gradient : GenMatrix α) :
    GenMatrix α :=
  self.ComputeGradient_sdpCones coordinates
    (self.ComputeGradient_lpCones coordinates self.ComputeGradient_objective)

/-- The derivative term `dt2 = (t1 - w*w) / determinant` of the observed value
`i` and the dimension `j`, as `ComputeGradient` computes it. -/
def dt2 (self : SmallSdpNmf α) (coordinates : GenMatrix α) (i j : Nat) : α :=
  let w := coordinates.get j (self.rows_.getD i 0)
  let h := coordinates.get j (self.offset_h_ + self.columns_.getD i 0)
  let t1 := coordinates.get j (self.offset_tw_ + self.rows_.getD i 0)
  let t2 := coordinates.get j (self.offset_th_ + self.columns_.getD i 0)
  let v := coordinates.get j (self.offset_v_ + i)
  (t1 - w * w) / ((t1 - w * w) * (t2 - h * h) - (w * h - v) * (w * h - v))

end SmallSdpNmf

/-- The object left by `Init` for one observed value `-1` at row `0` and
column `0`, with `new_dim = 1` and `sigma_ = 1`: the five columns are `w` at
`0`, `h` at `1`, `t1` at `2`, `t2` at `3` and `v` at `4`. -/
def exampleSdp : Option (SmallSdpNmf ℚ) := SmallSdpNmf.Init 1 1 [0] [0] [-1]

/-- Coordinates with `w = 1`, `h = 1`, `t1 = 3`, `t2 = 3` and `v = 0` in row
`0`; the determinant is `3`. -/
def exampleCoordinates : GenMatrix ℚ :=
  fun j i => if j = 0 then [1, 1, 3, 3, 0].getD i 0 else 0

/-! ## The type `double` with rounding -/

/-- The power `2 ^ e` of two with an integer exponent, as a rational. -/
def pow2 (e : Int) : ℚ :=
  if 0 ≤ e then ((2 ^ e.toNat : Nat) : ℚ) else 1 / ((2 ^ (-e).toNat : Nat) : ℚ)

/-- Rounding of a rational to the nearest integer, ties to the even one. -/
def roundHalfEven (m : ℚ) : Int :=
  if m - (⌊m⌋ : ℚ) < 1 / 2 then ⌊m⌋
  else if 1 / 2 < m - (⌊m⌋ : ℚ) then ⌊m⌋ + 1
  else if ⌊m⌋ % 2 = 0 then ⌊m⌋
  else ⌊m⌋ + 1

/-- The number of binary digits of a natural number, with a bound on the
number of halvings. -/
def bitLengthAux : Nat → Nat → Nat
  | 0, _ => 0
  | fuel + 1, n => if n = 0 then 0 else bitLengthAux fuel (n / 2) + 1

/-- The number of binary digits of a natural number: `2 ^ (bitLength n - 1) ≤ n
< 2 ^ bitLength n` for `n ≠ 0`. -/
def bitLength (n : Nat) : Nat := bitLengthAux n n

/-- The exponent `e` of the last place of the binary64 neighbours of
`x ≠ 0`: `2 ^ 52 ≤ |x| / 2 ^ e < 2 ^ 53`. -/
def binary64Exponent (x : ℚ) : Int :=
  if |x| < pow2 ((bitLength x.num.natAbs : Int) - (bitLength x.den : Int)) then
    (bitLength x.num.natAbs : Int) - (bitLength x.den : Int) - 53
  else
    (bitLength x.num.natAbs : Int) - (bitLength x.den : Int) - 52

/-- Rounding of a rational to the nearest number with a significand of 53
bits, ties to even: the rounding of IEEE 754 binary64 in its default mode.
The exponent is not bounded: overflow, subnormal numbers, infinities, NaN and
the sign of zero are not modelled. -/
def roundBinary64 (x : ℚ) : ℚ :=
  if x = 0 then 0
  else (roundHalfEven (x / pow2 (binary64Exponent x)) : ℚ) * pow2 (binary64Exponent x)

/-- A model of the C++ type `double`: a rational, with every arithmetic
operation rounded by `roundBinary64` as IEEE 754 prescribes (the exact result,
rounded to nearest, ties to even). -/
structure Double where
  val : ℚ
deriving DecidableEq

namespace Double

/-- The `double` nearest to a rational, as a literal is converted. -/
def ofRat (q : ℚ) : Double := ⟨roundBinary64 q⟩

instance : Zero Double := ⟨⟨0⟩⟩
instance : One Double := ⟨⟨1⟩⟩
instance : OfNat Double 2 := ⟨⟨2⟩⟩
instance : Add Double := ⟨fun a b => ⟨roundBinary64 (a.val + b.val)⟩⟩
instance : Sub Double := ⟨fun a b => ⟨roundBinary64 (a.val - b.val)⟩⟩
instance : Neg Double := ⟨fun a => ⟨-a.val⟩⟩
instance : Mul Double := ⟨fun a b => ⟨roundBinary64 (a.val * b.val)⟩⟩
instance : Div Double := ⟨fun a b => ⟨roundBinary64 (a.val / b.val)⟩⟩
instance : LT Double := ⟨fun a b => a.val < b.val⟩
instance : LE Double := ⟨fun a b => a.val ≤ b.val⟩
instance : Min Double := ⟨fun a b => if a.val ≤ b.val then a else b⟩
instance : Max Double := ⟨fun a b => if a.val ≤ b.val then b else a⟩
instance (a b : Double) : Decidable (a < b) := inferInstanceAs (Decidable (a.val < b.val))
instance (a b : Double) : Decidable (a ≤ b) := inferInstanceAs (Decidable (a.val ≤ b.val))

end Double

/-- The value obtained by adding `f d` for the triples `d` of a list one after
the other, in the order of the list, starting from zero. -/
def orderedSum {α : Type} [Zero α] [Add α] (f : TripleDistanceSq → α)
    (l : List TripleDistanceSq) : α :=
  l.foldl (fun acc d => acc + f d) 0

/-- The postponed that `PostProcess_` delivers to the point `p` below the node
at `addr`, combined in the order of the push-down: the postponed of the
topmost node is merged into that of its child on the path by
`child.ApplyPostponed(parent)`, the result into that of the next child, down
to the leaf. -/
def pathDelivered {α : Type} [Zero α] [Add α]
    (stat : List Bool → Option (NbodySimulatorStatistic α)) (addr : List Bool) (t : Tree)
    (p : Nat) : NbodySimulatorPostponed α :=
  match (pathNodes addr t p).map (postponedAt stat) with
  | [] => NbodySimulatorPostponed.SetZero
  | top :: below => below.foldl (fun acc own => own.ApplyPostponed acc) top

/-! ## Concrete inputs over `Double` -/

/-- A configuration over `Double` whose exact contribution on the triple
`(p0, p1, p2)` is the double nearest to `(1 + p0 + 2 * p1) / 10`. -/
def exampleDoubleGlobal : NbodySimulatorGlobal Double :=
  { relative_error_ := Double.ofRat (1 / 10)
    probability_ := Double.ofRat (9 / 10)
    total_num_tuples_ := Double.ofRat 3
    ext :=
      { EvalUnnormOnSq := fun d => Double.ofRat ((1 + (d.p0 : ℚ) + 2 * d.p1) / 10)
        RangeUnnormOnSq := fun _ => ⟨Double.ofRat (-1), Double.ofRat 2⟩
        num_tuples := fun _ _ => 1
        dbl_max := Double.ofRat 1000000 } }

/-- A state over `Double` in which no node owns a statistic, with a zero
result buffer and an empty log. -/
def exampleDoubleState : State Double :=
  { stat := fun _ => none
    query_results := NbodySimulatorResult.SetZero
    log := [] }

/-- A tree that is a single leaf of five points. -/
def exampleFiveLeaf : Tree := Tree.leaf 0 5

/-- A tree over five points with a leaf of three and a leaf of two points. -/
def exampleFiveSplit : Tree := Tree.node 0 5 (Tree.leaf 0 3) (Tree.leaf 3 5)

/-- A postponed over `Double` whose four fields hold the double nearest to
`q`. -/
def exampleDoublePostponed (q : ℚ) : NbodySimulatorPostponed Double :=
  { negative_potential_ := ⟨Double.ofRat q, Double.ofRat q⟩
    positive_potential_ := ⟨Double.ofRat q, Double.ofRat q⟩
    pruned_ := Double.ofRat q
    used_error_ := Double.ofRat q }

/-- A state over `Double` for `exampleTree` before the push-down: the root
holds the postponed `0.2`, both leaves hold `0.3`, and every point of the
result buffer holds `0.1`. -/
def exampleDoublePushState : State Double :=
  { stat := fun a =>
      some
        { postponed_ := if a = [] then exampleDoublePostponed (2 / 10)
            else exampleDoublePostponed (3 / 10)
          summary_ := NbodySimulatorSummary.SetZero }
    query_results :=
      { negative_potential_ := fun _ => ⟨Double.ofRat (1 / 10), Double.ofRat (1 / 10)⟩
        positive_potential_ := fun _ => ⟨Double.ofRat (1 / 10), Double.ofRat (1 / 10)⟩
        potential_e_ := fun _ => 0
        pruned_ := fun _ => Double.ofRat (1 / 10)
        used_error_ := fun _ => Double.ofRat (1 / 10) }
    log := [] }

/-! ## Theorems -/

/-! ### Loops of the base case and of the push-down as folds -/

section BaseLoops
variable {α : Type} [LinearOrderedField α]

theorem TreeIterator.toList_of_not_lt (it : TreeIterator) (h : ¬ it.current < it.end_) :
    it.toList = [] := by
  have : it.remaining = 0 := by unfold TreeIterator.remaining; omega
  simp [TreeIterator.toList, this]

theorem TreeIterator.toList_of_lt (it : TreeIterator) (h : it.current < it.end_) :
    it.toList = it.current :: (TreeIterator.mk (it.current + 1) it.end_).toList := by
  have h1 : it.remaining = (TreeIterator.mk (it.current + 1) it.end_).remaining + 1 := by
    simp only [TreeIterator.remaining]; omega
  simp only [TreeIterator.toList, h1, List.range'_succ]

theorem ApplyContribution_eq (global : NbodySimulatorGlobal α) (d : TripleDistanceSq)
    (l : List (NbodySimulatorPostponed α)) :
    global.ApplyContribution d l = List.replicate l.length (contribution global d) := by
  unfold NbodySimulatorGlobal.ApplyContribution contribution
  by_cases h : global.ext.EvalUnnormOnSq d < 0
  · simp only [h, if_true, List.map_map]
    rw [List.eq_replicate_iff]
    simp
  · simp only [h, if_false, List.map_map]
    rw [List.eq_replicate_iff]
    simp

theorem thirdLoop_spec (global : NbodySimulatorGlobal α) (i j : Nat) :
    ∀ (n : Nat) (it : TreeIterator) (loc : BaseLocals α) (st : State α),
      it.remaining ≤ n → loc.point_postponeds.length = 3 →
      loc.distance_sq_set.p0 = i → loc.distance_sq_set.p1 = j →
      ∃ loc', TripletreeBase_thirdLoop global i j n it loc st =
          some (loc',
            { stat := st.stat
              query_results :=
                (it.toList.map fun k => (⟨i, j, k⟩ : TripleDistanceSq)).foldl (applyExact global)
                  st.query_results
              log := st.log ++ it.toList.map fun k => Event.exact ⟨i, j, k⟩ }) ∧
        loc'.point_postponeds.length = 3 ∧ loc'.distance_sq_set.p0 = i := by
  intro n
  induction n with
  | zero =>
    intro it loc st hn hl h0 h1
    have : ¬ it.current < it.end_ := by unfold TreeIterator.remaining at hn; omega
    refine ⟨loc, ?_, hl, h0⟩
    simp [TripletreeBase_thirdLoop, TreeIterator.toList_of_not_lt it this]
  | succ n ih =>
    intro it loc st hn hl h0 h1
    by_cases hlt : it.current < it.end_
    · have hrem : (TreeIterator.mk (it.current + 1) it.end_).remaining ≤ n := by
        simp only [TreeIterator.remaining] at hn ⊢; omega
      obtain ⟨loc', hrun, hl', h0'⟩ := ih (TreeIterator.mk (it.current + 1) it.end_)
        ⟨global.ApplyContribution (loc.distance_sq_set.ReplaceOnePoint it.current 2)
            loc.point_postponeds, loc.distance_sq_set.ReplaceOnePoint it.current 2⟩
        { (st.record (Event.exact (loc.distance_sq_set.ReplaceOnePoint it.current 2))) with
          query_results := applyExact global st.query_results ⟨i, j, it.current⟩ }
        hrem (by simp [ApplyContribution_eq, hl]) (by simp [TripleDistanceSq.ReplaceOnePoint, h0])
        (by simp [TripleDistanceSq.ReplaceOnePoint, h1])
      refine ⟨loc', ?_, hl', h0'⟩
      have hd : loc.distance_sq_set.ReplaceOnePoint it.current 2 = ⟨i, j, it.current⟩ := by
        simp [TripleDistanceSq.ReplaceOnePoint, h0, h1]
      simp only [TripletreeBase_thirdLoop, TreeIterator.HasNext, TreeIterator.Next, hlt,
        decide_True, if_true]
      simp only [ApplyContribution_eq, hl, hd] at hrun ⊢
      simp only [applyExact, State.record] at hrun ⊢
      simp only [List.replicate, List.getD_cons_zero, List.getD_cons_succ] at hrun ⊢
      rw [hrun, TreeIterator.toList_of_lt it hlt]
      simp [applyExact]
    · refine ⟨loc, ?_, hl, h0⟩
      simp [TripletreeBase_thirdLoop, TreeIterator.HasNext, hlt,
        TreeIterator.toList_of_not_lt it hlt]


theorem secondLoop_spec (global : NbodySimulatorGlobal α) (r : TripleRangeDistanceSq) (i : Nat) :
    ∀ (n : Nat) (it : TreeIterator) (loc : BaseLocals α) (st : State α),
      it.remaining ≤ n → loc.point_postponeds.length = 3 → loc.distance_sq_set.p0 = i →
      ∃ loc', TripletreeBase_secondLoop global r i n it loc st =
          some (loc',
            { stat := st.stat
              query_results :=
                (it.toList.flatMap fun j =>
                  (GetNextNodeIterator_ r 1 ⟨j + 1, it.end_⟩).toList.map fun k =>
                    (⟨i, j, k⟩ : TripleDistanceSq)).foldl (applyExact global) st.query_results
              log := st.log ++
                (it.toList.flatMap fun j =>
                  (GetNextNodeIterator_ r 1 ⟨j + 1, it.end_⟩).toList.map fun k =>
                    (⟨i, j, k⟩ : TripleDistanceSq)).map Event.exact }) ∧
        loc'.point_postponeds.length = 3 ∧ loc'.distance_sq_set.p0 = i := by
  intro n
  induction n with
  | zero =>
    intro it loc st hn hl h0
    have : ¬ it.current < it.end_ := by unfold TreeIterator.remaining at hn; omega
    refine ⟨loc, ?_, hl, h0⟩
    simp [TripletreeBase_secondLoop, TreeIterator.toList_of_not_lt it this]
  | succ n ih =>
    intro it loc st hn hl h0
    by_cases hlt : it.current < it.end_
    · have hrem : (TreeIterator.mk (it.current + 1) it.end_).remaining ≤ n := by
        simp only [TreeIterator.remaining] at hn ⊢; omega
      obtain ⟨loc1, hrun1, hl1, h01⟩ := thirdLoop_spec global i it.current
        (GetNextNodeIterator_ r 1 ⟨it.current + 1, it.end_⟩).remaining
        (GetNextNodeIterator_ r 1 ⟨it.current + 1, it.end_⟩)
        { loc with distance_sq_set := loc.distance_sq_set.ReplaceOnePoint it.current 1 } st
        (le_refl _) hl (by simp [TripleDistanceSq.ReplaceOnePoint, h0])
        (by simp [TripleDistanceSq.ReplaceOnePoint])
      obtain ⟨loc', hrun, hl', h0'⟩ := ih (TreeIterator.mk (it.current + 1) it.end_) loc1 _
        hrem hl1 h01
      refine ⟨loc', ?_, hl', h0'⟩
      simp only [TripletreeBase_secondLoop, TreeIterator.HasNext, TreeIterator.Next, hlt,
        decide_True, if_true]
      rw [hrun1]
      simp only []
      rw [hrun, TreeIterator.toList_of_lt it hlt]
      simp [List.foldl_append, List.map_map, Function.comp_def]
    · refine ⟨loc, ?_, hl, h0⟩
      simp [TripletreeBase_secondLoop, TreeIterator.HasNext, hlt,
        TreeIterator.toList_of_not_lt it hlt]

/-- The triples visited by the outer loop of the base case from the cursor
`it` of the first slot on. -/
theorem firstLoop_spec (global : NbodySimulatorGlobal α) (r : TripleRangeDistanceSq) :
    ∀ (n : Nat) (it : TreeIterator) (loc : BaseLocals α) (st : State α),
      it.current < it.end_ → it.remaining ≤ n → loc.point_postponeds.length = 3 →
      ∃ loc', TripletreeBase_firstLoop global r n it loc st =
          some (loc',
            { stat := st.stat
              query_results :=
                (it.toList.flatMap fun i =>
                  (GetNextNodeIterator_ r 0 ⟨i + 1, it.end_⟩).toList.flatMap fun j =>
                    (GetNextNodeIterator_ r 1
                      ⟨j + 1, (GetNextNodeIterator_ r 0 ⟨i + 1, it.end_⟩).end_⟩).toList.map
                        fun k => (⟨i, j, k⟩ : TripleDistanceSq)).foldl (applyExact global)
                  st.query_results
              log := st.log ++
                (it.toList.flatMap fun i =>
                  (GetNextNodeIterator_ r 0 ⟨i + 1, it.end_⟩).toList.flatMap fun j =>
                    (GetNextNodeIterator_ r 1
                      ⟨j + 1, (GetNextNodeIterator_ r 0 ⟨i + 1, it.end_⟩).end_⟩).toList.map
                        fun k => (⟨i, j, k⟩ : TripleDistanceSq)).map Event.exact }) ∧
        loc'.point_postponeds.length = 3 := by
  intro n
  induction n with
  | zero =>
    intro it loc st hlt hn hl
    unfold TreeIterator.remaining at hn; omega
  | succ n ih =>
    intro it loc st hlt hn hl
    obtain ⟨loc1, hrun1, hl1, -⟩ := secondLoop_spec global r it.current
      (GetNextNodeIterator_ r 0 ⟨it.current + 1, it.end_⟩).remaining
      (GetNextNodeIterator_ r 0 ⟨it.current + 1, it.end_⟩)
      { loc with distance_sq_set := loc.distance_sq_set.ReplaceOnePoint it.current 0 } st
      (le_refl _) hl (by simp [TripleDistanceSq.ReplaceOnePoint])
    by_cases hlt2 : it.current + 1 < it.end_
    · have hrem : (TreeIterator.mk (it.current + 1) it.end_).remaining ≤ n := by
        simp only [TreeIterator.remaining] at hn ⊢; omega
      obtain ⟨loc', hrun, hl'⟩ := ih (TreeIterator.mk (it.current + 1) it.end_) loc1 _
        hlt2 hrem hl1
      refine ⟨loc', ?_, hl'⟩
      simp only [TripletreeBase_firstLoop, TreeIterator.HasNext, TreeIterator.Next, hlt,
        decide_True, if_true]
      rw [hrun1]
      simp only [hlt2, decide_True, if_true]
      rw [hrun, TreeIterator.toList_of_lt it hlt]
      simp [List.foldl_append, List.map_map, Function.comp_def]
    · refine ⟨loc1, ?_, hl1⟩
      simp only [TripletreeBase_firstLoop, TreeIterator.HasNext, TreeIterator.Next, hlt,
        decide_True, if_true]
      rw [hrun1]
      simp only [hlt2, decide_False, if_false]
      rw [TreeIterator.toList_of_lt it hlt,
        TreeIterator.toList_of_not_lt (TreeIterator.mk (it.current + 1) it.end_) hlt2]
      simp [List.foldl_append, List.map_map, Function.comp_def]

/-- The flush loop of the base case as a fold over the points of the node. -/
theorem flushLoop_spec (postponed : NbodySimulatorPostponed α) :
    ∀ (n : Nat) (it : TreeIterator) (summary : NbodySimulatorSummary α)
      (qr : NbodySimulatorResult α), it.remaining ≤ n →
      TripletreeBase_flushLoop postponed n it summary qr =
        some (it.toList.foldl
          (fun (acc : NbodySimulatorSummary α × NbodySimulatorResult α) q =>
            ((acc.1).Accumulate (acc.2.ApplyPostponed q postponed) q,
              acc.2.ApplyPostponed q postponed))
          (summary, qr)) := by
  intro n
  induction n with
  | zero =>
    intro it summary qr hn
    have : ¬ it.current < it.end_ := by unfold TreeIterator.remaining at hn; omega
    simp [TripletreeBase_flushLoop, TreeIterator.toList_of_not_lt it this]
  | succ n ih =>
    intro it summary qr hn
    by_cases hlt : it.current < it.end_
    · have hrem : (TreeIterator.mk (it.current + 1) it.end_).remaining ≤ n := by
        simp only [TreeIterator.remaining] at hn ⊢; omega
      simp only [TripletreeBase_flushLoop, TreeIterator.HasNext, TreeIterator.Next, hlt,
        decide_True, if_true]
      rw [ih _ _ _ hrem, TreeIterator.toList_of_lt it hlt]
      simp
    · simp [TripletreeBase_flushLoop, TreeIterator.HasNext, hlt,
        TreeIterator.toList_of_not_lt it hlt]

/-- The leaf loop of `PostProcess_` as a fold over the points of the leaf. -/
theorem leafLoop_spec (postponed : NbodySimulatorPostponed α) :
    ∀ (n : Nat) (it : TreeIterator) (qr : NbodySimulatorResult α), it.remaining ≤ n →
      PostProcess_leafLoop postponed n it qr =
        some (it.toList.foldl (fun acc q => (acc.ApplyPostponed q postponed).PostProcess q) qr) := by
  intro n
  induction n with
  | zero =>
    intro it qr hn
    have : ¬ it.current < it.end_ := by unfold TreeIterator.remaining at hn; omega
    simp [PostProcess_leafLoop, TreeIterator.toList_of_not_lt it this]
  | succ n ih =>
    intro it qr hn
    by_cases hlt : it.current < it.end_
    · have hrem : (TreeIterator.mk (it.current + 1) it.end_).remaining ≤ n := by
        simp only [TreeIterator.remaining] at hn ⊢; omega
      simp only [PostProcess_leafLoop, TreeIterator.HasNext, TreeIterator.Next, hlt,
        decide_True, if_true]
      rw [ih _ _ hrem, TreeIterator.toList_of_lt it hlt]
      simp
    · simp [PostProcess_leafLoop, TreeIterator.HasNext, hlt,
        TreeIterator.toList_of_not_lt it hlt]

end BaseLoops

/-! ### Trees and node pointers -/

section TreeFacts

theorem Tree.WellFormed.lt : ∀ {t : Tree}, t.WellFormed → t.begin_ < t.end_
  | Tree.leaf _ _, h => h
  | Tree.node _ _ l r, h => by
      obtain ⟨h1, h2, h3, h4, h5⟩ := h
      have := Tree.WellFormed.lt h4
      have := Tree.WellFormed.lt h5
      simp only [Tree.begin_, Tree.end_]
      omega

theorem Tree.WellFormed.child {c : Bool} {t s : Tree} (h : t.WellFormed)
    (hc : Tree.child c t = some s) : s.WellFormed := by
  cases t with
  | leaf b e => cases c <;> simp [Tree.child] at hc
  | node b e l r =>
    obtain ⟨-, -, -, h4, h5⟩ := h
    cases c <;> simp only [Tree.child, Option.some.injEq] at hc <;> subst hc <;> assumption

theorem Tree.WellFormed.subtree {t : Tree} (h : t.WellFormed) :
    ∀ {a : List Bool} {s : Tree}, t.subtree a = some s → s.WellFormed
  | [], s, hs => by
      simp only [Tree.subtree, Option.some.injEq] at hs
      subst hs; exact h
  | c :: a, s, hs => by
      simp only [Tree.subtree, Option.bind_eq_some] at hs
      obtain ⟨u, hu, hc⟩ := hs
      exact (Tree.WellFormed.subtree h hu).child hc

theorem TreeType.Valid.wf {t : Tree} {n : TreeType} (hv : n.Valid t) (h : t.WellFormed) :
    n.tree.WellFormed :=
  h.subtree hv

theorem TreeType.Valid.root_valid (t : Tree) : (TreeType.root t).Valid t := rfl

theorem TreeType.Valid.eq_of_addr {t : Tree} {n m : TreeType} (hn : n.Valid t) (hm : m.Valid t)
    (h : n.addr = m.addr) : n = m := by
  cases n with
  | mk a s =>
    cases m with
    | mk a' s' =>
      simp only [TreeType.Valid] at hn hm h
      subst h
      rw [hn] at hm
      simp only [Option.some.injEq] at hm
      subst hm; rfl

theorem TreeType.Valid.left {t : Tree} {n : TreeType} (hn : n.Valid t)
    (hl : n.is_leaf = false) : n.left.Valid t := by
  cases n with
  | mk a s =>
    cases s with
    | leaf b e => simp [TreeType.is_leaf, Tree.is_leaf] at hl
    | node b e l r =>
      simp only [TreeType.Valid, TreeType.left] at hn ⊢
      simp [Tree.subtree, hn, Tree.child]

theorem TreeType.Valid.right {t : Tree} {n : TreeType} (hn : n.Valid t)
    (hl : n.is_leaf = false) : n.right.Valid t := by
  cases n with
  | mk a s =>
    cases s with
    | leaf b e => simp [TreeType.is_leaf, Tree.is_leaf] at hl
    | node b e l r =>
      simp only [TreeType.Valid, TreeType.right] at hn ⊢
      simp [Tree.subtree, hn, Tree.child]

/-- Ranges of the children of a well-formed internal node. -/
theorem TreeType.children_ranges {n : TreeType} (h : n.tree.WellFormed)
    (hl : n.is_leaf = false) :
    n.left.begin_ = n.begin_ ∧ n.left.end_ = n.right.begin_ ∧ n.right.end_ = n.end_ ∧
      n.left.begin_ < n.left.end_ ∧ n.right.begin_ < n.right.end_ ∧
      n.left.addr = false :: n.addr ∧ n.right.addr = true :: n.addr ∧
      n.left.tree.height + 1 ≤ n.tree.height ∧ n.right.tree.height + 1 ≤ n.tree.height := by
  cases n with
  | mk a s =>
    cases s with
    | leaf b e => simp [TreeType.is_leaf, Tree.is_leaf] at hl
    | node b e l r =>
      obtain ⟨h1, h2, h3, h4, h5⟩ := h
      have hh : (Tree.node b e l r).height = max l.height r.height + 1 := rfl
      refine ⟨h1, h2, h3, h4.lt, h5.lt, rfl, rfl, ?_, ?_⟩
      · show l.height + 1 ≤ (Tree.node b e l r).height
        rw [hh]; omega
      · show r.height + 1 ≤ (Tree.node b e l r).height
        rw [hh]; omega

theorem range_split (a b c : Nat) (h1 : a ≤ b) (h2 : b ≤ c) :
    List.range' a (c - a) = List.range' a (b - a) ++ List.range' b (c - b) := by
  obtain ⟨m, rfl⟩ := Nat.exists_eq_add_of_le h1
  obtain ⟨k, rfl⟩ := Nat.exists_eq_add_of_le h2
  have e1 : a + m + k - a = m + k := by omega
  have e2 : a + m - a = m := by omega
  have e3 : a + m + k - (a + m) = k := by omega
  rw [e1, e2, e3, List.range'_append_1, Nat.add_comm k m]

theorem pointsOf_children {n : TreeType} (h : n.tree.WellFormed) (hl : n.is_leaf = false) :
    pointsOf n = pointsOf n.left ++ pointsOf n.right := by
  obtain ⟨h1, h2, h3, h4, h5, -⟩ := TreeType.children_ranges h hl
  unfold pointsOf
  rw [← h3, ← h1, h2]
  exact range_split _ _ _ (by omega) (by omega)

theorem mem_pointsOf {n : TreeType} {i : Nat} : i ∈ pointsOf n ↔ n.begin_ ≤ i ∧ i < n.end_ := by
  unfold pointsOf
  rw [List.mem_range'_1]
  omega

end TreeFacts

/-! ### The triples visited by the base case -/

section TripleSets

theorem filter_gt_range (b e i : Nat) (h1 : b ≤ i) (h2 : i < e) :
    (List.range' b (e - b)).filter (fun x => decide (i < x)) =
      List.range' (i + 1) (e - (i + 1)) := by
  rw [range_split b (i + 1) e (by omega) (by omega), List.filter_append]
  have hA : (List.range' b (i + 1 - b)).filter (fun x => decide (i < x)) = [] := by
    rw [List.filter_eq_nil_iff]
    intro x hx
    rw [List.mem_range'_1] at hx
    simp only [decide_eq_true_eq]; omega
  have hB : (List.range' (i + 1) (e - (i + 1))).filter (fun x => decide (i < x)) =
      List.range' (i + 1) (e - (i + 1)) := by
    rw [List.filter_eq_self]
    intro x hx
    rw [List.mem_range'_1] at hx
    simp only [decide_eq_true_eq]; omega
  rw [hA, hB, List.nil_append]

theorem coe_filter_map {β γ : Type} (l : List β) (p : β → Prop) [DecidablePred p] (g : β → γ) :
    (((l.filter fun x => decide (p x)).map g : List γ) : Multiset γ) =
      (l : Multiset β).bind fun k => if p k then {g k} else 0 := by
  induction l with
  | nil => simp
  | cons a l ih =>
    rw [← Multiset.cons_coe, Multiset.cons_bind, ← ih]
    by_cases h : p a
    · simp [List.filter_cons, h]
    · simp [List.filter_cons, h]

theorem coe_filter_flatMap {β γ : Type} (l : List β) (p : β → Prop) [DecidablePred p]
    (g : β → List γ) :
    (((l.filter fun x => decide (p x)).flatMap g : List γ) : Multiset γ) =
      (l : Multiset β).bind fun k => if p k then (g k : Multiset γ) else 0 := by
  induction l with
  | nil => simp
  | cons a l ih =>
    rw [← Multiset.cons_coe, Multiset.cons_bind, ← ih]
    by_cases h : p a
    · simp [List.filter_cons, h]
    · simp [List.filter_cons, h]

/-- The cursor of the next slot yields the points of the next node that lie
after the current point. -/
theorem nextIterator_toList (r : TripleRangeDistanceSq) (s : Nat)
    (hv : (r.node s).addr = (r.node (s + 1)).addr → r.node s = r.node (s + 1))
    (hag : Agree (r.node s) (r.node (s + 1))) (i : Nat) (hi : i ∈ pointsOf (r.node s)) :
    (GetNextNodeIterator_ r s ⟨i + 1, (r.node s).end_⟩).toList =
        (pointsOf (r.node (s + 1))).filter (fun x => decide (i < x)) ∧
      (GetNextNodeIterator_ r s ⟨i + 1, (r.node s).end_⟩).end_ = (r.node (s + 1)).end_ := by
  rw [mem_pointsOf] at hi
  unfold GetNextNodeIterator_
  by_cases he : (r.node s).addr = (r.node (s + 1)).addr
  · have hn := hv he
    simp only [TreeType.ptr_eq, he, decide_True, Bool.not_true, Bool.false_eq_true, if_false]
    rw [← hn]
    refine ⟨?_, rfl⟩
    simp only [TreeIterator.toList, TreeIterator.remaining, pointsOf]
    rw [filter_gt_range _ _ _ hi.1 hi.2]
  · simp only [TreeType.ptr_eq, he, decide_False, Bool.not_false, if_true]
    refine ⟨?_, rfl⟩
    have hle : (r.node s).end_ ≤ (r.node (s + 1)).begin_ := by
      rcases hag with h | h
      · exact absurd h he
      · exact h
    simp only [TreeIterator.toList, TreeIterator.remaining, get_node_iterator, pointsOf]
    symm
    rw [List.filter_eq_self]
    intro x hx
    rw [List.mem_range'_1] at hx
    simp only [decide_eq_true_eq]; omega

/-- The triples visited by the base case are exactly the increasing triples
with one point in each slot node, each once. -/
theorem baseTriples_coe (r : TripleRangeDistanceSq)
    (hv0 : r.node0.addr = r.node1.addr → r.node0 = r.node1)
    (hv1 : r.node1.addr = r.node2.addr → r.node1 = r.node2)
    (h0 : Agree r.node0 r.node1) (h1 : Agree r.node1 r.node2) :
    (baseTriples r : Multiset TripleDistanceSq) = tripleSet r := by
  unfold baseTriples tripleSet
  rw [← Multiset.coe_bind]
  apply Multiset.bind_congr
  intro i hi
  rw [Multiset.mem_coe] at hi
  have hi' : i ∈ pointsOf (r.node 0) := hi
  obtain ⟨e1, e2⟩ := nextIterator_toList r 0 hv0 h0 i hi'
  rw [e1, e2, coe_filter_flatMap]
  apply Multiset.bind_congr
  intro j hj
  rw [Multiset.mem_coe] at hj
  have hj' : j ∈ pointsOf (r.node 1) := hj
  obtain ⟨e3, -⟩ := nextIterator_toList r 1 hv1 h1 j hj'
  rw [e3, coe_filter_map]
  by_cases hij : i < j
  · simp only [hij, if_true, true_and]
    rfl
  · simp only [hij, if_false, false_and]
    exact (Multiset.bind_zero _).symm

end TripleSets

/-! ### The slot invariant of `RecursionHelper_` -/

section SlotFacts

theorem NodeIsAgreeable_eq_true {a b : TreeType} : NodeIsAgreeable_ a b = true ↔ Agree a b := by
  simp [NodeIsAgreeable_, TreeType.ptr_eq, Agree]

theorem Junction.of_agree_leaf {a b : TreeType} (h : Agree a b) (hv : a.addr = b.addr → a = b)
    (hl : a.is_leaf = true) : Junction a b := by
  rcases h with h | h
  · have := hv h
    subst this
    exact Or.inr (Or.inl ⟨rfl, hl⟩)
  · exact Or.inl h

theorem Junction.agree_of_leaf {a b : TreeType} (h : Junction a b) (hl : b.is_leaf = true) :
    Agree a b := by
  rcases h with h | h | h
  · exact Or.inr h
  · exact Or.inl h.1
  · rw [hl] at h
    exact absurd h.1 (by decide)

theorem Junction.of_agree_child {n b c : TreeType} (h : Agree n b)
    (hv : n.addr = b.addr → n = b) (hwf : n.tree.WellFormed) (hl : n.is_leaf = false)
    (hc : c = n.left ∨ c = n.right) : Junction c b := by
  obtain ⟨h1, h2, h3, h4, h5, -⟩ := TreeType.children_ranges hwf hl
  rcases h with h | h
  · have := hv h
    subst this
    exact Or.inr (Or.inr ⟨hl, hc⟩)
  · refine Or.inl ?_
    rcases hc with rfl | rfl <;> omega

/-- A child of the next node that fails the agreement test lies entirely
before the node of the previous slot. -/
theorem Junction.child_before {m n c : TreeType} (h : Junction m n) (hwf : n.tree.WellFormed)
    (hl : n.is_leaf = false) (hc : c = n.left ∨ c = n.right)
    (hna : ¬ Agree m c) : c.end_ ≤ m.begin_ := by
  obtain ⟨h1, h2, h3, h4, h5, h6, h7, -⟩ := TreeType.children_ranges hwf hl
  unfold Agree at hna
  rcases h with h | h | h
  · exfalso; apply hna; right
    rcases hc with rfl | rfl <;> omega
  · rw [hl] at h
    exact absurd h.2 (by decide)
  · rcases h.2 with rfl | rfl <;> rcases hc with rfl | rfl
    · exact absurd (Or.inl rfl) hna
    · exfalso; apply hna; right; omega
    · omega
    · exact absurd (Or.inl rfl) hna

theorem ReplaceOneNode_restore (r : TripleRangeDistanceSq) (c : TreeType) (level : Nat) :
    (r.ReplaceOneNode c level).ReplaceOneNode (r.node level) level = r := by
  rcases level with _ | _ | _ <;> rfl

theorem ReplaceOneNode_node_pred (r : TripleRangeDistanceSq) (c : TreeType) (level : Nat)
    (h0 : level ≠ 0) (h3 : level < 3) :
    (r.ReplaceOneNode c level).node (level - 1) = r.node (level - 1) := by
  rcases level with _ | _ | _ | _
  · exact absurd rfl h0
  · rfl
  · rfl
  · omega

theorem heightSum_replace (r : TripleRangeDistanceSq) (c : TreeType) (level : Nat)
    (h : c.tree.height + 1 ≤ (r.node level).tree.height) :
    heightSum (r.ReplaceOneNode c level) + 1 ≤ heightSum r := by
  rcases level with _ | _ | _ <;>
    simp only [heightSum, TripleRangeDistanceSq.ReplaceOneNode, TripleRangeDistanceSq.node]
      at h ⊢ <;> omega

theorem bind_eq_zero {β γ : Type} (s : Multiset β) (f : β → Multiset γ)
    (h : ∀ a ∈ s, f a = 0) : s.bind f = 0 := by
  rw [Multiset.bind_congr h]
  exact Multiset.bind_zero _

/-- Splitting the node of one slot into its two children splits the set of
triples. -/
theorem tripleSet_split (r : TripleRangeDistanceSq) (level : Nat)
    (hwf : (r.node level).tree.WellFormed) (hl : (r.node level).is_leaf = false) :
    tripleSet r =
      tripleSet (r.ReplaceOneNode (r.node level).left level) +
        tripleSet (r.ReplaceOneNode (r.node level).right level) := by
  have hp := pointsOf_children hwf hl
  rcases level with _ | _ | _ <;>
    simp only [TripleRangeDistanceSq.node] at hp <;>
    simp only [tripleSet, TripleRangeDistanceSq.ReplaceOneNode, TripleRangeDistanceSq.node, hp,
      ← Multiset.coe_add, Multiset.add_bind, Multiset.bind_add]

/-- No increasing triple has its point of slot `level` before all points of
slot `level - 1`. -/
theorem tripleSet_eq_zero (r : TripleRangeDistanceSq) (c : TreeType) (level : Nat)
    (h0 : level ≠ 0) (h3 : level < 3) (h : c.end_ ≤ (r.node (level - 1)).begin_) :
    tripleSet (r.ReplaceOneNode c level) = 0 := by
  rcases level with _ | _ | _ | _
  · exact absurd rfl h0
  · simp only [TripleRangeDistanceSq.node] at h
    simp only [tripleSet, TripleRangeDistanceSq.ReplaceOneNode]
    apply bind_eq_zero
    intro i hi
    apply bind_eq_zero
    intro j hj
    rw [Multiset.mem_coe, mem_pointsOf] at hi hj
    apply bind_eq_zero
    intro k _
    have : ¬ (i < j ∧ j < k) := by omega
    simp [this]
  · simp only [TripleRangeDistanceSq.node] at h
    simp only [tripleSet, TripleRangeDistanceSq.ReplaceOneNode]
    apply bind_eq_zero
    intro i hi
    apply bind_eq_zero
    intro j hj
    apply bind_eq_zero
    intro k hk
    rw [Multiset.mem_coe, mem_pointsOf] at hj hk
    have : ¬ (i < j ∧ j < k) := by omega
    simp [this]
  · omega

theorem SlotInv.valid_node {t : Tree} {level : Nat} {al : Bool} {r : TripleRangeDistanceSq}
    (h : SlotInv t level al r) (i : Nat) : (r.node i).Valid t := by
  rcases i with _ | _ | _
  · exact h.1
  · exact h.2.1
  · exact h.2.2.1

/-- A leaf found by `RecursionHelper_` passes the agreement test, and the
invariant holds at the next level. -/
theorem SlotInv.leaf_step {t : Tree} {level : Nat} {al : Bool} {r : TripleRangeDistanceSq}
    (h : SlotInv t level al r) (h3 : level < 3) (hl : (r.node level).is_leaf = true) :
    (level = 0 ∨ NodeIsAgreeable_ (r.node (level - 1)) (r.node level) = true) ∧
      SlotInv t (level + 1) al r := by
  obtain ⟨v0, v1, v2, p0, p1, ha⟩ := h
  have hal : al = true → ∀ i, i < level + 1 → (r.node i).is_leaf = true := by
    intro hal i hi
    by_cases hi' : i < level
    · exact ha hal i hi'
    · have : i = level := by omega
      subst this; exact hl
  rcases level with _ | _ | _ | _
  · simp only [PairInv, TripleRangeDistanceSq.node] at p0 p1 hl
    refine ⟨Or.inl rfl, v0, v1, v2, ?_, ?_, hal⟩
    · simp only [PairInv, if_true]
      exact Junction.of_agree_leaf (by simpa using p0) (v0.eq_of_addr v1) hl
    · simp only [PairInv]; simpa using p1
  · simp only [PairInv, TripleRangeDistanceSq.node] at p0 p1 hl
    have ag : Agree r.node0 r.node1 := Junction.agree_of_leaf (by simpa using p0) hl
    refine ⟨Or.inr (NodeIsAgreeable_eq_true.2 ag), v0, v1, v2, ?_, ?_, hal⟩
    · simpa [PairInv] using ag
    · simp only [PairInv, if_true]
      exact Junction.of_agree_leaf (by simpa using p1) (v1.eq_of_addr v2) hl
  · simp only [PairInv, TripleRangeDistanceSq.node] at p0 p1 hl
    have ag : Agree r.node1 r.node2 := Junction.agree_of_leaf (by simpa using p1) hl
    refine ⟨Or.inr (NodeIsAgreeable_eq_true.2 ag), v0, v1, v2, ?_, ?_, hal⟩
    · simpa [PairInv] using p0
    · simpa [PairInv] using ag
  · omega

/-- After the slot at `level` is replaced by a child that passed the agreement
test, the invariant holds at the next level. -/
theorem SlotInv.child_step {t : Tree} {level : Nat} {al : Bool} {r : TripleRangeDistanceSq}
    (hwf : t.WellFormed) (h : SlotInv t level al r) (h3 : level < 3)
    (hl : (r.node level).is_leaf = false) {c : TreeType}
    (hc : c = (r.node level).left ∨ c = (r.node level).right)
    (hag : level = 0 ∨ NodeIsAgreeable_ (r.node (level - 1)) c = true) :
    SlotInv t (level + 1) false (r.ReplaceOneNode c level) := by
  obtain ⟨v0, v1, v2, p0, p1, -⟩ := h
  have hal : (false = true) → ∀ i, i < level + 1 →
      ((r.ReplaceOneNode c level).node i).is_leaf = true := by
    intro h; exact absurd h (by decide)
  rcases level with _ | _ | _ | _
  · simp only [PairInv, TripleRangeDistanceSq.node] at p0 p1 hl hc
    have vc : c.Valid t := by
      rcases hc with rfl | rfl
      · exact v0.left hl
      · exact v0.right hl
    refine ⟨vc, v1, v2, ?_, ?_, hal⟩
    · simp only [PairInv, TripleRangeDistanceSq.ReplaceOneNode, if_true]
      exact Junction.of_agree_child (by simpa using p0) (v0.eq_of_addr v1) (v0.wf hwf) hl hc
    · simp only [PairInv, TripleRangeDistanceSq.ReplaceOneNode]; simpa using p1
  · simp only [PairInv, TripleRangeDistanceSq.node] at p0 p1 hl hc hag
    have vc : c.Valid t := by
      rcases hc with rfl | rfl
      · exact v1.left hl
      · exact v1.right hl
    have ag : Agree r.node0 c := by
      rcases hag with h | h
      · omega
      · exact NodeIsAgreeable_eq_true.1 (by simpa using h)
    refine ⟨v0, vc, v2, ?_, ?_, hal⟩
    · simpa [PairInv, TripleRangeDistanceSq.ReplaceOneNode] using ag
    · simp only [PairInv, TripleRangeDistanceSq.ReplaceOneNode, if_true]
      exact Junction.of_agree_child (by simpa using p1) (v1.eq_of_addr v2) (v1.wf hwf) hl hc
  · simp only [PairInv, TripleRangeDistanceSq.node] at p0 p1 hl hc hag
    have vc : c.Valid t := by
      rcases hc with rfl | rfl
      · exact v2.left hl
      · exact v2.right hl
    have ag : Agree r.node1 c := by
      rcases hag with h | h
      · omega
      · exact NodeIsAgreeable_eq_true.1 (by simpa using h)
    refine ⟨v0, v1, vc, ?_, ?_, hal⟩
    · simpa [PairInv, TripleRangeDistanceSq.ReplaceOneNode] using p0
    · simpa [PairInv, TripleRangeDistanceSq.ReplaceOneNode] using ag
  · omega

/-- A child that fails the agreement test contributes no triple. -/
theorem SlotInv.child_dropped {t : Tree} {level : Nat} {al : Bool} {r : TripleRangeDistanceSq}
    (hwf : t.WellFormed) (h : SlotInv t level al r) (h3 : level < 3)
    (hl : (r.node level).is_leaf = false) {c : TreeType}
    (hc : c = (r.node level).left ∨ c = (r.node level).right)
    (hag : ¬ (level = 0 ∨ NodeIsAgreeable_ (r.node (level - 1)) c = true)) :
    tripleSet (r.ReplaceOneNode c level) = 0 := by
  have h0 : level ≠ 0 := fun h => hag (Or.inl h)
  have hna : ¬ Agree (r.node (level - 1)) c := fun h => hag (Or.inr (NodeIsAgreeable_eq_true.2 h))
  apply tripleSet_eq_zero r c level h0 h3
  have hj : Junction (r.node (level - 1)) (r.node level) := by
    obtain ⟨v0, v1, v2, p0, p1, -⟩ := h
    rcases level with _ | _ | _ | _
    · exact absurd rfl h0
    · simpa [PairInv, TripleRangeDistanceSq.node] using p0
    · simpa [PairInv, TripleRangeDistanceSq.node] using p1
    · omega
  exact hj.child_before ((h.valid_node level).wf hwf) hl hc hna

/-- At level three the slots satisfy the invariant of a new round. -/
theorem SlotInv.restart {t : Tree} {al : Bool} {r : TripleRangeDistanceSq}
    (h : SlotInv t 3 al r) : SlotInv t 0 true r := by
  obtain ⟨v0, v1, v2, p0, p1, -⟩ := h
  refine ⟨v0, v1, v2, ?_, ?_, ?_⟩
  · simpa [PairInv] using p0
  · simpa [PairInv] using p1
  · intro _ i hi; omega

end SlotFacts

/-! ### Induction over the mutual recursion -/

section Master
variable {α : Type} [LinearOrderedField α]

theorem ReplaceOneNode_twice (r : TripleRangeDistanceSq) (c c' : TreeType) (level : Nat) :
    (r.ReplaceOneNode c level).ReplaceOneNode c' level = r.ReplaceOneNode c' level := by
  rcases level with _ | _ | _ <;> rfl

/-- The induction over the mutual recursion of `RecursionHelper_` and
`TripletreeCanonical_` on a well-formed tree.  `R acc st` is any relation
between a multiset of index triples and a state that is kept by the ghost
events and that the base case advances by the triples of its node triple; then
every call with enough fuel returns, restores the triple-range, leaves the
flag as it was and advances `R` by the triples of its node triple. -/
theorem engine_master (global : NbodySimulatorGlobal α) (t : Tree) (hwf : t.WellFormed)
    (R : Multiset TripleDistanceSq → State α → Prop)
    (hH : ∀ acc st level al r, level ≤ 3 → SlotInv t level al r → R acc st →
      R acc (st.record (Event.helper level r al)))
    (hC : ∀ acc st r, SlotInv t 0 true r → R acc st → R acc (st.record (Event.canonical r)))
    (hB : ∀ acc st r, SlotInv t 3 true r → R acc st →
      ∃ st', TripletreeBase_ global r st = some st' ∧ R (acc + tripleSet r) st') :
    ∀ fuel,
      (∀ level al r re fp st d acc, level ≤ 3 → SlotInv t level al r →
        helperFuel level al r ≤ fuel → R acc st →
        ∃ st', RecursionHelper_ global fuel r re fp st level al d = some (r, st', d) ∧
          R (acc + tripleSet r) st') ∧
      (∀ r re fp st acc, SlotInv t 0 true r → 5 * (heightSum r + 1) ≤ fuel → R acc st →
        ∃ st', TripletreeCanonical_ global fuel r re fp st = some (true, r, st') ∧
          R (acc + tripleSet r) st') := by
  intro fuel
  induction fuel with
  | zero =>
    constructor
    · intro level al r re fp st d acc h3 _ hf _
      unfold helperFuel at hf; omega
    · intro r re fp st acc _ hf _
      omega
  | succ fuel ih =>
    obtain ⟨ihH, ihC⟩ := ih
    constructor
    · intro level al r re fp st d acc h3 hs hf hR
      have hR1 := hH acc st level al r h3 hs hR
      unfold RecursionHelper_ at ihH ⊢
      rw [RecursionHelperWith]
      by_cases hl3 : level = 3
      · subst hl3
        cases al with
        | true =>
          obtain ⟨st', hb, hR'⟩ := hB acc _ r hs hR1
          refine ⟨st', ?_, hR'⟩
          simp [hb]
        | false =>
          have hf' : 5 * (heightSum r + 1) ≤ fuel := by
            simp [helperFuel] at hf; omega
          obtain ⟨st', hc, hR'⟩ := ihC r re fp _ acc hs.restart hf' hR1
          refine ⟨st', ?_, hR'⟩
          unfold TripletreeCanonical_ at hc
          simp [hc]
      · have hlt : level < 3 := by omega
        simp only [hl3, if_false]
        by_cases hleaf : (r.node level).is_leaf = true
        · obtain ⟨hg, hs'⟩ := hs.leaf_step hlt hleaf
          have hf' : helperFuel (level + 1) al r ≤ fuel := by
            simp only [helperFuel] at hf ⊢; omega
          obtain ⟨st', hc, hR'⟩ := ihH (level + 1) al r re fp _ d acc (by omega) hs' hf' hR1
          refine ⟨st', ?_, hR'⟩
          simp only [hleaf, if_true, hg]
          exact hc
        · have hleaf' : (r.node level).is_leaf = false := by
            cases h : (r.node level).is_leaf
            · rfl
            · exact absurd h hleaf
          have hwfn := (hs.valid_node level).wf hwf
          obtain ⟨-, -, -, -, -, -, -, hhl, hhr⟩ := TreeType.children_ranges hwfn hleaf'
          have hfc : ∀ c : TreeType, c.tree.height + 1 ≤ (r.node level).tree.height →
              helperFuel (level + 1) false (r.ReplaceOneNode c level) ≤ fuel := by
            intro c hc
            have := heightSum_replace r c level hc
            simp only [helperFuel] at hf ⊢
            cases al <;> simp at hf ⊢ <;> omega
          simp only [hleaf', Bool.false_eq_true, if_false]
          -- the left child
          have hleft : ∃ b1 r1 st1,
              (if level = 0 ∨
                    NodeIsAgreeable_ (r.node (level - 1)) (r.node level).left = true then
                  match RecursionHelperWith CanSummarize_ global fuel
                      (r.ReplaceOneNode (r.node level).left level) re fp
                      (st.record (Event.helper level r al)) (level + 1) false d with
                  | none => none
                  | some x => some (true, x)
                else some (false, r, st.record (Event.helper level r al), d)) =
                some (b1, r1, st1, d) ∧
              R (acc + tripleSet (r.ReplaceOneNode (r.node level).left level)) st1 ∧
              r1 = (if b1 = true then r.ReplaceOneNode (r.node level).left level else r) := by
            by_cases hg : level = 0 ∨
                NodeIsAgreeable_ (r.node (level - 1)) (r.node level).left = true
            · have hs' := hs.child_step hwf hlt hleaf' (Or.inl rfl) hg
              obtain ⟨st', hc, hR'⟩ := ihH (level + 1) false _ re fp _ d acc (by omega) hs'
                (hfc _ hhl) hR1
              refine ⟨true, r.ReplaceOneNode (r.node level).left level, st', ?_, hR', by simp⟩
              simp only [hg, if_true, hc]
            · have hz := hs.child_dropped hwf hlt hleaf' (Or.inl rfl) hg
              refine ⟨false, r, st.record (Event.helper level r al), ?_, ?_, by simp⟩
              · simp only [hg, if_false]
              · rw [hz, add_zero]; exact hR1
          obtain ⟨b1, r1, st1, hL, hR1', hr1⟩ := hleft
          rw [hL]
          simp only []
          have hprev : level ≠ 0 → r1.node (level - 1) = r.node (level - 1) := by
            intro h0
            rw [hr1]
            split
            · exact ReplaceOneNode_node_pred r _ level h0 hlt
            · rfl
          have hguard : (level = 0 ∨
              NodeIsAgreeable_ (r1.node (level - 1)) (r.node level).right = true) ↔
              (level = 0 ∨
                NodeIsAgreeable_ (r.node (level - 1)) (r.node level).right = true) := by
            by_cases h0 : level = 0
            · simp [h0]
            · rw [hprev h0]
          have hrep : r1.ReplaceOneNode (r.node level).right level =
              r.ReplaceOneNode (r.node level).right level := by
            rw [hr1]
            split
            · exact ReplaceOneNode_twice _ _ _ _
            · rfl
          have hsplit := tripleSet_split r level hwfn hleaf'
          by_cases hg : level = 0 ∨
              NodeIsAgreeable_ (r.node (level - 1)) (r.node level).right = true
          · have hs' := hs.child_step hwf hlt hleaf' (Or.inr rfl) hg
            obtain ⟨st', hc, hR'⟩ := ihH (level + 1) false _ re fp st1 d _ (by omega) hs'
              (hfc _ hhr) hR1'
            refine ⟨st', ?_, ?_⟩
            · simp only [hguard.2 hg, if_true, hrep, hc]
              simp [ReplaceOneNode_restore]
            · rw [hsplit, ← add_assoc]; exact hR'
          · have hz := hs.child_dropped hwf hlt hleaf' (Or.inr rfl) hg
            refine ⟨st1, ?_, ?_⟩
            · have hg' : ¬ (level = 0 ∨
                  NodeIsAgreeable_ (r1.node (level - 1)) (r.node level).right = true) :=
                fun h => hg (hguard.1 h)
              rw [if_neg hg', hr1]
              cases b1 <;> simp [ReplaceOneNode_restore]
            · rw [hsplit, hz, add_zero]; exact hR1'
    · intro r re fp st acc hs hf hR
      have hR1 := hC acc st r hs hR
      have hf' : helperFuel 0 true r ≤ fuel := by
        simp [helperFuel]; omega
      obtain ⟨st', hc, hR'⟩ := ihH 0 true r re fp _ true acc (by omega) hs hf' hR1
      refine ⟨st', ?_, hR'⟩
      unfold TripletreeCanonical_
      unfold RecursionHelper_ at hc
      rw [TripletreeCanonicalWith]
      simp [CanSummarize_, hc]

end Master

/-! ### Algebra of postponed values -/

section PostponedAlgebra
variable {α : Type} [LinearOrderedField α]

theorem Range.add_zero_range (a : Range α) : a.add (Range.Init 0 0) = a := by
  cases a; simp [Range.add, Range.Init]

theorem Range.zero_add_range (a : Range α) : (Range.Init 0 0).add a = a := by
  cases a; simp [Range.add, Range.Init]

theorem Range.add_comm_range (a b : Range α) : a.add b = b.add a := by
  simp [Range.add, add_comm]

theorem Range.add_assoc_range (a b c : Range α) : (a.add b).add c = a.add (b.add c) := by
  simp [Range.add, add_assoc]

theorem ApplyPostponed_zero (a : NbodySimulatorPostponed α) :
    a.ApplyPostponed NbodySimulatorPostponed.SetZero = a := by
  cases a
  simp [NbodySimulatorPostponed.ApplyPostponed, NbodySimulatorPostponed.SetZero,
    Range.add_zero_range]

theorem zero_ApplyPostponed (a : NbodySimulatorPostponed α) :
    NbodySimulatorPostponed.SetZero.ApplyPostponed a = a := by
  cases a
  simp [NbodySimulatorPostponed.ApplyPostponed, NbodySimulatorPostponed.SetZero,
    Range.zero_add_range]

theorem ApplyPostponed_comm (a b : NbodySimulatorPostponed α) :
    a.ApplyPostponed b = b.ApplyPostponed a := by
  simp [NbodySimulatorPostponed.ApplyPostponed, Range.add_comm_range a.negative_potential_,
    Range.add_comm_range a.positive_potential_, add_comm]

theorem ApplyPostponed_assoc (a b c : NbodySimulatorPostponed α) :
    (a.ApplyPostponed b).ApplyPostponed c = a.ApplyPostponed (b.ApplyPostponed c) := by
  simp [NbodySimulatorPostponed.ApplyPostponed, Range.add_assoc_range, add_assoc]

theorem entry_ApplyPostponed (qr : NbodySimulatorResult α) (q p : Nat)
    (pp : NbodySimulatorPostponed α) :
    (qr.ApplyPostponed q pp).entry p =
      if p = q then (qr.entry p).ApplyPostponed pp else qr.entry p := by
  by_cases h : p = q
  · subst h
    simp [NbodySimulatorResult.entry, NbodySimulatorResult.ApplyPostponed,
      NbodySimulatorPostponed.ApplyPostponed]
  · simp [NbodySimulatorResult.entry, NbodySimulatorResult.ApplyPostponed, h,
      Function.update_noteq h]

theorem entry_PostProcess (qr : NbodySimulatorResult α) (q p : Nat) :
    (qr.PostProcess q).entry p = qr.entry p := rfl

theorem potential_ApplyPostponed (qr : NbodySimulatorResult α) (q p : Nat)
    (pp : NbodySimulatorPostponed α) :
    (qr.ApplyPostponed q pp).potential_e_ p = qr.potential_e_ p := rfl

theorem potential_PostProcess (qr : NbodySimulatorResult α) (q p : Nat) :
    (qr.PostProcess q).potential_e_ p =
      if p = q then (qr.entry p).negative_potential_.mid + (qr.entry p).positive_potential_.mid
      else qr.potential_e_ p := by
  by_cases h : p = q
  · subst h
    simp [NbodySimulatorResult.PostProcess, NbodySimulatorResult.entry]
  · simp [NbodySimulatorResult.PostProcess, h, Function.update_noteq h]

/-- The leaf loop of `PostProcess_`: entries of the points of the leaf. -/
theorem leafFold_entry (pp : NbodySimulatorPostponed α) :
    ∀ (L : List Nat) (qr : NbodySimulatorResult α) (p : Nat), L.Nodup →
      ((L.foldl (fun acc q => (acc.ApplyPostponed q pp).PostProcess q) qr).entry p =
          if p ∈ L then (qr.entry p).ApplyPostponed pp else qr.entry p) ∧
        ((L.foldl (fun acc q => (acc.ApplyPostponed q pp).PostProcess q) qr).potential_e_ p =
          if p ∈ L then
            ((qr.entry p).ApplyPostponed pp).negative_potential_.mid +
              ((qr.entry p).ApplyPostponed pp).positive_potential_.mid
          else qr.potential_e_ p) := by
  intro L
  induction L with
  | nil => intro qr p _; simp
  | cons a L ih =>
    intro qr p hnd
    rw [List.nodup_cons] at hnd
    obtain ⟨h1, h2⟩ := ih ((qr.ApplyPostponed a pp).PostProcess a) p hnd.2
    simp only [List.foldl_cons]
    rw [h1, h2]
    simp only [entry_PostProcess, entry_ApplyPostponed, potential_PostProcess,
      potential_ApplyPostponed, List.mem_cons]
    by_cases hpa : p = a
    · subst hpa
      simp [hnd.1]
    · simp [hpa]

end PostponedAlgebra

/-! ### Addresses and paths -/

section Paths

theorem Tree.subtree_append_child (b e : Nat) (l r : Tree) (c : Bool) :
    ∀ (a : List Bool), (Tree.node b e l r).subtree (a ++ [c]) =
      (if c = true then r.subtree a else l.subtree a)
  | [] => by cases c <;> simp [Tree.subtree, Tree.child]
  | x :: a => by
      have ih := Tree.subtree_append_child b e l r c a
      show ((Tree.node b e l r).subtree (a ++ [c])).bind (Tree.child x) = _
      rw [ih]
      cases c <;> simp [Tree.subtree]

theorem Tree.subtree_leaf (b e : Nat) :
    ∀ (a : List Bool) (s : Tree), (Tree.leaf b e).subtree a = some s → a = [] ∧ s = Tree.leaf b e
  | [], s, h => by
      simp only [Tree.subtree, Option.some.injEq] at h
      exact ⟨rfl, h.symm⟩
  | x :: a, s, h => by
      simp only [Tree.subtree, Option.bind_eq_some] at h
      obtain ⟨u, hu, hc⟩ := h
      obtain ⟨-, rfl⟩ := Tree.subtree_leaf b e a u hu
      cases x <;> simp [Tree.child] at hc

/-- The nodes of an internal node are the node itself and the nodes of its two
children. -/
theorem Tree.subtree_node_cases (b e : Nat) (l r : Tree) (a : List Bool) (s : Tree)
    (h : (Tree.node b e l r).subtree a = some s) :
    (a = [] ∧ s = Tree.node b e l r) ∨ (∃ a', a = a' ++ [false] ∧ l.subtree a' = some s) ∨
      (∃ a', a = a' ++ [true] ∧ r.subtree a' = some s) := by
  rcases List.eq_nil_or_concat a with rfl | ⟨a', c, rfl⟩
  · left
    simp only [Tree.subtree, Option.some.injEq] at h
    exact ⟨rfl, h.symm⟩
  · rw [List.concat_eq_append, Tree.subtree_append_child] at h
    cases c
    · right; left
      exact ⟨a', by simp, by simpa using h⟩
    · right; right
      exact ⟨a', by simp, by simpa using h⟩

theorem pathNodes_suffix : ∀ (t : Tree) (addr : List Bool) (p : Nat) (a : List Bool),
    a ∈ pathNodes addr t p → addr <:+ a
  | Tree.leaf _ _, addr, p, a, h => by
      simp only [pathNodes, List.mem_singleton] at h
      subst h; exact List.suffix_refl _
  | Tree.node _ _ l r, addr, p, a, h => by
      simp only [pathNodes, List.mem_cons] at h
      rcases h with rfl | h
      · exact List.suffix_refl _
      · split at h
        · exact (List.suffix_cons _ _).trans (pathNodes_suffix l _ p a h)
        · exact (List.suffix_cons _ _).trans (pathNodes_suffix r _ p a h)

theorem pathNodes_cons (t : Tree) (addr : List Bool) (p : Nat) :
    ∃ tail, pathNodes addr t p = addr :: tail ∧ ∀ a ∈ tail, addr.length < a.length := by
  cases t with
  | leaf b e => exact ⟨[], rfl, by simp⟩
  | node b e l r =>
    refine ⟨_, rfl, ?_⟩
    intro a ha
    split at ha
    · have := (pathNodes_suffix l _ p a ha).length_le
      simp only [List.length_cons] at this; omega
    · have := (pathNodes_suffix r _ p a ha).length_le
      simp only [List.length_cons] at this; omega

theorem suffix_false_true {addr b : List Bool} (h1 : (false :: addr) <:+ b)
    (h2 : (true :: addr) <:+ b) : False := by
  rcases List.suffix_or_suffix_of_suffix h1 h2 with h | h
  · have := h.eq_of_length (by simp)
    simp at this
  · have := h.eq_of_length (by simp)
    simp at this

end Paths

/-! ### The postponed along a path -/

section PostProcessSpec
variable {α : Type} [LinearOrderedField α]

theorem pathPostponed_congr (stat stat' : List Bool → Option (NbodySimulatorStatistic α))
    (addr : List Bool) (t : Tree) (p : Nat)
    (h : ∀ a ∈ pathNodes addr t p, stat a = stat' a) :
    pathPostponed stat addr t p = pathPostponed stat' addr t p := by
  unfold pathPostponed
  congr 1
  apply List.map_congr_left
  intro a ha
  simp only [postponedAt, h a ha]

theorem pathPostponed_leaf (stat : List Bool → Option (NbodySimulatorStatistic α))
    (addr : List Bool) (b e p : Nat) :
    pathPostponed stat addr (Tree.leaf b e) p = postponedAt stat addr := by
  simp [pathPostponed, pathNodes, ApplyPostponed_zero]

theorem pathPostponed_node (stat : List Bool → Option (NbodySimulatorStatistic α))
    (addr : List Bool) (b e : Nat) (l r : Tree) (p : Nat) :
    pathPostponed stat addr (Tree.node b e l r) p =
      (postponedAt stat addr).ApplyPostponed
        (if p < l.end_ then pathPostponed stat (false :: addr) l p
          else pathPostponed stat (true :: addr) r p) := by
  unfold pathPostponed
  simp only [pathNodes, List.map_cons, List.foldr_cons]
  split <;> rfl

/-- Changing the postponed of the first node of a path changes the combined
postponed of the path accordingly. -/
theorem pathPostponed_head (stat stat' : List Bool → Option (NbodySimulatorStatistic α))
    (addr : List Bool) (t : Tree) (p : Nat) (x : NbodySimulatorPostponed α)
    (hx : postponedAt stat' addr = (postponedAt stat addr).ApplyPostponed x)
    (h : ∀ a, addr.length < a.length → stat' a = stat a) :
    pathPostponed stat' addr t p = x.ApplyPostponed (pathPostponed stat addr t p) := by
  obtain ⟨tail, ht, hlen⟩ := pathNodes_cons t addr p
  unfold pathPostponed
  rw [ht]
  simp only [List.map_cons, List.foldr_cons, hx]
  have : tail.map (postponedAt stat') = tail.map (postponedAt stat) := by
    apply List.map_congr_left
    intro a ha
    simp only [postponedAt, h a (hlen a ha)]
  rw [this, ApplyPostponed_comm (postponedAt stat addr) x, ApplyPostponed_assoc]

theorem StatsPresent.node_cases {γ : Type}
    {stat : List Bool → Option (NbodySimulatorStatistic γ)}
    {addr : List Bool} {b e : Nat} {l r : Tree} (h : StatsPresent stat addr (Tree.node b e l r)) :
    (stat addr).isSome = true ∧ StatsPresent stat (false :: addr) l ∧
      StatsPresent stat (true :: addr) r := by
  refine ⟨?_, ?_, ?_⟩
  · simpa using h [] _ rfl
  · intro a s hs
    have := h (a ++ [false]) s (by rw [Tree.subtree_append_child]; simpa using hs)
    simpa using this
  · intro a s hs
    have := h (a ++ [true]) s (by rw [Tree.subtree_append_child]; simpa using hs)
    simpa using this

end PostProcessSpec

/-! ### `PostProcess_` -/

section PostProcessMain
variable {α : Type} [LinearOrderedField α]

/-- What `PostProcess_` does on a well-formed subtree whose nodes all own a
statistic: it returns, zeroes the postponed of every node of the subtree,
touches no other statistic, delivers to every point of the subtree the
postponed of all nodes on its path and finalises it, and touches no other
point. -/
theorem PostProcess_spec : ∀ (tree : Tree) (addr : List Bool) (st : State α),
    tree.WellFormed → StatsPresent st.stat addr tree →
    ∃ st', PostProcess_ addr tree st = some st' ∧ st'.log = st.log ∧
      (∀ b, (∀ a s, tree.subtree a = some s → b ≠ a ++ addr) → st'.stat b = st.stat b) ∧
      (∀ a s, tree.subtree a = some s → ∃ ns, st.stat (a ++ addr) = some ns ∧
        st'.stat (a ++ addr) =
          some { postponed_ := NbodySimulatorPostponed.SetZero, summary_ := ns.summary_ }) ∧
      (∀ p, ¬ (tree.begin_ ≤ p ∧ p < tree.end_) →
        st'.query_results.entry p = st.query_results.entry p ∧
          st'.query_results.potential_e_ p = st.query_results.potential_e_ p) ∧
      (∀ p, tree.begin_ ≤ p → p < tree.end_ →
        st'.query_results.entry p =
            (st.query_results.entry p).ApplyPostponed (pathPostponed st.stat addr tree p) ∧
          st'.query_results.potential_e_ p =
            (st'.query_results.entry p).negative_potential_.mid +
              (st'.query_results.entry p).positive_potential_.mid)
  | Tree.leaf b e, addr, st, hwf, hpres => by
      have h0 := hpres [] _ rfl
      simp only [List.nil_append] at h0
      obtain ⟨qs, hqs⟩ := Option.isSome_iff_exists.1 h0
      have hnd : (List.range' b (e - b)).Nodup := List.nodup_range' _ _
      have hloop := leafLoop_spec qs.postponed_ (get_node_iterator ⟨addr, Tree.leaf b e⟩).remaining
        (get_node_iterator ⟨addr, Tree.leaf b e⟩) st.query_results (le_refl _)
      have hL : (get_node_iterator ⟨addr, Tree.leaf b e⟩).toList = List.range' b (e - b) := rfl
      rw [hL] at hloop
      refine ⟨{ st with
          stat := Function.update st.stat addr
            (some { qs with postponed_ := NbodySimulatorPostponed.SetZero })
          query_results :=
            List.foldl (fun acc q => (acc.ApplyPostponed q qs.postponed_).PostProcess q)
              st.query_results (List.range' b (e - b)) }, ?_, ?_, ?_, ?_, ?_, ?_⟩
      · simp only [PostProcess_, hqs, hloop]
      · rfl
      · intro c hc
        have : c ≠ addr := by simpa using hc [] _ rfl
        simp [Function.update_noteq this]
      · intro a s hs
        obtain ⟨rfl, -⟩ := Tree.subtree_leaf b e a s hs
        exact ⟨qs, by simpa using hqs, by simp⟩
      · intro p hp
        have hmem : p ∉ List.range' b (e - b) := by
          rw [List.mem_range'_1]; simp only [Tree.begin_, Tree.end_] at hp; omega
        obtain ⟨h1, h2⟩ := leafFold_entry qs.postponed_ _ st.query_results p hnd
        simp only [hmem, if_false] at h1 h2
        exact ⟨h1, h2⟩
      · intro p hp1 hp2
        have hmem : p ∈ List.range' b (e - b) := by
          rw [List.mem_range'_1]; simp only [Tree.begin_, Tree.end_] at hp1 hp2; omega
        obtain ⟨h1, h2⟩ := leafFold_entry qs.postponed_ _ st.query_results p hnd
        simp only [hmem, if_true] at h1 h2
        have hpp : pathPostponed st.stat addr (Tree.leaf b e) p = qs.postponed_ := by
          rw [pathPostponed_leaf]; simp [postponedAt, hqs]
        rw [hpp]
        refine ⟨h1, ?_⟩
        show _ = (NbodySimulatorResult.entry _ p).negative_potential_.mid +
          (NbodySimulatorResult.entry _ p).positive_potential_.mid
        rw [h1]; exact h2
  | Tree.node b e l r, addr, st, hwf, hpres => by
      obtain ⟨hb, hm, he, wl, wr⟩ := hwf
      have hlt_l := wl.lt
      have hlt_r := wr.lt
      obtain ⟨h0, hpl, hpr⟩ := hpres.node_cases
      obtain ⟨qs, hqs⟩ := Option.isSome_iff_exists.1 h0
      have hl0 := hpl [] _ rfl
      have hr0 := hpr [] _ rfl
      simp only [List.nil_append] at hl0 hr0
      obtain ⟨ls, hls⟩ := Option.isSome_iff_exists.1 hl0
      obtain ⟨rs, hrs⟩ := Option.isSome_iff_exists.1 hr0
      -- the state after the postponed of the node was pushed to the children
      let stat1 : List Bool → Option (NbodySimulatorStatistic α) :=
        Function.update
          (Function.update
            (Function.update st.stat (false :: addr)
              (some { ls with postponed_ := ls.postponed_.ApplyPostponed qs.postponed_ }))
            (true :: addr)
            (some { rs with postponed_ := rs.postponed_.ApplyPostponed qs.postponed_ }))
          addr (some { qs with postponed_ := NbodySimulatorPostponed.SetZero })
      have hne1 : (false :: addr) ≠ addr := by simp
      have hne2 : (true :: addr) ≠ addr := by simp
      have hne3 : (false :: addr) ≠ (true :: addr) := by simp
      have s1a : stat1 addr = some { qs with postponed_ := NbodySimulatorPostponed.SetZero } := by
        simp [stat1]
      have s1r : stat1 (true :: addr) =
          some { rs with postponed_ := rs.postponed_.ApplyPostponed qs.postponed_ } := by
        simp [stat1, Function.update_noteq hne2]
      have s1l : stat1 (false :: addr) =
          some { ls with postponed_ := ls.postponed_.ApplyPostponed qs.postponed_ } := by
        simp [stat1, Function.update_noteq hne1, Function.update_noteq hne3]
      have s1o : ∀ c, c ≠ addr → c ≠ false :: addr → c ≠ true :: addr → stat1 c = st.stat c := by
        intro c h1 h2 h3
        simp [stat1, Function.update_noteq h1, Function.update_noteq h2, Function.update_noteq h3]
      have s1deep : ∀ c, addr.length + 1 < c.length → stat1 c = st.stat c := by
        intro c hc
        apply s1o <;> intro h <;> subst h <;> simp at hc
      have s1sum : ∀ c x, stat1 c = some x → ∃ y, st.stat c = some y ∧ y.summary_ = x.summary_ := by
        intro c x hx
        by_cases h1 : c = addr
        · subst h1; rw [s1a] at hx
          exact ⟨qs, hqs, by simp only [Option.some.injEq] at hx; rw [← hx]⟩
        by_cases h2 : c = false :: addr
        · subst h2; rw [s1l] at hx
          exact ⟨ls, hls, by simp only [Option.some.injEq] at hx; rw [← hx]⟩
        by_cases h3 : c = true :: addr
        · subst h3; rw [s1r] at hx
          exact ⟨rs, hrs, by simp only [Option.some.injEq] at hx; rw [← hx]⟩
        rw [s1o c h1 h2 h3] at hx
        exact ⟨x, hx, rfl⟩
      have s1some : ∀ c, (st.stat c).isSome = true → (stat1 c).isSome = true := by
        intro c hc
        by_cases h1 : c = addr
        · subst h1; rw [s1a]; rfl
        by_cases h2 : c = false :: addr
        · subst h2; rw [s1l]; rfl
        by_cases h3 : c = true :: addr
        · subst h3; rw [s1r]; rfl
        rw [s1o c h1 h2 h3]; exact hc
      have hstep : PostProcess_ addr (Tree.node b e l r) st =
          match PostProcess_ (false :: addr) l { st with stat := stat1 } with
          | none => none
          | some st => PostProcess_ (true :: addr) r st := by
        simp only [PostProcess_, hqs, hls, hrs, stat1]
      -- the left child
      obtain ⟨st2, hrun2, hlog2, hfr2, hz2, hout2, hin2⟩ :=
        PostProcess_spec l (false :: addr) { st with stat := stat1 } wl
          (fun a s hs => s1some _ (hpl a s hs))
      have hnotl : ∀ c, (true :: addr) <:+ c → ∀ a s, l.subtree a = some s →
          c ≠ a ++ false :: addr := by
        intro c hc a s _ h
        subst h
        exact suffix_false_true (List.suffix_append _ _) hc
      have hnotr : ∀ c, (false :: addr) <:+ c → ∀ a s, r.subtree a = some s →
          c ≠ a ++ true :: addr := by
        intro c hc a s _ h
        subst h
        exact suffix_false_true hc (List.suffix_append _ _)
      have hlen : ∀ (c : Bool) (a : List Bool), addr ≠ a ++ c :: addr := by
        intro c a h
        have := congrArg List.length h
        simp at this
        omega
      -- the right child
      obtain ⟨st3, hrun3, hlog3, hfr3, hz3, hout3, hin3⟩ :=
        PostProcess_spec r (true :: addr) st2 wr
          (fun a s hs => by
            rw [hfr2 _ (hnotl _ (List.suffix_append _ _))]
            exact s1some _ (hpr a s hs))
      refine ⟨st3, ?_, ?_, ?_, ?_, ?_, ?_⟩
      · rw [hstep, hrun2]; exact hrun3
      · rw [hlog3, hlog2]
      · intro c hc
        have c1 : c ≠ addr := by simpa using hc [] _ rfl
        have c2 : c ≠ false :: addr := by
          simpa using hc [false] l (by simp [Tree.subtree, Tree.child])
        have c3 : c ≠ true :: addr := by
          simpa using hc [true] r (by simp [Tree.subtree, Tree.child])
        rw [hfr3 c (fun a s hs => by
              have := hc (a ++ [true]) s (by rw [Tree.subtree_append_child]; simpa using hs)
              simpa using this),
          hfr2 c (fun a s hs => by
              have := hc (a ++ [false]) s (by rw [Tree.subtree_append_child]; simpa using hs)
              simpa using this)]
        exact s1o c c1 c2 c3
      · intro a s hs
        rcases Tree.subtree_node_cases b e l r a s hs with ⟨rfl, -⟩ | ⟨a', rfl, hs'⟩ | ⟨a', rfl, hs'⟩
        · refine ⟨qs, by simpa using hqs, ?_⟩
          simp only [List.nil_append]
          rw [hfr3 addr (fun a s _ => hlen true a), hfr2 addr (fun a s _ => hlen false a)]
          exact s1a
        · obtain ⟨ns1, hn1, hn2⟩ := hz2 a' s hs'
          obtain ⟨y, hy, hsum⟩ := s1sum _ _ hn1
          refine ⟨y, by simpa using hy, ?_⟩
          have e1 : a' ++ [false] ++ addr = a' ++ false :: addr := by simp
          rw [e1, hfr3 _ (hnotr _ (List.suffix_append _ _)), hn2, hsum]
        · obtain ⟨ns1, hn1, hn2⟩ := hz3 a' s hs'
          rw [hfr2 _ (hnotl _ (List.suffix_append _ _))] at hn1
          obtain ⟨y, hy, hsum⟩ := s1sum _ _ hn1
          refine ⟨y, by simpa using hy, ?_⟩
          have e1 : a' ++ [true] ++ addr = a' ++ true :: addr := by simp
          rw [e1, hn2, hsum]
      · intro p hp
        simp only [Tree.begin_, Tree.end_] at hp
        obtain ⟨h31, h32⟩ := hout3 p (by omega)
        obtain ⟨h21, h22⟩ := hout2 p (by omega)
        exact ⟨h31.trans h21, h32.trans h22⟩
      · intro p hp1 hp2
        simp only [Tree.begin_, Tree.end_] at hp1 hp2
        rw [pathPostponed_node]
        have hq : postponedAt st.stat addr = qs.postponed_ := by simp [postponedAt, hqs]
        by_cases hpl' : p < l.end_
        · obtain ⟨h31, h32⟩ := hout3 p (by omega)
          obtain ⟨h21, h22⟩ := hin2 p (by omega) hpl'
          have hpath : pathPostponed stat1 (false :: addr) l p =
              qs.postponed_.ApplyPostponed (pathPostponed st.stat (false :: addr) l p) := by
            apply pathPostponed_head
            · simp [postponedAt, s1l, hls]
            · intro a ha; exact s1deep a (by simpa using ha)
          simp only [hpl', if_true, hq]
          refine ⟨?_, ?_⟩
          · rw [h31, h21]
            show (st.query_results.entry p).ApplyPostponed (pathPostponed stat1 (false :: addr) l p)
              = _
            rw [hpath]
          · rw [h32, h22, h31]
        · obtain ⟨h21, h22⟩ := hout2 p (by omega)
          obtain ⟨h31, h32⟩ := hin3 p (by omega) (by omega)
          have hpath : pathPostponed st2.stat (true :: addr) r p =
              qs.postponed_.ApplyPostponed (pathPostponed st.stat (true :: addr) r p) := by
            rw [pathPostponed_congr st2.stat stat1 _ _ _
              (fun a ha => hfr2 a (hnotl a (pathNodes_suffix r _ p a ha)))]
            apply pathPostponed_head
            · simp [postponedAt, s1r, hrs]
            · intro a ha; exact s1deep a (by simpa using ha)
          simp only [hpl', if_false, hq]
          refine ⟨?_, h32⟩
          rw [h31, h21, hpath]

end PostProcessMain

/-! ### `TripletreeBase_` -/

section BaseSpec
variable {α : Type} [LinearOrderedField α]

theorem flushNode_eq (global : NbodySimulatorGlobal α) (r : TripleRangeDistanceSq)
    (node_index : Nat) (st : State α)
    (h : (st.stat (r.node node_index).addr).isSome = true) :
    TripletreeBase_flushNode global r node_index st =
      some (flushNodeSpec global r node_index st) := by
  obtain ⟨ns, hns⟩ := Option.isSome_iff_exists.1 h
  unfold TripletreeBase_flushNode flushNodeSpec
  split
  · simp only [hns]
    rw [flushLoop_spec _ _ _ _ _ (le_refl _)]
    rfl
  · rfl

theorem flushNodeSpec_log (global : NbodySimulatorGlobal α) (r : TripleRangeDistanceSq)
    (node_index : Nat) (st : State α) :
    (flushNodeSpec global r node_index st).log = st.log := by
  unfold flushNodeSpec
  split
  · split <;> rfl
  · rfl

theorem flushNodeSpec_isSome (global : NbodySimulatorGlobal α) (r : TripleRangeDistanceSq)
    (node_index : Nat) (st : State α) (a : List Bool) (h : (st.stat a).isSome = true) :
    ((flushNodeSpec global r node_index st).stat a).isSome = true := by
  unfold flushNodeSpec
  split
  · split
    · exact h
    · simp only
      by_cases ha : a = (r.node node_index).addr
      · subst ha; simp
      · rw [Function.update_noteq ha]; exact h
  · exact h

/-- The base case on a node triple whose first node is not empty and whose
nodes own statistics: it returns the state described by `baseSpec`. -/
theorem TripletreeBase_eq (global : NbodySimulatorGlobal α) (r : TripleRangeDistanceSq)
    (st : State α) (hne : (r.node 0).begin_ < (r.node 0).end_)
    (hs : ∀ i, (st.stat (r.node i).addr).isSome = true) :
    TripletreeBase_ global r st = some (baseSpec global r st) := by
  obtain ⟨loc', hrun, -⟩ := firstLoop_spec global r
    ((get_node_iterator (r.node 0)).remaining + 1) (get_node_iterator (r.node 0))
    { point_postponeds := List.replicate 3 NbodySimulatorPostponed.SetZero
      distance_sq_set := ⟨0, 0, 0⟩ }
    (st.record (Event.base r)) hne (Nat.le_succ _) (by simp)
  have hst : ({ stat := (st.record (Event.base r)).stat
                query_results :=
                  ((get_node_iterator (r.node 0)).toList.flatMap fun i =>
                    (GetNextNodeIterator_ r 0 ⟨i + 1, (get_node_iterator (r.node 0)).end_⟩).toList.flatMap
                      fun j =>
                      (GetNextNodeIterator_ r 1
                        ⟨j + 1, (GetNextNodeIterator_ r 0
                          ⟨i + 1, (get_node_iterator (r.node 0)).end_⟩).end_⟩).toList.map
                        fun k => (⟨i, j, k⟩ : TripleDistanceSq)).foldl (applyExact global)
                    (st.record (Event.base r)).query_results
                log := (st.record (Event.base r)).log ++
                  ((get_node_iterator (r.node 0)).toList.flatMap fun i =>
                    (GetNextNodeIterator_ r 0 ⟨i + 1, (get_node_iterator (r.node 0)).end_⟩).toList.flatMap
                      fun j =>
                      (GetNextNodeIterator_ r 1
                        ⟨j + 1, (GetNextNodeIterator_ r 0
                          ⟨i + 1, (get_node_iterator (r.node 0)).end_⟩).end_⟩).toList.map
                        fun k => (⟨i, j, k⟩ : TripleDistanceSq)).map Event.exact } : State α) =
      baseLoopSpec global r st := by
    simp only [baseLoopSpec, baseTriples, State.record, get_node_iterator, List.append_assoc,
      List.singleton_append]
  rw [hst] at hrun
  have h0 : ∀ i, ((baseLoopSpec global r st).stat (r.node i).addr).isSome = true := hs
  have h1 : ∀ i, ((flushNodeSpec global r 0 (baseLoopSpec global r st)).stat
      (r.node i).addr).isSome = true := fun i => flushNodeSpec_isSome _ _ _ _ _ (h0 i)
  have h2 : ∀ i, ((flushNodeSpec global r 1 (flushNodeSpec global r 0
      (baseLoopSpec global r st))).stat (r.node i).addr).isSome = true :=
    fun i => flushNodeSpec_isSome _ _ _ _ _ (h1 i)
  unfold TripletreeBase_
  simp only [hrun, flushNode_eq global r 0 _ (h0 0), flushNode_eq global r 1 _ (h1 1),
    flushNode_eq global r 2 _ (h2 2)]
  rfl

end BaseSpec

/-! ### Log and potentials -/

section RunInvariant
variable {α : Type} [LinearOrderedField α]

theorem mem_tripleSet {r : TripleRangeDistanceSq} {d : TripleDistanceSq} :
    d ∈ tripleSet r ↔
      d.p0 ∈ pointsOf r.node0 ∧ d.p1 ∈ pointsOf r.node1 ∧ d.p2 ∈ pointsOf r.node2 ∧
        d.p0 < d.p1 ∧ d.p1 < d.p2 := by
  unfold tripleSet
  simp only [Multiset.mem_bind, Multiset.mem_coe]
  constructor
  · rintro ⟨i, hi, j, hj, k, hk, h⟩
    split at h
    · rename_i hlt
      rw [Multiset.mem_singleton] at h
      subst h
      exact ⟨hi, hj, hk, hlt.1, hlt.2⟩
    · simp at h
  · rintro ⟨h0, h1, h2, h3, h4⟩
    refine ⟨d.p0, h0, d.p1, h1, d.p2, h2, ?_⟩
    simp [h3, h4]

theorem exactEvents_append (l1 l2 : List Event) :
    exactEvents (l1 ++ l2) = exactEvents l1 ++ exactEvents l2 := by
  simp [exactEvents, List.filterMap_append]

theorem exactEvents_map_exact (L : List TripleDistanceSq) :
    exactEvents (L.map Event.exact) = L := by
  induction L with
  | nil => rfl
  | cons a L ih =>
    simp only [List.map_cons, exactEvents, List.filterMap_cons] at ih ⊢
    rw [ih]

theorem exactEvents_record_helper {γ : Type} (st : State γ) (level : Nat)
    (r : TripleRangeDistanceSq)
    (al : Bool) : exactEvents (st.record (Event.helper level r al)).log = exactEvents st.log := by
  simp [State.record, exactEvents_append, exactEvents]

theorem exactEvents_record_canonical {γ : Type} (st : State γ) (r : TripleRangeDistanceSq) :
    exactEvents (st.record (Event.canonical r)).log = exactEvents st.log := by
  simp [State.record, exactEvents_append, exactEvents]

theorem negSum_add (global : NbodySimulatorGlobal α) (a b : Multiset TripleDistanceSq)
    (p : Nat) : negSum global (a + b) p = negSum global a p + negSum global b p := by
  simp [negSum, Multiset.map_add, Multiset.sum_add]

theorem posSum_add (global : NbodySimulatorGlobal α) (a b : Multiset TripleDistanceSq)
    (p : Nat) : posSum global (a + b) p = posSum global a p + posSum global b p := by
  simp [posSum, Multiset.map_add, Multiset.sum_add]

/-- One exact contribution, seen at the negative and positive potential of a
point. -/
theorem applyExact_potential (global : NbodySimulatorGlobal α) (qr : NbodySimulatorResult α)
    (d : TripleDistanceSq) (h1 : d.p0 < d.p1) (h2 : d.p1 < d.p2) (p : Nat) :
    (applyExact global qr d).negative_potential_ p =
        (qr.negative_potential_ p).add
          (Range.Init (if d.has p then negPart (global.ext.EvalUnnormOnSq d) else 0)
            (if d.has p then negPart (global.ext.EvalUnnormOnSq d) else 0)) ∧
      (applyExact global qr d).positive_potential_ p =
        (qr.positive_potential_ p).add
          (Range.Init (if d.has p then posPart (global.ext.EvalUnnormOnSq d) else 0)
            (if d.has p then posPart (global.ext.EvalUnnormOnSq d) else 0)) := by
  have hc : (contribution global d).negative_potential_ =
        Range.Init (negPart (global.ext.EvalUnnormOnSq d)) (negPart (global.ext.EvalUnnormOnSq d)) ∧
      (contribution global d).positive_potential_ =
        Range.Init (posPart (global.ext.EvalUnnormOnSq d))
          (posPart (global.ext.EvalUnnormOnSq d)) := by
    unfold contribution negPart posPart
    split <;> simp
  obtain ⟨hn, hp⟩ := hc
  have h01 : d.p0 ≠ d.p1 := by omega
  have h02 : d.p0 ≠ d.p2 := by omega
  have h12 : d.p1 ≠ d.p2 := by omega
  simp only [applyExact, NbodySimulatorResult.ApplyPostponed, hn, hp, TripleDistanceSq.has]
  by_cases e2 : p = d.p2
  · subst e2
    simp [Function.update_noteq h02.symm, Function.update_noteq h12.symm, h02.symm, h12.symm]
  · by_cases e1 : p = d.p1
    · subst e1
      simp [Function.update_noteq e2, Function.update_noteq h01.symm, h01.symm, e2]
    · by_cases e0 : p = d.p0
      · subst e0
        simp [Function.update_noteq e2, Function.update_noteq e1, e1, e2]
      · simp [Function.update_noteq e2, Function.update_noteq e1, Function.update_noteq e0, e0,
          e1, e2, Range.add_zero_range]

theorem applyExact_fold_potential (global : NbodySimulatorGlobal α) :
    ∀ (L : List TripleDistanceSq) (qr : NbodySimulatorResult α) (p : Nat),
      (∀ d ∈ L, d.p0 < d.p1 ∧ d.p1 < d.p2) →
      (L.foldl (applyExact global) qr).negative_potential_ p =
          (qr.negative_potential_ p).add
            (Range.Init (negSum global (L : Multiset TripleDistanceSq) p)
              (negSum global (L : Multiset TripleDistanceSq) p)) ∧
        (L.foldl (applyExact global) qr).positive_potential_ p =
          (qr.positive_potential_ p).add
            (Range.Init (posSum global (L : Multiset TripleDistanceSq) p)
              (posSum global (L : Multiset TripleDistanceSq) p)) := by
  intro L
  induction L with
  | nil =>
    intro qr p _
    simp only [List.foldl_nil, negSum, posSum, Multiset.coe_nil, Multiset.map_zero,
      Multiset.sum_zero, Range.add_zero_range, and_self]
  | cons a L ih =>
    intro qr p hL
    obtain ⟨h1, h2⟩ := ih (applyExact global qr a) p (fun d hd => hL d (List.mem_cons_of_mem _ hd))
    obtain ⟨ha1, ha2⟩ := hL a (List.mem_cons_self _ _)
    obtain ⟨e1, e2⟩ := applyExact_potential global qr a ha1 ha2 p
    simp only [List.foldl_cons]
    rw [h1, h2, e1, e2]
    simp only [negSum, posSum, ← Multiset.cons_coe, Multiset.map_cons, Multiset.sum_cons,
      Range.add, Range.Init, add_assoc, and_self]

end RunInvariant

/-! ### The invariant of a run -/

section RunSteps
variable {α : Type} [LinearOrderedField α]

theorem flushFold_potential (pp : NbodySimulatorPostponed α)
    (hn : pp.negative_potential_ = Range.Init 0 0) (hp : pp.positive_potential_ = Range.Init 0 0) :
    ∀ (pts : List Nat) (s : NbodySimulatorSummary α) (qr : NbodySimulatorResult α),
      (flushFold pp pts s qr).2.negative_potential_ = qr.negative_potential_ ∧
        (flushFold pp pts s qr).2.positive_potential_ = qr.positive_potential_ := by
  intro pts
  induction pts with
  | nil => intro s qr; exact ⟨rfl, rfl⟩
  | cons a pts ih =>
    intro s qr
    obtain ⟨h1, h2⟩ := ih (s.Accumulate (qr.ApplyPostponed a pp) a) (qr.ApplyPostponed a pp)
    simp only [flushFold, List.foldl_cons] at h1 h2 ⊢
    rw [h1, h2]
    simp [NbodySimulatorResult.ApplyPostponed, hn, hp, Range.add_zero_range]

/-- Flushing one slot keeps the invariant on the statistics and does not
change the potentials, as long as every postponed is zero. -/
theorem flushNodeSpec_inv (global : NbodySimulatorGlobal α) (t : Tree)
    (r : TripleRangeDistanceSq) (node_index : Nat) (st : State α)
    (hv : (r.node node_index).Valid t)
    (h : ∀ n : TreeType, n.Valid t →
      ∃ s, st.stat n.addr = some s ∧ s.postponed_ = NbodySimulatorPostponed.SetZero) :
    (∀ n : TreeType, n.Valid t →
        ∃ s, (flushNodeSpec global r node_index st).stat n.addr = some s ∧
          s.postponed_ = NbodySimulatorPostponed.SetZero) ∧
      (flushNodeSpec global r node_index st).query_results.negative_potential_ =
        st.query_results.negative_potential_ ∧
      (flushNodeSpec global r node_index st).query_results.positive_potential_ =
        st.query_results.positive_potential_ := by
  obtain ⟨ns, hns, hz⟩ := h _ hv
  unfold flushNodeSpec
  split
  · simp only [hns]
    refine ⟨?_, ?_⟩
    · intro n hn
      by_cases ha : n.addr = (r.node node_index).addr
      · rw [ha]
        exact ⟨_, Function.update_same _ _ _, rfl⟩
      · obtain ⟨s, hs, hsz⟩ := h n hn
        exact ⟨s, by rw [Function.update_noteq ha]; exact hs, hsz⟩
    · apply flushFold_potential
      · rw [hz]; rfl
      · rw [hz]; rfl
  · exact ⟨h, rfl, rfl⟩

/-- The base case advances the invariant of the run by the triples of its
node triple. -/
theorem RunInv.base_step {global : NbodySimulatorGlobal α} {t : Tree}
    {acc0 acc : Multiset TripleDistanceSq} {st : State α} (hwf : t.WellFormed)
    (hR : RunInv global t acc0 acc st) {r : TripleRangeDistanceSq} (hs : SlotInv t 3 true r) :
    TripletreeBase_ global r st = some (baseSpec global r st) ∧
      RunInv global t acc0 (acc + tripleSet r) (baseSpec global r st) := by
  obtain ⟨hstat, hlog, hpot⟩ := hR
  have hv : ∀ i, (r.node i).Valid t := hs.valid_node
  have hpres : ∀ i, (st.stat (r.node i).addr).isSome = true := by
    intro i
    obtain ⟨s, hs', -⟩ := hstat _ (hv i)
    rw [hs']; rfl
  have hne : (r.node 0).begin_ < (r.node 0).end_ := ((hv 0).wf hwf).lt
  refine ⟨TripletreeBase_eq global r st hne hpres, ?_⟩
  obtain ⟨v0, v1, v2, p0, p1, -⟩ := hs
  have a0 : Agree r.node0 r.node1 := by simpa [PairInv] using p0
  have a1 : Agree r.node1 r.node2 := by simpa [PairInv] using p1
  have hcoe := baseTriples_coe r (v0.eq_of_addr v1) (v1.eq_of_addr v2) a0 a1
  have hsorted : ∀ d ∈ baseTriples r, d.p0 < d.p1 ∧ d.p1 < d.p2 := by
    intro d hd
    have : d ∈ tripleSet r := by rw [← hcoe]; exact hd
    rw [mem_tripleSet] at this
    exact ⟨this.2.2.2.1, this.2.2.2.2⟩
  -- the three flushes
  have hL : ∀ n : TreeType, n.Valid t →
      ∃ s, (baseLoopSpec global r st).stat n.addr = some s ∧
        s.postponed_ = NbodySimulatorPostponed.SetZero := hstat
  obtain ⟨f0s, f0n, f0p⟩ := flushNodeSpec_inv global t r 0 _ (hv 0) hL
  obtain ⟨f1s, f1n, f1p⟩ := flushNodeSpec_inv global t r 1 _ (hv 1) f0s
  obtain ⟨f2s, f2n, f2p⟩ := flushNodeSpec_inv global t r 2 _ (hv 2) f1s
  refine ⟨f2s, ?_, ?_⟩
  · simp only [baseSpec, flushNodeSpec_log, baseLoopSpec]
    rw [exactEvents_append]
    have : exactEvents (Event.base r :: (baseTriples r).map Event.exact) = baseTriples r := by
      have := exactEvents_map_exact (baseTriples r)
      simpa [exactEvents] using this
    rw [this, ← Multiset.coe_add, hlog, hcoe, add_assoc]
  · intro p
    obtain ⟨e1, e2⟩ := applyExact_fold_potential global (baseTriples r) st.query_results p hsorted
    obtain ⟨q1, q2⟩ := hpot p
    simp only [baseSpec]
    rw [f2n, f1n, f0n, f2p, f1p, f0p]
    simp only [baseLoopSpec]
    rw [e1, e2, q1, q2, hcoe, negSum_add, posSum_add]
    simp [Range.add, Range.Init]

end RunSteps

/-! ### `PreProcess_`, `Init` and `Compute` -/

section ComputeSpec
variable {α : Type} [LinearOrderedField α]

theorem ne_append_cons (addr : List Bool) (c : Bool) (a : List Bool) : addr ≠ a ++ c :: addr := by
  intro h
  have := congrArg List.length h
  simp at this
  omega

/-- What `PreProcess_` does on a subtree whose nodes all own a statistic: it
returns and has zeroed the statistic of every node of the subtree, and nothing
else has changed. -/
theorem PreProcess_spec : ∀ (tree : Tree) (addr : List Bool) (st : State α),
    StatsPresent st.stat addr tree →
    ∃ st', PreProcess_ addr tree st = some st' ∧ st'.log = st.log ∧
      st'.query_results = st.query_results ∧
      (∀ b, (∀ a s, tree.subtree a = some s → b ≠ a ++ addr) → st'.stat b = st.stat b) ∧
      (∀ a s, tree.subtree a = some s →
        st'.stat (a ++ addr) = some NbodySimulatorStatistic.SetZero)
  | Tree.leaf b e, addr, st, hpres => by
      have h0 := hpres [] _ rfl
      simp only [List.nil_append] at h0
      obtain ⟨qs, hqs⟩ := Option.isSome_iff_exists.1 h0
      refine ⟨{ st with
          stat := Function.update st.stat addr (some NbodySimulatorStatistic.SetZero) },
        ?_, rfl, rfl, ?_, ?_⟩
      · simp only [PreProcess_, hqs]
      · intro c hc
        have : c ≠ addr := by simpa using hc [] _ rfl
        simp [Function.update_noteq this]
      · intro a s hs
        obtain ⟨rfl, -⟩ := Tree.subtree_leaf b e a s hs
        simp
  | Tree.node b e l r, addr, st, hpres => by
      obtain ⟨h0, hpl, hpr⟩ := hpres.node_cases
      obtain ⟨qs, hqs⟩ := Option.isSome_iff_exists.1 h0
      have hnotl : ∀ c, (true :: addr) <:+ c → ∀ a s, l.subtree a = some s →
          c ≠ a ++ false :: addr := by
        intro c hc a s _ h
        subst h
        exact suffix_false_true (List.suffix_append _ _) hc
      have hnotr : ∀ c, (false :: addr) <:+ c → ∀ a s, r.subtree a = some s →
          c ≠ a ++ true :: addr := by
        intro c hc a s _ h
        subst h
        exact suffix_false_true hc (List.suffix_append _ _)
      obtain ⟨st2, hrun2, hlog2, hqr2, hfr2, hz2⟩ :=
        PreProcess_spec l (false :: addr)
          { st with
            stat := Function.update st.stat addr (some NbodySimulatorStatistic.SetZero) }
          (fun a s hs => by
            simp only
            rw [Function.update_noteq (ne_append_cons addr false a).symm]
            exact hpl a s hs)
      obtain ⟨st3, hrun3, hlog3, hqr3, hfr3, hz3⟩ :=
        PreProcess_spec r (true :: addr) st2
          (fun a s hs => by
            rw [hfr2 _ (hnotl _ (List.suffix_append _ _))]
            simp only
            rw [Function.update_noteq (ne_append_cons addr true a).symm]
            exact hpr a s hs)
      refine ⟨st3, ?_, ?_, ?_, ?_, ?_⟩
      · simp only [PreProcess_, hqs, hrun2, hrun3]
      · rw [hlog3, hlog2]
      · rw [hqr3, hqr2]
      · intro c hc
        have c1 : c ≠ addr := by simpa using hc [] _ rfl
        rw [hfr3 c (fun a s hs => by
              have := hc (a ++ [true]) s (by rw [Tree.subtree_append_child]; simpa using hs)
              simpa using this),
          hfr2 c (fun a s hs => by
              have := hc (a ++ [false]) s (by rw [Tree.subtree_append_child]; simpa using hs)
              simpa using this)]
        simp [Function.update_noteq c1]
      · intro a s hs
        rcases Tree.subtree_node_cases b e l r a s hs with ⟨rfl, -⟩ | ⟨a', rfl, hs'⟩ | ⟨a', rfl, hs'⟩
        · simp only [List.nil_append]
          rw [hfr3 addr (fun a s _ => ne_append_cons addr true a),
            hfr2 addr (fun a s _ => ne_append_cons addr false a)]
          simp
        · have e1 : a' ++ [false] ++ addr = a' ++ false :: addr := by simp
          rw [e1, hfr3 _ (hnotr _ (List.suffix_append _ _))]
          exact hz2 a' s hs'
        · have e1 : a' ++ [true] ++ addr = a' ++ true :: addr := by simp
          rw [e1]
          exact hz3 a' s hs'

/-- After `ResetStatisticRecursion_` every node of the subtree owns a zero
statistic, and no other statistic has changed. -/
theorem ResetStatisticRecursion_spec : ∀ (tree : Tree) (addr : List Bool)
    (stat : List Bool → Option (NbodySimulatorStatistic α)),
    (∀ b, (∀ a s, tree.subtree a = some s → b ≠ a ++ addr) →
        ResetStatisticRecursion_ stat addr tree b = stat b) ∧
      (∀ a s, tree.subtree a = some s →
        ResetStatisticRecursion_ stat addr tree (a ++ addr) =
          some NbodySimulatorStatistic.SetZero)
  | Tree.leaf b e, addr, stat => by
      refine ⟨?_, ?_⟩
      · intro c hc
        have : c ≠ addr := by simpa using hc [] _ rfl
        simp [ResetStatisticRecursion_, Function.update_noteq this]
      · intro a s hs
        obtain ⟨rfl, -⟩ := Tree.subtree_leaf b e a s hs
        simp [ResetStatisticRecursion_]
  | Tree.node b e l r, addr, stat => by
      have hnotr : ∀ c, (false :: addr) <:+ c → ∀ a s, r.subtree a = some s →
          c ≠ a ++ true :: addr := by
        intro c hc a s _ h
        subst h
        exact suffix_false_true hc (List.suffix_append _ _)
      obtain ⟨hfr2, hz2⟩ := ResetStatisticRecursion_spec l (false :: addr)
        (Function.update stat addr (some NbodySimulatorStatistic.SetZero))
      obtain ⟨hfr3, hz3⟩ := ResetStatisticRecursion_spec r (true :: addr)
        (ResetStatisticRecursion_ (Function.update stat addr
          (some NbodySimulatorStatistic.SetZero)) (false :: addr) l)
      refine ⟨?_, ?_⟩
      · intro c hc
        have c1 : c ≠ addr := by simpa using hc [] _ rfl
        simp only [ResetStatisticRecursion_]
        rw [hfr3 c (fun a s hs => by
              have := hc (a ++ [true]) s (by rw [Tree.subtree_append_child]; simpa using hs)
              simpa using this),
          hfr2 c (fun a s hs => by
              have := hc (a ++ [false]) s (by rw [Tree.subtree_append_child]; simpa using hs)
              simpa using this)]
        simp [Function.update_noteq c1]
      · intro a s hs
        simp only [ResetStatisticRecursion_]
        rcases Tree.subtree_node_cases b e l r a s hs with ⟨rfl, -⟩ | ⟨a', rfl, hs'⟩ | ⟨a', rfl, hs'⟩
        · simp only [List.nil_append]
          rw [hfr3 addr (fun a s _ => ne_append_cons addr true a),
            hfr2 addr (fun a s _ => ne_append_cons addr false a)]
          simp
        · have e1 : a' ++ [false] ++ addr = a' ++ false :: addr := by simp
          rw [e1, hfr3 _ (hnotr _ (List.suffix_append _ _))]
          exact hz2 a' s hs'
        · have e1 : a' ++ [true] ++ addr = a' ++ true :: addr := by simp
          rw [e1]
          exact hz3 a' s hs'

/-- After `Init` every node of the tree owns a statistic. -/
theorem Init_statsPresent (t : Tree) (st : State α) : StatsPresent (Init t st).stat [] t := by
  intro a s hs
  have := (ResetStatisticRecursion_spec t [] st.stat).2 a s hs
  simp only [Init, ResetStatistic]
  rw [this]; rfl

theorem pathNodes_valid : ∀ (tree : Tree) (addr : List Bool) (p : Nat) (a : List Bool),
    a ∈ pathNodes addr tree p → ∃ a' s, tree.subtree a' = some s ∧ a = a' ++ addr
  | Tree.leaf _ _, addr, p, a, h => by
      simp only [pathNodes, List.mem_singleton] at h
      exact ⟨[], _, rfl, by simpa using h⟩
  | Tree.node b e l r, addr, p, a, h => by
      simp only [pathNodes, List.mem_cons] at h
      rcases h with rfl | h
      · exact ⟨[], _, rfl, by simp⟩
      · split at h
        · obtain ⟨a', s, hs, rfl⟩ := pathNodes_valid l _ p a h
          exact ⟨a' ++ [false], s, by rw [Tree.subtree_append_child]; simpa using hs, by simp⟩
        · obtain ⟨a', s, hs, rfl⟩ := pathNodes_valid r _ p a h
          exact ⟨a' ++ [true], s, by rw [Tree.subtree_append_child]; simpa using hs, by simp⟩

theorem pathPostponed_eq_zero (stat : List Bool → Option (NbodySimulatorStatistic α))
    (addr : List Bool) (t : Tree) (p : Nat)
    (h : ∀ a ∈ pathNodes addr t p, postponedAt stat a = NbodySimulatorPostponed.SetZero) :
    pathPostponed stat addr t p = NbodySimulatorPostponed.SetZero := by
  unfold pathPostponed
  have key : ∀ L : List (List Bool),
      (∀ a ∈ L, postponedAt stat a = NbodySimulatorPostponed.SetZero) →
      (L.map (postponedAt stat)).foldr NbodySimulatorPostponed.ApplyPostponed
        NbodySimulatorPostponed.SetZero = NbodySimulatorPostponed.SetZero := by
    intro L
    induction L with
    | nil => intro _; rfl
    | cons a L ih =>
      intro hL
      simp only [List.map_cons, List.foldr_cons]
      rw [ih (fun b hb => hL b (List.mem_cons_of_mem _ hb)), hL a (List.mem_cons_self _ _),
        ApplyPostponed_zero]
  exact key _ h

theorem heightSum_root (t : Tree) :
    5 * (heightSum (TripleRangeDistanceSq.Init (TreeType.root t) (TreeType.root t)
      (TreeType.root t)) + 1) ≤ computeFuel t := by
  simp only [heightSum, TripleRangeDistanceSq.Init, TreeType.root, computeFuel]
  omega

theorem SlotInv.at_root (t : Tree) :
    SlotInv t 0 true (TripleRangeDistanceSq.Init (TreeType.root t) (TreeType.root t)
      (TreeType.root t)) := by
  refine ⟨TreeType.Valid.root_valid t, TreeType.Valid.root_valid t, TreeType.Valid.root_valid t, ?_, ?_, ?_⟩
  · simp [PairInv, Agree, TripleRangeDistanceSq.Init]
  · simp [PairInv, Agree, TripleRangeDistanceSq.Init]
  · intro _ i hi; omega

/-- The run of `Compute` on a well-formed tree whose nodes own statistics: it
returns; the triples evaluated are those of the root triple, and the potentials
of every point of the tree are the sums over these triples. -/
theorem Compute_spec (global : NbodySimulatorGlobal α) (t : Tree) (hwf : t.WellFormed)
    (st : State α) (hpres : StatsPresent st.stat [] t) :
    ∃ st', Compute global t st = some st' ∧
      (exactEvents st'.log : Multiset TripleDistanceSq) =
        (exactEvents st.log : Multiset TripleDistanceSq) +
          tripleSet (TripleRangeDistanceSq.Init (TreeType.root t) (TreeType.root t)
            (TreeType.root t)) ∧
      ∀ p, t.begin_ ≤ p → p < t.end_ →
        st'.query_results.negative_potential_ p =
            Range.Init
              (negSum global (tripleSet (TripleRangeDistanceSq.Init (TreeType.root t)
                (TreeType.root t) (TreeType.root t))) p)
              (negSum global (tripleSet (TripleRangeDistanceSq.Init (TreeType.root t)
                (TreeType.root t) (TreeType.root t))) p) ∧
          st'.query_results.positive_potential_ p =
            Range.Init
              (posSum global (tripleSet (TripleRangeDistanceSq.Init (TreeType.root t)
                (TreeType.root t) (TreeType.root t))) p)
              (posSum global (tripleSet (TripleRangeDistanceSq.Init (TreeType.root t)
                (TreeType.root t) (TreeType.root t))) p) ∧
          st'.query_results.potential_e_ p =
            negSum global (tripleSet (TripleRangeDistanceSq.Init (TreeType.root t)
                (TreeType.root t) (TreeType.root t))) p +
              posSum global (tripleSet (TripleRangeDistanceSq.Init (TreeType.root t)
                (TreeType.root t) (TreeType.root t))) p := by
  obtain ⟨st1, hrun1, hlog1, hqr1, -, hz1⟩ := PreProcess_spec t []
    { st with query_results := NbodySimulatorResult.Init (t.end_ - t.begin_) } hpres
  have hR1 : RunInv global t (exactEvents st.log : Multiset TripleDistanceSq) 0 st1 := by
    refine ⟨?_, ?_, ?_⟩
    · intro n hn
      have := hz1 n.addr n.tree hn
      simp only [List.append_nil] at this
      exact ⟨_, this, rfl⟩
    · rw [hlog1, add_zero]
    · intro p
      rw [hqr1]
      simp [NbodySimulatorResult.Init, NbodySimulatorResult.SetZero, negSum, posSum]
  obtain ⟨-, hcan⟩ := engine_master global t hwf
    (RunInv global t (exactEvents st.log : Multiset TripleDistanceSq))
    (fun acc st level al r _ _ hR => by
      obtain ⟨h1, h2, h3⟩ := hR
      exact ⟨h1, by rw [exactEvents_record_helper]; exact h2, h3⟩)
    (fun acc st r _ hR => by
      obtain ⟨h1, h2, h3⟩ := hR
      exact ⟨h1, by rw [exactEvents_record_canonical]; exact h2, h3⟩)
    (fun acc st r hs hR => ⟨_, hR.base_step hwf hs⟩)
    (computeFuel t)
  obtain ⟨st2, hrun2, hR2⟩ := hcan _ global.relative_error_ (1 - global.probability_) st1 0
    (SlotInv.at_root t) (heightSum_root t) hR1
  rw [zero_add] at hR2
  obtain ⟨hstat2, hlog2, hpot2⟩ := hR2
  have hpres2 : StatsPresent st2.stat [] t := by
    intro a s hs
    obtain ⟨x, hx, -⟩ := hstat2 ⟨a, s⟩ hs
    simp only [List.append_nil]
    rw [hx]; rfl
  obtain ⟨st3, hrun3, hlog3, -, -, -, hin3⟩ := PostProcess_spec t [] st2 hwf hpres2
  refine ⟨st3, ?_, ?_, ?_⟩
  · simp only [Compute, hrun1, hrun2, hrun3]
  · rw [hlog3, hlog2]
  · intro p hp1 hp2
    obtain ⟨e1, e2⟩ := hin3 p hp1 hp2
    have hzero : pathPostponed st2.stat [] t p = NbodySimulatorPostponed.SetZero := by
      apply pathPostponed_eq_zero
      intro a ha
      obtain ⟨a', s, hs, rfl⟩ := pathNodes_valid t [] p a ha
      obtain ⟨x, hx, hxz⟩ := hstat2 ⟨a', s⟩ hs
      simp only [List.append_nil, postponedAt]
      simp only at hx
      rw [hx]; exact hxz
    rw [hzero, ApplyPostponed_zero] at e1
    obtain ⟨q1, q2⟩ := hpot2 p
    have n1 : st3.query_results.negative_potential_ p = st2.query_results.negative_potential_ p :=
      congrArg NbodySimulatorPostponed.negative_potential_ e1
    have n2 : st3.query_results.positive_potential_ p = st2.query_results.positive_potential_ p :=
      congrArg NbodySimulatorPostponed.positive_potential_ e1
    refine ⟨n1.trans q1, n2.trans q2, ?_⟩
    rw [e2]
    show (st3.query_results.negative_potential_ p).mid +
      (st3.query_results.positive_potential_ p).mid = _
    rw [n1, n2, q1, q2]
    simp only [Range.mid, Range.Init]
    ring

end ComputeSpec

/-! ### Counting the triples -/

section Counting

theorem mem_bruteForceTriples {N : Nat} {d : TripleDistanceSq} :
    d ∈ bruteForceTriples N ↔ d.p0 < d.p1 ∧ d.p1 < d.p2 ∧ d.p2 < N := by
  unfold bruteForceTriples
  simp only [List.mem_flatMap, List.mem_map, List.mem_filter, List.mem_range,
    decide_eq_true_eq]
  constructor
  · rintro ⟨i, hi, j, hj, k, ⟨hk, hij, hjk⟩, rfl⟩
    exact ⟨hij, hjk, hk⟩
  · rintro ⟨h1, h2, h3⟩
    exact ⟨d.p0, by omega, d.p1, by omega, d.p2, ⟨h3, h1, h2⟩, rfl⟩

theorem nodup_bruteForceTriples (N : Nat) : (bruteForceTriples N).Nodup := by
  unfold bruteForceTriples
  rw [List.nodup_flatMap]
  refine ⟨?_, ?_⟩
  · intro i _
    rw [List.nodup_flatMap]
    refine ⟨?_, ?_⟩
    · intro j _
      apply List.Nodup.map
      · intro a b h
        simpa using h
      · exact (List.nodup_range N).filter _
    · apply (List.nodup_range N).pairwise_of_forall_ne
      intro a _ b _ hab
      simp only [Function.onFun, List.disjoint_left, List.mem_map, List.mem_filter]
      rintro d ⟨k, -, rfl⟩ ⟨k', -, h⟩
      simp only [TripleDistanceSq.mk.injEq] at h
      exact hab h.2.1.symm
  · apply (List.nodup_range N).pairwise_of_forall_ne
    intro a _ b _ hab
    simp only [Function.onFun, List.disjoint_left, List.mem_flatMap, List.mem_map,
      List.mem_filter]
    rintro d ⟨j, -, k, -, rfl⟩ ⟨j', -, k', -, h⟩
    simp only [TripleDistanceSq.mk.injEq] at h
    exact hab h.1.symm

/-- On a tree over the points `[0, N)` the triples of the root triple are the
triples of the reference enumeration. -/
theorem tripleSet_root (t : Tree) (h0 : t.begin_ = 0) :
    tripleSet (TripleRangeDistanceSq.Init (TreeType.root t) (TreeType.root t)
      (TreeType.root t)) = (bruteForceTriples t.end_ : Multiset TripleDistanceSq) := by
  have hp : pointsOf (TreeType.root t) = List.range t.end_ := by
    simp [pointsOf, TreeType.root, TreeType.begin_, TreeType.end_, h0, List.range_eq_range']
  unfold tripleSet bruteForceTriples
  simp only [TripleRangeDistanceSq.Init, hp]
  rw [← Multiset.coe_bind]
  apply Multiset.bind_congr
  intro i _
  rw [← Multiset.coe_bind]
  apply Multiset.bind_congr
  intro j _
  rw [coe_filter_map]

/-- The set of the three points of a triple. -/
theorem has_iff_mem (d : TripleDistanceSq) (p : Nat) :
    d.has p ↔ p ∈ ({d.p0, d.p1, d.p2} : Finset Nat) := by
  simp [TripleDistanceSq.has]

theorem image_bruteForceTriples (N : Nat) :
    (bruteForceTriples N).toFinset.image (fun d => ({d.p0, d.p1, d.p2} : Finset Nat)) =
      Finset.powersetCard 3 (Finset.range N) := by
  ext s
  simp only [Finset.mem_image, List.mem_toFinset, mem_bruteForceTriples,
    Finset.mem_powersetCard]
  constructor
  · rintro ⟨d, ⟨h1, h2, h3⟩, rfl⟩
    refine ⟨?_, ?_⟩
    · intro x hx
      simp only [Finset.mem_insert, Finset.mem_singleton] at hx
      rw [Finset.mem_range]; omega
    · rw [Finset.card_eq_three]
      exact ⟨d.p0, d.p1, d.p2, by omega, by omega, by omega, rfl⟩
  · rintro ⟨hs, hc⟩
    rw [Finset.card_eq_three] at hc
    obtain ⟨x, y, z, hxy, hxz, hyz, rfl⟩ := hc
    have hx : x < N := Finset.mem_range.1 (hs (by simp))
    have hy : y < N := Finset.mem_range.1 (hs (by simp))
    have hz : z < N := Finset.mem_range.1 (hs (by simp))
    have key : ∀ a b c : Nat, a < b → b < c → c < N →
        (∀ w, (w = a ∨ w = b ∨ w = c) ↔ (w = x ∨ w = y ∨ w = z)) →
        ∃ d : TripleDistanceSq, (d.p0 < d.p1 ∧ d.p1 < d.p2 ∧ d.p2 < N) ∧
          ({d.p0, d.p1, d.p2} : Finset Nat) = {x, y, z} := by
      intro a b c hab hbc hc hw
      refine ⟨⟨a, b, c⟩, ⟨hab, hbc, hc⟩, ?_⟩
      ext w
      simp only [Finset.mem_insert, Finset.mem_singleton]
      exact hw w
    rcases Nat.lt_or_gt_of_ne hxy with h1 | h1 <;>
      rcases Nat.lt_or_gt_of_ne hxz with h2 | h2 <;>
        rcases Nat.lt_or_gt_of_ne hyz with h3 | h3
    · exact key x y z h1 h3 hz (fun w => by omega)
    · exact key x z y h2 h3 hy (fun w => by omega)
    · omega
    · exact key z x y h2 h1 hy (fun w => by omega)
    · exact key y x z h1 h2 hz (fun w => by omega)
    · omega
    · exact key y z x h3 h2 hx (fun w => by omega)
    · exact key z y x h3 h1 hx (fun w => by omega)

theorem injOn_bruteForceTriples (N : Nat) :
    Set.InjOn (fun d : TripleDistanceSq => ({d.p0, d.p1, d.p2} : Finset Nat))
      (bruteForceTriples N).toFinset := by
  intro d hd d' hd' h
  simp only [Finset.coe_sort_coe, List.coe_toFinset, Set.mem_setOf_eq,
    mem_bruteForceTriples] at hd hd'
  obtain ⟨a, b, c⟩ := d
  obtain ⟨a', b', c'⟩ := d'
  simp only at h hd hd'
  have e := fun w => Finset.ext_iff.1 h w
  simp only [Finset.mem_insert, Finset.mem_singleton] at e
  have e0 := e a
  have e1 := e b
  have e2 := e c
  have e0' := e a'
  have e1' := e b'
  have e2' := e c'
  have : a = a' ∧ b = b' ∧ c = c' := by omega
  obtain ⟨rfl, rfl, rfl⟩ := this
  rfl

/-- The reference enumeration has `C(N, 3)` triples. -/
theorem length_bruteForceTriples (N : Nat) : (bruteForceTriples N).length = Nat.choose N 3 := by
  rw [← List.toFinset_card_of_nodup (nodup_bruteForceTriples N),
    ← Finset.card_image_of_injOn (injOn_bruteForceTriples N), image_bruteForceTriples,
    Finset.card_powersetCard, Finset.card_range]

/-- Of the triples of the reference enumeration, `C(N - 1, 2)` contain a given
point `p < N`. -/
theorem length_filter_has (N p : Nat) (hp : p < N) :
    ((bruteForceTriples N).filter fun d => decide (d.has p)).length = Nat.choose (N - 1) 2 := by
  rw [← List.toFinset_card_of_nodup ((nodup_bruteForceTriples N).filter _),
    List.toFinset_filter]
  have hinj : Set.InjOn (fun d : TripleDistanceSq => ({d.p0, d.p1, d.p2} : Finset Nat))
      ((bruteForceTriples N).toFinset.filter fun d => decide (d.has p) = true) := by
    intro d hd d' hd' h
    apply injOn_bruteForceTriples N _ _ h
    · exact Finset.mem_coe.2 (Finset.mem_filter.1 (Finset.mem_coe.1 hd)).1
    · exact Finset.mem_coe.2 (Finset.mem_filter.1 (Finset.mem_coe.1 hd')).1
  rw [← Finset.card_image_of_injOn hinj]
  have himg : ((bruteForceTriples N).toFinset.filter fun d => decide (d.has p) = true).image
      (fun d => ({d.p0, d.p1, d.p2} : Finset Nat)) =
      (Finset.powersetCard 3 (Finset.range N)).filter (fun s => p ∈ s) := by
    rw [← image_bruteForceTriples]
    ext s
    simp only [Finset.mem_image, Finset.mem_filter, decide_eq_true_eq]
    constructor
    · rintro ⟨d, ⟨hd, hh⟩, rfl⟩
      exact ⟨⟨d, hd, rfl⟩, (has_iff_mem d p).1 hh⟩
    · rintro ⟨⟨d, hd, rfl⟩, hh⟩
      exact ⟨d, ⟨hd, (has_iff_mem d p).2 hh⟩, rfl⟩
  rw [himg]
  have hsplit := Finset.filter_card_add_filter_neg_card_eq_card
    (s := Finset.powersetCard 3 (Finset.range N)) (fun s => p ∈ s)
  have hneg : (Finset.powersetCard 3 (Finset.range N)).filter (fun s => ¬ p ∈ s) =
      Finset.powersetCard 3 ((Finset.range N).erase p) := by
    ext s
    simp only [Finset.mem_filter, Finset.mem_powersetCard, Finset.subset_erase]
    tauto
  rw [hneg, Finset.card_powersetCard, Finset.card_powersetCard,
    Finset.card_erase_of_mem (Finset.mem_range.2 hp), Finset.card_range] at hsplit
  obtain ⟨M, rfl⟩ : ∃ M, N = M + 1 := ⟨N - 1, by omega⟩
  have hc : (M + 1).choose 3 = M.choose 2 + M.choose 3 := Nat.choose_succ_succ' M 2
  rw [hc] at hsplit
  simp only [Nat.add_sub_cancel] at hsplit ⊢
  omega

end Counting

/-! ### The agreement rule -/

/-- C4: `NodeIsAgreeable_(A, B)` returns true exactly when `A` and `B` are the
same node (the same address) or the range of `A` ends at or before the
beginning of the range of `B`. -/
theorem NodeIsAgreeable_iff (node next_node : TreeType) :
    NodeIsAgreeable_ node next_node = true ↔
      (node.addr = next_node.addr ∨ node.end_ ≤ next_node.begin_) := by
  simp [NodeIsAgreeable_, TreeType.ptr_eq]

/-! ### Enumeration of the triples -/

section Claims123
variable {α : Type} [LinearOrderedField α]

theorem sum_filter_map_eq {β : Type} (L : List β) (c : β → Prop) [DecidablePred c] (f : β → α) :
    ((L.filter fun d => decide (c d)).map f).sum = (L.map fun d => if c d then f d else 0).sum := by
  induction L with
  | nil => rfl
  | cons a L ih =>
    by_cases h : c a
    · simp [List.filter_cons, h, ih]
    · simp [List.filter_cons, h, ih]

theorem negSum_bruteForce (global : NbodySimulatorGlobal α) (N p : Nat) :
    negSum global (bruteForceTriples N : Multiset TripleDistanceSq) p =
      bruteForceNegative global N p := by
  unfold negSum bruteForceNegative
  rw [sum_filter_map_eq, Multiset.map_coe, Multiset.sum_coe]
  congr 1
  apply List.map_congr_left
  intro d _
  unfold negPart
  by_cases h1 : d.has p <;> by_cases h2 : global.ext.EvalUnnormOnSq d < 0 <;> simp [h1, h2]

theorem posSum_bruteForce (global : NbodySimulatorGlobal α) (N p : Nat) :
    posSum global (bruteForceTriples N : Multiset TripleDistanceSq) p =
      bruteForcePositive global N p := by
  unfold posSum bruteForcePositive
  rw [sum_filter_map_eq, Multiset.map_coe, Multiset.sum_coe]
  congr 1
  apply List.map_congr_left
  intro d _
  unfold posPart
  by_cases h1 : d.has p <;> by_cases h2 : global.ext.EvalUnnormOnSq d < 0 <;>
    simp [h1, h2, not_le.2, le_of_not_lt]

/-- C1: on a well-formed tree over the points `[0, N)` whose nodes own
statistics, `Compute` returns, and the list of index triples on which it
evaluated the exact contribution has no duplicates, consists exactly of the
triples `i < j < k < N`, and has length `C(N, 3)`. -/
theorem Compute_enumerates_each_triple_once (global : NbodySimulatorGlobal α) (t : Tree)
    (hwf : t.WellFormed) (h0 : t.begin_ = 0) (st : State α)
    (hpres : StatsPresent st.stat [] t) (hlog : st.log = []) :
    ∃ st', Compute global t st = some st' ∧ (exactEvents st'.log).Nodup ∧
      (∀ d, d ∈ exactEvents st'.log ↔ d.p0 < d.p1 ∧ d.p1 < d.p2 ∧ d.p2 < t.end_) ∧
      (exactEvents st'.log).length = Nat.choose t.end_ 3 := by
  obtain ⟨st', hrun, hmul, -⟩ := Compute_spec global t hwf st hpres
  refine ⟨st', hrun, ?_⟩
  rw [hlog, tripleSet_root t h0] at hmul
  have hperm : (exactEvents st'.log).Perm (bruteForceTriples t.end_) := by
    apply Multiset.coe_eq_coe.1
    rw [hmul]
    simp [exactEvents]
  refine ⟨hperm.nodup_iff.2 (nodup_bruteForceTriples _), ?_, ?_⟩
  · intro d
    rw [hperm.mem_iff, mem_bruteForceTriples]
  · rw [hperm.length_eq, length_bruteForceTriples]

theorem Compute_enumerates_each_triple_once_witness :
    exampleTree.WellFormed ∧
      ∃ st', Compute exampleGlobal exampleTree (Init exampleTree exampleState) = some st' ∧
        (exactEvents st'.log).Nodup ∧
        (∀ d, d ∈ exactEvents st'.log ↔ d.p0 < d.p1 ∧ d.p1 < d.p2 ∧ d.p2 < exampleTree.end_) ∧
        (exactEvents st'.log).length = Nat.choose exampleTree.end_ 3 :=
  ⟨by decide,
    Compute_enumerates_each_triple_once exampleGlobal exampleTree (by decide) rfl
      (Init exampleTree exampleState) (Init_statsPresent _ _) rfl⟩

end Claims123

/-! ### Rounding of `Double` -/

/-- The rounding of `Double` on familiar values: `0.1`, `0.2` and `0.3` are the
binary64 numbers nearest to them, `0.1 + 0.2` is `0.30000000000000004` and not
`0.3`, `2 ^ 53 + 1` rounds to `2 ^ 53`, and adding zero or halving the double of
a value changes nothing. -/
theorem Double_rounding_examples :
    Double.ofRat (1 / 10) = ⟨3602879701896397 / 36028797018963968⟩ ∧
    Double.ofRat (2 / 10) = ⟨3602879701896397 / 18014398509481984⟩ ∧
    Double.ofRat (3 / 10) = ⟨5404319552844595 / 18014398509481984⟩ ∧
    Double.ofRat (1 / 10) + Double.ofRat (2 / 10) =
      ⟨5404319552844596 / 18014398509481984⟩ ∧
    Double.ofRat 9007199254740992 + 1 = Double.ofRat 9007199254740992 ∧
    Double.ofRat 9007199254740992 + (1 + 1) = ⟨9007199254740994⟩ ∧
    Double.ofRat (1 / 10) + 0 = Double.ofRat (1 / 10) ∧
    (Double.ofRat (1 / 10) + Double.ofRat (1 / 10)) / 2 = Double.ofRat (1 / 10) := by
  decide!

/-! ### Sums in the order of evaluation -/

section Claims23
variable {α : Type} [LinearOrderedField α]

end Claims23

/-- The amended statement of C2 on doubles, at the input of the
counterexample: on both trees the potentials of every point are the values
obtained by adding the parts of the contributions of the triples containing it
in the order in which the engine evaluated them. -/
theorem Compute_order_on_doubles :
    (Compute exampleDoubleGlobal exampleFiveLeaf (Init exampleFiveLeaf exampleDoubleState)).map
        (fun s => (List.range 5).map fun p =>
          decide (s.query_results.negative_potential_ p =
              Range.Init
                (orderedSum (fun d => negPart (exampleDoubleGlobal.ext.EvalUnnormOnSq d))
                  ((exactEvents s.log).filter fun d => decide (d.has p)))
                (orderedSum (fun d => negPart (exampleDoubleGlobal.ext.EvalUnnormOnSq d))
                  ((exactEvents s.log).filter fun d => decide (d.has p))) ∧
            s.query_results.positive_potential_ p =
              Range.Init
                (orderedSum (fun d => posPart (exampleDoubleGlobal.ext.EvalUnnormOnSq d))
                  ((exactEvents s.log).filter fun d => decide (d.has p)))
                (orderedSum (fun d => posPart (exampleDoubleGlobal.ext.EvalUnnormOnSq d))
                  ((exactEvents s.log).filter fun d => decide (d.has p))) ∧
            s.query_results.potential_e_ p =
              orderedSum (fun d => negPart (exampleDoubleGlobal.ext.EvalUnnormOnSq d))
                  ((exactEvents s.log).filter fun d => decide (d.has p)) +
                orderedSum (fun d => posPart (exampleDoubleGlobal.ext.EvalUnnormOnSq d))
                  ((exactEvents s.log).filter fun d => decide (d.has p)))) =
      some [true, true, true, true, true] ∧
    (Compute exampleDoubleGlobal exampleFiveSplit (Init exampleFiveSplit exampleDoubleState)).map
        (fun s => (List.range 5).map fun p =>
          decide (s.query_results.negative_potential_ p =
              Range.Init
                (orderedSum (fun d => negPart (exampleDoubleGlobal.ext.EvalUnnormOnSq d))
                  ((exactEvents s.log).filter fun d => decide (d.has p)))
                (orderedSum (fun d => negPart (exampleDoubleGlobal.ext.EvalUnnormOnSq d))
                  ((exactEvents s.log).filter fun d => decide (d.has p))) ∧
            s.query_results.positive_potential_ p =
              Range.Init
                (orderedSum (fun d => posPart (exampleDoubleGlobal.ext.EvalUnnormOnSq d))
                  ((exactEvents s.log).filter fun d => decide (d.has p)))
                (orderedSum (fun d => posPart (exampleDoubleGlobal.ext.EvalUnnormOnSq d))
                  ((exactEvents s.log).filter fun d => decide (d.has p))) ∧
            s.query_results.potential_e_ p =
              orderedSum (fun d => negPart (exampleDoubleGlobal.ext.EvalUnnormOnSq d))
                  ((exactEvents s.log).filter fun d => decide (d.has p)) +
                orderedSum (fun d => posPart (exampleDoubleGlobal.ext.EvalUnnormOnSq d))
                  ((exactEvents s.log).filter fun d => decide (d.has p)))) =
      some [true, true, true, true, true] := by
  decide!

section Claims56
variable {α : Type} [LinearOrderedField α]

theorem nodup_triples (A : List Nat) (B : Nat → List Nat) (C : Nat → Nat → List Nat)
    (hA : A.Nodup) (hB : ∀ i, (B i).Nodup) (hC : ∀ i j, (C i j).Nodup) :
    (A.flatMap fun i => (B i).flatMap fun j =>
      (C i j).map fun k => (⟨i, j, k⟩ : TripleDistanceSq)).Nodup := by
  rw [List.nodup_flatMap]
  refine ⟨?_, ?_⟩
  · intro i _
    rw [List.nodup_flatMap]
    refine ⟨?_, ?_⟩
    · intro j _
      apply List.Nodup.map
      · intro a b h
        simpa using h
      · exact hC i j
    · apply (hB i).pairwise_of_forall_ne
      intro a _ b _ hab
      simp only [Function.onFun, List.disjoint_left, List.mem_map]
      rintro d ⟨k, -, rfl⟩ ⟨k', -, h⟩
      simp only [TripleDistanceSq.mk.injEq] at h
      exact hab h.2.1.symm
  · apply hA.pairwise_of_forall_ne
    intro a _ b _ hab
    simp only [Function.onFun, List.disjoint_left, List.mem_flatMap, List.mem_map]
    rintro d ⟨j, -, k, -, rfl⟩ ⟨j', -, k', -, h⟩
    simp only [TripleDistanceSq.mk.injEq] at h
    exact hab h.1.symm

theorem nodup_baseTriples (r : TripleRangeDistanceSq) : (baseTriples r).Nodup := by
  unfold baseTriples
  exact nodup_triples _ _ (fun i j => TreeIterator.toList _)
    (List.nodup_range' _ _) (fun _ => List.nodup_range' _ _) (fun _ _ => List.nodup_range' _ _)

/-- C5: the base case on a node triple whose first node is not empty, whose
adjacent slots are agreeable, whose pointers are sound (equal addresses mean
the same node) and whose nodes own statistics: it returns, and the index
triples on which it evaluated the exact contribution, in order, are
`baseTriples`, a list without duplicates that consists exactly of the triples
`p0 < p1 < p2` with `p_s` in the range of slot `s`; the cursor of an inner
loop is the outer cursor (which stands right after the outer point) when both
slots hold the same node and a fresh cursor over the next node otherwise. -/
theorem TripletreeBase_enumerates (global : NbodySimulatorGlobal α) (r : TripleRangeDistanceSq)
    (st : State α) (hne : r.node0.begin_ < r.node0.end_)
    (ha0 : NodeIsAgreeable_ r.node0 r.node1 = true)
    (ha1 : NodeIsAgreeable_ r.node1 r.node2 = true)
    (hv0 : r.node0.addr = r.node1.addr → r.node0 = r.node1)
    (hv1 : r.node1.addr = r.node2.addr → r.node1 = r.node2)
    (hs : ∀ i, (st.stat (r.node i).addr).isSome = true) :
    ∃ st', TripletreeBase_ global r st = some st' ∧
      exactEvents st'.log = exactEvents st.log ++ baseTriples r ∧
      (baseTriples r).Nodup ∧
      (∀ d, d ∈ baseTriples r ↔
        (r.node0.begin_ ≤ d.p0 ∧ d.p0 < r.node0.end_) ∧
          (r.node1.begin_ ≤ d.p1 ∧ d.p1 < r.node1.end_) ∧
          (r.node2.begin_ ≤ d.p2 ∧ d.p2 < r.node2.end_) ∧ d.p0 < d.p1 ∧ d.p1 < d.p2) ∧
      (∀ s i, (TreeIterator.mk i (r.node s).end_).Next =
          some (i, TreeIterator.mk (i + 1) (r.node s).end_) →
        GetNextNodeIterator_ r s (TreeIterator.mk (i + 1) (r.node s).end_) =
          if (r.node s).addr = (r.node (s + 1)).addr then
            TreeIterator.mk (i + 1) (r.node s).end_
          else get_node_iterator (r.node (s + 1))) := by
  refine ⟨_, TripletreeBase_eq global r st hne hs, ?_, nodup_baseTriples r, ?_, ?_⟩
  · simp only [baseSpec, flushNodeSpec_log, baseLoopSpec]
    rw [exactEvents_append]
    have := exactEvents_map_exact (baseTriples r)
    simp only [exactEvents, List.filterMap_cons] at this ⊢
    rw [this]
  · intro d
    have hcoe := baseTriples_coe r hv0 hv1 (NodeIsAgreeable_eq_true.1 ha0)
      (NodeIsAgreeable_eq_true.1 ha1)
    have : d ∈ baseTriples r ↔ d ∈ tripleSet r := by rw [← hcoe]; rfl
    rw [this, mem_tripleSet, mem_pointsOf, mem_pointsOf, mem_pointsOf]
  · intro s i _
    unfold GetNextNodeIterator_
    by_cases h : (r.node s).addr = (r.node (s + 1)).addr
    · simp [TreeType.ptr_eq, h]
    · simp [TreeType.ptr_eq, h]

theorem TripletreeBase_enumerates_witness :
    (exampleLeafTriple.node0.begin_ < exampleLeafTriple.node0.end_ ∧
      NodeIsAgreeable_ exampleLeafTriple.node0 exampleLeafTriple.node1 = true ∧
      NodeIsAgreeable_ exampleLeafTriple.node1 exampleLeafTriple.node2 = true) ∧
    ∃ st', TripletreeBase_ exampleGlobal exampleLeafTriple (Init exampleLeaf exampleState) =
        some st' ∧
      exactEvents st'.log =
        exactEvents (Init exampleLeaf exampleState).log ++ baseTriples exampleLeafTriple ∧
      (baseTriples exampleLeafTriple).Nodup ∧
      (∀ d, d ∈ baseTriples exampleLeafTriple ↔
        (exampleLeafTriple.node0.begin_ ≤ d.p0 ∧ d.p0 < exampleLeafTriple.node0.end_) ∧
          (exampleLeafTriple.node1.begin_ ≤ d.p1 ∧ d.p1 < exampleLeafTriple.node1.end_) ∧
          (exampleLeafTriple.node2.begin_ ≤ d.p2 ∧ d.p2 < exampleLeafTriple.node2.end_) ∧
          d.p0 < d.p1 ∧ d.p1 < d.p2) ∧
      (∀ s i, (TreeIterator.mk i (exampleLeafTriple.node s).end_).Next =
          some (i, TreeIterator.mk (i + 1) (exampleLeafTriple.node s).end_) →
        GetNextNodeIterator_ exampleLeafTriple s
            (TreeIterator.mk (i + 1) (exampleLeafTriple.node s).end_) =
          if (exampleLeafTriple.node s).addr = (exampleLeafTriple.node (s + 1)).addr then
            TreeIterator.mk (i + 1) (exampleLeafTriple.node s).end_
          else get_node_iterator (exampleLeafTriple.node (s + 1))) :=
  ⟨by decide,
    TripletreeBase_enumerates exampleGlobal exampleLeafTriple (Init exampleLeaf exampleState)
      (by decide) (by decide) (by decide) (fun _ => rfl) (fun _ => rfl)
      (fun i => by
        have h := Init_statsPresent exampleLeaf exampleState [] exampleLeaf rfl
        rcases i with _ | _ | _ <;> exact h)⟩

/-- C6: whatever the prune test, the fuel, the level, the triple-range and the
state, a call of `RecursionHelper_` that returns leaves in the triple-range
the three nodes it held on entry, and so does a call of
`TripletreeCanonical_`. -/
theorem slots_restored_on_exit
    (cs : TripleRangeDistanceSq → NbodySimulatorDelta α → NbodySimulatorResult α → Bool)
    (global : NbodySimulatorGlobal α) :
    ∀ fuel,
      (∀ r re fp st level al d res,
        RecursionHelperWith cs global fuel r re fp st level al d = some res → res.1 = r) ∧
      (∀ r re fp st res,
        TripletreeCanonicalWith cs global fuel r re fp st = some res → res.2.1 = r) := by
  intro fuel
  induction fuel with
  | zero =>
    constructor
    · intro r re fp st level al d res h
      simp [RecursionHelperWith] at h
    · intro r re fp st res h
      simp [TripletreeCanonicalWith] at h
  | succ fuel ih =>
    obtain ⟨ihH, ihC⟩ := ih
    constructor
    · intro r re fp st level al d res h
      rw [RecursionHelperWith] at h
      by_cases hl3 : level = 3
      · subst hl3
        cases al with
        | true =>
          simp only [if_true] at h
          split at h
          · exact absurd h (by simp)
          · simp only [Option.some.injEq] at h
            rw [← h]
        | false =>
          simp only [if_true, Bool.false_eq_true, if_false] at h
          split at h
          · exact absurd h (by simp)
          · rename_i e r' st' hc
            simp only [Option.some.injEq] at h
            have := ihC _ _ _ _ _ hc
            rw [← h]
            exact this
      · simp only [hl3, if_false] at h
        by_cases hleaf : (r.node level).is_leaf = true
        · simp only [hleaf, if_true] at h
          split at h
          · exact ihH _ _ _ _ _ _ _ _ h
          · simp only [Option.some.injEq] at h
            rw [← h]
        · simp only [hleaf, Bool.false_eq_true, if_false] at h
          -- the outcome of the left child
          have hleft : ∀ x : Bool × HelperResult α,
              (if level = 0 ∨
                    NodeIsAgreeable_ (r.node (level - 1)) (r.node level).left = true then
                  match RecursionHelperWith cs global fuel
                      (r.ReplaceOneNode (r.node level).left level) re fp
                      (st.record (Event.helper level r al)) (level + 1) false d with
                  | none => none
                  | some x => some (true, x)
                else some (false, r, st.record (Event.helper level r al), d)) = some x →
              x.2.1 = (if x.1 = true then r.ReplaceOneNode (r.node level).left level else r) := by
            intro x hx
            split at hx
            · split at hx
              · exact absurd hx (by simp)
              · rename_i y hy
                simp only [Option.some.injEq] at hx
                rw [← hx]
                simpa using ihH _ _ _ _ _ _ _ _ hy
            · simp only [Option.some.injEq] at hx
              rw [← hx]; simp
          split at h
          · exact absurd h (by simp)
          · rename_i b1 r1 st1 d1 hL
            have hr1 := hleft _ hL
            simp only at hr1
            have hright : ∀ x : Bool × HelperResult α,
                (if level = 0 ∨
                      NodeIsAgreeable_ (r1.node (level - 1)) (r.node level).right = true then
                    match RecursionHelperWith cs global fuel
                        (r1.ReplaceOneNode (r.node level).right level) re fp st1 (level + 1)
                        false d1 with
                    | none => none
                    | some x => some (true, x)
                  else some (b1, r1, st1, d1)) = some x →
                x.2.1 = (if x.1 = true then
                  (if level = 0 ∨
                      NodeIsAgreeable_ (r1.node (level - 1)) (r.node level).right = true then
                    r1.ReplaceOneNode (r.node level).right level else r1) else r) := by
              intro x hx
              split at hx
              · rename_i hg
                split at hx
                · exact absurd hx (by simp)
                · rename_i y hy
                  simp only [Option.some.injEq] at hx
                  rw [← hx]
                  simpa [hg] using ihH _ _ _ _ _ _ _ _ hy
              · rename_i hg
                simp only [Option.some.injEq] at hx
                rw [← hx]
                simp only [hg, if_false]
                rw [hr1]
                cases b1 <;> simp
            split at h
            · exact absurd h (by simp)
            · rename_i b2 r2 st2 d2 hR
              have hr2 := hright _ hR
              simp only at hr2
              cases b2 with
              | true =>
                simp only [if_true, Option.some.injEq] at h hr2
                rw [← h]
                simp only
                rw [hr2]
                split
                · rw [hr1]
                  split
                  · rw [ReplaceOneNode_twice, ReplaceOneNode_restore]
                  · rw [ReplaceOneNode_restore]
                · rw [hr1]
                  split
                  · rw [ReplaceOneNode_restore]
                  · rcases level with _ | _ | _ <;> rfl
              | false =>
                simp only [Bool.false_eq_true, if_false, Option.some.injEq] at h hr2
                rw [← h]
                exact hr2
    · intro r re fp st res h
      rw [TripletreeCanonicalWith] at h
      split at h
      · simp only [Option.some.injEq] at h
        rw [← h]
      · split at h
        · exact absurd h (by simp)
        · rename_i r' st' d' hc
          simp only [Option.some.injEq] at h
          rw [← h]
          exact ihH _ _ _ _ _ _ _ _ hc

end Claims56

/-! ### Dispatch at level three -/

section Claims789
variable {α : Type} [LinearOrderedField α]

theorem slots_restored_on_exit_witness :
    ∃ res, RecursionHelper_ exampleGlobal 20 exampleRootTriple (1 / 10) (1 / 10)
        (Init exampleTree exampleState) 0 true true = some res ∧ res.1 = exampleRootTriple :=
  have h : (RecursionHelper_ exampleGlobal 20 exampleRootTriple (1 / 10) (1 / 10)
      (Init exampleTree exampleState) 0 true true).isSome = true := by decide!
  ⟨Option.get _ h, (Option.some_get h).symm,
    (slots_restored_on_exit CanSummarize_ exampleGlobal 20).1 _ _ _ _ _ _ _ _
      (Option.some_get h).symm⟩

theorem exampleTree_log_at_level3 :
    (Compute exampleGlobal exampleTree (Init exampleTree exampleState)).map
        (fun s => (s.log[4]?, s.log[5]?)) =
      some (some (Event.helper 3 exampleLeftTriple false),
        some (Event.canonical exampleLeftTriple)) := by
  decide!

/-- C7, as stated, fails: in the run of `Compute` on the tree with two leaves,
`RecursionHelper_` reaches level three with the left leaf in all three slots
and the flag `all_leaves` false (the slots were split in this round), and the
next call is the canonical step on that triple of leaves, not the base case. -/
theorem level3_dispatch_counterexample :
    ∃ st', Compute exampleGlobal exampleTree (Init exampleTree exampleState) = some st' ∧
      st'.log[4]? = some (Event.helper 3 exampleLeftTriple false) ∧
      st'.log[5]? = some (Event.canonical exampleLeftTriple) ∧
      exampleLeftTriple.node0.is_leaf = true ∧ exampleLeftTriple.node1.is_leaf = true ∧
      exampleLeftTriple.node2.is_leaf = true := by
  obtain ⟨st', hrun, hlog⟩ := Option.map_eq_some'.1 exampleTree_log_at_level3
  simp only [Prod.mk.injEq] at hlog
  exact ⟨st', hrun, hlog.1, hlog.2, by decide, by decide, by decide⟩

/-- C7, amended: at level three `RecursionHelper_` runs the base case when the
flag `all_leaves` is true and the canonical step on the current triple when it
is false, whatever the three nodes are; and the canonical step on a triple of
leaves whose adjacent slots are agreeable walks through the four levels with
the flag true and runs the base case on that triple. -/
theorem level3_dispatch (global : NbodySimulatorGlobal α) :
    (∀ fuel r re fp st d,
      RecursionHelper_ global (fuel + 1) r re fp st 3 true d =
        (TripletreeBase_ global r (st.record (Event.helper 3 r true))).map
          fun st' => (r, st', d)) ∧
    (∀ fuel r re fp st d,
      RecursionHelper_ global (fuel + 1) r re fp st 3 false d =
        (TripletreeCanonical_ global fuel r re fp (st.record (Event.helper 3 r false))).map
          fun res => (res.2.1, res.2.2, d && res.1)) ∧
    (∀ fuel r re fp st,
      r.node0.is_leaf = true → r.node1.is_leaf = true → r.node2.is_leaf = true →
      NodeIsAgreeable_ r.node0 r.node1 = true → NodeIsAgreeable_ r.node1 r.node2 = true →
      TripletreeCanonical_ global (fuel + 5) r re fp st =
        (TripletreeBase_ global r
          (((((st.record (Event.canonical r)).record (Event.helper 0 r true)).record
            (Event.helper 1 r true)).record (Event.helper 2 r true)).record
              (Event.helper 3 r true))).map
          fun st' => (true, r, st')) := by
  refine ⟨?_, ?_, ?_⟩
  · intro fuel r re fp st d
    unfold RecursionHelper_
    rw [RecursionHelperWith]
    simp only [if_true]
    cases TripletreeBase_ global r (st.record (Event.helper 3 r true)) <;> rfl
  · intro fuel r re fp st d
    unfold RecursionHelper_ TripletreeCanonical_
    rw [RecursionHelperWith]
    simp only [if_true, Bool.false_eq_true, if_false]
    cases TripletreeCanonicalWith CanSummarize_ global fuel r re fp
      (st.record (Event.helper 3 r false)) <;> rfl
  · intro fuel r re fp st l0 l1 l2 a0 a1
    unfold TripletreeCanonical_
    rw [TripletreeCanonicalWith]
    simp only [CanSummarize_, Bool.false_eq_true, if_false]
    rw [RecursionHelperWith]
    simp only [OfNat.zero_ne_ofNat, if_false, TripleRangeDistanceSq.node, l0, if_true, true_or]
    rw [RecursionHelperWith]
    simp only [OfNat.one_ne_ofNat, if_false, TripleRangeDistanceSq.node, l1, if_true, zero_add,
      Nat.sub_self, a0, or_true]
    rw [RecursionHelperWith]
    simp only [Nat.reduceAdd, Nat.reduceEqDiff, if_false, TripleRangeDistanceSq.node, l2,
      if_true, Nat.add_one_sub_one, a1, or_true]
    rw [RecursionHelperWith]
    simp only [Nat.reduceAdd, if_true]
    cases TripletreeBase_ global r _ <;> rfl

theorem level3_dispatch_witness :
    (exampleLeftTriple.node0.is_leaf = true ∧
      NodeIsAgreeable_ exampleLeftTriple.node0 exampleLeftTriple.node1 = true) ∧
    TripletreeCanonical_ exampleGlobal (0 + 5) exampleLeftTriple (1 / 10) (1 / 10)
        (Init exampleTree exampleState) =
      (TripletreeBase_ exampleGlobal exampleLeftTriple
        ((((((Init exampleTree exampleState).record (Event.canonical exampleLeftTriple)).record
          (Event.helper 0 exampleLeftTriple true)).record
            (Event.helper 1 exampleLeftTriple true)).record
              (Event.helper 2 exampleLeftTriple true)).record
                (Event.helper 3 exampleLeftTriple true))).map
        fun st' => (true, exampleLeftTriple, st') :=
  ⟨by decide,
    (level3_dispatch exampleGlobal).2.2 0 exampleLeftTriple (1 / 10) (1 / 10)
      (Init exampleTree exampleState) (by decide) (by decide) (by decide) (by decide)
      (by decide)⟩

end Claims789

/-! ### The prune test -/

section Claims8910
variable {α : Type} [LinearOrderedField α]

/-- On a well-formed tree whose nodes own statistics with a zero postponed,
the canonical step returns and every node still has a zero postponed. -/
theorem canonical_keeps_postponed_zero (global : NbodySimulatorGlobal α) (t : Tree)
    (hwf : t.WellFormed) (fuel : Nat) (r : TripleRangeDistanceSq) (re fp : α) (st : State α)
    (hs : SlotInv t 0 true r) (hf : 5 * (heightSum r + 1) ≤ fuel)
    (hz : ∀ n : TreeType, n.Valid t →
      ∃ s, st.stat n.addr = some s ∧ s.postponed_ = NbodySimulatorPostponed.SetZero) :
    ∃ st', TripletreeCanonical_ global fuel r re fp st = some (true, r, st') ∧
      ∀ n : TreeType, n.Valid t →
        ∃ s, st'.stat n.addr = some s ∧ s.postponed_ = NbodySimulatorPostponed.SetZero := by
  obtain ⟨-, hcan⟩ := engine_master global t hwf
    (fun _ st => ∀ n : TreeType, n.Valid t →
      ∃ s, st.stat n.addr = some s ∧ s.postponed_ = NbodySimulatorPostponed.SetZero)
    (fun acc st level al r _ _ hR => hR)
    (fun acc st r _ hR => hR)
    (fun acc st r hs hR => by
      have hv : ∀ i, (r.node i).Valid t := hs.valid_node
      have hpres : ∀ i, (st.stat (r.node i).addr).isSome = true := by
        intro i
        obtain ⟨s, hs', -⟩ := hR _ (hv i)
        rw [hs']; rfl
      refine ⟨_, TripletreeBase_eq global r st ((hv 0).wf hwf).lt hpres, ?_⟩
      have hL : ∀ n : TreeType, n.Valid t →
          ∃ s, (baseLoopSpec global r st).stat n.addr = some s ∧
            s.postponed_ = NbodySimulatorPostponed.SetZero := hR
      exact (flushNodeSpec_inv global t r 2 _ (hv 2)
        (flushNodeSpec_inv global t r 1 _ (hv 1)
          (flushNodeSpec_inv global t r 0 _ (hv 0) hL).1).1).1)
    fuel
  exact hcan r re fp st 0 hs hf hz

theorem Init_zero (t : Tree) (st : State α) (n : TreeType) (hn : n.Valid t) :
    ∃ s, (Init t st).stat n.addr = some s ∧ s.postponed_ = NbodySimulatorPostponed.SetZero := by
  have := (ResetStatisticRecursion_spec t [] st.stat).2 n.addr n.tree hn
  simp only [List.append_nil] at this
  exact ⟨_, this, rfl⟩

/-- C8: `CanSummarize_` is false on every input; so the canonical step always
goes on to `RecursionHelper_` at level zero, and on a well-formed tree whose
nodes own statistics with a zero postponed (as `PreProcess_` leaves them) it
returns with the postponed of every node still zero: no delta was recorded. -/
theorem no_pruning_in_reference_engine (global : NbodySimulatorGlobal α) :
    (∀ (r : TripleRangeDistanceSq) (delta : NbodySimulatorDelta α)
        (qr : NbodySimulatorResult α), CanSummarize_ r delta qr = false) ∧
    (∀ fuel r re fp st,
      TripletreeCanonical_ global (fuel + 1) r re fp st =
        (RecursionHelper_ global fuel r re fp (st.record (Event.canonical r)) 0 true true).map
          fun res => (res.2.2, res.1, res.2.1)) ∧
    (∀ (t : Tree) fuel r re fp (st : State α), t.WellFormed → SlotInv t 0 true r →
      5 * (heightSum r + 1) ≤ fuel →
      (∀ n : TreeType, n.Valid t →
        ∃ s, st.stat n.addr = some s ∧ s.postponed_ = NbodySimulatorPostponed.SetZero) →
      ∃ st', TripletreeCanonical_ global fuel r re fp st = some (true, r, st') ∧
        ∀ n : TreeType, n.Valid t →
          ∃ s, st'.stat n.addr = some s ∧
            s.postponed_ = NbodySimulatorPostponed.SetZero) := by
  refine ⟨fun _ _ _ => rfl, ?_, ?_⟩
  · intro fuel r re fp st
    unfold TripletreeCanonical_ RecursionHelper_
    rw [TripletreeCanonicalWith]
    simp only [CanSummarize_, Bool.false_eq_true, if_false]
    cases RecursionHelperWith CanSummarize_ global fuel r re fp
      (st.record (Event.canonical r)) 0 true true <;> rfl
  · intro t fuel r re fp st hwf hs hf hz
    exact canonical_keeps_postponed_zero global t hwf fuel r re fp st hs hf hz

theorem no_pruning_in_reference_engine_witness :
    (exampleTree.WellFormed ∧ SlotInv exampleTree 0 true exampleRootTriple ∧
      5 * (heightSum exampleRootTriple + 1) ≤ 20) ∧
    ∃ st', TripletreeCanonical_ exampleGlobal 20 exampleRootTriple (1 / 10) (1 / 10)
        (Init exampleTree exampleState) = some (true, exampleRootTriple, st') ∧
      ∀ n : TreeType, n.Valid exampleTree →
        ∃ s, st'.stat n.addr = some s ∧ s.postponed_ = NbodySimulatorPostponed.SetZero :=
  ⟨by decide,
    (no_pruning_in_reference_engine exampleGlobal).2.2 exampleTree 20 exampleRootTriple
      (1 / 10) (1 / 10) (Init exampleTree exampleState) (by decide) (by decide) (by decide)
      (Init_zero exampleTree exampleState)⟩

end Claims8910

/-! ### The prune test as a parameter -/

section Claim9
variable {α : Type} [LinearOrderedField α]

/-- C9, amended: with the prune test taken as a parameter, whenever it holds
for the triple-range, the delta of the triple-range and the results, the
canonical step returns true with the triple-range as it was, without a call of
`RecursionHelper_` or of the base case (the only event it adds is its own
entry), and it records nothing: every statistic, so every postponed, and the
result buffer are left as they were.  The prune test of the engine,
`CanSummarize_`, holds for no input. -/
theorem canonical_prune_returns_without_recording
    (cs : TripleRangeDistanceSq → NbodySimulatorDelta α → NbodySimulatorResult α → Bool)
    (global : NbodySimulatorGlobal α) (fuel : Nat) (r : TripleRangeDistanceSq) (re fp : α)
    (st : State α)
    (h : cs r ((NbodySimulatorDelta.SetZero : NbodySimulatorDelta α).DeterministicCompute
      global r) st.query_results = true) :
    (∃ st', TripletreeCanonicalWith cs global (fuel + 1) r re fp st = some (true, r, st') ∧
      st'.stat = st.stat ∧ st'.query_results = st.query_results ∧
      st'.log = st.log ++ [Event.canonical r]) ∧
    (∀ (r' : TripleRangeDistanceSq) (delta : NbodySimulatorDelta α)
      (qr : NbodySimulatorResult α), CanSummarize_ r' delta qr = false) := by
  refine ⟨⟨st.record (Event.canonical r), ?_, rfl, rfl, rfl⟩, fun _ _ _ => rfl⟩
  rw [TripletreeCanonicalWith]
  have h' : cs r ((NbodySimulatorDelta.SetZero : NbodySimulatorDelta α).DeterministicCompute
      global r) (st.record (Event.canonical r)).query_results = true := h
  simp only [h', if_true]

end Claim9

/-- C9 as stated fails on a concrete input: with a prune test that holds, the
canonical step on the single-leaf tree returns true and leaves the postponed
of the root zero, although the delta it computed for the triple is not zero
(its pruned counts are one, its used error is three halves): the delta is not
recorded into the postponed of the slot nodes. -/
theorem canonical_prune_counterexample :
    (TripletreeCanonicalWith (fun _ _ _ => true) exampleGlobal 1 exampleLeafTriple (1 / 10)
          (1 / 10) (Init exampleLeaf exampleState)).map
        (fun res => (res.1, res.2.1, (res.2.2.stat []).map fun s => s.postponed_)) =
      some (true, exampleLeafTriple, some NbodySimulatorPostponed.SetZero) ∧
    ((NbodySimulatorDelta.SetZero : NbodySimulatorDelta ℚ).DeterministicCompute exampleGlobal
        exampleLeafTriple).pruned_ = [1, 1, 1] ∧
    ((NbodySimulatorDelta.SetZero : NbodySimulatorDelta ℚ).DeterministicCompute exampleGlobal
        exampleLeafTriple).used_error_ = [3 / 2, 3 / 2, 3 / 2] ∧
    (NbodySimulatorPostponed.SetZero.ApplyDelta
        ((NbodySimulatorDelta.SetZero : NbodySimulatorDelta ℚ).DeterministicCompute exampleGlobal
          exampleLeafTriple) 0) ≠ NbodySimulatorPostponed.SetZero := by
  decide!

theorem canonical_prune_returns_without_recording_witness :
    (fun (_ : TripleRangeDistanceSq) (_ : NbodySimulatorDelta ℚ)
        (_ : NbodySimulatorResult ℚ) => true) exampleLeafTriple
      ((NbodySimulatorDelta.SetZero : NbodySimulatorDelta ℚ).DeterministicCompute exampleGlobal
        exampleLeafTriple) (Init exampleLeaf exampleState).query_results = true ∧
    ∃ st', TripletreeCanonicalWith (fun _ _ _ => true) exampleGlobal (0 + 1) exampleLeafTriple
        (1 / 10) (1 / 10) (Init exampleLeaf exampleState) = some (true, exampleLeafTriple, st') ∧
      st'.stat = (Init exampleLeaf exampleState).stat ∧
      st'.query_results = (Init exampleLeaf exampleState).query_results ∧
      st'.log = (Init exampleLeaf exampleState).log ++ [Event.canonical exampleLeafTriple] :=
  ⟨rfl,
    (canonical_prune_returns_without_recording (fun _ _ _ => true) exampleGlobal 0
      exampleLeafTriple (1 / 10) (1 / 10) (Init exampleLeaf exampleState) rfl).1⟩

/-! ### Push-down delivery -/

section Claim10
variable {α : Type} [LinearOrderedField α]

theorem pathNodes_nodup : ∀ (tree : Tree) (addr : List Bool) (p : Nat),
    (pathNodes addr tree p).Nodup
  | Tree.leaf _ _, addr, p => by simp [pathNodes]
  | Tree.node _ _ l r, addr, p => by
      simp only [pathNodes, List.nodup_cons]
      refine ⟨?_, ?_⟩
      · intro h
        split at h
        · have := (pathNodes_suffix l _ p _ h).length_le
          simp at this
        · have := (pathNodes_suffix r _ p _ h).length_le
          simp at this
      · split
        · exact pathNodes_nodup l _ p
        · exact pathNodes_nodup r _ p

theorem Tree.WellFormed.subtree_range : ∀ {t : Tree}, t.WellFormed →
    ∀ {a : List Bool} {s : Tree}, t.subtree a = some s →
      t.begin_ ≤ s.begin_ ∧ s.end_ ≤ t.end_
  | Tree.leaf b e, _, a, s, hs => by
      obtain ⟨-, rfl⟩ := Tree.subtree_leaf b e a s hs
      exact ⟨le_refl _, le_refl _⟩
  | Tree.node b e l r, hwf, a, s, hs => by
      obtain ⟨hb, hm, he, wl, wr⟩ := hwf
      have := wl.lt
      have := wr.lt
      rcases Tree.subtree_node_cases b e l r a s hs with ⟨-, rfl⟩ | ⟨a', -, hs'⟩ | ⟨a', -, hs'⟩
      · exact ⟨le_refl _, le_refl _⟩
      · obtain ⟨h1, h2⟩ := Tree.WellFormed.subtree_range wl hs'
        show b ≤ s.begin_ ∧ s.end_ ≤ e
        omega
      · obtain ⟨h1, h2⟩ := Tree.WellFormed.subtree_range wr hs'
        show b ≤ s.begin_ ∧ s.end_ ≤ e
        omega

/-- The nodes on the path to `p` are exactly the nodes whose range contains
`p`. -/
theorem mem_pathNodes : ∀ (tree : Tree) (addr : List Bool) (p : Nat), tree.WellFormed →
    tree.begin_ ≤ p → p < tree.end_ → ∀ a,
    (a ∈ pathNodes addr tree p ↔
      ∃ a' s, tree.subtree a' = some s ∧ a = a' ++ addr ∧ s.begin_ ≤ p ∧ p < s.end_)
  | Tree.leaf b e, addr, p, _, hp1, hp2, a => by
      simp only [pathNodes, List.mem_singleton]
      constructor
      · rintro rfl
        exact ⟨[], _, rfl, by simp, hp1, hp2⟩
      · rintro ⟨a', s, hs, rfl, -, -⟩
        obtain ⟨rfl, -⟩ := Tree.subtree_leaf b e a' s hs
        simp
  | Tree.node b e l r, addr, p, hwf, hp1, hp2, a => by
      obtain ⟨hb, hm, he, wl, wr⟩ := hwf
      simp only [Tree.begin_, Tree.end_] at hp1 hp2
      simp only [pathNodes, List.mem_cons]
      constructor
      · rintro (rfl | h)
        · exact ⟨[], _, rfl, by simp, hp1, hp2⟩
        · split at h
          · rename_i hpl
            obtain ⟨a', s, hs, rfl, h1, h2⟩ :=
              (mem_pathNodes l (false :: addr) p wl (by omega) hpl a).1 h
            exact ⟨a' ++ [false], s, by rw [Tree.subtree_append_child]; simpa using hs,
              by simp, h1, h2⟩
          · rename_i hpl
            obtain ⟨a', s, hs, rfl, h1, h2⟩ :=
              (mem_pathNodes r (true :: addr) p wr (by omega) (by omega) a).1 h
            exact ⟨a' ++ [true], s, by rw [Tree.subtree_append_child]; simpa using hs,
              by simp, h1, h2⟩
      · rintro ⟨a', s, hs, rfl, h1, h2⟩
        rcases Tree.subtree_node_cases b e l r a' s hs with
          ⟨rfl, -⟩ | ⟨a'', rfl, hs'⟩ | ⟨a'', rfl, hs'⟩
        · left; simp
        · right
          obtain ⟨r1, r2⟩ := wl.subtree_range hs'
          have hpl : p < l.end_ := by omega
          simp only [hpl, if_true]
          exact (mem_pathNodes l (false :: addr) p wl (by omega) hpl _).2
            ⟨a'', s, hs', by simp, h1, h2⟩
        · right
          obtain ⟨r1, r2⟩ := wr.subtree_range hs'
          have hpl : ¬ p < l.end_ := by omega
          simp only [hpl, if_false]
          exact (mem_pathNodes r (true :: addr) p wr (by omega) (by omega) _).2
            ⟨a'', s, hs', by simp, h1, h2⟩

theorem fold_ApplyPostponed_entry (p : Nat) (f : List Bool → NbodySimulatorPostponed α) :
    ∀ (L : List (List Bool)) (qr : NbodySimulatorResult α),
      (L.foldl (fun acc a => acc.ApplyPostponed p (f a)) qr).entry p =
        (qr.entry p).ApplyPostponed
          ((L.map f).foldr NbodySimulatorPostponed.ApplyPostponed
            NbodySimulatorPostponed.SetZero)
  | [], qr => by simp [ApplyPostponed_zero]
  | a :: L, qr => by
      simp only [List.foldl_cons, List.map_cons, List.foldr_cons]
      rw [fold_ApplyPostponed_entry p f L, entry_ApplyPostponed, if_pos rfl,
        ApplyPostponed_assoc]

end Claim10

/-! ### Push-down delivery in the order of the code -/

section Claim10
variable {α : Type} [LinearOrderedField α]

/-- Merging downwards along a list of postponed values gives, in exact
arithmetic, the combination of the first with all the others. -/
theorem foldl_merge_down (rest : List (NbodySimulatorPostponed α)) :
    ∀ top : NbodySimulatorPostponed α,
      rest.foldl (fun acc own => own.ApplyPostponed acc) top =
        top.ApplyPostponed
          (rest.foldr NbodySimulatorPostponed.ApplyPostponed NbodySimulatorPostponed.SetZero) := by
  induction rest with
  | nil =>
    intro top
    simp only [List.foldl_nil, List.foldr_nil, ApplyPostponed_zero]
  | cons own rest ih =>
    intro top
    simp only [List.foldl_cons, List.foldr_cons]
    rw [ih, ApplyPostponed_comm own top, ApplyPostponed_assoc]

theorem pathDelivered_eq (stat : List Bool → Option (NbodySimulatorStatistic α))
    (addr : List Bool) (t : Tree) (p : Nat) :
    pathDelivered stat addr t p = pathPostponed stat addr t p := by
  unfold pathDelivered pathPostponed
  cases h : (pathNodes addr t p).map (postponedAt stat) with
  | nil => rfl
  | cons top below =>
    simp only [List.foldr_cons]
    exact foldl_merge_down below top

/-- C10: on a well-formed tree whose nodes own statistics, `PostProcess_` on
the root returns, and for every point `p` of the tree: the nodes on the path
`pathNodes` are, each once, exactly the nodes whose range contains `p`; the
four accumulated fields of `p` are those before the pass after one
`ApplyPostponed` with the postponed values, as they were before the pass, of
the nodes on the path, merged downwards in the order of the push-down (each
node's postponed combined with what its parent holds, from the root to the
leaf); and `potential_e_` of `p` is the midpoint of its negative range plus
the midpoint of its positive range. -/
theorem PostProcess_delivers_postponed (t : Tree) (hwf : t.WellFormed) (st : State α)
    (hpres : StatsPresent st.stat [] t) :
    ∃ st', PostProcess_ [] t st = some st' ∧
      ∀ p, t.begin_ ≤ p → p < t.end_ →
        (pathNodes [] t p).Nodup ∧
        (∀ a, a ∈ pathNodes [] t p ↔ ∃ s, t.subtree a = some s ∧ s.begin_ ≤ p ∧ p < s.end_) ∧
        st'.query_results.entry p =
          (st.query_results.entry p).ApplyPostponed (pathDelivered st.stat [] t p) ∧
        st'.query_results.potential_e_ p =
          (st'.query_results.negative_potential_ p).mid +
            (st'.query_results.positive_potential_ p).mid := by
  obtain ⟨st', hrun, -, -, -, -, hin⟩ := PostProcess_spec t [] st hwf hpres
  refine ⟨st', hrun, ?_⟩
  intro p hp1 hp2
  obtain ⟨e1, e2⟩ := hin p hp1 hp2
  refine ⟨pathNodes_nodup t [] p, ?_, ?_, e2⟩
  · intro a
    rw [mem_pathNodes t [] p hwf hp1 hp2 a]
    constructor
    · rintro ⟨a', s, hs, rfl, h1, h2⟩
      exact ⟨s, by simpa using hs, h1, h2⟩
    · rintro ⟨s, hs, h1, h2⟩
      exact ⟨a, s, hs, by simp, h1, h2⟩
  · rw [e1, pathDelivered_eq]

end Claim10

theorem PostProcess_delivers_postponed_witness :
    (exampleTree.WellFormed ∧ StatsPresent exampleDirtyState.stat [] exampleTree) ∧
    ∃ st', PostProcess_ [] exampleTree exampleDirtyState = some st' ∧
      ∀ p, exampleTree.begin_ ≤ p → p < exampleTree.end_ →
        (pathNodes [] exampleTree p).Nodup ∧
        (∀ a, a ∈ pathNodes [] exampleTree p ↔
          ∃ s, exampleTree.subtree a = some s ∧ s.begin_ ≤ p ∧ p < s.end_) ∧
        st'.query_results.entry p =
          (exampleDirtyState.query_results.entry p).ApplyPostponed
            (pathDelivered exampleDirtyState.stat [] exampleTree p) ∧
        st'.query_results.potential_e_ p =
          (st'.query_results.negative_potential_ p).mid +
            (st'.query_results.positive_potential_ p).mid :=
  ⟨⟨by decide, fun _ _ _ => rfl⟩,
    PostProcess_delivers_postponed exampleTree (by decide) exampleDirtyState
      (fun _ _ _ => rfl)⟩

/-- The push-down on doubles, at values where the order of the additions
matters: with `0.2` in the root, `0.3` in the leaves and `0.1` in the result
of every point, `PostProcess_` leaves `0.1 + (0.3 + 0.2) = 0.6` in the four
accumulated fields of point `0`, which is the result combined with the
postponed values merged downwards, and not `(0.1 + 0.2) + 0.3`, which is the
next double above `0.6`. -/
theorem PostProcess_order_on_doubles :
    (PostProcess_ [] exampleTree exampleDoublePushState).map
        (fun s => s.query_results.entry 0) =
      some (exampleDoublePostponed (6 / 10)) ∧
    (exampleDoublePushState.query_results.entry 0).ApplyPostponed
        (pathDelivered exampleDoublePushState.stat [] exampleTree 0) =
      exampleDoublePostponed (6 / 10) ∧
    ((exampleDoublePushState.query_results.entry 0).ApplyPostponed
        (exampleDoublePostponed (2 / 10))).ApplyPostponed (exampleDoublePostponed (3 / 10)) ≠
      exampleDoublePostponed (6 / 10) := by
  decide!

/-! ### `PostProcess_` on an arbitrary tree -/

section PostProcessTotal
variable {α : Type} [LinearOrderedField α]

theorem Result_ApplyPostponed_zero (qr : NbodySimulatorResult α) (q : Nat) :
    qr.ApplyPostponed q NbodySimulatorPostponed.SetZero = qr := by
  cases qr
  simp [NbodySimulatorResult.ApplyPostponed, NbodySimulatorPostponed.SetZero,
    Range.add_zero_range]

theorem Result_PostProcess_settled (qr : NbodySimulatorResult α) (q : Nat) (h : qr.Settled q) :
    qr.PostProcess q = qr := by
  cases qr
  simp only [NbodySimulatorResult.Settled] at h
  simp [NbodySimulatorResult.PostProcess, ← h]

theorem leafFold_settled : ∀ (L : List Nat) (qr : NbodySimulatorResult α),
    (∀ q ∈ L, qr.Settled q) →
    L.foldl (fun acc q => (acc.ApplyPostponed q NbodySimulatorPostponed.SetZero).PostProcess q)
      qr = qr
  | [], _, _ => rfl
  | a :: L, qr, h => by
      simp only [List.foldl_cons]
      rw [Result_ApplyPostponed_zero, Result_PostProcess_settled qr a (h a (List.mem_cons_self _ _))]
      exact leafFold_settled L qr (fun q hq => h q (List.mem_cons_of_mem _ hq))

theorem Tree.HasLeafPoint.of_left {b e : Nat} {l r : Tree} {p : Nat} (h : l.HasLeafPoint p) :
    (Tree.node b e l r).HasLeafPoint p := by
  obtain ⟨a, b', e', hs, h1, h2⟩ := h
  exact ⟨a ++ [false], b', e', by rw [Tree.subtree_append_child]; simpa using hs, h1, h2⟩

theorem Tree.HasLeafPoint.of_right {b e : Nat} {l r : Tree} {p : Nat} (h : r.HasLeafPoint p) :
    (Tree.node b e l r).HasLeafPoint p := by
  obtain ⟨a, b', e', hs, h1, h2⟩ := h
  exact ⟨a ++ [true], b', e', by rw [Tree.subtree_append_child]; simpa using hs, h1, h2⟩

theorem Tree.HasLeafPoint.cases {b e : Nat} {l r : Tree} {p : Nat}
    (h : (Tree.node b e l r).HasLeafPoint p) : l.HasLeafPoint p ∨ r.HasLeafPoint p := by
  obtain ⟨a, b', e', hs, h1, h2⟩ := h
  rcases Tree.subtree_node_cases b e l r a _ hs with ⟨-, h⟩ | ⟨a', -, hs'⟩ | ⟨a', -, hs'⟩
  · cases h
  · exact Or.inl ⟨a', b', e', hs', h1, h2⟩
  · exact Or.inr ⟨a', b', e', hs', h1, h2⟩

theorem Tree.hasLeafPoint_leaf {b e p : Nat} : (Tree.leaf b e).HasLeafPoint p ↔ b ≤ p ∧ p < e := by
  constructor
  · rintro ⟨a, b', e', hs, h1, h2⟩
    obtain ⟨-, h⟩ := Tree.subtree_leaf b e a _ hs
    cases h
    exact ⟨h1, h2⟩
  · rintro ⟨h1, h2⟩
    exact ⟨[], b, e, rfl, h1, h2⟩

/-- What `PostProcess_` does on any subtree whose nodes all own a statistic
(the ranges of the nodes may be arbitrary): it returns, zeroes the postponed of
every node of the subtree and keeps its summary, touches no other statistic,
keeps every finalised point finalised and finalises every point of every
leaf. -/
theorem PostProcess_total : ∀ (tree : Tree) (addr : List Bool) (st : State α),
    StatsPresent st.stat addr tree →
    ∃ st', PostProcess_ addr tree st = some st' ∧ st'.log = st.log ∧
      (∀ b, (∀ a s, tree.subtree a = some s → b ≠ a ++ addr) → st'.stat b = st.stat b) ∧
      (∀ a s, tree.subtree a = some s → ∃ ns, st.stat (a ++ addr) = some ns ∧
        st'.stat (a ++ addr) =
          some { postponed_ := NbodySimulatorPostponed.SetZero, summary_ := ns.summary_ }) ∧
      (∀ p, st.query_results.Settled p → st'.query_results.Settled p) ∧
      (∀ p, tree.HasLeafPoint p → st'.query_results.Settled p)
  | Tree.leaf b e, addr, st, hpres => by
      have h0 := hpres [] _ rfl
      simp only [List.nil_append] at h0
      obtain ⟨qs, hqs⟩ := Option.isSome_iff_exists.1 h0
      have hnd : (List.range' b (e - b)).Nodup := List.nodup_range' _ _
      have hloop := leafLoop_spec qs.postponed_ (get_node_iterator ⟨addr, Tree.leaf b e⟩).remaining
        (get_node_iterator ⟨addr, Tree.leaf b e⟩) st.query_results (le_refl _)
      have hL : (get_node_iterator ⟨addr, Tree.leaf b e⟩).toList = List.range' b (e - b) := rfl
      rw [hL] at hloop
      have hset : ∀ p, (st.query_results.Settled p ∨ p ∈ List.range' b (e - b)) →
          (List.foldl (fun acc q => (acc.ApplyPostponed q qs.postponed_).PostProcess q)
            st.query_results (List.range' b (e - b))).Settled p := by
        intro p hp
        obtain ⟨h1, h2⟩ := leafFold_entry qs.postponed_ _ st.query_results p hnd
        have n1 := congrArg NbodySimulatorPostponed.negative_potential_ h1
        have n2 := congrArg NbodySimulatorPostponed.positive_potential_ h1
        simp only [NbodySimulatorResult.entry] at n1 n2
        unfold NbodySimulatorResult.Settled
        rw [h2, n1, n2]
        by_cases hmem : p ∈ List.range' b (e - b)
        · simp only [hmem, if_true]
          rfl
        · simp only [hmem, if_false]
          rcases hp with hp | hp
          · exact hp
          · exact absurd hp hmem
      refine ⟨{ st with
          stat := Function.update st.stat addr
            (some { qs with postponed_ := NbodySimulatorPostponed.SetZero })
          query_results :=
            List.foldl (fun acc q => (acc.ApplyPostponed q qs.postponed_).PostProcess q)
              st.query_results (List.range' b (e - b)) }, ?_, ?_, ?_, ?_, ?_, ?_⟩
      · simp only [PostProcess_, hqs, hloop]
      · rfl
      · intro c hc
        have : c ≠ addr := by simpa using hc [] _ rfl
        simp [Function.update_noteq this]
      · intro a s hs
        obtain ⟨rfl, -⟩ := Tree.subtree_leaf b e a s hs
        exact ⟨qs, by simpa using hqs, by simp⟩
      · intro p hp
        exact hset p (Or.inl hp)
      · intro p hp
        rw [Tree.hasLeafPoint_leaf] at hp
        refine hset p (Or.inr ?_)
        rw [List.mem_range'_1]; omega
  | Tree.node b e l r, addr, st, hpres => by
      obtain ⟨h0, hpl, hpr⟩ := hpres.node_cases
      obtain ⟨qs, hqs⟩ := Option.isSome_iff_exists.1 h0
      have hl0 := hpl [] _ rfl
      have hr0 := hpr [] _ rfl
      simp only [List.nil_append] at hl0 hr0
      obtain ⟨ls, hls⟩ := Option.isSome_iff_exists.1 hl0
      obtain ⟨rs, hrs⟩ := Option.isSome_iff_exists.1 hr0
      let stat1 : List Bool → Option (NbodySimulatorStatistic α) :=
        Function.update
          (Function.update
            (Function.update st.stat (false :: addr)
              (some { ls with postponed_ := ls.postponed_.ApplyPostponed qs.postponed_ }))
            (true :: addr)
            (some { rs with postponed_ := rs.postponed_.ApplyPostponed qs.postponed_ }))
          addr (some { qs with postponed_ := NbodySimulatorPostponed.SetZero })
      have hne1 : (false :: addr) ≠ addr := by simp
      have hne2 : (true :: addr) ≠ addr := by simp
      have hne3 : (false :: addr) ≠ (true :: addr) := by simp
      have s1a : stat1 addr = some { qs with postponed_ := NbodySimulatorPostponed.SetZero } := by
        simp [stat1]
      have s1r : stat1 (true :: addr) =
          some { rs with postponed_ := rs.postponed_.ApplyPostponed qs.postponed_ } := by
        simp [stat1, Function.update_noteq hne2]
      have s1l : stat1 (false :: addr) =
          some { ls with postponed_ := ls.postponed_.ApplyPostponed qs.postponed_ } := by
        simp [stat1, Function.update_noteq hne1, Function.update_noteq hne3]
      have s1o : ∀ c, c ≠ addr → c ≠ false :: addr → c ≠ true :: addr → stat1 c = st.stat c := by
        intro c h1 h2 h3
        simp [stat1, Function.update_noteq h1, Function.update_noteq h2, Function.update_noteq h3]
      have s1sum : ∀ c x, stat1 c = some x → ∃ y, st.stat c = some y ∧ y.summary_ = x.summary_ := by
        intro c x hx
        by_cases h1 : c = addr
        · subst h1; rw [s1a] at hx
          exact ⟨qs, hqs, by simp only [Option.some.injEq] at hx; rw [← hx]⟩
        by_cases h2 : c = false :: addr
        · subst h2; rw [s1l] at hx
          exact ⟨ls, hls, by simp only [Option.some.injEq] at hx; rw [← hx]⟩
        by_cases h3 : c = true :: addr
        · subst h3; rw [s1r] at hx
          exact ⟨rs, hrs, by simp only [Option.some.injEq] at hx; rw [← hx]⟩
        rw [s1o c h1 h2 h3] at hx
        exact ⟨x, hx, rfl⟩
      have s1some : ∀ c, (st.stat c).isSome = true → (stat1 c).isSome = true := by
        intro c hc
        by_cases h1 : c = addr
        · subst h1; rw [s1a]; rfl
        by_cases h2 : c = false :: addr
        · subst h2; rw [s1l]; rfl
        by_cases h3 : c = true :: addr
        · subst h3; rw [s1r]; rfl
        rw [s1o c h1 h2 h3]; exact hc
      have hstep : PostProcess_ addr (Tree.node b e l r) st =
          match PostProcess_ (false :: addr) l { st with stat := stat1 } with
          | none => none
          | some st => PostProcess_ (true :: addr) r st := by
        simp only [PostProcess_, hqs, hls, hrs, stat1]
      obtain ⟨st2, hrun2, hlog2, hfr2, hz2, hk2, hin2⟩ :=
        PostProcess_total l (false :: addr) { st with stat := stat1 }
          (fun a s hs => s1some _ (hpl a s hs))
      have hnotl : ∀ c, (true :: addr) <:+ c → ∀ a s, l.subtree a = some s →
          c ≠ a ++ false :: addr := by
        intro c hc a s _ h
        subst h
        exact suffix_false_true (List.suffix_append _ _) hc
      have hnotr : ∀ c, (false :: addr) <:+ c → ∀ a s, r.subtree a = some s →
          c ≠ a ++ true :: addr := by
        intro c hc a s _ h
        subst h
        exact suffix_false_true hc (List.suffix_append _ _)
      obtain ⟨st3, hrun3, hlog3, hfr3, hz3, hk3, hin3⟩ :=
        PostProcess_total r (true :: addr) st2
          (fun a s hs => by
            rw [hfr2 _ (hnotl _ (List.suffix_append _ _))]
            exact s1some _ (hpr a s hs))
      refine ⟨st3, ?_, ?_, ?_, ?_, ?_, ?_⟩
      · rw [hstep, hrun2]; exact hrun3
      · rw [hlog3, hlog2]
      · intro c hc
        have c1 : c ≠ addr := by simpa using hc [] _ rfl
        have c2 : c ≠ false :: addr := by
          simpa using hc [false] l (by simp [Tree.subtree, Tree.child])
        have c3 : c ≠ true :: addr := by
          simpa using hc [true] r (by simp [Tree.subtree, Tree.child])
        rw [hfr3 c (fun a s hs => by
              have := hc (a ++ [true]) s (by rw [Tree.subtree_append_child]; simpa using hs)
              simpa using this),
          hfr2 c (fun a s hs => by
              have := hc (a ++ [false]) s (by rw [Tree.subtree_append_child]; simpa using hs)
              simpa using this)]
        exact s1o c c1 c2 c3
      · intro a s hs
        rcases Tree.subtree_node_cases b e l r a s hs with ⟨rfl, -⟩ | ⟨a', rfl, hs'⟩ | ⟨a', rfl, hs'⟩
        · refine ⟨qs, by simpa using hqs, ?_⟩
          simp only [List.nil_append]
          rw [hfr3 addr (fun a s _ => ne_append_cons addr true a),
            hfr2 addr (fun a s _ => ne_append_cons addr false a)]
          exact s1a
        · obtain ⟨ns1, hn1, hn2⟩ := hz2 a' s hs'
          obtain ⟨y, hy, hsum⟩ := s1sum _ _ hn1
          refine ⟨y, by simpa using hy, ?_⟩
          have e1 : a' ++ [false] ++ addr = a' ++ false :: addr := by simp
          rw [e1, hfr3 _ (hnotr _ (List.suffix_append _ _)), hn2, hsum]
        · obtain ⟨ns1, hn1, hn2⟩ := hz3 a' s hs'
          rw [hfr2 _ (hnotl _ (List.suffix_append _ _))] at hn1
          obtain ⟨y, hy, hsum⟩ := s1sum _ _ hn1
          refine ⟨y, by simpa using hy, ?_⟩
          have e1 : a' ++ [true] ++ addr = a' ++ true :: addr := by simp
          rw [e1, hn2, hsum]
      · intro p hp
        exact hk3 p (hk2 p hp)
      · intro p hp
        rcases hp.cases with hp | hp
        · exact hk3 p (hin2 p hp)
        · exact hin3 p hp

/-- On a subtree whose nodes all have a zero postponed and whose leaf points
are all finalised, `PostProcess_` changes nothing. -/
theorem PostProcess_noop : ∀ (tree : Tree) (addr : List Bool) (st : State α),
    (∀ a s, tree.subtree a = some s →
      ∃ ns, st.stat (a ++ addr) = some ns ∧ ns.postponed_ = NbodySimulatorPostponed.SetZero) →
    (∀ p, tree.HasLeafPoint p → st.query_results.Settled p) →
    PostProcess_ addr tree st = some st
  | Tree.leaf b e, addr, st, hz, hset => by
      obtain ⟨qs, hqs, hq0⟩ := hz [] _ rfl
      simp only [List.nil_append] at hqs
      have hloop := leafLoop_spec qs.postponed_ (get_node_iterator ⟨addr, Tree.leaf b e⟩).remaining
        (get_node_iterator ⟨addr, Tree.leaf b e⟩) st.query_results (le_refl _)
      have hL : (get_node_iterator ⟨addr, Tree.leaf b e⟩).toList = List.range' b (e - b) := rfl
      rw [hL, hq0, leafFold_settled] at hloop
      · simp only [PostProcess_, hqs, hq0, hloop]
        have hsame : ({ qs with postponed_ := NbodySimulatorPostponed.SetZero } :
            NbodySimulatorStatistic α) = qs := by
          cases qs; simp only at hq0; subst hq0; rfl
        rw [hsame, ← hqs, Function.update_eq_self]
      · intro q hq
        apply hset
        rw [Tree.hasLeafPoint_leaf]
        rw [List.mem_range'_1] at hq
        omega
  | Tree.node b e l r, addr, st, hz, hset => by
      obtain ⟨qs, hqs, hq0⟩ := hz [] _ rfl
      obtain ⟨ls, hls, -⟩ := hz [false] l (by simp [Tree.subtree, Tree.child])
      obtain ⟨rs, hrs, -⟩ := hz [true] r (by simp [Tree.subtree, Tree.child])
      simp only [List.nil_append, List.singleton_append] at hqs hls hrs
      have hl := PostProcess_noop l (false :: addr) st
        (fun a s hs => by
          have := hz (a ++ [false]) s (by rw [Tree.subtree_append_child]; simpa using hs)
          simpa using this)
        (fun p hp => hset p hp.of_left)
      have hr := PostProcess_noop r (true :: addr) st
        (fun a s hs => by
          have := hz (a ++ [true]) s (by rw [Tree.subtree_append_child]; simpa using hs)
          simpa using this)
        (fun p hp => hset p hp.of_right)
      have hsame : ({ qs with postponed_ := NbodySimulatorPostponed.SetZero } :
          NbodySimulatorStatistic α) = qs := by
        cases qs; simp only at hq0; subst hq0; rfl
      have hstat : Function.update
          (Function.update
            (Function.update st.stat (false :: addr)
              (some { ls with postponed_ := ls.postponed_.ApplyPostponed qs.postponed_ }))
            (true :: addr)
            (some { rs with postponed_ := rs.postponed_.ApplyPostponed qs.postponed_ }))
          addr (some { qs with postponed_ := NbodySimulatorPostponed.SetZero }) = st.stat := by
        rw [hsame, hq0, ApplyPostponed_zero, ApplyPostponed_zero]
        have e1 : Function.update st.stat (false :: addr) (some ls) = st.stat := by
          rw [← hls, Function.update_eq_self]
        rw [e1]
        have e2 : Function.update st.stat (true :: addr) (some rs) = st.stat := by
          rw [← hrs, Function.update_eq_self]
        rw [e2, ← hqs, Function.update_eq_self]
      simp only [PostProcess_, hqs, hls, hrs]
      rw [hstat]
      have hst : ({ st with stat := st.stat } : State α) = st := rfl
      rw [hst, hl]
      exact hr

end PostProcessTotal

/-! ### Runs of `PostProcess_` and `Compute` that return -/

section PostProcessReturns
variable {α : Type} [LinearOrderedField α]

/-- A call of `PostProcess_` that returns has found a statistic at every node
of the subtree. -/
theorem PostProcess_present : ∀ (tree : Tree) (addr : List Bool) (st st' : State α),
    PostProcess_ addr tree st = some st' → StatsPresent st.stat addr tree
  | Tree.leaf b e, addr, st, st', h => by
      intro a s hs
      obtain ⟨rfl, -⟩ := Tree.subtree_leaf b e a s hs
      simp only [List.nil_append]
      cases hq : st.stat addr with
      | none => simp [PostProcess_, hq] at h
      | some qs => rfl
  | Tree.node b e l r, addr, st, st', h => by
      cases hq : st.stat addr with
      | none => simp [PostProcess_, hq] at h
      | some qs =>
        cases hl : st.stat (false :: addr) with
        | none => simp [PostProcess_, hq, hl] at h
        | some ls =>
          cases hr : st.stat (true :: addr) with
          | none => simp [PostProcess_, hq, hl, hr] at h
          | some rs =>
            simp only [PostProcess_, hq, hl, hr] at h
            have hback : ∀ c,
                ((Function.update
                  (Function.update
                    (Function.update st.stat (false :: addr)
                      (some { ls with
                              postponed_ := ls.postponed_.ApplyPostponed qs.postponed_ }))
                    (true :: addr)
                    (some { rs with
                            postponed_ := rs.postponed_.ApplyPostponed qs.postponed_ }))
                  addr (some { qs with postponed_ := NbodySimulatorPostponed.SetZero })) c).isSome
                  = true → (st.stat c).isSome = true := by
              intro c hc
              by_cases h1 : c = addr
              · subst h1; rw [hq]; rfl
              by_cases h2 : c = true :: addr
              · subst h2; rw [hr]; rfl
              by_cases h3 : c = false :: addr
              · subst h3; rw [hl]; rfl
              simpa [Function.update_noteq h1, Function.update_noteq h2,
                Function.update_noteq h3] using hc
            cases h2 : PostProcess_ (false :: addr) l
                { st with
                  stat := Function.update
                    (Function.update
                      (Function.update st.stat (false :: addr)
                        (some { ls with
                                postponed_ := ls.postponed_.ApplyPostponed qs.postponed_ }))
                      (true :: addr)
                      (some { rs with
                              postponed_ := rs.postponed_.ApplyPostponed qs.postponed_ }))
                    addr (some { qs with postponed_ := NbodySimulatorPostponed.SetZero }) } with
            | none => simp [h2] at h
            | some st2 =>
              simp only [h2] at h
              have pl := PostProcess_present l (false :: addr) _ st2 h2
              have pr := PostProcess_present r (true :: addr) st2 st' h
              obtain ⟨st2', hrun2, -, hfr2, -, -, -⟩ := PostProcess_total l (false :: addr) _ pl
              rw [h2] at hrun2
              cases hrun2
              intro a s hs
              rcases Tree.subtree_node_cases b e l r a s hs with
                ⟨rfl, -⟩ | ⟨a', rfl, hs'⟩ | ⟨a', rfl, hs'⟩
              · simp only [List.nil_append]; rw [hq]; rfl
              · have := hback _ (pl a' s hs')
                simpa using this
              · have h3 := pr a' s hs'
                have hnotl : ∀ c, (true :: addr) <:+ c → ∀ a s, l.subtree a = some s →
                    c ≠ a ++ false :: addr := by
                  intro c hc a s _ h
                  subst h
                  exact suffix_false_true (List.suffix_append _ _) hc
                rw [hfr2 _ (hnotl _ (List.suffix_append _ _))] at h3
                have := hback _ h3
                simpa using this

/-- After a call of `PostProcess_` that returns, the postponed of every node
of the subtree is zero. -/
theorem PostProcess_zeroes (tree : Tree) (addr : List Bool) (st st' : State α)
    (h : PostProcess_ addr tree st = some st') (a : List Bool) (s : Tree)
    (hs : tree.subtree a = some s) :
    ∃ ns, st'.stat (a ++ addr) = some ns ∧ ns.postponed_ = NbodySimulatorPostponed.SetZero := by
  obtain ⟨st2, hrun, -, -, hz, -, -⟩ :=
    PostProcess_total tree addr st (PostProcess_present tree addr st st' h)
  rw [h] at hrun
  cases hrun
  obtain ⟨ns, -, hns⟩ := hz a s hs
  exact ⟨_, hns, rfl⟩

/-- A run of `Compute` that returns ends with a call of `PostProcess_` on the
root that returns the same state. -/
theorem Compute_ends_with_PostProcess (global : NbodySimulatorGlobal α) (t : Tree)
    (st st' : State α) (h : Compute global t st = some st') :
    ∃ st2, PostProcess_ [] t st2 = some st' := by
  unfold Compute at h
  simp only at h
  split at h
  · cases h
  · split at h
    · cases h
    · exact ⟨_, h⟩

end PostProcessReturns

/-! ### Idempotence of the push-down and zero postponed -/

section Claims1112
variable {α : Type} [LinearOrderedField α]

/-- C11: for every tree and every state, running `PostProcess_` on the root
twice in a row gives what a single run gives (the second run returns the state
it was given: result buffer, node statistics and log); and when every node
owns a statistic the first run does return. -/
theorem PostProcess_idempotent (t : Tree) (st : State α) :
    (PostProcess_ [] t st).bind (PostProcess_ [] t) = PostProcess_ [] t st ∧
    (StatsPresent st.stat [] t →
      ∃ st1, PostProcess_ [] t st = some st1 ∧
        ∃ st2, PostProcess_ [] t st1 = some st2 ∧
          st2.query_results = st1.query_results ∧ st2.stat = st1.stat) := by
  have key : ∀ st1, PostProcess_ [] t st = some st1 → PostProcess_ [] t st1 = some st1 := by
    intro st1 h
    obtain ⟨st1', hrun, -, -, hz, -, hin⟩ :=
      PostProcess_total t [] st (PostProcess_present t [] st st1 h)
    rw [h] at hrun
    cases hrun
    apply PostProcess_noop
    · intro a s hs
      obtain ⟨ns, -, hns⟩ := hz a s hs
      exact ⟨_, hns, rfl⟩
    · exact hin
  refine ⟨?_, ?_⟩
  · cases h : PostProcess_ [] t st with
    | none => rfl
    | some st1 => exact key st1 h
  · intro hpres
    obtain ⟨st1, hrun, -⟩ := PostProcess_total t [] st hpres
    exact ⟨st1, hrun, st1, key st1 hrun, rfl, rfl⟩

theorem PostProcess_idempotent_witness :
    ∃ st1, PostProcess_ [] exampleTree (Init exampleTree exampleState) = some st1 ∧
      ∃ st2, PostProcess_ [] exampleTree st1 = some st2 ∧
        st2.query_results = st1.query_results ∧ st2.stat = st1.stat :=
  (PostProcess_idempotent exampleTree (Init exampleTree exampleState)).2
    (Init_statsPresent _ _)

/-- C12: in the state left by a call of `PostProcess_` on the root that
returns, and so in the state left by a run of `Compute` that returns, every
node of the tree, internal or leaf, owns a statistic whose postponed is zero;
`PostProcess_` returns when every node owns a statistic, and `Compute` returns
on a well-formed tree whose nodes own statistics. -/
theorem no_postponed_remains (global : NbodySimulatorGlobal α) (t : Tree) (st : State α) :
    (∀ st', PostProcess_ [] t st = some st' → ∀ n : TreeType, n.Valid t →
      ∃ s, st'.stat n.addr = some s ∧ s.postponed_ = NbodySimulatorPostponed.SetZero) ∧
    (∀ st', Compute global t st = some st' → ∀ n : TreeType, n.Valid t →
      ∃ s, st'.stat n.addr = some s ∧ s.postponed_ = NbodySimulatorPostponed.SetZero) ∧
    (StatsPresent st.stat [] t → ∃ st', PostProcess_ [] t st = some st') ∧
    (t.WellFormed → StatsPresent st.stat [] t → ∃ st', Compute global t st = some st') := by
  refine ⟨?_, ?_, ?_, ?_⟩
  · intro st' h n hn
    have := PostProcess_zeroes t [] st st' h n.addr n.tree hn
    simpa using this
  · intro st' h n hn
    obtain ⟨st2, h2⟩ := Compute_ends_with_PostProcess global t st st' h
    have := PostProcess_zeroes t [] st2 st' h2 n.addr n.tree hn
    simpa using this
  · intro hpres
    obtain ⟨st', hrun, -⟩ := PostProcess_total t [] st hpres
    exact ⟨st', hrun⟩
  · intro hwf hpres
    obtain ⟨st', hrun, -⟩ := Compute_spec global t hwf st hpres
    exact ⟨st', hrun⟩

theorem no_postponed_remains_witness :
    exampleTree.WellFormed ∧
    ∃ st', Compute exampleGlobal exampleTree (Init exampleTree exampleState) = some st' ∧
      ∀ n : TreeType, n.Valid exampleTree →
        ∃ s, st'.stat n.addr = some s ∧ s.postponed_ = NbodySimulatorPostponed.SetZero :=
  ⟨by decide,
    (((no_postponed_remains exampleGlobal exampleTree (Init exampleTree exampleState)).2.2.2
      (by decide) (Init_statsPresent _ _)).imp fun st' h =>
        ⟨h, (no_postponed_remains exampleGlobal exampleTree
          (Init exampleTree exampleState)).2.1 st' h⟩)⟩

end Claims1112

/-! ### The flush loop of the base case -/

section FlushLemmas
variable {α : Type} [LinearOrderedField α]

theorem flushFold_snd (pp : NbodySimulatorPostponed α) :
    ∀ (pts : List Nat) (s : NbodySimulatorSummary α) (qr : NbodySimulatorResult α),
      (flushFold pp pts s qr).2 = pts.foldl (fun acc q => acc.ApplyPostponed q pp) qr
  | [], _, _ => rfl
  | a :: pts, s, qr => by
      have := flushFold_snd pp pts (s.Accumulate (qr.ApplyPostponed a pp) a)
        (qr.ApplyPostponed a pp)
      simp only [flushFold, List.foldl_cons] at this ⊢
      exact this

theorem foldApply_entry (pp : NbodySimulatorPostponed α) :
    ∀ (pts : List Nat) (qr : NbodySimulatorResult α) (p : Nat), pts.Nodup →
      (pts.foldl (fun acc q => acc.ApplyPostponed q pp) qr).entry p =
        if p ∈ pts then (qr.entry p).ApplyPostponed pp else qr.entry p
  | [], _, _, _ => by simp
  | a :: pts, qr, p, hnd => by
      rw [List.nodup_cons] at hnd
      simp only [List.foldl_cons]
      rw [foldApply_entry pp pts _ p hnd.2, entry_ApplyPostponed]
      by_cases hpa : p = a
      · subst hpa
        simp [hnd.1]
      · simp [hpa]

theorem foldApply_potential (pp : NbodySimulatorPostponed α) :
    ∀ (pts : List Nat) (qr : NbodySimulatorResult α),
      (pts.foldl (fun acc q => acc.ApplyPostponed q pp) qr).potential_e_ = qr.potential_e_
  | [], _ => rfl
  | a :: pts, qr => by
      simp only [List.foldl_cons]
      rw [foldApply_potential pp pts]
      rfl

theorem Accumulate_congr (s : NbodySimulatorSummary α) (F G : NbodySimulatorResult α) (q : Nat)
    (h : F.entry q = G.entry q) : s.Accumulate F q = s.Accumulate G q := by
  have h1 := congrArg NbodySimulatorPostponed.negative_potential_ h
  have h2 := congrArg NbodySimulatorPostponed.positive_potential_ h
  have h3 := congrArg NbodySimulatorPostponed.pruned_ h
  have h4 := congrArg NbodySimulatorPostponed.used_error_ h
  simp only [NbodySimulatorResult.entry] at h1 h2 h3 h4
  simp only [NbodySimulatorSummary.Accumulate, h1, h2, h3, h4]

theorem foldAccumulate_congr (F G : NbodySimulatorResult α) :
    ∀ (pts : List Nat) (s : NbodySimulatorSummary α), (∀ q ∈ pts, F.entry q = G.entry q) →
      pts.foldl (fun s q => s.Accumulate F q) s = pts.foldl (fun s q => s.Accumulate G q) s
  | [], _, _ => rfl
  | a :: pts, s, h => by
      simp only [List.foldl_cons]
      rw [Accumulate_congr s F G a (h a (List.mem_cons_self _ _))]
      exact foldAccumulate_congr F G pts _ (fun q hq => h q (List.mem_cons_of_mem _ hq))

/-- The summary computed by the flush loop is the one accumulated over the
results the loop leaves behind. -/
theorem flushFold_fst (pp : NbodySimulatorPostponed α) :
    ∀ (pts : List Nat) (s : NbodySimulatorSummary α) (qr F : NbodySimulatorResult α),
      pts.Nodup →
      (∀ q ∈ pts, F.entry q = (pts.foldl (fun acc q => acc.ApplyPostponed q pp) qr).entry q) →
      (flushFold pp pts s qr).1 = pts.foldl (fun s q => s.Accumulate F q) s
  | [], _, _, _, _, _ => rfl
  | a :: pts, s, qr, F, hnd, hF => by
      rw [List.nodup_cons] at hnd
      have ih := flushFold_fst pp pts (s.Accumulate (qr.ApplyPostponed a pp) a)
        (qr.ApplyPostponed a pp) F hnd.2
        (fun q hq => by
          have := hF q (List.mem_cons_of_mem _ hq)
          simpa only [List.foldl_cons] using this)
      have ha : F.entry a = (qr.ApplyPostponed a pp).entry a := by
        have := hF a (List.mem_cons_self _ _)
        simp only [List.foldl_cons] at this
        rw [this, foldApply_entry pp pts _ a hnd.2, if_neg hnd.1]
      simp only [flushFold, List.foldl_cons] at ih ⊢
      rw [ih, Accumulate_congr s F _ a ha]

theorem summaryOver_congr (global : NbodySimulatorGlobal α) (F G : NbodySimulatorResult α)
    (pts : List Nat) (h : ∀ q ∈ pts, F.entry q = G.entry q) :
    summaryOver global F pts = summaryOver global G pts :=
  foldAccumulate_congr F G pts _ h

/-- Two different leaves of a well-formed tree have disjoint ranges. -/
theorem leaf_ranges_disjoint : ∀ (t : Tree), t.WellFormed →
    ∀ (a1 a2 : List Bool) (b1 e1 b2 e2 : Nat), t.subtree a1 = some (Tree.leaf b1 e1) →
      t.subtree a2 = some (Tree.leaf b2 e2) → a1 ≠ a2 → e1 ≤ b2 ∨ e2 ≤ b1
  | Tree.leaf b e, _, a1, a2, b1, e1, b2, e2, h1, h2, hne => by
      obtain ⟨rfl, -⟩ := Tree.subtree_leaf b e a1 _ h1
      obtain ⟨rfl, -⟩ := Tree.subtree_leaf b e a2 _ h2
      exact absurd rfl hne
  | Tree.node b e l r, hwf, a1, a2, b1, e1, b2, e2, h1, h2, hne => by
      obtain ⟨hb, hm, he, wl, wr⟩ := hwf
      rcases Tree.subtree_node_cases b e l r a1 _ h1 with ⟨-, h⟩ | ⟨a1', rfl, h1'⟩ | ⟨a1', rfl, h1'⟩
      · cases h
      · rcases Tree.subtree_node_cases b e l r a2 _ h2 with
          ⟨-, h⟩ | ⟨a2', rfl, h2'⟩ | ⟨a2', rfl, h2'⟩
        · cases h
        · exact leaf_ranges_disjoint l wl a1' a2' b1 e1 b2 e2 h1' h2'
            (fun h => hne (by rw [h]))
        · obtain ⟨-, x2⟩ := wl.subtree_range h1'
          obtain ⟨y1, -⟩ := wr.subtree_range h2'
          have x2' : e1 ≤ l.end_ := x2
          have y1' : r.begin_ ≤ b2 := y1
          left; omega
      · rcases Tree.subtree_node_cases b e l r a2 _ h2 with
          ⟨-, h⟩ | ⟨a2', rfl, h2'⟩ | ⟨a2', rfl, h2'⟩
        · cases h
        · obtain ⟨y1, -⟩ := wr.subtree_range h1'
          obtain ⟨-, x2⟩ := wl.subtree_range h2'
          have x2' : e2 ≤ l.end_ := x2
          have y1' : r.begin_ ≤ b1 := y1
          right; omega
        · exact leaf_ranges_disjoint r wr a1' a2' b1 e1 b2 e2 h1' h2'
            (fun h => hne (by rw [h]))

/-- Two valid leaf pointers with different addresses have no point in
common. -/
theorem TreeType.Valid.leaf_disjoint {t : Tree} (hwf : t.WellFormed) {n m : TreeType}
    (hn : n.Valid t) (hm : m.Valid t) (ln : n.is_leaf = true) (lm : m.is_leaf = true)
    (hne : n.addr ≠ m.addr) (p : Nat) (hp : p ∈ pointsOf n) : p ∉ pointsOf m := by
  obtain ⟨na, nt⟩ := n
  obtain ⟨ma, mt⟩ := m
  cases nt with
  | node _ _ _ _ => simp [TreeType.is_leaf, Tree.is_leaf] at ln
  | leaf b1 e1 =>
    cases mt with
    | node _ _ _ _ => simp [TreeType.is_leaf, Tree.is_leaf] at lm
    | leaf b2 e2 =>
      have := leaf_ranges_disjoint t hwf na ma b1 e1 b2 e2 hn hm hne
      rw [mem_pointsOf] at hp ⊢
      simp only [TreeType.begin_, TreeType.end_, Tree.begin_, Tree.end_] at hp ⊢
      omega

end FlushLemmas

/-! ### One pass of the flush loop -/

section FlushSteps
variable {α : Type} [LinearOrderedField α]

theorem flushGuard_iff (r : TripleRangeDistanceSq) (j : Nat) :
    (j = 0 ∨ (! (r.node j).ptr_eq (r.node (j - 1))) = true) ↔
      (j = 0 ∨ (r.node j).addr ≠ (r.node (j - 1)).addr) := by
  simp [TreeType.ptr_eq]

theorem flushNodeSpec_skips (global : NbodySimulatorGlobal α) (r : TripleRangeDistanceSq)
    (j : Nat) (st : State α) (h : ¬ (j = 0 ∨ (r.node j).addr ≠ (r.node (j - 1)).addr)) :
    flushNodeSpec global r j st = st := by
  unfold flushNodeSpec
  rw [if_neg]
  rwa [flushGuard_iff]

/-- A pass of the flush loop whose body runs: the statistic of the node gets a
zero postponed and the summary accumulated over the new results, every point
of the node receives the postponed once, and nothing else changes. -/
theorem flushNodeSpec_fires (global : NbodySimulatorGlobal α) (r : TripleRangeDistanceSq)
    (j : Nat) (st : State α) (ns : NbodySimulatorStatistic α)
    (hg : j = 0 ∨ (r.node j).addr ≠ (r.node (j - 1)).addr)
    (hns : st.stat (r.node j).addr = some ns) :
    (flushNodeSpec global r j st).stat =
        Function.update st.stat (r.node j).addr
          (some { postponed_ := NbodySimulatorPostponed.SetZero
                  summary_ := summaryOver global (flushNodeSpec global r j st).query_results
                    (pointsOf (r.node j)) }) ∧
      (∀ p, (flushNodeSpec global r j st).query_results.entry p =
        if p ∈ pointsOf (r.node j) then
          (st.query_results.entry p).ApplyPostponed (flushedPostponed global r j ns.postponed_)
        else st.query_results.entry p) ∧
      (flushNodeSpec global r j st).query_results.potential_e_ =
        st.query_results.potential_e_ := by
  have hnd : (pointsOf (r.node j)).Nodup := List.nodup_range' _ _
  have hdef : flushNodeSpec global r j st =
      { st with
        stat := Function.update st.stat (r.node j).addr
          (some { postponed_ := NbodySimulatorPostponed.SetZero
                  summary_ := (flushFold (flushedPostponed global r j ns.postponed_)
                    (pointsOf (r.node j)) (NbodySimulatorSummary.StartReaccumulate global)
                    st.query_results).1 })
        query_results := (flushFold (flushedPostponed global r j ns.postponed_)
          (pointsOf (r.node j)) (NbodySimulatorSummary.StartReaccumulate global)
          st.query_results).2 } := by
    unfold flushNodeSpec
    rw [if_pos ((flushGuard_iff r j).2 hg)]
    simp only [hns]
    rfl
  rw [hdef]
  refine ⟨?_, ?_, ?_⟩
  · simp only
    rw [flushFold_fst (flushedPostponed global r j ns.postponed_) (pointsOf (r.node j))
      (NbodySimulatorSummary.StartReaccumulate global) st.query_results
      (flushFold (flushedPostponed global r j ns.postponed_) (pointsOf (r.node j))
        (NbodySimulatorSummary.StartReaccumulate global) st.query_results).2 hnd
      (fun q _ => by rw [flushFold_snd])]
    rfl
  · intro p
    simp only
    rw [flushFold_snd, foldApply_entry _ _ _ _ hnd]
  · simp only
    rw [flushFold_snd, foldApply_potential]

/-- One pass of the flush loop and the summary of a leaf `n`: a pass whose
body runs on `n` refines the summary of `n`, and every pass keeps a refined
summary of `n` refined. -/
theorem flushNodeSpec_refined (global : NbodySimulatorGlobal α) (t : Tree) (hwf : t.WellFormed)
    (r : TripleRangeDistanceSq) (j : Nat) (st : State α) (n : TreeType)
    (hvj : (r.node j).Valid t) (hlj : (r.node j).is_leaf = true) (hn : n.Valid t)
    (hln : n.is_leaf = true) (hpres : (st.stat (r.node j).addr).isSome = true) :
    ((j = 0 ∨ (r.node j).addr ≠ (r.node (j - 1)).addr) → (r.node j).addr = n.addr →
        SummaryRefined global (flushNodeSpec global r j st) n) ∧
      (SummaryRefined global st n → SummaryRefined global (flushNodeSpec global r j st) n) := by
  obtain ⟨ns, hns⟩ := Option.isSome_iff_exists.1 hpres
  have hfire : (j = 0 ∨ (r.node j).addr ≠ (r.node (j - 1)).addr) → (r.node j).addr = n.addr →
      SummaryRefined global (flushNodeSpec global r j st) n := by
    intro hg ha
    obtain ⟨h1, -, -⟩ := flushNodeSpec_fires global r j st ns hg hns
    have hnj : r.node j = n := hvj.eq_of_addr hn ha
    refine ⟨_, by rw [h1, ha]; exact Function.update_same _ _ _, ?_⟩
    rw [hnj]
  refine ⟨hfire, ?_⟩
  intro hgood
  by_cases hg : j = 0 ∨ (r.node j).addr ≠ (r.node (j - 1)).addr
  · by_cases ha : (r.node j).addr = n.addr
    · exact hfire hg ha
    · obtain ⟨h1, h2, -⟩ := flushNodeSpec_fires global r j st ns hg hns
      obtain ⟨s, hs, hsum⟩ := hgood
      refine ⟨s, ?_, ?_⟩
      · rw [h1, Function.update_noteq (fun h => ha h.symm)]
        exact hs
      · rw [hsum]
        apply summaryOver_congr
        intro q hq
        rw [h2 q, if_neg]
        exact fun hq' => hvj.leaf_disjoint hwf hn hlj hln ha q hq' hq
  · rw [flushNodeSpec_skips global r j st hg]
    exact hgood

theorem flushNodeSpec_stat_isSome (global : NbodySimulatorGlobal α) (r : TripleRangeDistanceSq)
    (st : State α) (hs : ∀ i, (st.stat (r.node i).addr).isSome = true) :
    (∀ i, ((flushNodeSpec global r 0 st).stat (r.node i).addr).isSome = true) ∧
    (∀ i, ((flushNodeSpec global r 1 (flushNodeSpec global r 0 st)).stat
      (r.node i).addr).isSome = true) :=
  ⟨fun i => flushNodeSpec_isSome _ _ _ _ _ (hs i),
    fun i => flushNodeSpec_isSome _ _ _ _ _ (flushNodeSpec_isSome _ _ _ _ _ (hs i))⟩

/-- After the three passes of the flush loop on three leaves of a well-formed
tree, the summary of each slot node is the one accumulated over the results of
its points. -/
theorem flush3_refined (global : NbodySimulatorGlobal α) (t : Tree) (hwf : t.WellFormed)
    (r : TripleRangeDistanceSq) (st : State α) (hv : ∀ i, (r.node i).Valid t)
    (hl : ∀ i, (r.node i).is_leaf = true)
    (hs : ∀ i, (st.stat (r.node i).addr).isSome = true) (i : Nat) :
    SummaryRefined global
      (flushNodeSpec global r 2 (flushNodeSpec global r 1 (flushNodeSpec global r 0 st)))
      (r.node i) := by
  obtain ⟨hs1, hs2⟩ := flushNodeSpec_stat_isSome global r st hs
  have step0 := fun n hn hln => flushNodeSpec_refined global t hwf r 0 st n (hv 0) (hl 0) hn hln
    (hs 0)
  have step1 := fun n hn hln => flushNodeSpec_refined global t hwf r 1
    (flushNodeSpec global r 0 st) n (hv 1) (hl 1) hn hln (hs1 1)
  have step2 := fun n hn hln => flushNodeSpec_refined global t hwf r 2
    (flushNodeSpec global r 1 (flushNodeSpec global r 0 st)) n (hv 2) (hl 2) hn hln (hs2 2)
  -- slot 0 after the first pass, slot 1 after the second
  have g0 : SummaryRefined global (flushNodeSpec global r 0 st) (r.node 0) :=
    (step0 _ (hv 0) (hl 0)).1 (Or.inl rfl) rfl
  have g1 : SummaryRefined global (flushNodeSpec global r 1 (flushNodeSpec global r 0 st))
      (r.node 1) := by
    by_cases hg : (r.node 1).addr ≠ (r.node 0).addr
    · exact (step1 _ (hv 1) (hl 1)).1 (Or.inr hg) rfl
    · have he : r.node 1 = r.node 0 := (hv 1).eq_of_addr (hv 0) (not_not.1 hg)
      rw [he]
      exact (step1 _ (hv 0) (hl 0)).2 g0
  have g2 : SummaryRefined global
      (flushNodeSpec global r 2 (flushNodeSpec global r 1 (flushNodeSpec global r 0 st)))
      (r.node 2) := by
    by_cases hg : (r.node 2).addr ≠ (r.node 1).addr
    · exact (step2 _ (hv 2) (hl 2)).1 (Or.inr hg) rfl
    · have he : r.node 2 = r.node 1 := (hv 2).eq_of_addr (hv 1) (not_not.1 hg)
      rw [he]
      exact (step2 _ (hv 1) (hl 1)).2 g1
  have hcases : r.node i = r.node 0 ∨ r.node i = r.node 1 ∨ r.node i = r.node 2 := by
    rcases i with _ | _ | _ | i
    · exact Or.inl rfl
    · exact Or.inr (Or.inl rfl)
    · exact Or.inr (Or.inr rfl)
    · exact Or.inr (Or.inr rfl)
  rcases hcases with h | h | h
  · rw [h]
    exact (step2 _ (hv 0) (hl 0)).2 ((step1 _ (hv 0) (hl 0)).2 g0)
  · rw [h]
    exact (step2 _ (hv 1) (hl 1)).2 g1
  · rw [h]
    exact g2

end FlushSteps

/-! ### Folds of `min` and `max` -/

section MinMaxFolds
variable {α : Type} [LinearOrderedField α]

theorem foldl_min_spec (f : Nat → α) : ∀ (L : List Nat) (m : α),
    L.foldl (fun m q => min m (f q)) m ≤ m ∧
      (∀ q ∈ L, L.foldl (fun m q => min m (f q)) m ≤ f q) ∧
      (L.foldl (fun m q => min m (f q)) m = m ∨
        ∃ q ∈ L, L.foldl (fun m q => min m (f q)) m = f q)
  | [], m => ⟨le_refl _, by simp, Or.inl rfl⟩
  | a :: L, m => by
      obtain ⟨h1, h2, h3⟩ := foldl_min_spec f L (min m (f a))
      simp only [List.foldl_cons]
      refine ⟨h1.trans (min_le_left _ _), ?_, ?_⟩
      · intro q hq
        rcases List.mem_cons.1 hq with rfl | hq
        · exact h1.trans (min_le_right _ _)
        · exact h2 q hq
      · rcases h3 with h3 | ⟨q, hq, h3⟩
        · rcases min_choice m (f a) with h | h
          · left; rw [h3, h]
          · right; exact ⟨a, List.mem_cons_self _ _, by rw [h3, h]⟩
        · right; exact ⟨q, List.mem_cons_of_mem _ hq, h3⟩

theorem foldl_max_spec (f : Nat → α) : ∀ (L : List Nat) (m : α),
    m ≤ L.foldl (fun m q => max m (f q)) m ∧
      (∀ q ∈ L, f q ≤ L.foldl (fun m q => max m (f q)) m) ∧
      (L.foldl (fun m q => max m (f q)) m = m ∨
        ∃ q ∈ L, L.foldl (fun m q => max m (f q)) m = f q)
  | [], m => ⟨le_refl _, by simp, Or.inl rfl⟩
  | a :: L, m => by
      obtain ⟨h1, h2, h3⟩ := foldl_max_spec f L (max m (f a))
      simp only [List.foldl_cons]
      refine ⟨(le_max_left _ _).trans h1, ?_, ?_⟩
      · intro q hq
        rcases List.mem_cons.1 hq with rfl | hq
        · exact (le_max_right _ _).trans h1
        · exact h2 q hq
      · rcases h3 with h3 | ⟨q, hq, h3⟩
        · rcases max_choice m (f a) with h | h
          · left; rw [h3, h]
          · right; exact ⟨a, List.mem_cons_self _ _, by rw [h3, h]⟩
        · right; exact ⟨q, List.mem_cons_of_mem _ hq, h3⟩

theorem isMinOver_of_fold (f : Nat → α) (L : List Nat) (m : α) (hne : L ≠ [])
    (hb : ∀ q ∈ L, f q ≤ m) : IsMinOver (L.foldl (fun m q => min m (f q)) m) f L := by
  obtain ⟨h1, h2, h3⟩ := foldl_min_spec f L m
  refine ⟨h2, ?_⟩
  rcases h3 with h3 | h3
  · obtain ⟨q, hq⟩ := List.exists_mem_of_ne_nil L hne
    exact ⟨q, hq, le_antisymm (h2 q hq) (by rw [h3]; exact hb q hq)⟩
  · exact h3

theorem isMaxOver_of_fold (f : Nat → α) (L : List Nat) (m : α) (hne : L ≠ [])
    (hb : ∀ q ∈ L, m ≤ f q) : IsMaxOver (L.foldl (fun m q => max m (f q)) m) f L := by
  obtain ⟨h1, h2, h3⟩ := foldl_max_spec f L m
  refine ⟨h2, ?_⟩
  rcases h3 with h3 | h3
  · obtain ⟨q, hq⟩ := List.exists_mem_of_ne_nil L hne
    exact ⟨q, hq, le_antisymm (by rw [h3]; exact hb q hq) (h2 q hq)⟩
  · exact h3

/-- The fields of a summary after a run of `Accumulate` over a list of points
are separate folds of `min` and `max`. -/
theorem foldAccumulate_fields (qr : NbodySimulatorResult α) :
    ∀ (pts : List Nat) (s : NbodySimulatorSummary α),
      (pts.foldl (fun s q => s.Accumulate qr q) s).negative_potential_.lo =
          pts.foldl (fun m q => min m (qr.negative_potential_ q).lo) s.negative_potential_.lo ∧
        (pts.foldl (fun s q => s.Accumulate qr q) s).negative_potential_.hi =
          pts.foldl (fun m q => max m (qr.negative_potential_ q).hi) s.negative_potential_.hi ∧
        (pts.foldl (fun s q => s.Accumulate qr q) s).positive_potential_.lo =
          pts.foldl (fun m q => min m (qr.positive_potential_ q).lo) s.positive_potential_.lo ∧
        (pts.foldl (fun s q => s.Accumulate qr q) s).positive_potential_.hi =
          pts.foldl (fun m q => max m (qr.positive_potential_ q).hi) s.positive_potential_.hi ∧
        (pts.foldl (fun s q => s.Accumulate qr q) s).pruned_ =
          pts.foldl (fun m q => min m (qr.pruned_ q)) s.pruned_ ∧
        (pts.foldl (fun s q => s.Accumulate qr q) s).used_error_ =
          pts.foldl (fun m q => max m (qr.used_error_ q)) s.used_error_
  | [], _ => ⟨rfl, rfl, rfl, rfl, rfl, rfl⟩
  | a :: pts, s => by
      simp only [List.foldl_cons]
      exact foldAccumulate_fields qr pts (s.Accumulate qr a)

/-- The summary accumulated over a non-empty list of points whose results are
representable: each bound is attained at a point of the list. -/
theorem summaryOver_hull (global : NbodySimulatorGlobal α) (qr : NbodySimulatorResult α)
    (pts : List Nat) (hne : pts ≠ []) (hrep : ∀ p ∈ pts, Representable global qr p) :
    IsMinOver (summaryOver global qr pts).negative_potential_.lo
        (fun p => (qr.negative_potential_ p).lo) pts ∧
      IsMaxOver (summaryOver global qr pts).negative_potential_.hi
        (fun p => (qr.negative_potential_ p).hi) pts ∧
      IsMinOver (summaryOver global qr pts).positive_potential_.lo
        (fun p => (qr.positive_potential_ p).lo) pts ∧
      IsMaxOver (summaryOver global qr pts).positive_potential_.hi
        (fun p => (qr.positive_potential_ p).hi) pts ∧
      IsMinOver (summaryOver global qr pts).pruned_ (fun p => qr.pruned_ p) pts := by
  obtain ⟨f1, f2, f3, f4, f5, -⟩ :=
    foldAccumulate_fields qr pts (NbodySimulatorSummary.StartReaccumulate global)
  unfold summaryOver
  rw [f1, f2, f3, f4, f5]
  exact ⟨isMinOver_of_fold _ pts _ hne (fun q hq => (hrep q hq).1),
    isMaxOver_of_fold _ pts _ hne (fun q hq => (hrep q hq).2.1),
    isMinOver_of_fold _ pts _ hne (fun q hq => (hrep q hq).2.2.1),
    isMaxOver_of_fold _ pts _ hne (fun q hq => (hrep q hq).2.2.2.1),
    isMinOver_of_fold _ pts _ hne (fun q hq => (hrep q hq).2.2.2.2)⟩

/-- The used error of the summary accumulated over a list of points is the
greatest of zero and the used errors of the points. -/
theorem summaryOver_used_error (global : NbodySimulatorGlobal α) (qr : NbodySimulatorResult α)
    (pts : List Nat) :
    0 ≤ (summaryOver global qr pts).used_error_ ∧
      (∀ p ∈ pts, qr.used_error_ p ≤ (summaryOver global qr pts).used_error_) ∧
      ((summaryOver global qr pts).used_error_ = 0 ∨
        ∃ p ∈ pts, (summaryOver global qr pts).used_error_ = qr.used_error_ p) := by
  obtain ⟨-, -, -, -, -, f6⟩ :=
    foldAccumulate_fields qr pts (NbodySimulatorSummary.StartReaccumulate global)
  unfold summaryOver
  rw [f6]
  exact foldl_max_spec (fun q => qr.used_error_ q) pts 0

end MinMaxFolds

/-! ### Delivery of the postponed by the flush loop -/

section FlushDelivery
variable {α : Type} [LinearOrderedField α]

/-- One pass of the flush loop and the points of a leaf `n`: a pass whose body
runs on `n` zeroes the postponed of `n` and applies it once to every point of
`n`; a pass on another node, or one whose body is skipped, leaves the
statistic of `n` and the results of its points alone. -/
theorem flushNodeSpec_delivery (global : NbodySimulatorGlobal α) (t : Tree) (hwf : t.WellFormed)
    (r : TripleRangeDistanceSq) (j : Nat) (st : State α) (n : TreeType)
    (hvj : (r.node j).Valid t) (hlj : (r.node j).is_leaf = true) (hn : n.Valid t)
    (hln : n.is_leaf = true) (hpres : (st.stat (r.node j).addr).isSome = true) :
    (∀ ns, (j = 0 ∨ (r.node j).addr ≠ (r.node (j - 1)).addr) → (r.node j).addr = n.addr →
        st.stat n.addr = some ns →
        (∃ s, (flushNodeSpec global r j st).stat n.addr = some s ∧
          s.postponed_ = NbodySimulatorPostponed.SetZero) ∧
        ∀ p ∈ pointsOf n, (flushNodeSpec global r j st).query_results.entry p =
          (st.query_results.entry p).ApplyPostponed
            (flushedPostponed global r j ns.postponed_)) ∧
      (((r.node j).addr ≠ n.addr ∨ ¬ (j = 0 ∨ (r.node j).addr ≠ (r.node (j - 1)).addr)) →
        (flushNodeSpec global r j st).stat n.addr = st.stat n.addr ∧
        ∀ p ∈ pointsOf n, (flushNodeSpec global r j st).query_results.entry p =
          st.query_results.entry p) := by
  obtain ⟨nsj, hnsj⟩ := Option.isSome_iff_exists.1 hpres
  refine ⟨?_, ?_⟩
  · intro ns hg ha hns
    obtain ⟨h1, h2, -⟩ := flushNodeSpec_fires global r j st nsj hg hnsj
    have hnj : r.node j = n := hvj.eq_of_addr hn ha
    have hsame : nsj = ns := by
      rw [ha, hns] at hnsj
      exact (Option.some.inj hnsj).symm
    refine ⟨⟨_, by rw [h1, ha]; exact Function.update_same _ _ _, rfl⟩, ?_⟩
    intro p hp
    rw [h2 p, hnj, if_pos hp, hsame]
  · intro h
    by_cases hg : j = 0 ∨ (r.node j).addr ≠ (r.node (j - 1)).addr
    · have ha : (r.node j).addr ≠ n.addr := by
        rcases h with h | h
        · exact h
        · exact absurd hg h
      obtain ⟨h1, h2, -⟩ := flushNodeSpec_fires global r j st nsj hg hnsj
      refine ⟨by rw [h1, Function.update_noteq (fun h => ha h.symm)], ?_⟩
      intro p hp
      rw [h2 p, if_neg]
      exact fun hq' => hvj.leaf_disjoint hwf hn hlj hln ha p hq' hp
    · rw [flushNodeSpec_skips global r j st hg]
      exact ⟨rfl, fun _ _ => rfl⟩

/-- The three passes of the flush loop and a leaf `n` on which exactly the
pass of slot `f` runs its body: the postponed of `n` is zero afterwards and
every point of `n` has received it once. -/
theorem flush3_delivered (global : NbodySimulatorGlobal α) (t : Tree) (hwf : t.WellFormed)
    (r : TripleRangeDistanceSq) (st : State α) (hv : ∀ i, (r.node i).Valid t)
    (hl : ∀ i, (r.node i).is_leaf = true)
    (hs : ∀ i, (st.stat (r.node i).addr).isSome = true)
    (n : TreeType) (hn : n.Valid t) (hln : n.is_leaf = true) (ns : NbodySimulatorStatistic α)
    (hns : st.stat n.addr = some ns) (f : Nat) (hf : f < 3)
    (hfa : (r.node f).addr = n.addr)
    (hfg : f = 0 ∨ (r.node f).addr ≠ (r.node (f - 1)).addr)
    (hbefore : ∀ j, j < f → (r.node j).addr ≠ n.addr)
    (hafter : ∀ j, f < j → j < 3 →
      (r.node j).addr ≠ n.addr ∨ ¬ (j = 0 ∨ (r.node j).addr ≠ (r.node (j - 1)).addr)) :
    (∃ s, (flushNodeSpec global r 2 (flushNodeSpec global r 1
        (flushNodeSpec global r 0 st))).stat n.addr = some s ∧
        s.postponed_ = NbodySimulatorPostponed.SetZero) ∧
      ∀ p ∈ pointsOf n,
        (flushNodeSpec global r 2 (flushNodeSpec global r 1
          (flushNodeSpec global r 0 st))).query_results.entry p =
          (st.query_results.entry p).ApplyPostponed
            (flushedPostponed global r f ns.postponed_) := by
  obtain ⟨hs1, hs2⟩ := flushNodeSpec_stat_isSome global r st hs
  obtain ⟨a0, b0⟩ := flushNodeSpec_delivery global t hwf r 0 st n (hv 0) (hl 0) hn hln (hs 0)
  obtain ⟨a1, b1⟩ := flushNodeSpec_delivery global t hwf r 1 (flushNodeSpec global r 0 st) n
    (hv 1) (hl 1) hn hln (hs1 1)
  obtain ⟨a2, b2⟩ := flushNodeSpec_delivery global t hwf r 2
    (flushNodeSpec global r 1 (flushNodeSpec global r 0 st)) n (hv 2) (hl 2) hn hln (hs2 2)
  rcases f with _ | _ | _ | f
  · obtain ⟨⟨s, x1, x2⟩, y⟩ := a0 ns hfg hfa hns
    obtain ⟨u1, v1⟩ := b1 (hafter 1 (by omega) (by omega))
    obtain ⟨u2, v2⟩ := b2 (hafter 2 (by omega) (by omega))
    refine ⟨⟨s, by rw [u2, u1]; exact x1, x2⟩, ?_⟩
    intro p hp
    rw [v2 p hp, v1 p hp, y p hp]
  · obtain ⟨u0, v0⟩ := b0 (Or.inl (hbefore 0 (by omega)))
    obtain ⟨⟨s, x1, x2⟩, y⟩ := a1 ns hfg hfa (by rw [u0]; exact hns)
    obtain ⟨u2, v2⟩ := b2 (hafter 2 (by omega) (by omega))
    refine ⟨⟨s, by rw [u2]; exact x1, x2⟩, ?_⟩
    intro p hp
    rw [v2 p hp, y p hp, v0 p hp]
  · obtain ⟨u0, v0⟩ := b0 (Or.inl (hbefore 0 (by omega)))
    obtain ⟨u1, v1⟩ := b1 (Or.inl (hbefore 1 (by omega)))
    obtain ⟨⟨s, x1, x2⟩, y⟩ := a2 ns hfg hfa (by rw [u1, u0]; exact hns)
    refine ⟨⟨s, x1, x2⟩, ?_⟩
    intro p hp
    rw [y p hp, v1 p hp, v0 p hp]
  · omega

/-- On a triple of leaves in canonical order, the first and the last slot
hold the same node only if all three do. -/
theorem SlotInv.outer_eq {t : Tree} (hwf : t.WellFormed) {r : TripleRangeDistanceSq}
    (hs : SlotInv t 3 true r) (h : r.node0.addr = r.node2.addr) :
    r.node0.addr = r.node1.addr ∧ r.node1.addr = r.node2.addr := by
  obtain ⟨v0, v1, v2, p0, p1, -⟩ := hs
  have a0 : Agree r.node0 r.node1 := by simpa [PairInv] using p0
  have a1 : Agree r.node1 r.node2 := by simpa [PairInv] using p1
  have e02 : r.node0 = r.node2 := v0.eq_of_addr v2 h
  have n0 := (v0.wf hwf).lt
  have n1 := (v1.wf hwf).lt
  have n2 := (v2.wf hwf).lt
  by_cases h01 : r.node0.addr = r.node1.addr
  · exact ⟨h01, h01.symm.trans h⟩
  · exfalso
    have c0 : r.node0.end_ ≤ r.node1.begin_ := by
      rcases a0 with a | a
      · exact absurd a h01
      · exact a
    have h12 : r.node1.addr ≠ r.node2.addr := fun e => h01 (h.trans e.symm)
    have c1 : r.node1.end_ ≤ r.node2.begin_ := by
      rcases a1 with a | a
      · exact absurd a h12
      · exact a
    rw [← e02] at c1
    simp only [TreeType.begin_, TreeType.end_] at c0 c1
    omega

/-- On a triple of leaves in canonical order the body of the flush loop runs
on the node of slot `i` in exactly one pass, that of the first slot holding
the node. -/
theorem firstSlot_spec {t : Tree} (hwf : t.WellFormed) {r : TripleRangeDistanceSq}
    (hs : SlotInv t 3 true r) (i : Nat) (hi : i < 3) :
    firstSlot r i < 3 ∧ (r.node (firstSlot r i)).addr = (r.node i).addr ∧
      (firstSlot r i = 0 ∨
        (r.node (firstSlot r i)).addr ≠ (r.node (firstSlot r i - 1)).addr) ∧
      (∀ j, j < firstSlot r i → (r.node j).addr ≠ (r.node i).addr) ∧
      (∀ j, firstSlot r i < j → j < 3 →
        (r.node j).addr ≠ (r.node i).addr ∨
          ¬ (j = 0 ∨ (r.node j).addr ≠ (r.node (j - 1)).addr)) ∧
      flushedAt r i = [firstSlot r i] := by
  have hout := hs.outer_eq hwf
  have e0 : r.node 0 = r.node0 := rfl
  have e1 : r.node 1 = r.node1 := rfl
  have e2 : r.node 2 = r.node2 := rfl
  have hrange : List.range 3 = [0, 1, 2] := rfl
  by_cases h01 : r.node0.addr = r.node1.addr <;> by_cases h12 : r.node1.addr = r.node2.addr
  · -- all three slots hold the same node
    have h02 : r.node0.addr = r.node2.addr := h01.trans h12
    have hf : firstSlot r i = 0 := by
      rcases i with _ | _ | _ | i
      · simp [firstSlot, TreeType.ptr_eq]
      · simp [firstSlot, TreeType.ptr_eq, e0, e1, h01]
      · simp [firstSlot, TreeType.ptr_eq, e0, e2, h01, h12]
      · omega
    have hia : (r.node 0).addr = (r.node i).addr := by
      rcases i with _ | _ | _ | i
      · rfl
      · exact h01
      · exact h02
      · omega
    have hpi : (r.node 0).ptr_eq (r.node i) = true := by
      simp only [TreeType.ptr_eq, decide_eq_true_eq]
      exact hia
    have hpi1 : (r.node 1).ptr_eq (r.node i) = true := by
      simp only [TreeType.ptr_eq, decide_eq_true_eq]
      rw [← hia]; exact h01.symm
    have hpi2 : (r.node 2).ptr_eq (r.node i) = true := by
      simp only [TreeType.ptr_eq, decide_eq_true_eq]
      rw [← hia]; exact h02.symm
    rw [hf]
    refine ⟨by omega, hia, Or.inl rfl, fun j hj => by omega, ?_, ?_⟩
    · intro j hj1 hj2
      right
      have : j = 1 ∨ j = 2 := by omega
      rcases this with rfl | rfl
      · simp [e0, e1, h01]
      · simp [e1, e2, h12]
    · simp [flushedAt, hrange, List.filter, hpi, hpi1, hpi2]
      simp [TreeType.ptr_eq, e0, e1, e2, h01, h12]
  · -- slots 0 and 1 hold the same node, slot 2 another one
    have h02 : r.node0.addr ≠ r.node2.addr := fun h => h12 (hout h).2
    rcases i with _ | _ | _ | i
    · have hf : firstSlot r 0 = 0 := by simp [firstSlot, TreeType.ptr_eq]
      rw [hf]
      refine ⟨by omega, rfl, Or.inl rfl, fun j hj => by omega, ?_, ?_⟩
      · intro j hj1 hj2
        have : j = 1 ∨ j = 2 := by omega
        rcases this with rfl | rfl
        · right; simp [e0, e1, h01]
        · left; simp only [e0, e2]; exact fun h => h02 h.symm
      · simp [flushedAt, hrange, List.filter, TreeType.ptr_eq, e0, e1, e2, h01, h12, h02,
          Ne.symm h02, Ne.symm h12]
    · have hf : firstSlot r 1 = 0 := by simp [firstSlot, TreeType.ptr_eq, e0, e1, h01]
      rw [hf]
      refine ⟨by omega, by simp [e0, e1, h01], Or.inl rfl, fun j hj => by omega, ?_, ?_⟩
      · intro j hj1 hj2
        have : j = 1 ∨ j = 2 := by omega
        rcases this with rfl | rfl
        · right; simp [e0, e1, h01]
        · left; simp only [e1, e2]; exact fun h => h12 h.symm
      · simp [flushedAt, hrange, List.filter, TreeType.ptr_eq, e0, e1, e2, h01, h12, h02,
          Ne.symm h02, Ne.symm h12]
    · have hf : firstSlot r 2 = 2 := by
        simp [firstSlot, TreeType.ptr_eq, e0, e1, e2, h02, h12]
      rw [hf]
      refine ⟨by omega, rfl, Or.inr (by simp [e1, e2]; exact fun h => h12 h.symm), ?_, ?_, ?_⟩
      · intro j hj
        have : j = 0 ∨ j = 1 := by omega
        rcases this with rfl | rfl
        · simpa [e0, e2] using h02
        · simpa [e1, e2] using h12
      · intro j hj1 hj2; omega
      · simp [flushedAt, hrange, List.filter, TreeType.ptr_eq, e0, e1, e2, h01, h12, h02,
          Ne.symm h02, Ne.symm h12]
    · omega
  · -- slots 1 and 2 hold the same node, slot 0 another one
    have h02 : r.node0.addr ≠ r.node2.addr := fun h => h01 (hout h).1
    rcases i with _ | _ | _ | i
    · have hf : firstSlot r 0 = 0 := by simp [firstSlot, TreeType.ptr_eq]
      rw [hf]
      refine ⟨by omega, rfl, Or.inl rfl, fun j hj => by omega, ?_, ?_⟩
      · intro j hj1 hj2
        have : j = 1 ∨ j = 2 := by omega
        rcases this with rfl | rfl
        · left; simp only [e0, e1]; exact fun h => h01 h.symm
        · left; simp only [e0, e2]; exact fun h => h02 h.symm
      · simp [flushedAt, hrange, List.filter, TreeType.ptr_eq, e0, e1, e2, h01, h12, h02,
          Ne.symm h02, Ne.symm h01]
    · have hf : firstSlot r 1 = 1 := by simp [firstSlot, TreeType.ptr_eq, e0, e1, h01]
      rw [hf]
      refine ⟨by omega, rfl, Or.inr (by simp [e0, e1]; exact fun h => h01 h.symm), ?_, ?_, ?_⟩
      · intro j hj
        have : j = 0 := by omega
        subst this
        simpa [e0, e1] using h01
      · intro j hj1 hj2
        have : j = 2 := by omega
        subst this
        right; simp [e1, e2, h12]
      · simp [flushedAt, hrange, List.filter, TreeType.ptr_eq, e0, e1, e2, h01, h12, h02,
          Ne.symm h02, Ne.symm h01]
    · have hf : firstSlot r 2 = 1 := by
        simp [firstSlot, TreeType.ptr_eq, e0, e1, e2, h02, h12]
      rw [hf]
      refine ⟨by omega, by simp [e1, e2, h12],
        Or.inr (by simp [e0, e1]; exact fun h => h01 h.symm), ?_, ?_, ?_⟩
      · intro j hj
        have : j = 0 := by omega
        subst this
        simpa [e0, e2] using h02
      · intro j hj1 hj2
        have : j = 2 := by omega
        subst this
        right; simp [e1, e2, h12]
      · simp [flushedAt, hrange, List.filter, TreeType.ptr_eq, e0, e1, e2, h01, h12, h02,
          Ne.symm h02, Ne.symm h01]
    · omega
  · -- three different nodes
    have h02 : r.node0.addr ≠ r.node2.addr := fun h => h01 (hout h).1
    rcases i with _ | _ | _ | i
    · have hf : firstSlot r 0 = 0 := by simp [firstSlot, TreeType.ptr_eq]
      rw [hf]
      refine ⟨by omega, rfl, Or.inl rfl, fun j hj => by omega, ?_, ?_⟩
      · intro j hj1 hj2
        have : j = 1 ∨ j = 2 := by omega
        rcases this with rfl | rfl
        · left; simp only [e0, e1]; exact fun h => h01 h.symm
        · left; simp only [e0, e2]; exact fun h => h02 h.symm
      · simp [flushedAt, hrange, List.filter, TreeType.ptr_eq, e0, e1, e2, h01, h12, h02,
          Ne.symm h02, Ne.symm h01, Ne.symm h12]
    · have hf : firstSlot r 1 = 1 := by simp [firstSlot, TreeType.ptr_eq, e0, e1, h01]
      rw [hf]
      refine ⟨by omega, rfl, Or.inr (by simp [e0, e1]; exact fun h => h01 h.symm), ?_, ?_, ?_⟩
      · intro j hj
        have : j = 0 := by omega
        subst this
        simpa [e0, e1] using h01
      · intro j hj1 hj2
        have : j = 2 := by omega
        subst this
        left; simp only [e1, e2]; exact fun h => h12 h.symm
      · simp [flushedAt, hrange, List.filter, TreeType.ptr_eq, e0, e1, e2, h01, h12, h02,
          Ne.symm h02, Ne.symm h01, Ne.symm h12]
    · have hf : firstSlot r 2 = 2 := by
        simp [firstSlot, TreeType.ptr_eq, e0, e1, e2, h02, h12]
      rw [hf]
      refine ⟨by omega, rfl, Or.inr (by simp [e1, e2]; exact fun h => h12 h.symm), ?_, ?_, ?_⟩
      · intro j hj
        have : j = 0 ∨ j = 1 := by omega
        rcases this with rfl | rfl
        · simpa [e0, e2] using h02
        · simpa [e1, e2] using h12
      · intro j hj1 hj2; omega
      · simp [flushedAt, hrange, List.filter, TreeType.ptr_eq, e0, e1, e2, h01, h12, h02,
          Ne.symm h02, Ne.symm h01, Ne.symm h12]
    · omega

end FlushDelivery

/-! ### Algebra of the problem types -/

section Claims1617

/-- C16, amended: `NbodySimulatorPostponed::ApplyPostponed` adds the two
intervals, `pruned_` and `used_error_` field by field.  In every arithmetic
whose addition is commutative and leaves a value unchanged when zero is added,
as the addition of doubles does, it is commutative and the value of `SetZero`
is a left and a right identity for it; it is associative when the addition is
associative, that is, when no addition rounds. -/
theorem Postponed_commutative_with_identity {α : Type} [Zero α] [Add α]
    (hcomm : ∀ x y : α, x + y = y + x) (hzero : ∀ x : α, x + 0 = x) :
    (∀ a b : NbodySimulatorPostponed α, a.ApplyPostponed b = b.ApplyPostponed a) ∧
    (∀ a : NbodySimulatorPostponed α,
      a.ApplyPostponed NbodySimulatorPostponed.SetZero = a ∧
        NbodySimulatorPostponed.SetZero.ApplyPostponed a = a) ∧
    (∀ a b : NbodySimulatorPostponed α,
      (a.ApplyPostponed b).negative_potential_ =
          ⟨a.negative_potential_.lo + b.negative_potential_.lo,
            a.negative_potential_.hi + b.negative_potential_.hi⟩ ∧
        (a.ApplyPostponed b).positive_potential_ =
          ⟨a.positive_potential_.lo + b.positive_potential_.lo,
            a.positive_potential_.hi + b.positive_potential_.hi⟩ ∧
        (a.ApplyPostponed b).pruned_ = a.pruned_ + b.pruned_ ∧
        (a.ApplyPostponed b).used_error_ = a.used_error_ + b.used_error_) ∧
    ((∀ x y z : α, x + y + z = x + (y + z)) →
      ∀ a b c : NbodySimulatorPostponed α,
        (a.ApplyPostponed b).ApplyPostponed c = a.ApplyPostponed (b.ApplyPostponed c)) := by
  have hzero' : ∀ x : α, 0 + x = x := fun x => by rw [hcomm, hzero]
  refine ⟨?_, ?_, fun _ _ => ⟨rfl, rfl, rfl, rfl⟩, ?_⟩
  · intro a b
    simp only [NbodySimulatorPostponed.ApplyPostponed, Range.add,
      NbodySimulatorPostponed.mk.injEq, Range.mk.injEq]
    exact ⟨⟨hcomm _ _, hcomm _ _⟩, ⟨hcomm _ _, hcomm _ _⟩, hcomm _ _, hcomm _ _⟩
  · intro a
    cases a with
    | mk n p pr ue =>
      cases n
      cases p
      simp only [NbodySimulatorPostponed.ApplyPostponed, NbodySimulatorPostponed.SetZero,
        Range.add, Range.Init, hzero, hzero', and_self]
  · intro hassoc a b c
    simp only [NbodySimulatorPostponed.ApplyPostponed, Range.add, hassoc]

/-- C17, amended: one call `ApplyPostponed(q, a)` adds the postponed to the
four accumulated fields of entry `q`, leaves the four fields of every other
entry as they were and leaves `potential_e_` unchanged; `ApplyPostponed(q, a)`
followed by `ApplyPostponed(q, b)` leaves in entry `q` the old entry with `a`
and then `b` added, in this order, and gives the buffer of one
`ApplyPostponed(q, c)` with `c` the combination of `a` and `b` when the
addition is associative, that is, when no addition rounds. -/
theorem Result_ApplyPostponed_sequential_and_local {α : Type} [Add α]
    (qr : NbodySimulatorResult α) (q : Nat) (a b : NbodySimulatorPostponed α) :
    ((∀ p, (qr.ApplyPostponed q a).negative_potential_ p =
        if p = q then (qr.negative_potential_ p).add a.negative_potential_
        else qr.negative_potential_ p) ∧
      (∀ p, (qr.ApplyPostponed q a).positive_potential_ p =
        if p = q then (qr.positive_potential_ p).add a.positive_potential_
        else qr.positive_potential_ p) ∧
      (∀ p, (qr.ApplyPostponed q a).pruned_ p =
        if p = q then qr.pruned_ p + a.pruned_ else qr.pruned_ p) ∧
      (∀ p, (qr.ApplyPostponed q a).used_error_ p =
        if p = q then qr.used_error_ p + a.used_error_ else qr.used_error_ p) ∧
      (qr.ApplyPostponed q a).potential_e_ = qr.potential_e_) ∧
    ((∀ p, ((qr.ApplyPostponed q a).ApplyPostponed q b).negative_potential_ p =
        if p = q then ((qr.negative_potential_ p).add a.negative_potential_).add
          b.negative_potential_
        else qr.negative_potential_ p) ∧
      (∀ p, ((qr.ApplyPostponed q a).ApplyPostponed q b).positive_potential_ p =
        if p = q then ((qr.positive_potential_ p).add a.positive_potential_).add
          b.positive_potential_
        else qr.positive_potential_ p) ∧
      (∀ p, ((qr.ApplyPostponed q a).ApplyPostponed q b).pruned_ p =
        if p = q then qr.pruned_ p + a.pruned_ + b.pruned_ else qr.pruned_ p) ∧
      (∀ p, ((qr.ApplyPostponed q a).ApplyPostponed q b).used_error_ p =
        if p = q then qr.used_error_ p + a.used_error_ + b.used_error_
        else qr.used_error_ p) ∧
      ((qr.ApplyPostponed q a).ApplyPostponed q b).potential_e_ = qr.potential_e_) ∧
    ((∀ x y z : α, x + y + z = x + (y + z)) →
      (qr.ApplyPostponed q a).ApplyPostponed q b =
        qr.ApplyPostponed q (a.ApplyPostponed b)) := by
  have one : ∀ (r : NbodySimulatorResult α) (c : NbodySimulatorPostponed α),
      (∀ p, (r.ApplyPostponed q c).negative_potential_ p =
        if p = q then (r.negative_potential_ p).add c.negative_potential_
        else r.negative_potential_ p) ∧
      (∀ p, (r.ApplyPostponed q c).positive_potential_ p =
        if p = q then (r.positive_potential_ p).add c.positive_potential_
        else r.positive_potential_ p) ∧
      (∀ p, (r.ApplyPostponed q c).pruned_ p =
        if p = q then r.pruned_ p + c.pruned_ else r.pruned_ p) ∧
      (∀ p, (r.ApplyPostponed q c).used_error_ p =
        if p = q then r.used_error_ p + c.used_error_ else r.used_error_ p) ∧
      (r.ApplyPostponed q c).potential_e_ = r.potential_e_ := by
    intro r c
    refine ⟨?_, ?_, ?_, ?_, rfl⟩ <;>
    · intro p
      by_cases h : p = q
      · subst h; simp [NbodySimulatorResult.ApplyPostponed]
      · simp [NbodySimulatorResult.ApplyPostponed, h, Function.update_noteq h]
  obtain ⟨a1, a2, a3, a4, a5⟩ := one qr a
  obtain ⟨b1, b2, b3, b4, b5⟩ := one (qr.ApplyPostponed q a) b
  refine ⟨one qr a, ⟨?_, ?_, ?_, ?_, b5.trans a5⟩, ?_⟩
  · intro p
    rw [b1 p, a1 p]
    by_cases h : p = q
    · simp only [h, if_true]
    · simp only [h, if_false]
  · intro p
    rw [b2 p, a2 p]
    by_cases h : p = q
    · simp only [h, if_true]
    · simp only [h, if_false]
  · intro p
    rw [b3 p, a3 p]
    by_cases h : p = q
    · simp only [h, if_true]
    · simp only [h, if_false]
  · intro p
    rw [b4 p, a4 p]
    by_cases h : p = q
    · simp only [h, if_true]
    · simp only [h, if_false]
  · intro hassoc
    cases qr
    simp [NbodySimulatorResult.ApplyPostponed, NbodySimulatorPostponed.ApplyPostponed,
      Range.add, hassoc]

end Claims1617

/-- C16 as stated fails on doubles: with `pruned_` equal to `2 ^ 53`, `1` and
`1` (all other fields zero), `(a + b) + c` leaves `2 ^ 53` in `pruned_` and
`a + (b + c)` leaves `2 ^ 53 + 2`, so `ApplyPostponed` is not associative;
on these values it is commutative and `SetZero` is an identity. -/
theorem Postponed_associativity_counterexample :
    (((NbodySimulatorPostponed.Init (Double.ofRat (2 ^ 53))).ApplyPostponed
        (NbodySimulatorPostponed.Init 1)).ApplyPostponed
      (NbodySimulatorPostponed.Init 1)).pruned_ = Double.ofRat (2 ^ 53) ∧
    ((NbodySimulatorPostponed.Init (Double.ofRat (2 ^ 53))).ApplyPostponed
        ((NbodySimulatorPostponed.Init 1).ApplyPostponed
          (NbodySimulatorPostponed.Init 1))).pruned_ = Double.ofRat (2 ^ 53 + 2) ∧
    ((NbodySimulatorPostponed.Init (Double.ofRat (2 ^ 53))).ApplyPostponed
        (NbodySimulatorPostponed.Init 1)).ApplyPostponed (NbodySimulatorPostponed.Init 1) ≠
      (NbodySimulatorPostponed.Init (Double.ofRat (2 ^ 53))).ApplyPostponed
        ((NbodySimulatorPostponed.Init 1).ApplyPostponed (NbodySimulatorPostponed.Init 1)) ∧
    (NbodySimulatorPostponed.Init (Double.ofRat (2 ^ 53))).ApplyPostponed
        (NbodySimulatorPostponed.Init 1) =
      (NbodySimulatorPostponed.Init 1).ApplyPostponed
        (NbodySimulatorPostponed.Init (Double.ofRat (2 ^ 53))) ∧
    (NbodySimulatorPostponed.Init (Double.ofRat (2 ^ 53))).ApplyPostponed
        NbodySimulatorPostponed.SetZero =
      NbodySimulatorPostponed.Init (Double.ofRat (2 ^ 53)) := by
  decide!

theorem Postponed_commutative_with_identity_witness :
    ((∀ x y : ℚ, x + y = y + x) ∧ (∀ x : ℚ, x + 0 = x) ∧
      ∀ x y z : ℚ, x + y + z = x + (y + z)) ∧
    (exampleSummary.negative_potential_.add ⟨1, 2⟩ =
      (⟨1, 2⟩ : Range ℚ).add exampleSummary.negative_potential_) ∧
    ∀ a b c : NbodySimulatorPostponed ℚ,
      a.ApplyPostponed b = b.ApplyPostponed a ∧
        a.ApplyPostponed NbodySimulatorPostponed.SetZero = a ∧
        (a.ApplyPostponed b).ApplyPostponed c = a.ApplyPostponed (b.ApplyPostponed c) :=
  ⟨⟨add_comm, add_zero, add_assoc⟩, by decide!,
    fun a b c =>
      ⟨(Postponed_commutative_with_identity add_comm add_zero).1 a b,
        ((Postponed_commutative_with_identity add_comm add_zero).2.1 a).1,
        (Postponed_commutative_with_identity add_comm add_zero).2.2.2 add_assoc a b c⟩⟩

/-- C17 as stated fails on doubles: on a buffer whose `pruned_` is `2 ^ 53`,
two calls `ApplyPostponed(0, a)` with `a.pruned_ = 1` leave `2 ^ 53` in entry
`0`, one call with the combination of the two leaves `2 ^ 53 + 2`. -/
theorem Result_ApplyPostponed_counterexample :
    ((({ (NbodySimulatorResult.SetZero : NbodySimulatorResult Double) with
          pruned_ := fun _ => Double.ofRat (2 ^ 53) }).ApplyPostponed 0
        (NbodySimulatorPostponed.Init 1)).ApplyPostponed 0
      (NbodySimulatorPostponed.Init 1)).pruned_ 0 = Double.ofRat (2 ^ 53) ∧
    (({ (NbodySimulatorResult.SetZero : NbodySimulatorResult Double) with
          pruned_ := fun _ => Double.ofRat (2 ^ 53) }).ApplyPostponed 0
        ((NbodySimulatorPostponed.Init 1).ApplyPostponed
          (NbodySimulatorPostponed.Init 1))).pruned_ 0 = Double.ofRat (2 ^ 53 + 2) ∧
    (({ (NbodySimulatorResult.SetZero : NbodySimulatorResult Double) with
          pruned_ := fun _ => Double.ofRat (2 ^ 53) }).ApplyPostponed 0
        (NbodySimulatorPostponed.Init 1)).ApplyPostponed 0 (NbodySimulatorPostponed.Init 1) ≠
      ({ (NbodySimulatorResult.SetZero : NbodySimulatorResult Double) with
          pruned_ := fun _ => Double.ofRat (2 ^ 53) }).ApplyPostponed 0
        ((NbodySimulatorPostponed.Init 1).ApplyPostponed (NbodySimulatorPostponed.Init 1)) := by
  have h1 : ((({ (NbodySimulatorResult.SetZero : NbodySimulatorResult Double) with
          pruned_ := fun _ => Double.ofRat (2 ^ 53) }).ApplyPostponed 0
        (NbodySimulatorPostponed.Init 1)).ApplyPostponed 0
      (NbodySimulatorPostponed.Init 1)).pruned_ 0 = Double.ofRat (2 ^ 53) := by decide!
  have h2 : (({ (NbodySimulatorResult.SetZero : NbodySimulatorResult Double) with
          pruned_ := fun _ => Double.ofRat (2 ^ 53) }).ApplyPostponed 0
        ((NbodySimulatorPostponed.Init 1).ApplyPostponed
          (NbodySimulatorPostponed.Init 1))).pruned_ 0 = Double.ofRat (2 ^ 53 + 2) := by decide!
  refine ⟨h1, h2, ?_⟩
  intro h
  rw [h, h2] at h1
  exact absurd h1 (by decide!)

theorem Result_ApplyPostponed_sequential_and_local_witness :
    (∀ x y z : ℚ, x + y + z = x + (y + z)) ∧
    ((NbodySimulatorResult.SetZero : NbodySimulatorResult ℚ).ApplyPostponed 1
        (NbodySimulatorPostponed.Init 2)).ApplyPostponed 1 (NbodySimulatorPostponed.Init 3) =
      (NbodySimulatorResult.SetZero : NbodySimulatorResult ℚ).ApplyPostponed 1
        ((NbodySimulatorPostponed.Init 2).ApplyPostponed (NbodySimulatorPostponed.Init 3)) :=
  ⟨add_assoc,
    (Result_ApplyPostponed_sequential_and_local NbodySimulatorResult.SetZero 1
      (NbodySimulatorPostponed.Init 2) (NbodySimulatorPostponed.Init 3)).2.2 add_assoc⟩

section Claim18
variable {α : Type} [LinearOrderedField α]

/-- C18: `NbodySimulatorResult::PostProcess(q)` sets `potential_e_[q]` to the
midpoint of `negative_potential_[q]` plus the midpoint of
`positive_potential_[q]`, leaves every other entry of `potential_e_` and the
four other fields as they were, and applying it twice gives the buffer that
applying it once gives. -/
theorem Result_PostProcess_idempotent (qr : NbodySimulatorResult α) (q : Nat) :
    (∀ p, (qr.PostProcess q).potential_e_ p =
        if p = q then (qr.negative_potential_ q).mid + (qr.positive_potential_ q).mid
        else qr.potential_e_ p) ∧
      (qr.PostProcess q).negative_potential_ = qr.negative_potential_ ∧
      (qr.PostProcess q).positive_potential_ = qr.positive_potential_ ∧
      (qr.PostProcess q).pruned_ = qr.pruned_ ∧
      (qr.PostProcess q).used_error_ = qr.used_error_ ∧
      (qr.PostProcess q).PostProcess q = qr.PostProcess q := by
  refine ⟨?_, rfl, rfl, rfl, rfl, ?_⟩
  · intro p
    by_cases h : p = q
    · subst h; simp [NbodySimulatorResult.PostProcess]
    · simp [NbodySimulatorResult.PostProcess, h, Function.update_noteq h]
  · cases qr
    simp [NbodySimulatorResult.PostProcess]

end Claim18

/-! ### Fuel -/

section FuelMonotone
variable {α : Type} [LinearOrderedField α]

/-- One more unit of fuel does not change the result of a call of
`RecursionHelper_` or of `TripletreeCanonical_` that returned. -/
theorem fuel_succ
    (cs : TripleRangeDistanceSq → NbodySimulatorDelta α → NbodySimulatorResult α → Bool)
    (global : NbodySimulatorGlobal α) : ∀ fuel,
    (∀ r re fp st level al d x,
      RecursionHelperWith cs global fuel r re fp st level al d = some x →
      RecursionHelperWith cs global (fuel + 1) r re fp st level al d = some x) ∧
    (∀ r re fp st x,
      TripletreeCanonicalWith cs global fuel r re fp st = some x →
      TripletreeCanonicalWith cs global (fuel + 1) r re fp st = some x) := by
  intro fuel
  induction fuel with
  | zero =>
    constructor
    · intro r re fp st level al d x h
      simp [RecursionHelperWith] at h
    · intro r re fp st x h
      simp [TripletreeCanonicalWith] at h
  | succ n ih =>
    obtain ⟨ihH, ihC⟩ := ih
    constructor
    · intro r re fp st level al d x h
      rw [RecursionHelperWith] at h ⊢
      by_cases h3 : level = 3
      · simp only [h3, if_true] at h ⊢
        cases al with
        | true => exact h
        | false =>
          simp only [Bool.false_eq_true, if_false] at h ⊢
          cases hc : TripletreeCanonicalWith cs global n r re fp
              (st.record (Event.helper 3 r false)) with
          | none => rw [hc] at h; simp at h
          | some y =>
            rw [hc] at h
            rw [ihC _ _ _ _ _ hc]
            exact h
      · simp only [h3, if_false] at h ⊢
        by_cases hleaf : (r.node level).is_leaf = true
        · simp only [hleaf, if_true] at h ⊢
          by_cases hg : level = 0 ∨ NodeIsAgreeable_ (r.node (level - 1)) (r.node level) = true
          · simp only [hg, if_true] at h ⊢
            exact ihH _ _ _ _ _ _ _ _ h
          · simp only [hg, if_false] at h ⊢
            exact h
        · simp only [hleaf, Bool.false_eq_true, if_false] at h ⊢
          by_cases hg1 : level = 0 ∨
              NodeIsAgreeable_ (r.node (level - 1)) (r.node level).left = true
          · simp only [hg1, if_true] at h ⊢
            cases hc1 : RecursionHelperWith cs global n
                (r.ReplaceOneNode (r.node level).left level) re fp
                (st.record (Event.helper level r al)) (level + 1) false d with
            | none => rw [hc1] at h; simp at h
            | some y1 =>
              rw [hc1] at h
              rw [ihH _ _ _ _ _ _ _ _ hc1]
              obtain ⟨r1, st1, d1⟩ := y1
              simp only at h ⊢
              by_cases hg2 : level = 0 ∨
                  NodeIsAgreeable_ (r1.node (level - 1)) (r.node level).right = true
              · simp only [hg2, if_true] at h ⊢
                cases hc2 : RecursionHelperWith cs global n
                    (r1.ReplaceOneNode (r.node level).right level) re fp st1 (level + 1) false
                    d1 with
                | none => rw [hc2] at h; simp at h
                | some y2 =>
                  rw [hc2] at h
                  rw [ihH _ _ _ _ _ _ _ _ hc2]
                  exact h
              · simp only [hg2, if_false] at h ⊢
                exact h
          · simp only [hg1, if_false] at h ⊢
            by_cases hg2 : level = 0 ∨
                NodeIsAgreeable_ (r.node (level - 1)) (r.node level).right = true
            · simp only [hg2, if_true] at h ⊢
              cases hc2 : RecursionHelperWith cs global n
                  (r.ReplaceOneNode (r.node level).right level) re fp
                  (st.record (Event.helper level r al)) (level + 1) false d with
              | none => rw [hc2] at h; simp at h
              | some y2 =>
                rw [hc2] at h
                rw [ihH _ _ _ _ _ _ _ _ hc2]
                exact h
            · simp only [hg2, if_false] at h ⊢
              exact h
    · intro r re fp st x h
      rw [TripletreeCanonicalWith] at h ⊢
      by_cases hcs : cs r
          ((NbodySimulatorDelta.SetZero : NbodySimulatorDelta α).DeterministicCompute global r)
          (st.record (Event.canonical r)).query_results = true
      · simp only [hcs, if_true] at h ⊢
        exact h
      · simp only [hcs, if_false] at h ⊢
        cases hc : RecursionHelperWith cs global n r re fp (st.record (Event.canonical r)) 0
            true true with
        | none => rw [hc] at h; simp at h
        | some y =>
          rw [hc] at h
          rw [ihH _ _ _ _ _ _ _ _ hc]
          exact h

/-- More fuel does not change the result of a call that returned. -/
theorem fuel_mono
    (cs : TripleRangeDistanceSq → NbodySimulatorDelta α → NbodySimulatorResult α → Bool)
    (global : NbodySimulatorGlobal α) (fuel fuel' : Nat) (hle : fuel ≤ fuel') :
    (∀ r re fp st level al d x,
      RecursionHelperWith cs global fuel r re fp st level al d = some x →
      RecursionHelperWith cs global fuel' r re fp st level al d = some x) ∧
    (∀ r re fp st x,
      TripletreeCanonicalWith cs global fuel r re fp st = some x →
      TripletreeCanonicalWith cs global fuel' r re fp st = some x) := by
  induction fuel', hle using Nat.le_induction with
  | base => exact ⟨fun _ _ _ _ _ _ _ _ h => h, fun _ _ _ _ _ h => h⟩
  | succ k _ ih =>
    obtain ⟨h1, h2⟩ := fuel_succ cs global k
    exact ⟨fun r re fp st level al d x h => h1 _ _ _ _ _ _ _ _ (ih.1 _ _ _ _ _ _ _ _ h),
      fun r re fp st x h => h2 _ _ _ _ _ (ih.2 _ _ _ _ _ h)⟩

end FuelMonotone

/-! ### Runs that return -/

section TraversalReturns
variable {α : Type} [LinearOrderedField α]

theorem StatsPresent.of_valid {γ : Type} {t : Tree}
    {stat : List Bool → Option (NbodySimulatorStatistic γ)}
    (h : ∀ n : TreeType, n.Valid t → (stat n.addr).isSome = true) : StatsPresent stat [] t := by
  intro a s hs
  simpa using h ⟨a, s⟩ hs

theorem StatsPresent.valid {γ : Type} {t : Tree}
    {stat : List Bool → Option (NbodySimulatorStatistic γ)}
    (h : StatsPresent stat [] t) (n : TreeType) (hn : n.Valid t) :
    (stat n.addr).isSome = true := by
  simpa using h n.addr n.tree hn

/-- The base case on valid nodes of a well-formed tree whose nodes own
statistics returns, and every node still owns a statistic. -/
theorem TripletreeBase_returns (global : NbodySimulatorGlobal α) (t : Tree) (hwf : t.WellFormed)
    (r : TripleRangeDistanceSq) (st : State α) (hv : ∀ i, (r.node i).Valid t)
    (hpres : StatsPresent st.stat [] t) :
    ∃ st', TripletreeBase_ global r st = some st' ∧ StatsPresent st'.stat [] t := by
  refine ⟨_, TripletreeBase_eq global r st ((hv 0).wf hwf).lt (fun i => hpres.valid _ (hv i)), ?_⟩
  apply StatsPresent.of_valid
  intro n hn
  exact flushNodeSpec_isSome _ _ _ _ _ (flushNodeSpec_isSome _ _ _ _ _
    (flushNodeSpec_isSome _ _ _ _ _ (hpres.valid n hn)))

/-- On a well-formed tree whose nodes own statistics, every call of
`RecursionHelper_` and of `TripletreeCanonical_` whose fuel is at least the
bound given by the heights of the three slot nodes returns. -/
theorem traversal_returns (global : NbodySimulatorGlobal α) (t : Tree) (hwf : t.WellFormed)
    (fuel : Nat) :
    (∀ level al r re fp (st : State α) d, level ≤ 3 → SlotInv t level al r →
      helperFuel level al r ≤ fuel → StatsPresent st.stat [] t →
      ∃ st', RecursionHelper_ global fuel r re fp st level al d = some (r, st', d) ∧
        StatsPresent st'.stat [] t) ∧
    (∀ r re fp (st : State α), SlotInv t 0 true r → 5 * (heightSum r + 1) ≤ fuel →
      StatsPresent st.stat [] t →
      ∃ st', TripletreeCanonical_ global fuel r re fp st = some (true, r, st') ∧
        StatsPresent st'.stat [] t) := by
  obtain ⟨h1, h2⟩ := engine_master global t hwf (fun _ st => StatsPresent st.stat [] t)
    (fun acc st level al r _ _ hR => hR)
    (fun acc st r _ hR => hR)
    (fun acc st r hs hR => TripletreeBase_returns global t hwf r st hs.valid_node hR)
    fuel
  exact ⟨fun level al r re fp st d hl hs hf hp => h1 level al r re fp st d 0 hl hs hf hp,
    fun r re fp st hs hf hp => h2 r re fp st 0 hs hf hp⟩

/-- Replacing an internal slot node by one of its children lowers the sum of
the heights of the three slot nodes. -/
theorem heightSum_child (r : TripleRangeDistanceSq) (level : Nat)
    (hl : (r.node level).is_leaf = false) :
    heightSum (r.ReplaceOneNode (r.node level).left level) < heightSum r ∧
      heightSum (r.ReplaceOneNode (r.node level).right level) < heightSum r := by
  have key : (r.node level).left.tree.height + 1 ≤ (r.node level).tree.height ∧
      (r.node level).right.tree.height + 1 ≤ (r.node level).tree.height := by
    generalize r.node level = n at hl
    obtain ⟨a, s⟩ := n
    cases s with
    | leaf b e => simp [TreeType.is_leaf, Tree.is_leaf] at hl
    | node b e l rr =>
      have hh : (Tree.node b e l rr).height = max l.height rr.height + 1 := rfl
      constructor
      · show l.height + 1 ≤ (Tree.node b e l rr).height
        rw [hh]; omega
      · show rr.height + 1 ≤ (Tree.node b e l rr).height
        rw [hh]; omega
  have h1 := heightSum_replace r _ level key.1
  have h2 := heightSum_replace r _ level key.2
  omega

/-- `Compute` is `PreProcess_`, then the canonical step on three copies of the
root, then `PostProcess_`. -/
theorem Compute_stages (global : NbodySimulatorGlobal α) (t : Tree) (st st1 : State α)
    (h : PreProcess_ [] t
      { st with query_results := NbodySimulatorResult.Init (t.end_ - t.begin_) } = some st1) :
    Compute global t st =
      (TripletreeCanonical_ global (computeFuel t)
        (TripleRangeDistanceSq.Init (TreeType.root t) (TreeType.root t) (TreeType.root t))
        global.relative_error_ (1 - global.probability_) st1).bind
        fun res => PostProcess_ [] t res.2.2 := by
  unfold Compute
  simp only [h]
  cases TripletreeCanonical_ global (computeFuel t)
    (TripleRangeDistanceSq.Init (TreeType.root t) (TreeType.root t) (TreeType.root t))
    global.relative_error_ (1 - global.probability_) st1 <;> rfl

/-- A run of `Compute` on a well-formed tree whose nodes own statistics
returns, and every node still owns a statistic. -/
theorem Compute_returns (global : NbodySimulatorGlobal α) (t : Tree) (hwf : t.WellFormed)
    (st : State α) (hpres : StatsPresent st.stat [] t) :
    ∃ st', Compute global t st = some st' ∧ StatsPresent st'.stat [] t := by
  obtain ⟨st', hrun, -⟩ := Compute_spec global t hwf st hpres
  refine ⟨st', hrun, ?_⟩
  obtain ⟨st2, h2⟩ := Compute_ends_with_PostProcess global t st st' hrun
  intro a s hs
  obtain ⟨ns, hns, -⟩ := PostProcess_zeroes t [] st2 st' h2 a s hs
  rw [hns]; rfl

end TraversalReturns

/-! ### Descent of the canonical steps -/

section Descent
variable {α : Type} [LinearOrderedField α]

theorem TripletreeBase_flushNode_log (global : NbodySimulatorGlobal α)
    (r : TripleRangeDistanceSq) (j : Nat) (st st' : State α)
    (h : TripletreeBase_flushNode global r j st = some st') : st'.log = st.log := by
  unfold TripletreeBase_flushNode at h
  split at h
  · simp only [] at h
    split at h
    · cases h
    · split at h
      · cases h
      · cases h; rfl
  · cases h; rfl

/-- The ghost events of a base case that returns: its own entry and the
exact evaluations of the triple loop. -/
theorem TripletreeBase_log (global : NbodySimulatorGlobal α) (r : TripleRangeDistanceSq)
    (st st' : State α) (h : TripletreeBase_ global r st = some st') :
    st'.log = st.log ++ Event.base r :: (baseTriples r).map Event.exact := by
  by_cases hne : (r.node 0).begin_ < (r.node 0).end_
  · obtain ⟨loc', hrun, -⟩ := firstLoop_spec global r
      ((get_node_iterator (r.node 0)).remaining + 1) (get_node_iterator (r.node 0))
      { point_postponeds := List.replicate 3 NbodySimulatorPostponed.SetZero
        distance_sq_set := ⟨0, 0, 0⟩ }
      (st.record (Event.base r)) hne (Nat.le_succ _) (by simp)
    unfold TripletreeBase_ at h
    simp only [hrun] at h
    split at h
    · cases h
    · rename_i s1 h1
      split at h
      · cases h
      · rename_i s2 h2
        have e3 := TripletreeBase_flushNode_log global r 2 _ _ h
        have e2 := TripletreeBase_flushNode_log global r 1 _ _ h2
        have e1 := TripletreeBase_flushNode_log global r 0 _ _ h1
        rw [e3, e2, e1]
        simp only [baseTriples, State.record, get_node_iterator, List.append_assoc,
          List.singleton_append]
  · exfalso
    unfold TripletreeBase_ at h
    simp [TripletreeBase_firstLoop, TreeIterator.Next, get_node_iterator, hne] at h

theorem ReplaceOneNode_addr_suffix (r : TripleRangeDistanceSq) (level : Nat)
    (hl : (r.node level).is_leaf = false) (i : Nat) :
    (r.node i).addr <:+ ((r.ReplaceOneNode (r.node level).left level).node i).addr ∧
      (r.node i).addr <:+ ((r.ReplaceOneNode (r.node level).right level).node i).addr := by
  have key : ∀ n : TreeType, n.is_leaf = false →
      n.addr <:+ n.left.addr ∧ n.addr <:+ n.right.addr := by
    intro n hn
    obtain ⟨a, s⟩ := n
    cases s with
    | leaf b e => simp [TreeType.is_leaf, Tree.is_leaf] at hn
    | node b e l rr => exact ⟨List.suffix_cons _ _, List.suffix_cons _ _⟩
  rcases level with _ | _ | level <;> rcases i with _ | _ | i <;>
    first
      | exact ⟨List.suffix_refl _, List.suffix_refl _⟩
      | exact key _ hl

/-- The canonical steps entered, directly or not, by a call of
`RecursionHelper_` or of `TripletreeCanonical_` that returns: each is on a
triple-range that strictly refines the one of the canonical step in whose
round it was entered. -/
theorem canonical_descent
    (cs : TripleRangeDistanceSq → NbodySimulatorDelta α → NbodySimulatorResult α → Bool)
    (global : NbodySimulatorGlobal α) : ∀ fuel,
    (∀ r0 r re fp st level al d x,
      RecursionHelperWith cs global fuel r re fp st level al d = some x →
      (∀ i, (r0.node i).addr <:+ (r.node i).addr) → heightSum r ≤ heightSum r0 →
      (al = false → heightSum r < heightSum r0) →
      x.1 = r ∧ ∃ new, x.2.1.log = st.log ++ new ∧
        ∀ r', Event.canonical r' ∈ new → StrictlyRefines r0 r') ∧
    (∀ r re fp st x,
      TripletreeCanonicalWith cs global fuel r re fp st = some x →
      x.2.1 = r ∧ ∃ new, x.2.2.log = st.log ++ Event.canonical r :: new ∧
        ∀ r', Event.canonical r' ∈ new → StrictlyRefines r r') := by
  intro fuel
  induction fuel with
  | zero =>
    constructor
    · intro r0 r re fp st level al d x h
      simp [RecursionHelperWith] at h
    · intro r re fp st x h
      simp [TripletreeCanonicalWith] at h
  | succ n ih =>
    obtain ⟨ihH, ihC⟩ := ih
    constructor
    · intro r0 r re fp st level al d x h hsuf hle hlt
      rw [RecursionHelperWith] at h
      by_cases h3 : level = 3
      · simp only [h3, if_true] at h
        cases al with
        | true =>
          simp only [if_true] at h
          cases hb : TripletreeBase_ global r (st.record (Event.helper 3 r true)) with
          | none => rw [hb] at h; simp at h
          | some st' =>
            rw [hb] at h
            simp only [Option.some.injEq] at h
            subst h
            refine ⟨rfl,
              Event.helper 3 r true :: Event.base r :: (baseTriples r).map Event.exact, ?_, ?_⟩
            · simp only
              rw [TripletreeBase_log global r _ _ hb]
              simp only [State.record, List.append_assoc, List.singleton_append]
            · intro r' hr'
              simp at hr'
        | false =>
          simp only [Bool.false_eq_true, if_false] at h
          cases hc : TripletreeCanonicalWith cs global n r re fp
              (st.record (Event.helper 3 r false)) with
          | none => rw [hc] at h; simp at h
          | some y =>
            rw [hc] at h
            simp only [Option.some.injEq] at h
            subst h
            obtain ⟨e1, new, e2, e3⟩ := ihC _ _ _ _ _ hc
            refine ⟨e1, Event.helper 3 r false :: Event.canonical r :: new, ?_, ?_⟩
            · simp only
              rw [e2]
              simp only [State.record, List.append_assoc, List.singleton_append]
            · intro r' hr'
              simp only [List.mem_cons, Event.canonical.injEq, reduceCtorEq, false_or] at hr'
              rcases hr' with rfl | hr'
              · exact ⟨hsuf, hlt rfl⟩
              · obtain ⟨s1, s2⟩ := e3 r' hr'
                exact ⟨fun i => (hsuf i).trans (s1 i), by have := hlt rfl; omega⟩
      · simp only [h3, if_false] at h
        by_cases hleaf : (r.node level).is_leaf = true
        · simp only [hleaf, if_true] at h
          by_cases hg : level = 0 ∨ NodeIsAgreeable_ (r.node (level - 1)) (r.node level) = true
          · simp only [hg, if_true] at h
            obtain ⟨e1, new, e2, e3⟩ := ihH r0 _ _ _ _ _ _ _ _ h hsuf hle hlt
            refine ⟨e1, Event.helper level r al :: new, ?_, ?_⟩
            · rw [e2]
              simp only [State.record, List.append_assoc, List.singleton_append]
            · intro r' hr'
              simp only [List.mem_cons, reduceCtorEq, false_or] at hr'
              exact e3 r' hr'
          · simp only [hg, if_false, Option.some.injEq] at h
            subst h
            refine ⟨rfl, [Event.helper level r al], rfl, ?_⟩
            intro r' hr'
            simp at hr'
        · have hleaf' : (r.node level).is_leaf = false := by
            cases hh : (r.node level).is_leaf
            · rfl
            · exact absurd hh hleaf
          obtain ⟨hhl, hhr⟩ := heightSum_child r level hleaf'
          have hsl : ∀ i, (r0.node i).addr <:+
              ((r.ReplaceOneNode (r.node level).left level).node i).addr :=
            fun i => (hsuf i).trans (ReplaceOneNode_addr_suffix r level hleaf' i).1
          have hsr : ∀ i, (r0.node i).addr <:+
              ((r.ReplaceOneNode (r.node level).right level).node i).addr :=
            fun i => (hsuf i).trans (ReplaceOneNode_addr_suffix r level hleaf' i).2
          simp only [hleaf, Bool.false_eq_true, if_false] at h
          by_cases hg1 : level = 0 ∨
              NodeIsAgreeable_ (r.node (level - 1)) (r.node level).left = true
          · simp only [hg1, if_true] at h
            cases hc1 : RecursionHelperWith cs global n
                (r.ReplaceOneNode (r.node level).left level) re fp
                (st.record (Event.helper level r al)) (level + 1) false d with
            | none => rw [hc1] at h; simp at h
            | some y1 =>
              rw [hc1] at h
              obtain ⟨a1, new1, b1, c1⟩ := ihH r0 _ _ _ _ _ _ _ _ hc1 hsl (by omega)
                (fun _ => by omega)
              obtain ⟨r1, st1, d1⟩ := y1
              simp only at h a1 b1
              subst a1
              by_cases hg2 : level = 0 ∨
                  NodeIsAgreeable_
                    ((r.ReplaceOneNode (r.node level).left level).node (level - 1))
                    (r.node level).right = true
              · simp only [hg2, if_true] at h
                rw [ReplaceOneNode_twice] at h
                cases hc2 : RecursionHelperWith cs global n
                    (r.ReplaceOneNode (r.node level).right level) re fp st1 (level + 1) false
                    d1 with
                | none => rw [hc2] at h; simp at h
                | some y2 =>
                  rw [hc2] at h
                  obtain ⟨a2, new2, b2, c2⟩ := ihH r0 _ _ _ _ _ _ _ _ hc2 hsr (by omega)
                    (fun _ => by omega)
                  obtain ⟨r2, st2, d2⟩ := y2
                  simp only at h a2 b2
                  subst a2
                  simp only [if_true, Option.some.injEq] at h
                  subst h
                  refine ⟨ReplaceOneNode_restore r _ level,
                    Event.helper level r al :: (new1 ++ new2), ?_, ?_⟩
                  · simp only
                    rw [b2, b1]
                    simp only [State.record, List.append_assoc, List.singleton_append,
                      List.cons_append, List.nil_append]
                  · intro r' hr'
                    simp only [List.mem_cons, List.mem_append, reduceCtorEq, false_or] at hr'
                    rcases hr' with hr' | hr'
                    · exact c1 r' hr'
                    · exact c2 r' hr'
              · simp only [hg2, if_false, if_true, Option.some.injEq] at h
                subst h
                refine ⟨ReplaceOneNode_restore r _ level, Event.helper level r al :: new1,
                  ?_, ?_⟩
                · simp only
                  rw [b1]
                  simp only [State.record, List.append_assoc, List.singleton_append]
                · intro r' hr'
                  simp only [List.mem_cons, reduceCtorEq, false_or] at hr'
                  exact c1 r' hr'
          · simp only [hg1, if_false] at h
            by_cases hg2 : level = 0 ∨
                NodeIsAgreeable_ (r.node (level - 1)) (r.node level).right = true
            · simp only [hg2, if_true] at h
              cases hc2 : RecursionHelperWith cs global n
                  (r.ReplaceOneNode (r.node level).right level) re fp
                  (st.record (Event.helper level r al)) (level + 1) false d with
              | none => rw [hc2] at h; simp at h
              | some y2 =>
                rw [hc2] at h
                obtain ⟨a2, new2, b2, c2⟩ := ihH r0 _ _ _ _ _ _ _ _ hc2 hsr (by omega)
                  (fun _ => by omega)
                obtain ⟨r2, st2, d2⟩ := y2
                simp only at h a2 b2
                subst a2
                simp only [if_true, Option.some.injEq] at h
                subst h
                refine ⟨ReplaceOneNode_restore r _ level, Event.helper level r al :: new2,
                  ?_, ?_⟩
                · simp only
                  rw [b2]
                  simp only [State.record, List.append_assoc, List.singleton_append]
                · intro r' hr'
                  simp only [List.mem_cons, reduceCtorEq, false_or] at hr'
                  exact c2 r' hr'
            · simp only [hg2, if_false, Bool.false_eq_true, Option.some.injEq] at h
              subst h
              refine ⟨rfl, [Event.helper level r al], rfl, ?_⟩
              intro r' hr'
              simp at hr'
    · intro r re fp st x h
      rw [TripletreeCanonicalWith] at h
      by_cases hcs : cs r
          ((NbodySimulatorDelta.SetZero : NbodySimulatorDelta α).DeterministicCompute global r)
          (st.record (Event.canonical r)).query_results = true
      · simp only [hcs, if_true, Option.some.injEq] at h
        subst h
        exact ⟨rfl, [], rfl, fun r' hr' => by simp at hr'⟩
      · simp only [hcs, if_false] at h
        cases hc : RecursionHelperWith cs global n r re fp (st.record (Event.canonical r)) 0
            true true with
        | none => rw [hc] at h; simp at h
        | some y =>
          rw [hc] at h
          simp only [Bool.false_eq_true, if_false, Option.some.injEq] at h
          subst h
          obtain ⟨e1, new, e2, e3⟩ := ihH r _ _ _ _ _ _ _ _ hc (fun _ => List.suffix_refl _)
            (le_refl _) (fun hh => by cases hh)
          refine ⟨e1, new, ?_, e3⟩
          simp only
          rw [e2]
          simp only [State.record, List.append_assoc, List.singleton_append]

end Descent

/-! ### Statistics and termination -/

section Claims1920
variable {α : Type} [LinearOrderedField α]

/-- C19: after `Init` every node of the tree owns the zero statistic (zero
postponed, zero summary), so `Compute` right after `Init` returns on a
well-formed tree; whenever every node owns a statistic, `PostProcess_`
returns, `PreProcess_` at the start of `Compute` returns and leaves the zero
statistic at every node, and on a well-formed tree `TripletreeBase_` on valid
nodes and `Compute` return (no lookup finds a node without a statistic) and
leave a statistic at every node. -/
theorem statistics_reset_before_use (global : NbodySimulatorGlobal α) (t : Tree)
    (st : State α) :
    (∀ n : TreeType, n.Valid t →
      (Init t st).stat n.addr = some NbodySimulatorStatistic.SetZero) ∧
    ((NbodySimulatorStatistic.SetZero : NbodySimulatorStatistic α).postponed_ =
        NbodySimulatorPostponed.SetZero ∧
      (NbodySimulatorStatistic.SetZero : NbodySimulatorStatistic α).summary_ =
        NbodySimulatorSummary.SetZero) ∧
    (t.WellFormed → ∃ st', Compute global t (Init t st) = some st') ∧
    (StatsPresent st.stat [] t →
      (∃ st', PostProcess_ [] t st = some st' ∧ StatsPresent st'.stat [] t) ∧
      (∃ st1, PreProcess_ [] t
            { st with query_results := NbodySimulatorResult.Init (t.end_ - t.begin_) } =
          some st1 ∧
        (∀ n : TreeType, n.Valid t →
          st1.stat n.addr = some NbodySimulatorStatistic.SetZero) ∧
        Compute global t st =
          (TripletreeCanonical_ global (computeFuel t)
            (TripleRangeDistanceSq.Init (TreeType.root t) (TreeType.root t) (TreeType.root t))
            global.relative_error_ (1 - global.probability_) st1).bind
            fun res => PostProcess_ [] t res.2.2) ∧
      (t.WellFormed →
        (∀ r : TripleRangeDistanceSq, (∀ i, (r.node i).Valid t) →
          ∃ st', TripletreeBase_ global r st = some st' ∧ StatsPresent st'.stat [] t) ∧
        ∃ st', Compute global t st = some st' ∧ StatsPresent st'.stat [] t)) := by
  refine ⟨?_, ⟨rfl, rfl⟩, ?_, ?_⟩
  · intro n hn
    have := (ResetStatisticRecursion_spec t [] st.stat).2 n.addr n.tree hn
    simpa [Init, ResetStatistic] using this
  · intro hwf
    obtain ⟨st', h, -⟩ := Compute_returns global t hwf (Init t st) (Init_statsPresent t st)
    exact ⟨st', h⟩
  · intro hpres
    refine ⟨?_, ?_, ?_⟩
    · obtain ⟨st', hrun, -, -, hz, -, -⟩ := PostProcess_total t [] st hpres
      refine ⟨st', hrun, ?_⟩
      intro a s hs
      obtain ⟨ns, -, hns⟩ := hz a s hs
      rw [hns]; rfl
    · obtain ⟨st1, hrun, -, -, -, hz⟩ := PreProcess_spec t []
        { st with query_results := NbodySimulatorResult.Init (t.end_ - t.begin_) } hpres
      refine ⟨st1, hrun, ?_, Compute_stages global t st st1 hrun⟩
      intro n hn
      simpa using hz n.addr n.tree hn
    · intro hwf
      exact ⟨fun r hv => TripletreeBase_returns global t hwf r st hv hpres,
        Compute_returns global t hwf st hpres⟩

theorem statistics_reset_before_use_witness :
    exampleTree.WellFormed ∧
    (∃ st', Compute exampleGlobal exampleTree (Init exampleTree exampleState) = some st') ∧
    ∃ st', Compute exampleGlobal exampleTree (Init exampleTree exampleState) = some st' ∧
      StatsPresent st'.stat [] exampleTree :=
  ⟨by decide,
    (statistics_reset_before_use exampleGlobal exampleTree exampleState).2.2.1 (by decide),
    (((statistics_reset_before_use exampleGlobal exampleTree
      (Init exampleTree exampleState)).2.2.2 (Init_statsPresent _ _)).2.2 (by decide)).2⟩

/-- C20: on a well-formed tree whose nodes own statistics, a call of
`RecursionHelper_` at `level` returns when its fuel is at least `helperFuel`,
and a call of `TripletreeCanonical_` returns when its fuel is at least five
times the sum of the heights of its three slot nodes plus five; replacing an
internal slot node by one of its children lowers that sum, and every canonical
step entered inside a canonical step on `r` is on a triple-range whose slot
nodes are those of `r` or lie below them and whose sum of heights is smaller;
a call that returns gives the same result with any larger fuel; `PreProcess_`
and `PostProcess_` return, and `Compute`, whose fuel is `computeFuel`,
returns. -/
theorem Compute_terminates (global : NbodySimulatorGlobal α) (t : Tree) (hwf : t.WellFormed)
    (st : State α) (hpres : StatsPresent st.stat [] t) :
    (∀ fuel level al r re fp (s : State α) d, level ≤ 3 → SlotInv t level al r →
      StatsPresent s.stat [] t → helperFuel level al r ≤ fuel →
      ∃ s', RecursionHelper_ global fuel r re fp s level al d = some (r, s', d)) ∧
    (∀ fuel r re fp (s : State α), SlotInv t 0 true r → StatsPresent s.stat [] t →
      5 * (heightSum r + 1) ≤ fuel →
      ∃ s', TripletreeCanonical_ global fuel r re fp s = some (true, r, s')) ∧
    (∀ (r : TripleRangeDistanceSq) level, (r.node level).is_leaf = false →
      heightSum (r.ReplaceOneNode (r.node level).left level) < heightSum r ∧
        heightSum (r.ReplaceOneNode (r.node level).right level) < heightSum r) ∧
    (∀ fuel r re fp (s : State α) x, TripletreeCanonical_ global fuel r re fp s = some x →
      ∃ new, x.2.2.log = s.log ++ Event.canonical r :: new ∧
        ∀ r', Event.canonical r' ∈ new → StrictlyRefines r r') ∧
    (∀ fuel fuel' r re fp (s : State α) level al d x, fuel ≤ fuel' →
      RecursionHelper_ global fuel r re fp s level al d = some x →
      RecursionHelper_ global fuel' r re fp s level al d = some x) ∧
    (∀ fuel fuel' r re fp (s : State α) x, fuel ≤ fuel' →
      TripletreeCanonical_ global fuel r re fp s = some x →
      TripletreeCanonical_ global fuel' r re fp s = some x) ∧
    (∃ st1, PreProcess_ [] t st = some st1) ∧
    (∃ st3, PostProcess_ [] t st = some st3) ∧
    ∃ st', Compute global t st = some st' := by
  refine ⟨?_, ?_, ?_, ?_, ?_, ?_, ?_, ?_, ?_⟩
  · intro fuel level al r re fp s d hl hs hp hf
    obtain ⟨s', h, -⟩ := (traversal_returns global t hwf fuel).1 level al r re fp s d hl hs hf hp
    exact ⟨s', h⟩
  · intro fuel r re fp s hs hp hf
    obtain ⟨s', h, -⟩ := (traversal_returns global t hwf fuel).2 r re fp s hs hf hp
    exact ⟨s', h⟩
  · intro r level hl
    exact heightSum_child r level hl
  · intro fuel r re fp s x h
    exact ((canonical_descent CanSummarize_ global fuel).2 r re fp s x h).2
  · intro fuel fuel' r re fp s level al d x hle h
    exact (fuel_mono CanSummarize_ global fuel fuel' hle).1 r re fp s level al d x h
  · intro fuel fuel' r re fp s x hle h
    exact (fuel_mono CanSummarize_ global fuel fuel' hle).2 r re fp s x h
  · obtain ⟨st1, h, -⟩ := PreProcess_spec t [] st hpres
    exact ⟨st1, h⟩
  · obtain ⟨st3, h, -⟩ := PostProcess_total t [] st hpres
    exact ⟨st3, h⟩
  · obtain ⟨st', h, -⟩ := Compute_returns global t hwf st hpres
    exact ⟨st', h⟩

theorem Compute_terminates_witness :
    exampleTree.WellFormed ∧
    ∃ st', Compute exampleGlobal exampleTree (Init exampleTree exampleState) = some st' :=
  ⟨by decide,
    (Compute_terminates exampleGlobal exampleTree (by decide) (Init exampleTree exampleState)
      (Init_statsPresent _ _)).2.2.2.2.2.2.2.2⟩

end Claims1920

/-! ### The base cases of a run -/

section BaseEvents
variable {α : Type} [LinearOrderedField α]

/-- Every base case entered during a run of `Compute` on a well-formed tree
whose nodes own statistics is on a triple of leaves in canonical order. -/
theorem Compute_base_events (global : NbodySimulatorGlobal α) (t : Tree) (hwf : t.WellFormed)
    (st : State α) (hpres : StatsPresent st.stat [] t) :
    ∃ st', Compute global t st = some st' ∧
      ∃ new, st'.log = st.log ++ new ∧ ∀ r, Event.base r ∈ new → SlotInv t 3 true r := by
  obtain ⟨st1, hrun1, hlog1, -, -, hz1⟩ := PreProcess_spec t []
    { st with query_results := NbodySimulatorResult.Init (t.end_ - t.begin_) } hpres
  have hp1 : StatsPresent st1.stat [] t := by
    intro a s hs
    rw [hz1 a s hs]; rfl
  obtain ⟨-, hcan⟩ := engine_master global t hwf
    (fun _ s => StatsPresent s.stat [] t ∧
      ∃ new, s.log = st.log ++ new ∧ ∀ r, Event.base r ∈ new → SlotInv t 3 true r)
    (fun acc s level al r _ _ hR => by
      obtain ⟨h1, new, h2, h3⟩ := hR
      refine ⟨h1, new ++ [Event.helper level r al], ?_, ?_⟩
      · simp only [State.record, h2, List.append_assoc]
      · intro r' hr'
        simp only [List.mem_append, List.mem_singleton, reduceCtorEq, or_false] at hr'
        exact h3 r' hr')
    (fun acc s r _ hR => by
      obtain ⟨h1, new, h2, h3⟩ := hR
      refine ⟨h1, new ++ [Event.canonical r], ?_, ?_⟩
      · simp only [State.record, h2, List.append_assoc]
      · intro r' hr'
        simp only [List.mem_append, List.mem_singleton, reduceCtorEq, or_false] at hr'
        exact h3 r' hr')
    (fun acc s r hs hR => by
      obtain ⟨h1, new, h2, h3⟩ := hR
      obtain ⟨s', hrun, hp'⟩ := TripletreeBase_returns global t hwf r s hs.valid_node h1
      refine ⟨s', hrun, hp', new ++ Event.base r :: (baseTriples r).map Event.exact, ?_, ?_⟩
      · rw [TripletreeBase_log global r s s' hrun, h2, List.append_assoc]
      · intro r' hr'
        simp only [List.mem_append, List.mem_cons, Event.base.injEq, List.mem_map, reduceCtorEq,
          and_false, exists_false, or_false] at hr'
        rcases hr' with hr' | rfl
        · exact h3 r' hr'
        · exact hs)
    (computeFuel t)
  obtain ⟨st2, hrun2, hp2, new, hl2, hb2⟩ := hcan _ global.relative_error_
    (1 - global.probability_) st1 0 (SlotInv.at_root t) (heightSum_root t)
    ⟨hp1, [], by rw [hlog1]; simp, fun r hr => by simp at hr⟩
  obtain ⟨st3, hrun3, hlog3, -⟩ := PostProcess_total t [] st2 hp2
  refine ⟨st3, ?_, new, by rw [hlog3, hl2], hb2⟩
  simp only [Compute, hrun1, hrun2, hrun3]

end BaseEvents

/-! ### Flush and summary refinement of the base case -/

section Claims1314
variable {α : Type} [LinearOrderedField α]

theorem pointsOf_ne_nil {t : Tree} (hwf : t.WellFormed) {n : TreeType} (hn : n.Valid t) :
    pointsOf n ≠ [] := by
  have h := (hn.wf hwf).lt
  intro he
  have hm : n.begin_ ∈ pointsOf n := mem_pointsOf.2 ⟨le_refl _, h⟩
  rw [he] at hm
  exact List.not_mem_nil _ hm

/-- C13: during a run of `Compute` on a well-formed tree whose nodes own
statistics every base case is entered on a triple of leaves in canonical order
(`SlotInv t 3 true`); and the base case on such a triple whose nodes own
statistics returns, and for every slot `i`: the body of the flush loop runs on
the node of slot `i` in exactly one of the three passes, that of the first slot
holding the node; when the base case returns the postponed of the node is
zero, and the result of every point beneath the node is its result after the
triple loop with one `ApplyPostponed` of the postponed the node had on entry,
`pruned_` increased by `num_tuples` of that first slot. -/
theorem TripletreeBase_flushes_each_node_once (global : NbodySimulatorGlobal α) (t : Tree)
    (hwf : t.WellFormed) :
    (∀ st : State α, StatsPresent st.stat [] t →
      ∃ st', Compute global t st = some st' ∧
        ∃ new, st'.log = st.log ++ new ∧ ∀ r, Event.base r ∈ new → SlotInv t 3 true r) ∧
    (∀ (r : TripleRangeDistanceSq) (st : State α), SlotInv t 3 true r →
      (∀ i, (st.stat (r.node i).addr).isSome = true) →
      ∃ st', TripletreeBase_ global r st = some st' ∧
        ∀ i, i < 3 →
          flushedAt r i = [firstSlot r i] ∧
          (r.node (firstSlot r i)).addr = (r.node i).addr ∧
          (∀ j, j < firstSlot r i → (r.node j).addr ≠ (r.node i).addr) ∧
          ∃ ns s', st.stat (r.node i).addr = some ns ∧ st'.stat (r.node i).addr = some s' ∧
            s'.postponed_ = NbodySimulatorPostponed.SetZero ∧
            ∀ p ∈ pointsOf (r.node i),
              st'.query_results.entry p =
                (((baseTriples r).foldl (applyExact global) st.query_results).entry
                  p).ApplyPostponed
                  (flushedPostponed global r (firstSlot r i) ns.postponed_)) := by
  refine ⟨fun st hpres => Compute_base_events global t hwf st hpres, ?_⟩
  intro r st hs hpres
  have hv : ∀ i, (r.node i).Valid t := hs.valid_node
  have hl : ∀ i, (r.node i).is_leaf = true := by
    intro i
    rcases i with _ | _ | _ | i
    · exact hs.2.2.2.2.2 rfl 0 (by omega)
    · exact hs.2.2.2.2.2 rfl 1 (by omega)
    · exact hs.2.2.2.2.2 rfl 2 (by omega)
    · exact hs.2.2.2.2.2 rfl 2 (by omega)
  refine ⟨_, TripletreeBase_eq global r st ((hv 0).wf hwf).lt hpres, ?_⟩
  intro i hi
  obtain ⟨f1, f2, f3, f4, f5, f6⟩ := firstSlot_spec hwf hs i hi
  obtain ⟨ns, hns⟩ := Option.isSome_iff_exists.1 (hpres i)
  obtain ⟨⟨s', x1, x2⟩, y⟩ := flush3_delivered global t hwf r (baseLoopSpec global r st) hv hl
    hpres (r.node i) (hv i) (hl i) ns hns (firstSlot r i) f1 f2 f3 f4 f5
  exact ⟨f6, f2, f4, ns, s', hns, x1, x2, y⟩

theorem TripletreeBase_flushes_each_node_once_witness :
    (exampleTree.WellFormed ∧ SlotInv exampleTree 3 true exampleMixedTriple) ∧
    (∃ st', Compute exampleGlobal exampleTree (Init exampleTree exampleState) = some st' ∧
      ∃ new, st'.log = (Init exampleTree exampleState).log ++ new ∧
        ∀ r, Event.base r ∈ new → SlotInv exampleTree 3 true r) ∧
    ∃ st', TripletreeBase_ exampleGlobal exampleMixedTriple (Init exampleTree exampleState) =
        some st' ∧
      ∀ i, i < 3 →
        flushedAt exampleMixedTriple i = [firstSlot exampleMixedTriple i] ∧
        (exampleMixedTriple.node (firstSlot exampleMixedTriple i)).addr =
          (exampleMixedTriple.node i).addr ∧
        (∀ j, j < firstSlot exampleMixedTriple i →
          (exampleMixedTriple.node j).addr ≠ (exampleMixedTriple.node i).addr) ∧
        ∃ ns s', (Init exampleTree exampleState).stat (exampleMixedTriple.node i).addr = some ns ∧
          st'.stat (exampleMixedTriple.node i).addr = some s' ∧
          s'.postponed_ = NbodySimulatorPostponed.SetZero ∧
          ∀ p ∈ pointsOf (exampleMixedTriple.node i),
            st'.query_results.entry p =
              (((baseTriples exampleMixedTriple).foldl (applyExact exampleGlobal)
                (Init exampleTree exampleState).query_results).entry p).ApplyPostponed
                (flushedPostponed exampleGlobal exampleMixedTriple
                  (firstSlot exampleMixedTriple i) ns.postponed_) :=
  ⟨by decide,
    (TripletreeBase_flushes_each_node_once exampleGlobal exampleTree (by decide)).1
      (Init exampleTree exampleState) (Init_statsPresent _ _),
    (TripletreeBase_flushes_each_node_once exampleGlobal exampleTree (by decide)).2
      exampleMixedTriple (Init exampleTree exampleState) (by decide)
      (fun i => by rcases i with _ | _ | _ | i <;> rfl)⟩

/-- C14: the base case on three leaves of a well-formed tree that own
statistics returns, and when it returns the summary of each slot node is the
one obtained by `StartReaccumulate` and one `Accumulate` of the final result
of each point beneath the node (a non-empty list); so its `used_error_` is the
greatest of zero and the `used_error_` of these points, and, the results of
these points being representable as a `double`, the bounds `lo` and `hi` of
its two potential intervals are the least `lo` and the greatest `hi` of the
corresponding intervals of these points and its `pruned_` is their least
`pruned_`. -/
theorem TripletreeBase_refines_summary (global : NbodySimulatorGlobal α) (t : Tree)
    (hwf : t.WellFormed) (r : TripleRangeDistanceSq) (st : State α)
    (hv : ∀ i, (r.node i).Valid t) (hl : ∀ i, (r.node i).is_leaf = true)
    (hpres : ∀ i, (st.stat (r.node i).addr).isSome = true) :
    ∃ st', TripletreeBase_ global r st = some st' ∧
      ∀ i, ∃ s, st'.stat (r.node i).addr = some s ∧
        s.summary_ = summaryOver global st'.query_results (pointsOf (r.node i)) ∧
        pointsOf (r.node i) ≠ [] ∧
        (0 ≤ s.summary_.used_error_ ∧
          (∀ p ∈ pointsOf (r.node i), st'.query_results.used_error_ p ≤ s.summary_.used_error_) ∧
          (s.summary_.used_error_ = 0 ∨
            ∃ p ∈ pointsOf (r.node i),
              s.summary_.used_error_ = st'.query_results.used_error_ p)) ∧
        ((∀ p ∈ pointsOf (r.node i), Representable global st'.query_results p) →
          IsMinOver s.summary_.negative_potential_.lo
              (fun p => (st'.query_results.negative_potential_ p).lo) (pointsOf (r.node i)) ∧
            IsMaxOver s.summary_.negative_potential_.hi
              (fun p => (st'.query_results.negative_potential_ p).hi) (pointsOf (r.node i)) ∧
            IsMinOver s.summary_.positive_potential_.lo
              (fun p => (st'.query_results.positive_potential_ p).lo) (pointsOf (r.node i)) ∧
            IsMaxOver s.summary_.positive_potential_.hi
              (fun p => (st'.query_results.positive_potential_ p).hi) (pointsOf (r.node i)) ∧
            IsMinOver s.summary_.pruned_ (fun p => st'.query_results.pruned_ p)
              (pointsOf (r.node i))) := by
  refine ⟨_, TripletreeBase_eq global r st ((hv 0).wf hwf).lt hpres, ?_⟩
  intro i
  obtain ⟨s, hs1, hs2⟩ := flush3_refined global t hwf r (baseLoopSpec global r st) hv hl hpres i
  have hne := pointsOf_ne_nil hwf (hv i)
  refine ⟨s, hs1, hs2, hne, ?_, ?_⟩
  · rw [hs2]
    exact summaryOver_used_error global _ _
  · intro hrep
    rw [hs2]
    exact summaryOver_hull global _ _ hne hrep

/-- On the concrete run used below every result is representable. -/
theorem exampleMixed_representable :
    ∀ i, i < 3 → ∀ p ∈ pointsOf (exampleMixedTriple.node i),
      Representable exampleGlobal
        (baseSpec exampleGlobal exampleMixedTriple (Init exampleTree exampleState)).query_results
        p := by
  decide!

theorem TripletreeBase_refines_summary_witness :
    exampleTree.WellFormed ∧
    ∃ st', TripletreeBase_ exampleGlobal exampleMixedTriple (Init exampleTree exampleState) =
        some st' ∧
      ∀ i, i < 3 → ∃ s, st'.stat (exampleMixedTriple.node i).addr = some s ∧
        IsMinOver s.summary_.negative_potential_.lo
            (fun p => (st'.query_results.negative_potential_ p).lo)
            (pointsOf (exampleMixedTriple.node i)) ∧
          IsMaxOver s.summary_.negative_potential_.hi
            (fun p => (st'.query_results.negative_potential_ p).hi)
            (pointsOf (exampleMixedTriple.node i)) ∧
          IsMinOver s.summary_.positive_potential_.lo
            (fun p => (st'.query_results.positive_potential_ p).lo)
            (pointsOf (exampleMixedTriple.node i)) ∧
          IsMaxOver s.summary_.positive_potential_.hi
            (fun p => (st'.query_results.positive_potential_ p).hi)
            (pointsOf (exampleMixedTriple.node i)) ∧
          IsMinOver s.summary_.pruned_ (fun p => st'.query_results.pruned_ p)
            (pointsOf (exampleMixedTriple.node i)) := by
  have hpres : ∀ i, ((Init exampleTree exampleState).stat
      (exampleMixedTriple.node i).addr).isSome = true :=
    fun i => by rcases i with _ | _ | _ | i <;> rfl
  refine ⟨by decide, ?_⟩
  obtain ⟨st', h1, h2⟩ := TripletreeBase_refines_summary exampleGlobal exampleTree (by decide)
    exampleMixedTriple (Init exampleTree exampleState)
    (fun i => by rcases i with _ | _ | _ | i <;> rfl)
    (fun i => by rcases i with _ | _ | _ | i <;> rfl) hpres
  have heq : st' = baseSpec exampleGlobal exampleMixedTriple (Init exampleTree exampleState) := by
    rw [TripletreeBase_eq exampleGlobal exampleMixedTriple (Init exampleTree exampleState)
      (by decide) hpres] at h1
    exact (Option.some.inj h1).symm
  refine ⟨st', h1, fun i hi => ?_⟩
  obtain ⟨s, a, -, -, -, e⟩ := h2 i
  refine ⟨s, a, e ?_⟩
  rw [heq]
  exact exampleMixed_representable i hi

end Claims1314

/-! ### Soundness of the summaries of the leaves -/

section LeafSoundness
variable {α : Type} [LinearOrderedField α]

theorem SummarySound.congr {st st' : State α} {n : TreeType}
    (hstat : st'.stat n.addr = st.stat n.addr)
    (hqr : ∀ p ∈ pointsOf n,
      st'.query_results.negative_potential_ p = st.query_results.negative_potential_ p ∧
        st'.query_results.positive_potential_ p = st.query_results.positive_potential_ p)
    (h : SummarySound st n) : SummarySound st' n := by
  obtain ⟨s, hs, hp⟩ := h
  refine ⟨s, by rw [hstat]; exact hs, ?_⟩
  intro p hpm
  obtain ⟨e1, e2⟩ := hqr p hpm
  rw [e1, e2]
  exact hp p hpm

/-- The summary accumulated over a list of points contains the potential
intervals of each of these points. -/
theorem summaryOver_contains (global : NbodySimulatorGlobal α) (qr : NbodySimulatorResult α)
    (pts : List Nat) (p : Nat) (hp : p ∈ pts) :
    (summaryOver global qr pts).negative_potential_.contains (qr.negative_potential_ p) ∧
      (summaryOver global qr pts).positive_potential_.contains (qr.positive_potential_ p) := by
  obtain ⟨f1, f2, f3, f4, -, -⟩ :=
    foldAccumulate_fields qr pts (NbodySimulatorSummary.StartReaccumulate global)
  unfold summaryOver Range.contains
  rw [f1, f2, f3, f4]
  exact ⟨⟨(foldl_min_spec (fun q => (qr.negative_potential_ q).lo) pts _).2.1 p hp,
      (foldl_max_spec (fun q => (qr.negative_potential_ q).hi) pts _).2.1 p hp⟩,
    ⟨(foldl_min_spec (fun q => (qr.positive_potential_ q).lo) pts _).2.1 p hp,
      (foldl_max_spec (fun q => (qr.positive_potential_ q).hi) pts _).2.1 p hp⟩⟩

theorem negSum_eq_zero (global : NbodySimulatorGlobal α) (L : List TripleDistanceSq) (p : Nat)
    (h : ∀ d ∈ L, ¬ d.has p) :
    negSum global (L : Multiset TripleDistanceSq) p = 0 ∧
      posSum global (L : Multiset TripleDistanceSq) p = 0 := by
  induction L with
  | nil => simp [negSum, posSum]
  | cons a L ih =>
    obtain ⟨h1, h2⟩ := ih (fun d hd => h d (List.mem_cons_of_mem _ hd))
    have ha := h a (List.mem_cons_self _ _)
    simp only [negSum, posSum, ← Multiset.cons_coe, Multiset.map_cons, Multiset.sum_cons] at h1 h2 ⊢
    rw [h1, h2]
    simp [ha]

/-- The three passes of the flush loop leave alone a leaf that is in none of
the three slots. -/
theorem flush3_frame (global : NbodySimulatorGlobal α) (t : Tree) (hwf : t.WellFormed)
    (r : TripleRangeDistanceSq) (st : State α) (hv : ∀ i, (r.node i).Valid t)
    (hl : ∀ i, (r.node i).is_leaf = true)
    (hs : ∀ i, (st.stat (r.node i).addr).isSome = true)
    (n : TreeType) (hn : n.Valid t) (hln : n.is_leaf = true)
    (hne : ∀ i, (r.node i).addr ≠ n.addr) :
    (flushNodeSpec global r 2 (flushNodeSpec global r 1
        (flushNodeSpec global r 0 st))).stat n.addr = st.stat n.addr ∧
      ∀ p ∈ pointsOf n,
        (flushNodeSpec global r 2 (flushNodeSpec global r 1
          (flushNodeSpec global r 0 st))).query_results.entry p = st.query_results.entry p := by
  obtain ⟨hs1, hs2⟩ := flushNodeSpec_stat_isSome global r st hs
  obtain ⟨u0, v0⟩ := (flushNodeSpec_delivery global t hwf r 0 st n (hv 0) (hl 0) hn hln
    (hs 0)).2 (Or.inl (hne 0))
  obtain ⟨u1, v1⟩ := (flushNodeSpec_delivery global t hwf r 1 (flushNodeSpec global r 0 st) n
    (hv 1) (hl 1) hn hln (hs1 1)).2 (Or.inl (hne 1))
  obtain ⟨u2, v2⟩ := (flushNodeSpec_delivery global t hwf r 2
    (flushNodeSpec global r 1 (flushNodeSpec global r 0 st)) n (hv 2) (hl 2) hn hln
    (hs2 2)).2 (Or.inl (hne 2))
  refine ⟨by rw [u2, u1, u0], ?_⟩
  intro p hp
  rw [v2 p hp, v1 p hp, v0 p hp]

theorem SlotInv.leaves {t : Tree} {r : TripleRangeDistanceSq} (hs : SlotInv t 3 true r) (i : Nat) :
    (r.node i).is_leaf = true := by
  rcases i with _ | _ | _ | i
  · exact hs.2.2.2.2.2 rfl 0 (by omega)
  · exact hs.2.2.2.2.2 rfl 1 (by omega)
  · exact hs.2.2.2.2.2 rfl 2 (by omega)
  · exact hs.2.2.2.2.2 rfl 2 (by omega)

/-- The base case on a triple of leaves in canonical order keeps the summaries
of all leaves sound. -/
theorem LeafSummariesSound.base_case_step {global : NbodySimulatorGlobal α} {t : Tree}
    (hwf : t.WellFormed) {st : State α} (hinv : LeafSummariesSound t st)
    {r : TripleRangeDistanceSq} (hs : SlotInv t 3 true r) :
    ∃ st', TripletreeBase_ global r st = some st' ∧ LeafSummariesSound t st' := by
  obtain ⟨hpres, hsound⟩ := hinv
  have hv : ∀ i, (r.node i).Valid t := hs.valid_node
  have hl : ∀ i, (r.node i).is_leaf = true := hs.leaves
  have hp3 : ∀ i, (st.stat (r.node i).addr).isSome = true := fun i => hpres.valid _ (hv i)
  obtain ⟨st', hrun, hpres'⟩ := TripletreeBase_returns global t hwf r st hv hpres
  have heq : st' = baseSpec global r st := by
    rw [TripletreeBase_eq global r st ((hv 0).wf hwf).lt hp3] at hrun
    exact (Option.some.inj hrun).symm
  refine ⟨st', hrun, hpres', ?_⟩
  intro n hn hln
  rw [heq]
  by_cases hslot : ∃ i, i < 3 ∧ (r.node i).addr = n.addr
  · obtain ⟨i, hi, hia⟩ := hslot
    have hni : r.node i = n := (hv i).eq_of_addr hn hia
    subst hni
    obtain ⟨s, hs1, hs2⟩ := flush3_refined global t hwf r (baseLoopSpec global r st) hv hl hp3 i
    obtain ⟨f1, f2, f3, f4, f5, -⟩ := firstSlot_spec hwf hs i hi
    obtain ⟨ns, hns⟩ := Option.isSome_iff_exists.1 (hp3 i)
    obtain ⟨⟨s', x1, x2⟩, -⟩ := flush3_delivered global t hwf r (baseLoopSpec global r st) hv hl
      hp3 (r.node i) (hv i) (hl i) ns hns (firstSlot r i) f1 f2 f3 f4 f5
    have hss : s' = s := by
      have h1 : (baseSpec global r st).stat (r.node i).addr = some s := hs1
      have h2 : (baseSpec global r st).stat (r.node i).addr = some s' := x1
      rw [h1] at h2
      exact (Option.some.inj h2).symm
    subst hss
    refine ⟨s', hs1, ?_⟩
    intro p hp
    rw [x2]
    have hz : (NbodySimulatorPostponed.SetZero : NbodySimulatorPostponed α).negative_potential_ =
        Range.Init 0 0 := rfl
    have hz' : (NbodySimulatorPostponed.SetZero : NbodySimulatorPostponed α).positive_potential_ =
        Range.Init 0 0 := rfl
    rw [hz, hz', Range.add_zero_range, Range.add_zero_range, hs2]
    exact summaryOver_contains global _ _ p hp
  · have hne : ∀ i, (r.node i).addr ≠ n.addr := by
      intro i hia
      rcases i with _ | _ | _ | i
      · exact hslot ⟨0, by omega, hia⟩
      · exact hslot ⟨1, by omega, hia⟩
      · exact hslot ⟨2, by omega, hia⟩
      · exact hslot ⟨2, by omega, hia⟩
    obtain ⟨u, v⟩ := flush3_frame global t hwf r (baseLoopSpec global r st) hv hl hp3 n hn hln hne
    refine SummarySound.congr
      (show (baseSpec global r st).stat n.addr = st.stat n.addr from u) ?_ (hsound n hn hln)
    · intro p hp
      have e := v p hp
      have e1 := congrArg NbodySimulatorPostponed.negative_potential_ e
      have e2 := congrArg NbodySimulatorPostponed.positive_potential_ e
      simp only [NbodySimulatorResult.entry] at e1 e2
      change (baseSpec global r st).query_results.negative_potential_ p = _ ∧
        (baseSpec global r st).query_results.positive_potential_ p = _
      have e1' : (baseSpec global r st).query_results.negative_potential_ p =
          (baseLoopSpec global r st).query_results.negative_potential_ p := e1
      have e2' : (baseSpec global r st).query_results.positive_potential_ p =
          (baseLoopSpec global r st).query_results.positive_potential_ p := e2
      rw [e1', e2']
      -- the triple loop does not touch the points of `n`
      obtain ⟨v0, v1, v2, p0, p1, -⟩ := hs
      have a0 : Agree r.node0 r.node1 := by simpa [PairInv] using p0
      have a1 : Agree r.node1 r.node2 := by simpa [PairInv] using p1
      have hcoe := baseTriples_coe r (v0.eq_of_addr v1) (v1.eq_of_addr v2) a0 a1
      have hmem : ∀ d ∈ baseTriples r, d ∈ tripleSet r := by
        intro d hd
        rw [← hcoe]; exact hd
      have hsorted : ∀ d ∈ baseTriples r, d.p0 < d.p1 ∧ d.p1 < d.p2 := by
        intro d hd
        have := mem_tripleSet.1 (hmem d hd)
        exact ⟨this.2.2.2.1, this.2.2.2.2⟩
      have hnot : ∀ d ∈ baseTriples r, ¬ d.has p := by
        intro d hd hhas
        obtain ⟨m0, m1, m2, -, -⟩ := mem_tripleSet.1 (hmem d hd)
        rcases hhas with h | h | h
        · exact (hv 0).leaf_disjoint hwf hn (hl 0) hln (hne 0) _ m0 (h ▸ hp)
        · exact (hv 1).leaf_disjoint hwf hn (hl 1) hln (hne 1) _ m1 (h ▸ hp)
        · exact (hv 2).leaf_disjoint hwf hn (hl 2) hln (hne 2) _ m2 (h ▸ hp)
      obtain ⟨q1, q2⟩ := applyExact_fold_potential global (baseTriples r) st.query_results p
        hsorted
      obtain ⟨z1, z2⟩ := negSum_eq_zero global (baseTriples r) p hnot
      simp only [baseLoopSpec]
      rw [q1, q2, z1, z2]
      exact ⟨Range.add_zero_range _, Range.add_zero_range _⟩

/-- The state in which `Compute` enters the traversal has sound summaries. -/
theorem LeafSummariesSound.start (t : Tree) (st : State α) (hpres : StatsPresent st.stat [] t) :
    ∃ st1, PreProcess_ [] t
        { st with query_results := NbodySimulatorResult.Init (t.end_ - t.begin_) } = some st1 ∧
      LeafSummariesSound t st1 := by
  obtain ⟨st1, hrun, -, hqr, -, hz⟩ := PreProcess_spec t []
    { st with query_results := NbodySimulatorResult.Init (t.end_ - t.begin_) } hpres
  refine ⟨st1, hrun, ?_, ?_⟩
  · intro a s hs
    rw [hz a s hs]; rfl
  · intro n hn _
    have h := hz n.addr n.tree hn
    simp only [List.append_nil] at h
    refine ⟨_, h, ?_⟩
    intro p _
    rw [hqr]
    simp [NbodySimulatorResult.Init, NbodySimulatorResult.SetZero, NbodySimulatorStatistic.SetZero,
      NbodySimulatorSummary.SetZero, NbodySimulatorPostponed.SetZero, Range.contains, Range.add,
      Range.Init]

/-- Every call of `RecursionHelper_` and of `TripletreeCanonical_` with enough
fuel on a well-formed tree returns and keeps the summaries of all leaves
sound. -/
theorem LeafSummariesSound.traversal (global : NbodySimulatorGlobal α) (t : Tree)
    (hwf : t.WellFormed) (fuel : Nat) :
    (∀ level al r re fp (st : State α) d, level ≤ 3 → SlotInv t level al r →
      helperFuel level al r ≤ fuel → LeafSummariesSound t st →
      ∃ st', RecursionHelper_ global fuel r re fp st level al d = some (r, st', d) ∧
        LeafSummariesSound t st') ∧
    (∀ r re fp (st : State α), SlotInv t 0 true r → 5 * (heightSum r + 1) ≤ fuel →
      LeafSummariesSound t st →
      ∃ st', TripletreeCanonical_ global fuel r re fp st = some (true, r, st') ∧
        LeafSummariesSound t st') := by
  obtain ⟨h1, h2⟩ := engine_master global t hwf (fun _ st => LeafSummariesSound t st)
    (fun acc st level al r _ _ hR => hR)
    (fun acc st r _ hR => hR)
    (fun acc st r hs hR => hR.base_case_step hwf hs)
    fuel
  exact ⟨fun level al r re fp st d hl hs hf hp => h1 level al r re fp st d 0 hl hs hf hp,
    fun r re fp st hs hf hp => h2 r re fp st 0 hs hf hp⟩

end LeafSoundness

/-! ### Summary soundness -/

section Claim15
variable {α : Type} [LinearOrderedField α]

/-- C15 as stated fails on a concrete input: when the canonical step on the
root triple of `exampleTree` returns during `Compute`, the summary of the root
(an internal node) is still the zero interval and its postponed is zero, while
the negative potential of point `0` is `[-4, -4]`: the summary of the root
does not contain the result of a point beneath it.  The summaries of the two
leaves do contain the results of their points. -/
theorem summary_soundness_counterexample :
    (exampleTraversalStart.bind fun st1 =>
        TripletreeCanonical_ exampleGlobal (computeFuel exampleTree) exampleRootTriple
          exampleGlobal.relative_error_ (1 - exampleGlobal.probability_) st1).map
      (fun res =>
        (decide (SummarySound res.2.2 (TreeType.root exampleTree)),
          res.2.2.query_results.negative_potential_ 0,
          decide (SummarySound res.2.2 exampleLeft),
          decide (SummarySound res.2.2 exampleRight))) =
      some (false, ⟨-4, -4⟩, true, true) ∧
    (exampleTraversalStart.bind fun st1 =>
        TripletreeCanonical_ exampleGlobal (computeFuel exampleTree) exampleRootTriple
          exampleGlobal.relative_error_ (1 - exampleGlobal.probability_) st1).map
      (fun res =>
        (res.2.2.stat []).map
          (fun s => (s.summary_.negative_potential_, s.postponed_.negative_potential_))) =
      some (some (⟨0, 0⟩, ⟨0, 0⟩)) := by
  decide!

/-- C15, amended to the leaves: on a well-formed tree, summary soundness of
every leaf (its two summary intervals, after the postponed of the leaf was
added, contain the corresponding result interval of every point beneath it)
holds in the state in which `Compute` enters the traversal, and every base
case on a triple of leaves in canonical order, every call of
`RecursionHelper_` and every canonical step that is entered in a state where
it holds returns in a state where it holds. -/
theorem leaf_summaries_sound (global : NbodySimulatorGlobal α) (t : Tree)
    (hwf : t.WellFormed) :
    (∀ st : State α, StatsPresent st.stat [] t →
      ∃ st1, PreProcess_ [] t
          { st with query_results := NbodySimulatorResult.Init (t.end_ - t.begin_) } =
            some st1 ∧
        LeafSummariesSound t st1) ∧
    (∀ r (st : State α), SlotInv t 3 true r → LeafSummariesSound t st →
      ∃ st', TripletreeBase_ global r st = some st' ∧ LeafSummariesSound t st') ∧
    (∀ fuel level al r re fp (st : State α) d, level ≤ 3 → SlotInv t level al r →
      helperFuel level al r ≤ fuel → LeafSummariesSound t st →
      ∃ st', RecursionHelper_ global fuel r re fp st level al d = some (r, st', d) ∧
        LeafSummariesSound t st') ∧
    (∀ fuel r re fp (st : State α), SlotInv t 0 true r → 5 * (heightSum r + 1) ≤ fuel →
      LeafSummariesSound t st →
      ∃ st', TripletreeCanonical_ global fuel r re fp st = some (true, r, st') ∧
        LeafSummariesSound t st') :=
  ⟨fun st hpres => LeafSummariesSound.start t st hpres,
    fun _ _ hs hinv => hinv.base_case_step hwf hs,
    fun fuel => (LeafSummariesSound.traversal global t hwf fuel).1,
    fun fuel => (LeafSummariesSound.traversal global t hwf fuel).2⟩

theorem leaf_summaries_sound_witness :
    (exampleTree.WellFormed ∧ SlotInv exampleTree 0 true exampleRootTriple ∧
      5 * (heightSum exampleRootTriple + 1) ≤ computeFuel exampleTree) ∧
    ∃ st1, PreProcess_ [] exampleTree
        { Init exampleTree exampleState with
          query_results :=
            NbodySimulatorResult.Init (exampleTree.end_ - exampleTree.begin_) } = some st1 ∧
      LeafSummariesSound exampleTree st1 ∧
      ∃ st', TripletreeCanonical_ exampleGlobal (computeFuel exampleTree) exampleRootTriple
          exampleGlobal.relative_error_ (1 - exampleGlobal.probability_) st1 =
            some (true, exampleRootTriple, st') ∧
        LeafSummariesSound exampleTree st' := by
  refine ⟨by decide, ?_⟩
  obtain ⟨h1, -, -, h4⟩ := leaf_summaries_sound exampleGlobal exampleTree (by decide)
  obtain ⟨st1, hrun, hinv⟩ := h1 (Init exampleTree exampleState) (Init_statsPresent _ _)
  exact ⟨st1, hrun, hinv,
    h4 (computeFuel exampleTree) exampleRootTriple exampleGlobal.relative_error_
      (1 - exampleGlobal.probability_) st1 (by decide) (by decide) hinv⟩

end Claim15

/-! ### Properties of the trace of the mutual recursion -/

section Trace
variable {α : Type} [LinearOrderedField α]

/-- Partial-correctness induction over the mutual recursion, for any prune
test and any tree: `Inv` is a property of the arguments of `RecursionHelper_`
kept by its recursive calls, `P` a property of ghost events that follows from
it.  A call that returns hands back its triple-range, leaves the exactness
flag as it was (the canonical step returns `true`), and has logged only events
satisfying `P`. -/
theorem trace_master
    (cs : TripleRangeDistanceSq → NbodySimulatorDelta α → NbodySimulatorResult α → Bool)
    (global : NbodySimulatorGlobal α)
    (Inv : Nat → Bool → TripleRangeDistanceSq → Prop) (P : Event → Prop)
    (hleaf : ∀ level al r, level ≠ 3 → Inv level al r → (r.node level).is_leaf = true →
      (level = 0 ∨ NodeIsAgreeable_ (r.node (level - 1)) (r.node level) = true) →
      Inv (level + 1) al r)
    (hchild : ∀ level al r c, level ≠ 3 → Inv level al r → (r.node level).is_leaf = false →
      (c = (r.node level).left ∨ c = (r.node level).right) →
      (level = 0 ∨ ∃ r', (r' = r ∨ r' = r.ReplaceOneNode (r.node level).left level) ∧
        NodeIsAgreeable_ (r'.node (level - 1)) c = true) →
      Inv (level + 1) false (r.ReplaceOneNode c level))
    (hrestart : ∀ r, Inv 3 false r → Inv 0 true r)
    (hPh : ∀ level al r, Inv level al r → P (Event.helper level r al))
    (hPc : ∀ r, Inv 0 true r → P (Event.canonical r))
    (hPb : ∀ r, Inv 3 true r → P (Event.base r))
    (hPe : ∀ r d, Inv 3 true r → d ∈ baseTriples r → P (Event.exact d)) : ∀ fuel,
    (∀ r re fp st level al d x,
      RecursionHelperWith cs global fuel r re fp st level al d = some x → Inv level al r →
      x.1 = r ∧ x.2.2 = d ∧ ∃ new, x.2.1.log = st.log ++ new ∧ ∀ e, e ∈ new → P e) ∧
    (∀ r re fp st x,
      TripletreeCanonicalWith cs global fuel r re fp st = some x → Inv 0 true r →
      x.1 = true ∧ x.2.1 = r ∧ ∃ new, x.2.2.log = st.log ++ new ∧ ∀ e, e ∈ new → P e) := by
  intro fuel
  induction fuel with
  | zero =>
    constructor
    · intro r re fp st level al d x h
      simp [RecursionHelperWith] at h
    · intro r re fp st x h
      simp [TripletreeCanonicalWith] at h
  | succ n ih =>
    obtain ⟨ihH, ihC⟩ := ih
    constructor
    · intro r re fp st level al d x h hinv
      have hev := hPh level al r hinv
      rw [RecursionHelperWith] at h
      by_cases h3 : level = 3
      · subst h3
        simp only [if_true] at h
        cases al with
        | true =>
          simp only [if_true] at h
          cases hb : TripletreeBase_ global r (st.record (Event.helper 3 r true)) with
          | none => rw [hb] at h; simp at h
          | some st' =>
            rw [hb] at h
            simp only [Option.some.injEq] at h
            subst h
            refine ⟨rfl, rfl,
              Event.helper 3 r true :: Event.base r :: (baseTriples r).map Event.exact, ?_, ?_⟩
            · simp only
              rw [TripletreeBase_log global r _ _ hb]
              simp only [State.record, List.append_assoc, List.singleton_append]
            · intro e he
              simp only [List.mem_cons, List.mem_map] at he
              rcases he with rfl | rfl | ⟨d', hd', rfl⟩
              · exact hev
              · exact hPb r hinv
              · exact hPe r d' hinv hd'
        | false =>
          simp only [Bool.false_eq_true, if_false] at h
          cases hc : TripletreeCanonicalWith cs global n r re fp
              (st.record (Event.helper 3 r false)) with
          | none => rw [hc] at h; simp at h
          | some y =>
            rw [hc] at h
            simp only [Option.some.injEq] at h
            subst h
            obtain ⟨e0, e1, new, e2, e3⟩ := ihC _ _ _ _ _ hc (hrestart r hinv)
            refine ⟨e1, by simp only [e0, Bool.and_true], Event.helper 3 r false :: new, ?_, ?_⟩
            · simp only
              rw [e2]
              simp only [State.record, List.append_assoc, List.singleton_append]
            · intro e he
              simp only [List.mem_cons] at he
              rcases he with rfl | he
              · exact hev
              · exact e3 e he
      · simp only [h3, if_false] at h
        by_cases hl : (r.node level).is_leaf = true
        · simp only [hl, if_true] at h
          by_cases hg : level = 0 ∨ NodeIsAgreeable_ (r.node (level - 1)) (r.node level) = true
          · simp only [hg, if_true] at h
            obtain ⟨e1, e0, new, e2, e3⟩ := ihH _ _ _ _ _ _ _ _ h (hleaf level al r h3 hinv hl hg)
            refine ⟨e1, e0, Event.helper level r al :: new, ?_, ?_⟩
            · rw [e2]
              simp only [State.record, List.append_assoc, List.singleton_append]
            · intro e he
              simp only [List.mem_cons] at he
              rcases he with rfl | he
              · exact hev
              · exact e3 e he
          · simp only [hg, if_false, Option.some.injEq] at h
            subst h
            refine ⟨rfl, rfl, [Event.helper level r al], rfl, ?_⟩
            intro e he
            simp only [List.mem_singleton] at he
            subst he; exact hev
        · have hl' : (r.node level).is_leaf = false := by
            cases hh : (r.node level).is_leaf
            · rfl
            · exact absurd hh hl
          simp only [hl, Bool.false_eq_true, if_false] at h
          by_cases hg1 : level = 0 ∨
              NodeIsAgreeable_ (r.node (level - 1)) (r.node level).left = true
          · have hi1 := hchild level al r _ h3 hinv hl' (Or.inl rfl)
              (hg1.imp id (fun hh => ⟨r, Or.inl rfl, hh⟩))
            simp only [hg1, if_true] at h
            cases hc1 : RecursionHelperWith cs global n
                (r.ReplaceOneNode (r.node level).left level) re fp
                (st.record (Event.helper level r al)) (level + 1) false d with
            | none => rw [hc1] at h; simp at h
            | some y1 =>
              rw [hc1] at h
              obtain ⟨a1, f1, new1, b1, c1⟩ := ihH _ _ _ _ _ _ _ _ hc1 hi1
              obtain ⟨r1, st1, d1⟩ := y1
              simp only at h a1 b1 f1
              subst a1
              subst f1
              by_cases hg2 : level = 0 ∨
                  NodeIsAgreeable_
                    ((r.ReplaceOneNode (r.node level).left level).node (level - 1))
                    (r.node level).right = true
              · have hi2 := hchild level al r _ h3 hinv hl' (Or.inr rfl)
                  (hg2.imp id (fun hh => ⟨_, Or.inr rfl, hh⟩))
                simp only [hg2, if_true] at h
                rw [ReplaceOneNode_twice] at h
                cases hc2 : RecursionHelperWith cs global n
                    (r.ReplaceOneNode (r.node level).right level) re fp st1 (level + 1) false
                    d1 with
                | none => rw [hc2] at h; simp at h
                | some y2 =>
                  rw [hc2] at h
                  obtain ⟨a2, f2, new2, b2, c2⟩ := ihH _ _ _ _ _ _ _ _ hc2 hi2
                  obtain ⟨r2, st2, d2⟩ := y2
                  simp only at h a2 b2 f2
                  subst a2
                  subst f2
                  simp only [if_true, Option.some.injEq] at h
                  subst h
                  refine ⟨ReplaceOneNode_restore r _ level, rfl,
                    Event.helper level r al :: (new1 ++ new2), ?_, ?_⟩
                  · simp only
                    rw [b2, b1]
                    simp only [State.record, List.append_assoc, List.singleton_append,
                      List.cons_append, List.nil_append]
                  · intro e he
                    simp only [List.mem_cons, List.mem_append] at he
                    rcases he with rfl | he | he
                    · exact hev
                    · exact c1 e he
                    · exact c2 e he
              · simp only [hg2, if_false, if_true, Option.some.injEq] at h
                subst h
                refine ⟨ReplaceOneNode_restore r _ level, rfl, Event.helper level r al :: new1,
                  ?_, ?_⟩
                · simp only
                  rw [b1]
                  simp only [State.record, List.append_assoc, List.singleton_append]
                · intro e he
                  simp only [List.mem_cons] at he
                  rcases he with rfl | he
                  · exact hev
                  · exact c1 e he
          · simp only [hg1, if_false] at h
            by_cases hg2 : level = 0 ∨
                NodeIsAgreeable_ (r.node (level - 1)) (r.node level).right = true
            · have hi2 := hchild level al r _ h3 hinv hl' (Or.inr rfl)
                (hg2.imp id (fun hh => ⟨r, Or.inl rfl, hh⟩))
              simp only [hg2, if_true] at h
              cases hc2 : RecursionHelperWith cs global n
                  (r.ReplaceOneNode (r.node level).right level) re fp
                  (st.record (Event.helper level r al)) (level + 1) false d with
              | none => rw [hc2] at h; simp at h
              | some y2 =>
                rw [hc2] at h
                obtain ⟨a2, f2, new2, b2, c2⟩ := ihH _ _ _ _ _ _ _ _ hc2 hi2
                obtain ⟨r2, st2, d2⟩ := y2
                simp only at h a2 b2 f2
                subst a2
                subst f2
                simp only [if_true, Option.some.injEq] at h
                subst h
                refine ⟨ReplaceOneNode_restore r _ level, rfl, Event.helper level r al :: new2,
                  ?_, ?_⟩
                · simp only
                  rw [b2]
                  simp only [State.record, List.append_assoc, List.singleton_append]
                · intro e he
                  simp only [List.mem_cons] at he
                  rcases he with rfl | he
                  · exact hev
                  · exact c2 e he
            · simp only [hg2, if_false, Bool.false_eq_true, Option.some.injEq] at h
              subst h
              refine ⟨rfl, rfl, [Event.helper level r al], rfl, ?_⟩
              intro e he
              simp only [List.mem_singleton] at he
              subst he; exact hev
    · intro r re fp st x h hinv
      rw [TripletreeCanonicalWith] at h
      by_cases hcs : cs r
          ((NbodySimulatorDelta.SetZero : NbodySimulatorDelta α).DeterministicCompute global r)
          (st.record (Event.canonical r)).query_results = true
      · simp only [hcs, if_true, Option.some.injEq] at h
        subst h
        refine ⟨rfl, rfl, [Event.canonical r], rfl, ?_⟩
        intro e he
        simp only [List.mem_singleton] at he
        subst he; exact hPc r hinv
      · simp only [hcs, if_false] at h
        cases hc : RecursionHelperWith cs global n r re fp (st.record (Event.canonical r)) 0
            true true with
        | none => rw [hc] at h; simp at h
        | some y =>
          rw [hc] at h
          simp only [Bool.false_eq_true, if_false, Option.some.injEq] at h
          subst h
          obtain ⟨e1, e0, new, e2, e3⟩ := ihH _ _ _ _ _ _ _ _ hc hinv
          refine ⟨e0, e1, Event.canonical r :: new, ?_, ?_⟩
          · simp only
            rw [e2]
            simp only [State.record, List.append_assoc, List.singleton_append]
          · intro e he
            simp only [List.mem_cons] at he
            rcases he with rfl | he
            · exact hPc r hinv
            · exact e3 e he

end Trace

/-! ### The trace of a run of `Compute` -/

section ComputeTrace
variable {α : Type} [LinearOrderedField α]

/-- `PreProcess_` does not touch the ghost log. -/
theorem PreProcess_log : ∀ (tree : Tree) (addr : List Bool) (st st' : State α),
    PreProcess_ addr tree st = some st' → st'.log = st.log
  | Tree.leaf b e, addr, st, st', h => by
      unfold PreProcess_ at h
      split at h
      · cases h
      · cases h; rfl
  | Tree.node b e l r, addr, st, st', h => by
      unfold PreProcess_ at h
      split at h
      · cases h
      · simp only [] at h
        split at h
        · cases h
        · rename_i st2 h2
          rw [PreProcess_log r _ _ _ h, PreProcess_log l _ _ _ h2]

/-- `PostProcess_` does not touch the ghost log. -/
theorem PostProcess_log (tree : Tree) (addr : List Bool) (st st' : State α)
    (h : PostProcess_ addr tree st = some st') : st'.log = st.log := by
  obtain ⟨st'', h1, h2, -⟩ := PostProcess_total tree addr st (PostProcess_present tree addr st st' h)
  rw [h] at h1
  cases h1
  exact h2

/-- The three stages of a run of `Compute` that returns. -/
theorem Compute_inv (global : NbodySimulatorGlobal α) (t : Tree) (st st' : State α)
    (h : Compute global t st = some st') :
    ∃ st1 x,
      PreProcess_ [] t
        { st with query_results := NbodySimulatorResult.Init (t.end_ - t.begin_) } = some st1 ∧
      TripletreeCanonical_ global (computeFuel t)
        (TripleRangeDistanceSq.Init (TreeType.root t) (TreeType.root t) (TreeType.root t))
        global.relative_error_ (1 - global.probability_) st1 = some x ∧
      PostProcess_ [] t x.2.2 = some st' := by
  unfold Compute at h
  simp only at h
  split at h
  · cases h
  · rename_i st1 h1
    split at h
    · cases h
    · rename_i b r' st2 h2
      exact ⟨st1, (b, r', st2), h1, h2, h⟩

/-- The ghost events of a run of `Compute` that returns satisfy every
property `P` that follows from a property `Inv` of the arguments of
`RecursionHelper_` which holds for three copies of the root and is kept by
the recursive calls. -/
theorem Compute_trace (global : NbodySimulatorGlobal α) (t : Tree)
    (Inv : Nat → Bool → TripleRangeDistanceSq → Prop) (P : Event → Prop)
    (hleaf : ∀ level al r, level ≠ 3 → Inv level al r → (r.node level).is_leaf = true →
      (level = 0 ∨ NodeIsAgreeable_ (r.node (level - 1)) (r.node level) = true) →
      Inv (level + 1) al r)
    (hchild : ∀ level al r c, level ≠ 3 → Inv level al r → (r.node level).is_leaf = false →
      (c = (r.node level).left ∨ c = (r.node level).right) →
      (level = 0 ∨ ∃ r', (r' = r ∨ r' = r.ReplaceOneNode (r.node level).left level) ∧
        NodeIsAgreeable_ (r'.node (level - 1)) c = true) →
      Inv (level + 1) false (r.ReplaceOneNode c level))
    (hrestart : ∀ r, Inv 3 false r → Inv 0 true r)
    (hPh : ∀ level al r, Inv level al r → P (Event.helper level r al))
    (hPc : ∀ r, Inv 0 true r → P (Event.canonical r))
    (hPb : ∀ r, Inv 3 true r → P (Event.base r))
    (hPe : ∀ r d, Inv 3 true r → d ∈ baseTriples r → P (Event.exact d))
    (hroot : Inv 0 true
      (TripleRangeDistanceSq.Init (TreeType.root t) (TreeType.root t) (TreeType.root t)))
    (st st' : State α) (h : Compute global t st = some st') :
    ∃ new, st'.log = st.log ++ new ∧ ∀ e, e ∈ new → P e := by
  obtain ⟨st1, x, h1, h2, h3⟩ := Compute_inv global t st st' h
  obtain ⟨-, -, new, hl, hP⟩ :=
    (trace_master CanSummarize_ global Inv P hleaf hchild hrestart hPh hPc hPb hPe
      (computeFuel t)).2 _ _ _ _ _ h2 hroot
  refine ⟨new, ?_, hP⟩
  rw [PostProcess_log t [] _ _ h3, hl, PreProcess_log t [] _ _ h1]

/-- The slot invariant, with the bound on the level, is kept by the recursive
calls of `RecursionHelper_` on a well-formed tree. -/
theorem SlotInv.trace_steps {t : Tree} (hwf : t.WellFormed) :
    (∀ level al r, level ≠ 3 → (level ≤ 3 ∧ SlotInv t level al r) →
      (r.node level).is_leaf = true →
      (level = 0 ∨ NodeIsAgreeable_ (r.node (level - 1)) (r.node level) = true) →
      (level + 1 ≤ 3 ∧ SlotInv t (level + 1) al r)) ∧
    (∀ level al r c, level ≠ 3 → (level ≤ 3 ∧ SlotInv t level al r) →
      (r.node level).is_leaf = false →
      (c = (r.node level).left ∨ c = (r.node level).right) →
      (level = 0 ∨ ∃ r', (r' = r ∨ r' = r.ReplaceOneNode (r.node level).left level) ∧
        NodeIsAgreeable_ (r'.node (level - 1)) c = true) →
      (level + 1 ≤ 3 ∧ SlotInv t (level + 1) false (r.ReplaceOneNode c level))) := by
  constructor
  · intro level al r h3 hi hl _
    have hlt : level < 3 := by omega
    exact ⟨hlt, (hi.2.leaf_step hlt hl).2⟩
  · intro level al r c h3 hi hl hc hg
    have hlt : level < 3 := by omega
    refine ⟨hlt, hi.2.child_step hwf hlt hl hc ?_⟩
    rcases hg with h0 | ⟨r', hr', hag⟩
    · exact Or.inl h0
    · by_cases h0 : level = 0
      · exact Or.inl h0
      · rcases hr' with rfl | rfl
        · exact Or.inr hag
        · rw [ReplaceOneNode_node_pred r _ level h0 hlt] at hag
          exact Or.inr hag

end ComputeTrace

/-! ### Slot order, leaves at the base case and the exactness flag -/

section Claims2426
variable {α : Type} [LinearOrderedField α]

/-- C24: a run of `Compute` on a well-formed tree whose nodes own statistics
returns, and every node triple on which it entered the base case or the
canonical step has its slots in non-decreasing order: `NodeIsAgreeable_`
holds of slots 0, 1 and of slots 1, 2, that is, neighbouring slots hold the
same node or the first ends where the second begins or before. -/
theorem slots_non_decreasing (global : NbodySimulatorGlobal α) (t : Tree) (hwf : t.WellFormed)
    (st : State α) (hpres : StatsPresent st.stat [] t) :
    ∃ st', Compute global t st = some st' ∧ ∃ new, st'.log = st.log ++ new ∧
      ∀ r, (Event.base r ∈ new ∨ Event.canonical r ∈ new) →
        (NodeIsAgreeable_ r.node0 r.node1 = true ∧ NodeIsAgreeable_ r.node1 r.node2 = true) ∧
        (r.node0.addr = r.node1.addr ∨ r.node0.end_ ≤ r.node1.begin_) ∧
        (r.node1.addr = r.node2.addr ∨ r.node1.end_ ≤ r.node2.begin_) := by
  obtain ⟨st', hrun, -⟩ := Compute_returns global t hwf st hpres
  refine ⟨st', hrun, ?_⟩
  have key : ∀ r, (SlotInv t 0 true r ∨ SlotInv t 3 true r) →
      Agree r.node0 r.node1 ∧ Agree r.node1 r.node2 := by
    intro r hr
    rcases hr with ⟨-, -, -, p0, p1, -⟩ | ⟨-, -, -, p0, p1, -⟩
    · exact ⟨by simpa [PairInv] using p0, by simpa [PairInv] using p1⟩
    · exact ⟨by simpa [PairInv] using p0, by simpa [PairInv] using p1⟩
  obtain ⟨new, hlog, hP⟩ := Compute_trace global t
    (fun level al r => level ≤ 3 ∧ SlotInv t level al r)
    (fun e => match e with
      | Event.base r => Agree r.node0 r.node1 ∧ Agree r.node1 r.node2
      | Event.canonical r => Agree r.node0 r.node1 ∧ Agree r.node1 r.node2
      | _ => True)
    (SlotInv.trace_steps hwf).1 (SlotInv.trace_steps hwf).2
    (fun r hi => ⟨Nat.zero_le _, hi.2.restart⟩)
    (fun _ _ _ _ => trivial)
    (fun r hi => key r (Or.inl hi.2))
    (fun r hi => key r (Or.inr hi.2))
    (fun _ _ _ _ => trivial)
    ⟨Nat.zero_le _, SlotInv.at_root t⟩ st st' hrun
  refine ⟨new, hlog, ?_⟩
  intro r hr
  have hag : Agree r.node0 r.node1 ∧ Agree r.node1 r.node2 := by
    rcases hr with hr | hr
    · exact hP _ hr
    · exact hP _ hr
  exact ⟨⟨NodeIsAgreeable_eq_true.2 hag.1, NodeIsAgreeable_eq_true.2 hag.2⟩, hag.1, hag.2⟩

/-- C25: in every run of `Compute` that returns, on any tree, the base case is
entered only on a triple whose three slot nodes are leaves, and whenever
`RecursionHelper_` is at level 3 with `all_leaves` true every slot holds a
leaf. -/
theorem base_case_only_on_leaves (global : NbodySimulatorGlobal α) (t : Tree)
    (st st' : State α) (h : Compute global t st = some st') :
    ∃ new, st'.log = st.log ++ new ∧
      (∀ r, Event.base r ∈ new →
        r.node0.is_leaf = true ∧ r.node1.is_leaf = true ∧ r.node2.is_leaf = true) ∧
      (∀ r, Event.helper 3 r true ∈ new →
        r.node0.is_leaf = true ∧ r.node1.is_leaf = true ∧ r.node2.is_leaf = true) := by
  have key : ∀ r : TripleRangeDistanceSq, (∀ i, i < 3 → (r.node i).is_leaf = true) →
      r.node0.is_leaf = true ∧ r.node1.is_leaf = true ∧ r.node2.is_leaf = true :=
    fun r hr => ⟨hr 0 (by omega), hr 1 (by omega), hr 2 (by omega)⟩
  obtain ⟨new, hlog, hP⟩ := Compute_trace global t
    (fun level al r => al = true → ∀ i, i < level → (r.node i).is_leaf = true)
    (fun e => match e with
      | Event.base r => ∀ i, i < 3 → (r.node i).is_leaf = true
      | Event.helper level r al =>
          level = 3 → al = true → ∀ i, i < 3 → (r.node i).is_leaf = true
      | _ => True)
    (fun level al r _ hi hl _ hal i hlt => by
      by_cases hh : i < level
      · exact hi hal i hh
      · have : i = level := by omega
        subst this; exact hl)
    (fun level al r c _ _ _ _ _ hal => by cases hal)
    (fun r _ _ i hi => by omega)
    (fun level al r hi hl hal => by subst hl; exact hi hal)
    (fun _ _ => trivial)
    (fun r hi => hi rfl)
    (fun _ _ _ _ => trivial)
    (fun _ i hi => by omega) st st' h
  exact ⟨new, hlog, fun r hr => key r (hP _ hr), fun r hr => key r (hP _ hr rfl rfl)⟩

/-- C26: whatever the fuel, the triple-range, the error budget, the failure
probability and the state, a call of `TripletreeCanonical_` that returns
returns `true` and a call of `RecursionHelper_` that returns hands back the
flag `deterministic_approximation` it was given; and on a well-formed tree
whose nodes own statistics the canonical step on a triple-range in canonical
order does return, with `true`, once the fuel covers the heights of its
nodes. -/
theorem exactness_flag_constant (global : NbodySimulatorGlobal α) :
    (∀ fuel r re fp (st : State α) x,
      TripletreeCanonical_ global fuel r re fp st = some x → x.1 = true) ∧
    (∀ fuel r re fp (st : State α) level al d x,
      RecursionHelper_ global fuel r re fp st level al d = some x → x.2.2 = d) ∧
    (∀ (t : Tree) fuel r re fp (st : State α), t.WellFormed → SlotInv t 0 true r →
      5 * (heightSum r + 1) ≤ fuel → StatsPresent st.stat [] t →
      ∃ st', TripletreeCanonical_ global fuel r re fp st = some (true, r, st')) := by
  have key := fun fuel => trace_master CanSummarize_ global (fun _ _ _ => True)
    (fun _ => True) (fun _ _ _ _ _ _ _ => trivial) (fun _ _ _ _ _ _ _ _ _ => trivial)
    (fun _ _ => trivial) (fun _ _ _ _ => trivial) (fun _ _ => trivial) (fun _ _ => trivial)
    (fun _ _ _ _ => trivial) fuel
  refine ⟨?_, ?_, ?_⟩
  · intro fuel r re fp st x h
    exact ((key fuel).2 r re fp st x h trivial).1
  · intro fuel r re fp st level al d x h
    exact ((key fuel).1 r re fp st level al d x h trivial).2.1
  · intro t fuel r re fp st hwf hs hf hp
    obtain ⟨st', h, -⟩ := (traversal_returns global t hwf fuel).2 r re fp st hs hf hp
    exact ⟨st', h⟩

end Claims2426

theorem slots_non_decreasing_witness :
    exampleTree.WellFormed ∧
    ∃ st', Compute exampleGlobal exampleTree (Init exampleTree exampleState) = some st' ∧
      ∃ new, st'.log = (Init exampleTree exampleState).log ++ new ∧
        ∀ r, (Event.base r ∈ new ∨ Event.canonical r ∈ new) →
          (NodeIsAgreeable_ r.node0 r.node1 = true ∧
            NodeIsAgreeable_ r.node1 r.node2 = true) ∧
          (r.node0.addr = r.node1.addr ∨ r.node0.end_ ≤ r.node1.begin_) ∧
          (r.node1.addr = r.node2.addr ∨ r.node1.end_ ≤ r.node2.begin_) :=
  ⟨by decide,
    slots_non_decreasing exampleGlobal exampleTree (by decide) (Init exampleTree exampleState)
      (Init_statsPresent _ _)⟩

theorem exampleTree_run_returns :
    (Compute exampleGlobal exampleTree (Init exampleTree exampleState)).isSome = true := by
  decide!

theorem base_case_only_on_leaves_witness :
    ∃ st', Compute exampleGlobal exampleTree (Init exampleTree exampleState) = some st' ∧
      ∃ new, st'.log = (Init exampleTree exampleState).log ++ new ∧
        (∀ r, Event.base r ∈ new →
          r.node0.is_leaf = true ∧ r.node1.is_leaf = true ∧ r.node2.is_leaf = true) ∧
        (∀ r, Event.helper 3 r true ∈ new →
          r.node0.is_leaf = true ∧ r.node1.is_leaf = true ∧ r.node2.is_leaf = true) :=
  ⟨Option.get _ exampleTree_run_returns, (Option.some_get exampleTree_run_returns).symm,
    base_case_only_on_leaves exampleGlobal exampleTree (Init exampleTree exampleState) _
      (Option.some_get exampleTree_run_returns).symm⟩

theorem exactness_flag_constant_witness :
    ∃ x, TripletreeCanonical_ exampleGlobal (computeFuel exampleTree) exampleRootTriple
        (1 / 10) (1 / 10) (Init exampleTree exampleState) = some x ∧ x.1 = true :=
  have h : (TripletreeCanonical_ exampleGlobal (computeFuel exampleTree) exampleRootTriple
      (1 / 10) (1 / 10) (Init exampleTree exampleState)).isSome = true := by decide!
  ⟨Option.get _ h, (Option.some_get h).symm,
    (exactness_flag_constant exampleGlobal).1 _ _ _ _ _ _ (Option.some_get h).symm⟩

/-! ### Exact contributions, deltas and the summarization test -/

section Claims2730
variable {α : Type} [LinearOrderedField α]

/-- The delta left by `DeterministicCompute` when its four vectors have
length three: every slot is overwritten by the loop body. -/
theorem DeterministicCompute_eq (self : NbodySimulatorDelta α) (global : NbodySimulatorGlobal α)
    (r : TripleRangeDistanceSq) (h0 : self.negative_potential_.length = 3)
    (h1 : self.positive_potential_.length = 3) (h2 : self.pruned_.length = 3)
    (h3 : self.used_error_.length = 3) (i : Nat) (hi : i < 3) :
    let range := global.ext.RangeUnnormOnSq r
    let n := global.ext.num_tuples r i
    let d := self.DeterministicCompute global r
    d.pruned_[i]? = some n ∧ d.used_error_[i]? = some (n * (1 / 2) * range.width) ∧
    d.negative_potential_[i]? =
      some ⟨if range.lo < 0 then n * range.lo else 0, if range.hi > 0 then 0 else n * range.hi⟩ ∧
    d.positive_potential_[i]? =
      some ⟨if range.lo < 0 then 0 else n * range.lo, if range.hi > 0 then n * range.hi else 0⟩ := by
  obtain ⟨a, b, c, e⟩ := self
  simp only at h0 h1 h2 h3
  obtain ⟨a0, a1, a2, rfl⟩ := List.length_eq_three.1 h0
  obtain ⟨b0, b1, b2, rfl⟩ := List.length_eq_three.1 h1
  obtain ⟨c0, c1, c2, rfl⟩ := List.length_eq_three.1 h2
  obtain ⟨e0, e1, e2, rfl⟩ := List.length_eq_three.1 h3
  have hr : List.range 3 = [0, 1, 2] := rfl
  rcases i with _ | _ | _ | i
  · simp only [NbodySimulatorDelta.DeterministicCompute, List.length_cons, List.length_nil, hr,
      List.foldl_cons, List.foldl_nil, NbodySimulatorDelta.DeterministicComputeStep, List.set]
    refine ⟨rfl, rfl, ?_, ?_⟩ <;> split_ifs <;> rfl
  · simp only [NbodySimulatorDelta.DeterministicCompute, List.length_cons, List.length_nil, hr,
      List.foldl_cons, List.foldl_nil, NbodySimulatorDelta.DeterministicComputeStep, List.set]
    refine ⟨rfl, rfl, ?_, ?_⟩ <;> split_ifs <;> rfl
  · simp only [NbodySimulatorDelta.DeterministicCompute, List.length_cons, List.length_nil, hr,
      List.foldl_cons, List.foldl_nil, NbodySimulatorDelta.DeterministicComputeStep, List.set]
    refine ⟨rfl, rfl, ?_, ?_⟩ <;> split_ifs <;> rfl
  · omega

/-- C27: whatever the three per-slot postponed objects held before,
`ApplyContribution` for a triple with exact potential value `v` leaves every
one of them with `negative_potential_ = [v, v]`, `positive_potential_ = [0, 0]`
when `v < 0`, with `negative_potential_ = [0, 0]`,
`positive_potential_ = [v, v]` otherwise, and with `pruned_ = used_error_ = 0`;
the vector keeps its length, and two vectors of the same length are left
equal, so nothing of the previous triple is carried over. -/
theorem ApplyContribution_overwrites (global : NbodySimulatorGlobal α) (d : TripleDistanceSq)
    (postponeds : List (NbodySimulatorPostponed α)) :
    (global.ApplyContribution d postponeds).length = postponeds.length ∧
    (∀ p, p ∈ global.ApplyContribution d postponeds →
      (global.ext.EvalUnnormOnSq d < 0 →
        p.negative_potential_ = ⟨global.ext.EvalUnnormOnSq d, global.ext.EvalUnnormOnSq d⟩ ∧
        p.positive_potential_ = ⟨0, 0⟩) ∧
      (¬ global.ext.EvalUnnormOnSq d < 0 →
        p.negative_potential_ = ⟨0, 0⟩ ∧
        p.positive_potential_ = ⟨global.ext.EvalUnnormOnSq d, global.ext.EvalUnnormOnSq d⟩) ∧
      p.pruned_ = 0 ∧ p.used_error_ = 0) ∧
    (∀ others : List (NbodySimulatorPostponed α), others.length = postponeds.length →
      global.ApplyContribution d others = global.ApplyContribution d postponeds) := by
  refine ⟨?_, ?_, ?_⟩
  · rw [ApplyContribution_eq, List.length_replicate]
  · intro p hp
    rw [ApplyContribution_eq] at hp
    have hp' := List.eq_of_mem_replicate hp
    subst hp'
    unfold contribution
    refine ⟨fun h => ?_, fun h => ?_, ?_, ?_⟩
    · simp only [h, if_true, Range.Init, and_self]
    · simp only [h, if_false, Range.Init, and_self]
    · split_ifs <;> rfl
    · split_ifs <;> rfl
  · intro others ho
    rw [ApplyContribution_eq, ApplyContribution_eq, ho]

/-- C28: after `DeterministicCompute` on a delta whose vectors have length
three, with potential range `[lo, hi]`, every slot `i < 3` has
`pruned_[i] = num_tuples(i)`, `used_error_[i] = pruned_[i] * (hi - lo) / 2`,
and the endpoint-wise sum of `negative_potential_[i]` and
`positive_potential_[i]` is `[pruned_[i] * lo, pruned_[i] * hi]`. -/
theorem delta_decomposition (self : NbodySimulatorDelta α) (global : NbodySimulatorGlobal α)
    (r : TripleRangeDistanceSq) (h0 : self.negative_potential_.length = 3)
    (h1 : self.positive_potential_.length = 3) (h2 : self.pruned_.length = 3)
    (h3 : self.used_error_.length = 3) (i : Nat) (hi : i < 3) :
    ∃ neg pos pruned used,
      (self.DeterministicCompute global r).negative_potential_[i]? = some neg ∧
      (self.DeterministicCompute global r).positive_potential_[i]? = some pos ∧
      (self.DeterministicCompute global r).pruned_[i]? = some pruned ∧
      (self.DeterministicCompute global r).used_error_[i]? = some used ∧
      pruned = global.ext.num_tuples r i ∧
      used = pruned *
        ((global.ext.RangeUnnormOnSq r).hi - (global.ext.RangeUnnormOnSq r).lo) / 2 ∧
      neg.add pos =
        ⟨pruned * (global.ext.RangeUnnormOnSq r).lo, pruned * (global.ext.RangeUnnormOnSq r).hi⟩ := by
  obtain ⟨e1, e2, e3, e4⟩ := DeterministicCompute_eq self global r h0 h1 h2 h3 i hi
  refine ⟨_, _, _, _, e3, e4, e1, e2, rfl, ?_, ?_⟩
  · simp only [Range.width]; ring
  · simp only [Range.add]
    split_ifs <;> simp

/-- C29: after `DeterministicCompute` on a delta whose vectors have length
three, with potential range `lo ≤ hi` and `num_tuples(i) ≥ 0`, in every slot
`i < 3` the negative part is an interval `lo ≤ hi ≤ 0`, the positive part an
interval `0 ≤ lo ≤ hi`, and `used_error_[i] ≥ 0`. -/
theorem delta_sign_split (self : NbodySimulatorDelta α) (global : NbodySimulatorGlobal α)
    (r : TripleRangeDistanceSq) (h0 : self.negative_potential_.length = 3)
    (h1 : self.positive_potential_.length = 3) (h2 : self.pruned_.length = 3)
    (h3 : self.used_error_.length = 3) (i : Nat) (hi : i < 3)
    (hr : (global.ext.RangeUnnormOnSq r).lo ≤ (global.ext.RangeUnnormOnSq r).hi)
    (hn : 0 ≤ global.ext.num_tuples r i) :
    ∃ neg pos used,
      (self.DeterministicCompute global r).negative_potential_[i]? = some neg ∧
      (self.DeterministicCompute global r).positive_potential_[i]? = some pos ∧
      (self.DeterministicCompute global r).used_error_[i]? = some used ∧
      neg.lo ≤ neg.hi ∧ neg.hi ≤ 0 ∧ 0 ≤ pos.lo ∧ pos.lo ≤ pos.hi ∧ 0 ≤ used := by
  obtain ⟨-, e2, e3, e4⟩ := DeterministicCompute_eq self global r h0 h1 h2 h3 i hi
  refine ⟨_, _, _, e3, e4, e2, ?_, ?_, ?_, ?_, ?_⟩
  · simp only
    split_ifs with a b b
    · exact mul_nonpos_of_nonneg_of_nonpos hn (le_of_lt a)
    · exact mul_le_mul_of_nonneg_left hr hn
    · exact le_refl _
    · exact mul_nonneg hn (le_trans (not_lt.1 a) hr)
  · simp only
    split_ifs with b
    · exact le_refl _
    · exact mul_nonpos_of_nonneg_of_nonpos hn (not_lt.1 b)
  · simp only
    split_ifs with a
    · exact le_refl _
    · exact mul_nonneg hn (not_lt.1 a)
  · simp only
    split_ifs with a b b
    · exact mul_nonneg hn (le_of_lt b)
    · exact le_refl _
    · exact mul_le_mul_of_nonneg_left hr hn
    · exact mul_nonpos_of_nonneg_of_nonpos hn (le_trans hr (not_lt.1 b))
  · simp only [Range.width]
    have : 0 ≤ (global.ext.RangeUnnormOnSq r).hi - (global.ext.RangeUnnormOnSq r).lo :=
      sub_nonneg.2 hr
    positivity

/-- C30: when `total_num_tuples` exceeds the summary's `pruned_`,
`NbodySimulatorSummary::CanSummarize` at slot `i` is true exactly when
`delta.used_error_[i]` is at most `delta.pruned_[i] * (relative_error *
max(-negative_potential_.hi, positive_potential_.lo) - used_error_) /
(total_num_tuples - pruned_)`, that is, when `delta.used_error_[i]` times the
tuples not yet pruned is at most `delta.pruned_[i]` times the error budget
left. -/
theorem CanSummarize_iff (self : NbodySimulatorSummary α) (global : NbodySimulatorGlobal α)
    (delta : NbodySimulatorDelta α) (i : Nat) (h : global.total_num_tuples_ > self.pruned_) :
    (self.CanSummarize global delta i = true ↔
      delta.used_error_.getD i 0 ≤
        delta.pruned_.getD i 0 *
          (global.relative_error_ *
            max (- self.negative_potential_.hi) self.positive_potential_.lo - self.used_error_) /
          (global.total_num_tuples_ - self.pruned_)) ∧
    (self.CanSummarize global delta i = true ↔
      delta.used_error_.getD i 0 * (global.total_num_tuples_ - self.pruned_) ≤
        delta.pruned_.getD i 0 *
          (global.relative_error_ *
            max (- self.negative_potential_.hi) self.positive_potential_.lo -
              self.used_error_)) := by
  have hpos : 0 < global.total_num_tuples_ - self.pruned_ := sub_pos.2 h
  constructor
  · simp only [NbodySimulatorSummary.CanSummarize, decide_eq_true_eq]
  · simp only [NbodySimulatorSummary.CanSummarize, decide_eq_true_eq]
    exact le_div_iff₀ hpos

end Claims2730

theorem ApplyContribution_overwrites_witness :
    (exampleGlobal.ApplyContribution ⟨0, 1, 2⟩
      (List.replicate 3 ⟨⟨7, 8⟩, ⟨9, 10⟩, 11, 12⟩)).length = 3 ∧
    exampleGlobal.ApplyContribution ⟨0, 1, 2⟩ (List.replicate 3 ⟨⟨7, 8⟩, ⟨9, 10⟩, 11, 12⟩) =
      exampleGlobal.ApplyContribution ⟨0, 1, 2⟩
        (List.replicate 3 NbodySimulatorPostponed.SetZero) :=
  ⟨(ApplyContribution_overwrites exampleGlobal ⟨0, 1, 2⟩ _).1,
    (ApplyContribution_overwrites exampleGlobal ⟨0, 1, 2⟩
      (List.replicate 3 NbodySimulatorPostponed.SetZero)).2.2 _ rfl⟩

theorem delta_decomposition_witness :
    (NbodySimulatorDelta.SetZero : NbodySimulatorDelta ℚ).pruned_.length = 3 ∧ 1 < 3 ∧
    ∃ neg pos pruned used,
      ((NbodySimulatorDelta.SetZero : NbodySimulatorDelta ℚ).DeterministicCompute exampleGlobal
        exampleRootTriple).negative_potential_[1]? = some neg ∧
      ((NbodySimulatorDelta.SetZero : NbodySimulatorDelta ℚ).DeterministicCompute exampleGlobal
        exampleRootTriple).positive_potential_[1]? = some pos ∧
      ((NbodySimulatorDelta.SetZero : NbodySimulatorDelta ℚ).DeterministicCompute exampleGlobal
        exampleRootTriple).pruned_[1]? = some pruned ∧
      ((NbodySimulatorDelta.SetZero : NbodySimulatorDelta ℚ).DeterministicCompute exampleGlobal
        exampleRootTriple).used_error_[1]? = some used ∧
      pruned = exampleGlobal.ext.num_tuples exampleRootTriple 1 ∧
      used = pruned *
        ((exampleGlobal.ext.RangeUnnormOnSq exampleRootTriple).hi -
          (exampleGlobal.ext.RangeUnnormOnSq exampleRootTriple).lo) / 2 ∧
      neg.add pos =
        ⟨pruned * (exampleGlobal.ext.RangeUnnormOnSq exampleRootTriple).lo,
          pruned * (exampleGlobal.ext.RangeUnnormOnSq exampleRootTriple).hi⟩ :=
  ⟨rfl, by decide,
    delta_decomposition NbodySimulatorDelta.SetZero exampleGlobal exampleRootTriple rfl rfl rfl
      rfl 1 (by decide)⟩

theorem delta_sign_split_witness :
    (exampleGlobal.ext.RangeUnnormOnSq exampleRootTriple).lo ≤
      (exampleGlobal.ext.RangeUnnormOnSq exampleRootTriple).hi ∧
    0 ≤ exampleGlobal.ext.num_tuples exampleRootTriple 1 ∧
    ∃ neg pos used,
      ((NbodySimulatorDelta.SetZero : NbodySimulatorDelta ℚ).DeterministicCompute exampleGlobal
        exampleRootTriple).negative_potential_[1]? = some neg ∧
      ((NbodySimulatorDelta.SetZero : NbodySimulatorDelta ℚ).DeterministicCompute exampleGlobal
        exampleRootTriple).positive_potential_[1]? = some pos ∧
      ((NbodySimulatorDelta.SetZero : NbodySimulatorDelta ℚ).DeterministicCompute exampleGlobal
        exampleRootTriple).used_error_[1]? = some used ∧
      neg.lo ≤ neg.hi ∧ neg.hi ≤ 0 ∧ 0 ≤ pos.lo ∧ pos.lo ≤ pos.hi ∧ 0 ≤ used :=
  ⟨by decide, by decide,
    delta_sign_split NbodySimulatorDelta.SetZero exampleGlobal exampleRootTriple rfl rfl rfl
      rfl 1 (by decide) (by decide) (by decide)⟩

theorem CanSummarize_iff_witness :
    exampleGlobal.total_num_tuples_ > (NbodySimulatorSummary.SetZero : NbodySimulatorSummary ℚ).pruned_ ∧
    ((NbodySimulatorSummary.SetZero : NbodySimulatorSummary ℚ).CanSummarize exampleGlobal
        ((NbodySimulatorDelta.SetZero : NbodySimulatorDelta ℚ).DeterministicCompute exampleGlobal
          exampleRootTriple) 1 = true ↔
      ((NbodySimulatorDelta.SetZero : NbodySimulatorDelta ℚ).DeterministicCompute exampleGlobal
          exampleRootTriple).used_error_.getD 1 0 *
          (exampleGlobal.total_num_tuples_ -
            (NbodySimulatorSummary.SetZero : NbodySimulatorSummary ℚ).pruned_) ≤
        ((NbodySimulatorDelta.SetZero : NbodySimulatorDelta ℚ).DeterministicCompute exampleGlobal
          exampleRootTriple).pruned_.getD 1 0 *
          (exampleGlobal.relative_error_ *
            max (- (NbodySimulatorSummary.SetZero : NbodySimulatorSummary ℚ).negative_potential_.hi)
              (NbodySimulatorSummary.SetZero : NbodySimulatorSummary ℚ).positive_potential_.lo -
            (NbodySimulatorSummary.SetZero : NbodySimulatorSummary ℚ).used_error_)) :=
  ⟨by decide,
    (CanSummarize_iff NbodySimulatorSummary.SetZero exampleGlobal _ 1 (by decide)).2⟩

/-! ### Tuple totals and `ConsiderTupleExact` -/

section Binomial
variable {α : Type} [LinearOrderedField α]

/-- On natural numbers `BinomialCoefficient` is the binomial coefficient. -/
theorem BinomialCoefficient_natCast (n k : Nat) :
    (BinomialCoefficient (n : Int) (k : Int) : α) = ((Nat.choose n k : Nat) : α) := by
  unfold BinomialCoefficient
  by_cases h : k ≤ n
  · have h' : (0 : Int) ≤ (k : Int) ∧ (k : Int) ≤ (n : Int) := ⟨by omega, by omega⟩
    simp only [h', and_self, if_true, Int.toNat_ofNat]
  · have h' : ¬ ((0 : Int) ≤ (k : Int) ∧ (k : Int) ≤ (n : Int)) := by omega
    simp only [h', if_false]
    rw [Nat.choose_eq_zero_of_lt (by omega)]
    simp

end Binomial

section Claim22
variable {ι α : Type} [LinearOrderedField α]

open AxilrodTellerForceProblem

/-- C22: for `N ≥ 1` particles, the tuple total stored by
`NbodySimulatorGlobal::Init` (`total_num_tuples_`) and the one stored by the
force problem's `MultiTreeGlobal::Init` (`total_n_minus_one_tuples`, with
`order = 3`) are both the binomial coefficient `C(N - 1, 2)`, which is
`(N - 1)(N - 2)/2` and is the number of unordered 3-tuples of the `N`
particles that contain a given particle `p`. -/
theorem tuple_total_is_binomial (ext : Collaborators α) (kernel_aux : KernelAux ι α)
    (relative_error_in probability_in : α) (N p : Nat) (hp : p < N) :
    (NbodySimulatorGlobal.Init ext (N : Int) relative_error_in probability_in).total_num_tuples_ =
      ((Nat.choose (N - 1) 2 : Nat) : α) ∧
    (MultiTreeGlobal.Init kernel_aux (N : Int)).total_n_minus_one_tuples =
      ((Nat.choose (N - 1) 2 : Nat) : α) ∧
    ((Nat.choose (N - 1) 2 : Nat) : α) = ((N : α) - 1) * ((N : α) - 2) / 2 ∧
    Nat.choose (N - 1) 2 = (N - 1) * (N - 2) / 2 ∧
    Nat.choose (N - 1) 2 =
      ((bruteForceTriples N).filter fun d => decide (d.has p)).length := by
  have hN : 1 ≤ N := by omega
  have hcast : ((N : Int) - 1) = ((N - 1 : Nat) : Int) := by omega
  refine ⟨?_, ?_, ?_, ?_, (length_filter_has N p hp).symm⟩
  · show (BinomialCoefficient ((N : Int) - 1) 2 : α) = _
    rw [hcast]
    exact BinomialCoefficient_natCast (N - 1) 2
  · show (BinomialCoefficient ((N : Int) - 1) (order - 1) : α) = _
    rw [hcast]
    exact BinomialCoefficient_natCast (N - 1) 2
  · rw [Nat.cast_choose_two, Nat.cast_sub hN]
    congr 2
    simp only [Nat.cast_one]
    ring
  · rw [Nat.choose_two_right]
    congr 2

end Claim22

section Claim23
variable {ι α : Type} [DecidableEq ι] [LinearOrderedField α]

open AxilrodTellerForceProblem

/-- The first loop of `ConsiderTupleExact` runs to its end exactly when no
slot of the list passes the guard and fails the error test. -/
theorem ConsiderTupleExact_testLoop_eq_true (globals : MultiTreeGlobal ι α)
    (stat : ι → MultiTreeQueryStat α) (hybrid_nodes : Fin 3 → ι) (delta : MultiTreeDelta α)
    (root : α) (total : Fin 3 → α) : ∀ l : List (Fin 3),
    ConsiderTupleExact_testLoop globals stat hybrid_nodes delta root total l = true ↔
      ∀ i, i ∈ l → ¬ (ConsiderTupleExact_distinct hybrid_nodes i = true ∧
        ConsiderTupleExact_fails globals stat hybrid_nodes delta root total i = true)
  | [] => by simp [ConsiderTupleExact_testLoop]
  | i :: rest => by
      have ih := ConsiderTupleExact_testLoop_eq_true globals stat hybrid_nodes delta root total rest
      unfold ConsiderTupleExact_testLoop
      cases h : (ConsiderTupleExact_distinct hybrid_nodes i &&
          ConsiderTupleExact_fails globals stat hybrid_nodes delta root total i)
      · simp only [Bool.false_eq_true, if_false, ih]
        constructor
        · intro hall j hj
          rcases List.mem_cons.1 hj with rfl | hj
          · simpa using h
          · exact hall j hj
        · intro hall j hj
          exact hall j (List.mem_cons_of_mem _ hj)
      · simp only [if_true, Bool.false_eq_true, false_iff]
        intro hall
        exact hall i (List.mem_cons_self _ _) (by simpa using h)

/-- C23: `ConsiderTupleExact` returns `false` whenever the finite-difference
evaluation reports failure and whenever some slot that passes the guard
(the first slot, or a slot holding another node than the slot before it)
fails the error test; whenever it returns `false` the state after the call
is the state before it (no node's postponed or summary and no field of the
results is changed); it returns `true` exactly when neither happens; and
`num_finite_difference_prunes` has grown by one exactly when it returns
`true`, and is unchanged otherwise. -/
theorem ConsiderTupleExact_atomic (globals : MultiTreeGlobal ι α) (st : ForceState ι α)
    (hybrid_nodes : Fin 3 → ι) (total_num_tuples root : α) (total : Fin 3 → α) :
    ((((MultiTreeDelta.fresh : MultiTreeDelta α).Init total).ComputeFiniteDifference globals
        hybrid_nodes total).1 = false →
      (ConsiderTupleExact globals st hybrid_nodes total_num_tuples root total).1 = false) ∧
    (∀ i : Fin 3, ConsiderTupleExact_distinct hybrid_nodes i = true →
      ConsiderTupleExact_fails globals st.stat hybrid_nodes
        (((MultiTreeDelta.fresh : MultiTreeDelta α).Init total).ComputeFiniteDifference globals
          hybrid_nodes total).2 root total i = true →
      (ConsiderTupleExact globals st hybrid_nodes total_num_tuples root total).1 = false) ∧
    ((ConsiderTupleExact globals st hybrid_nodes total_num_tuples root total).1 = false →
      (ConsiderTupleExact globals st hybrid_nodes total_num_tuples root total).2 = st) ∧
    ((ConsiderTupleExact globals st hybrid_nodes total_num_tuples root total).1 = true ↔
      (((MultiTreeDelta.fresh : MultiTreeDelta α).Init total).ComputeFiniteDifference globals
          hybrid_nodes total).1 = true ∧
        ∀ i : Fin 3, ConsiderTupleExact_distinct hybrid_nodes i = true →
          ConsiderTupleExact_fails globals st.stat hybrid_nodes
            (((MultiTreeDelta.fresh : MultiTreeDelta α).Init total).ComputeFiniteDifference
              globals hybrid_nodes total).2 root total i = false) ∧
    ((ConsiderTupleExact globals st hybrid_nodes total_num_tuples root total).1 = true ↔
      (ConsiderTupleExact globals st hybrid_nodes total_num_tuples root
          total).2.results.num_finite_difference_prunes =
        st.results.num_finite_difference_prunes + 1) ∧
    ((ConsiderTupleExact globals st hybrid_nodes total_num_tuples root total).1 = false ↔
      (ConsiderTupleExact globals st hybrid_nodes total_num_tuples root
          total).2.results.num_finite_difference_prunes =
        st.results.num_finite_difference_prunes) := by
  have hmem : ∀ i : Fin 3, i ∈ ([0, 1, 2] : List (Fin 3)) := by
    intro i; fin_cases i <;> simp
  have hloop := ConsiderTupleExact_testLoop_eq_true globals st.stat hybrid_nodes
    (((MultiTreeDelta.fresh : MultiTreeDelta α).Init total).ComputeFiniteDifference globals
      hybrid_nodes total).2 root total [0, 1, 2]
  cases hflag : (((MultiTreeDelta.fresh : MultiTreeDelta α).Init total).ComputeFiniteDifference
      globals hybrid_nodes total).1
  · have hout : ConsiderTupleExact globals st hybrid_nodes total_num_tuples root total =
        (false, st) := by
      unfold ConsiderTupleExact
      simp only [hflag, Bool.not_false, if_true]
    rw [hout]
    refine ⟨fun _ => rfl, fun _ _ _ => rfl, fun _ => rfl, ?_, ?_, ?_⟩
    · constructor
      · intro h; cases h
      · rintro ⟨h, -⟩; cases h
    · constructor
      · intro h; cases h
      · intro h
        have h' : st.results.num_finite_difference_prunes =
            st.results.num_finite_difference_prunes + 1 := h
        omega
    · exact ⟨fun _ => rfl, fun _ => rfl⟩
  · cases hl : ConsiderTupleExact_testLoop globals st.stat hybrid_nodes
        (((MultiTreeDelta.fresh : MultiTreeDelta α).Init total).ComputeFiniteDifference globals
          hybrid_nodes total).2 root total [0, 1, 2]
    · have hout : ConsiderTupleExact globals st hybrid_nodes total_num_tuples root total =
          (false, st) := by
        unfold ConsiderTupleExact
        simp only [hflag, hl, Bool.not_true, Bool.not_false, Bool.false_eq_true, if_false,
          if_true]
      rw [hout]
      refine ⟨fun _ => rfl, fun _ _ _ => rfl, fun _ => rfl, ?_, ?_, ?_⟩
      · constructor
        · intro h; cases h
        · rintro ⟨-, hall⟩
          have := hloop.2 (fun i _ hdf => by
            have h2 := hall i hdf.1
            rw [hdf.2] at h2
            cases h2)
          rw [hl] at this
          cases this
      · constructor
        · intro h; cases h
        · intro h
          have h' : st.results.num_finite_difference_prunes =
              st.results.num_finite_difference_prunes + 1 := h
          omega
      · exact ⟨fun _ => rfl, fun _ => rfl⟩
    · have hall := hloop.1 hl
      have hout : ConsiderTupleExact globals st hybrid_nodes total_num_tuples root total =
          (true,
            { stat := ConsiderTupleExact_applyLoop globals hybrid_nodes
                (((MultiTreeDelta.fresh : MultiTreeDelta α).Init total).ComputeFiniteDifference
                  globals hybrid_nodes total).2 [0, 1, 2] st.stat
              results :=
                { st.results with
                  num_finite_difference_prunes :=
                    st.results.num_finite_difference_prunes + 1 } }) := by
        unfold ConsiderTupleExact
        simp only [hflag, hl, Bool.not_true, Bool.false_eq_true, if_false]
      rw [hout]
      refine ⟨fun h => (by cases h), ?_, fun h => (by cases h), ?_, ?_, ?_⟩
      · intro i hd hf
        exact absurd ⟨hd, hf⟩ (hall i (hmem i))
      · refine ⟨fun _ => ⟨rfl, fun i hd => ?_⟩, fun _ => rfl⟩
        cases hf : ConsiderTupleExact_fails globals st.stat hybrid_nodes
          (((MultiTreeDelta.fresh : MultiTreeDelta α).Init total).ComputeFiniteDifference globals
            hybrid_nodes total).2 root total i
        · rfl
        · exact absurd ⟨hd, hf⟩ (hall i (hmem i))
      · exact ⟨fun _ => rfl, fun _ => rfl⟩
      · constructor
        · intro h; cases h
        · intro h
          have h' : st.results.num_finite_difference_prunes + 1 =
              st.results.num_finite_difference_prunes := h
          omega

end Claim23

open AxilrodTellerForceProblem

theorem tuple_total_is_binomial_witness :
    0 < 4 ∧
    (NbodySimulatorGlobal.Init exampleGlobal.ext 4 (1 / 10) (9 / 10)).total_num_tuples_ =
      ((Nat.choose (4 - 1) 2 : Nat) : ℚ) ∧
    (MultiTreeGlobal.Init exampleKernelAux 4).total_n_minus_one_tuples =
      ((Nat.choose (4 - 1) 2 : Nat) : ℚ) ∧
    ((Nat.choose (4 - 1) 2 : Nat) : ℚ) = (((4 : Nat) : ℚ) - 1) * (((4 : Nat) : ℚ) - 2) / 2 ∧
    Nat.choose (4 - 1) 2 = (4 - 1) * (4 - 2) / 2 ∧
    Nat.choose (4 - 1) 2 =
      ((bruteForceTriples 4).filter fun d => decide (d.has 0)).length :=
  ⟨by decide,
    tuple_total_is_binomial exampleGlobal.ext exampleKernelAux (1 / 10) (9 / 10) 4 0 (by decide)⟩

/-- The three outcomes of `ConsiderTupleExact` on the example: the evaluation
fails on three equal nodes; a slot fails the error test when the per-slot
total is `2`; and with per-slot total `1` the prune is recorded. -/
theorem ConsiderTupleExact_examples :
    (ConsiderTupleExact exampleForceGlobal exampleForceState (fun _ => 7) 3 3
      (fun _ => 1)).1 = false ∧
    (ConsiderTupleExact exampleForceGlobal exampleForceState exampleHybridNodes 3 3
      (fun _ => 2)).1 = false ∧
    (ConsiderTupleExact exampleForceGlobal exampleForceState exampleHybridNodes 3 3
      (fun _ => 1)).1 = true ∧
    (ConsiderTupleExact exampleForceGlobal exampleForceState exampleHybridNodes 3 3
      (fun _ => 1)).2.results.num_finite_difference_prunes = 1 ∧
    ((ConsiderTupleExact exampleForceGlobal exampleForceState exampleHybridNodes 3 3
      (fun _ => 1)).2.stat 2).postponed.l1_norm_negative_force_vector_u = 2 := by
  decide!

theorem ConsiderTupleExact_atomic_witness :
    (ConsiderTupleExact exampleForceGlobal exampleForceState exampleHybridNodes 3 3
      (fun _ => 2)).1 = false ∧
    (ConsiderTupleExact exampleForceGlobal exampleForceState exampleHybridNodes 3 3
      (fun _ => 2)).2 = exampleForceState :=
  have h : ConsiderTupleExact_fails exampleForceGlobal exampleForceState.stat exampleHybridNodes
      (((MultiTreeDelta.fresh : MultiTreeDelta ℚ).Init (fun _ => 2)).ComputeFiniteDifference
        exampleForceGlobal exampleHybridNodes (fun _ => 2)).2 3 (fun _ => 2) 0 = true := by
    decide!
  have hf := (ConsiderTupleExact_atomic exampleForceGlobal exampleForceState exampleHybridNodes
    3 3 (fun _ => 2)).2.1 0 (by decide) h
  ⟨hf, (ConsiderTupleExact_atomic exampleForceGlobal exampleForceState exampleHybridNodes
    3 3 (fun _ => 2)).2.2.1 hf⟩

/-! ### The triples of all ordered leaf triples -/

section AllLeafTriples
variable {α : Type} [LinearOrderedField α]

theorem leavesOf_leaf {n : TreeType} (h : n.is_leaf = true) : leavesOf n = [n] := by
  obtain ⟨a, s⟩ := n
  cases s with
  | leaf b e => rfl
  | node b e l r => simp [TreeType.is_leaf, Tree.is_leaf] at h

/-- On a triple of leaves the only ordered leaf triple is the triple itself. -/
theorem allLeafTriples_leaves (r : TripleRangeDistanceSq)
    (h : ∀ i, i < 3 → (r.node i).is_leaf = true) :
    allLeafTriples r = (baseTriples r : Multiset TripleDistanceSq) := by
  have h0 : r.node0.is_leaf = true := h 0 (by omega)
  have h1 : r.node1.is_leaf = true := h 1 (by omega)
  have h2 : r.node2.is_leaf = true := h 2 (by omega)
  simp only [allLeafTriples, leavesOf_leaf h0, leavesOf_leaf h1, leavesOf_leaf h2,
    Multiset.coe_singleton, Multiset.singleton_bind]
  rfl

end AllLeafTriples

/-! ### Induction over the mutual recursion without the agreement test -/

section AgreeableMaster
variable {α : Type} [LinearOrderedField α]

theorem ReplaceOneNode_valid {t : Tree} {r : TripleRangeDistanceSq} {c : TreeType} (level : Nat)
    (hv : ∀ i, (r.node i).Valid t) (hc : c.Valid t) (i : Nat) :
    ((r.ReplaceOneNode c level).node i).Valid t := by
  rcases level with _ | _ | _ <;> rcases i with _ | _ | _ <;>
    first
      | exact hc
      | exact hv 0
      | exact hv 1
      | exact hv 2

end AgreeableMaster

/-! ### The run of `Compute` without the agreement test -/

section AgreeableSpec
variable {α : Type} [LinearOrderedField α]

end AgreeableSpec

/-! ### The engine with the agreement test as a parameter -/

section AgreeableFaithful
variable {α : Type} [LinearOrderedField α]

/-- With `NodeIsAgreeable_` as the agreement test, the engine with the test
as a parameter is the engine. -/
theorem agreeable_engine_faithful (global : NbodySimulatorGlobal α) : ∀ fuel,
    (∀ r re fp st level al d,
      RecursionHelperAgreeable NodeIsAgreeable_ global fuel r re fp st level al d =
        RecursionHelper_ global fuel r re fp st level al d) ∧
    (∀ r re fp st,
      TripletreeCanonicalAgreeable NodeIsAgreeable_ global fuel r re fp st =
        TripletreeCanonical_ global fuel r re fp st) := by
  intro fuel
  induction fuel with
  | zero =>
    constructor
    · intro r re fp st level al d
      simp [RecursionHelperAgreeable, RecursionHelper_, RecursionHelperWith]
    · intro r re fp st
      simp [TripletreeCanonicalAgreeable, TripletreeCanonical_, TripletreeCanonicalWith]
  | succ n ih =>
    obtain ⟨ihH, ihC⟩ := ih
    unfold RecursionHelper_ at ihH
    unfold TripletreeCanonical_ at ihC
    constructor
    · intro r re fp st level al d
      unfold RecursionHelper_
      rw [RecursionHelperAgreeable, RecursionHelperWith]
      simp only [ihH, ihC]
    · intro r re fp st
      unfold TripletreeCanonical_
      rw [TripletreeCanonicalAgreeable, TripletreeCanonicalWith]
      simp only [ihH]

/-- With `NodeIsAgreeable_` as the agreement test, `ComputeAgreeable` is
`Compute`. -/
theorem ComputeAgreeable_faithful (global : NbodySimulatorGlobal α) (t : Tree) (st : State α) :
    ComputeAgreeable NodeIsAgreeable_ global t st = Compute global t st := by
  unfold ComputeAgreeable Compute
  simp only [(agreeable_engine_faithful global (computeFuel t)).2]

end AgreeableFaithful

/-! ### Necessity of the agreement rule -/

section Claim21
variable {α : Type} [LinearOrderedField α]

/-- On triples of three different points, counting a triple once for every
slot that holds the point is counting the triples that contain the point. -/
theorem negSumAll_eq_negSum (global : NbodySimulatorGlobal α) (acc : Multiset TripleDistanceSq)
    (h : ∀ d ∈ acc, d.p0 < d.p1 ∧ d.p1 < d.p2) (p : Nat) :
    negSumAll global acc p = negSum global acc p ∧
      posSumAll global acc p = posSum global acc p := by
  have key : ∀ d ∈ acc, ∀ v : α,
      (d.occurrences p : α) * v = if d.has p then v else 0 := by
    intro d hd v
    obtain ⟨h1, h2⟩ := h d hd
    have n01 : ¬ d.p0 = d.p1 := by omega
    have n02 : ¬ d.p0 = d.p2 := by omega
    have n12 : ¬ d.p1 = d.p2 := by omega
    have n10 : ¬ d.p1 = d.p0 := by omega
    have n20 : ¬ d.p2 = d.p0 := by omega
    have n21 : ¬ d.p2 = d.p1 := by omega
    unfold TripleDistanceSq.occurrences TripleDistanceSq.has
    by_cases e0 : p = d.p0
    · subst e0
      simp only [if_true, if_neg n01, if_neg n02, true_or]
      push_cast; ring
    · by_cases e1 : p = d.p1
      · subst e1
        simp only [if_true, if_neg n10, if_neg n12, true_or, or_true]
        push_cast; ring
      · by_cases e2 : p = d.p2
        · subst e2
          simp only [if_true, if_neg n20, if_neg n21, or_true]
          push_cast; ring
        · simp [e0, e1, e2]
  unfold negSumAll posSumAll negSum posSum
  constructor
  · congr 1
    exact Multiset.map_congr rfl (fun d hd => key d hd _)
  · congr 1
    exact Multiset.map_congr rfl (fun d hd => key d hd _)

/-- On a tree that is a single leaf the ordered leaf triples give the triples
of the reference enumeration. -/
theorem allLeafTriples_single_leaf (e : Nat) :
    allLeafTriples (TripleRangeDistanceSq.Init (TreeType.root (Tree.leaf 0 e))
        (TreeType.root (Tree.leaf 0 e)) (TreeType.root (Tree.leaf 0 e))) =
      (bruteForceTriples e : Multiset TripleDistanceSq) := by
  rw [allLeafTriples_leaves _ (fun i _ => by rcases i with _ | _ | _ <;> rfl),
    baseTriples_coe _ (fun _ => rfl) (fun _ => rfl) (Or.inl rfl) (Or.inl rfl)]
  exact tripleSet_root (Tree.leaf 0 e) rfl

end Claim21

theorem exampleTree_agreeable_free_run :
    (ComputeAgreeable (fun _ _ => true) exampleConstGlobal exampleTree
        (Init exampleTree exampleState)).map
        (fun s => (List.range 4).map s.query_results.potential_e_) =
      some [90, 90, 90, 90] := by
  decide!

section Claim21Order
variable {α : Type} [LinearOrderedField α]

end Claim21Order

/-- The amended statement of C21 on doubles: on the tree with two leaves of two
points and the exact contribution `(1 + p0 + 2 * p1) / 10`, the run with a test
that always holds leaves in the potentials of every point what the
applications of the contributions in the order of evaluation leave in a zeroed
buffer, and in `potential_e_` the sum of the midpoints. -/
theorem agreement_disabled_order_on_doubles :
    (ComputeAgreeable (fun _ _ => true) exampleDoubleGlobal exampleTree
          (Init exampleTree exampleDoubleState)).map
        (fun s => (List.range 4).map fun p =>
          decide (s.query_results.negative_potential_ p =
              ((exactEvents s.log).foldl (applyExact exampleDoubleGlobal)
                (NbodySimulatorResult.Init 4)).negative_potential_ p ∧
            s.query_results.positive_potential_ p =
              ((exactEvents s.log).foldl (applyExact exampleDoubleGlobal)
                (NbodySimulatorResult.Init 4)).positive_potential_ p ∧
            s.query_results.potential_e_ p =
              (s.query_results.negative_potential_ p).mid +
                (s.query_results.positive_potential_ p).mid)) =
      some [true, true, true, true] := by
  decide!

section Claim31
variable {α : Type} [LinearOrderedField α]

theorem Range.hull_contains (a b : Range α) : (a.hull b).contains a ∧ (a.hull b).contains b := by
  simp only [Range.hull, Range.contains]
  exact ⟨⟨min_le_left _ _, le_max_left _ _⟩, ⟨min_le_right _ _, le_max_right _ _⟩⟩

/-- C31: after `Accumulate(summary_in, postponed_in)` the negative part is the
hull of its value before and of the incoming interval shifted by the
postponed one, so it contains both, `pruned_` is the minimum and
`used_error_` the maximum of the old and the shifted incoming value; the
positive part, however, is assigned the shifted incoming interval, and on the
summary with positive part `[0, 10]`, the incoming positive part `[1, 2]` and a
zero postponed it is `[1, 2]` afterwards, which does not contain `[0, 10]`. -/
theorem Accumulate_assigns_positive_part :
    (∀ (S summary_in : NbodySimulatorSummary α) (postponed_in : NbodySimulatorPostponed α),
      (S.AccumulatePostponed summary_in postponed_in).negative_potential_ =
          S.negative_potential_.hull
            (summary_in.negative_potential_.add postponed_in.negative_potential_) ∧
        (S.AccumulatePostponed summary_in postponed_in).negative_potential_.contains
          S.negative_potential_ ∧
        (S.AccumulatePostponed summary_in postponed_in).negative_potential_.contains
          (summary_in.negative_potential_.add postponed_in.negative_potential_) ∧
        (S.AccumulatePostponed summary_in postponed_in).pruned_ =
          min S.pruned_ (summary_in.pruned_ + postponed_in.pruned_) ∧
        (S.AccumulatePostponed summary_in postponed_in).used_error_ =
          max S.used_error_ (summary_in.used_error_ + postponed_in.used_error_) ∧
        (S.AccumulatePostponed summary_in postponed_in).positive_potential_ =
          summary_in.positive_potential_.add postponed_in.positive_potential_) ∧
    (exampleSummary.AccumulatePostponed exampleSummaryIn
        NbodySimulatorPostponed.SetZero).positive_potential_ = ⟨1, 2⟩ ∧
    ¬ (exampleSummary.AccumulatePostponed exampleSummaryIn
        NbodySimulatorPostponed.SetZero).positive_potential_.contains
      exampleSummary.positive_potential_ ∧
    (exampleSummary.positive_potential_.hull
        (exampleSummaryIn.positive_potential_.add
          (NbodySimulatorPostponed.SetZero : NbodySimulatorPostponed ℚ).positive_potential_)) =
      ⟨0, 10⟩ := by
  refine ⟨?_, by decide!, by decide!, by decide!⟩
  intro S summary_in postponed_in
  exact ⟨rfl, (Range.hull_contains _ _).1, (Range.hull_contains _ _).2, rfl, rfl, rfl⟩

end Claim31

section Claims3638
variable {α : Type} [LinearOrderedField α]

open AxilrodTellerForceProblem

/-- A square root of a square is the absolute value. -/
theorem sqrt_Sqr (sqrt : α → α) (hsq : ∀ y, 0 ≤ y → sqrt y * sqrt y = y)
    (hnn : ∀ y, 0 ≤ sqrt y) (a : α) : sqrt (Sqr a) = |a| := by
  have h1 : sqrt (Sqr a) * sqrt (Sqr a) = |a| * |a| := by
    unfold Sqr
    rw [hsq _ (mul_self_nonneg a), abs_mul_abs_self]
  exact (mul_self_inj (hnn _) (abs_nonneg a)).1 h1

theorem Sqr_sqrt (sqrt : α → α) (hsq : ∀ y, 0 ≤ y → sqrt y * sqrt y = y) (a b : α) :
    Sqr (sqrt (Sqr a + Sqr b)) = Sqr a + Sqr b :=
  hsq _ (add_nonneg (mul_self_nonneg a) (mul_self_nonneg b))

/-- C36, amended: with `sqrt` a square root on the non-negative numbers,
`x.ApplyPostponed(z)` with `z` the value left by `SetZero` leaves every field
of `x` other than `probabilistic_used_error` unchanged and leaves
`|probabilistic_used_error|` in that field, so it leaves `x` unchanged when
`probabilistic_used_error` is non-negative; and `ApplyPostponed` is
commutative and associative in all fields. -/
theorem force_postponed_zero_identity (sqrt : α → α)
    (hsq : ∀ y, 0 ≤ y → sqrt y * sqrt y = y) (hnn : ∀ y, 0 ≤ sqrt y) :
    (∀ x : MultiTreeQueryPostponed α,
      x.ApplyPostponed sqrt MultiTreeQueryPostponed.SetZero =
        { x with probabilistic_used_error := |x.probabilistic_used_error| }) ∧
    (∀ x : MultiTreeQueryPostponed α, 0 ≤ x.probabilistic_used_error →
      x.ApplyPostponed sqrt MultiTreeQueryPostponed.SetZero = x) ∧
    (∀ x y : MultiTreeQueryPostponed α, x.ApplyPostponed sqrt y = y.ApplyPostponed sqrt x) ∧
    (∀ x y z : MultiTreeQueryPostponed α,
      (x.ApplyPostponed sqrt y).ApplyPostponed sqrt z =
        x.ApplyPostponed sqrt (y.ApplyPostponed sqrt z)) := by
  have h0 : ∀ x : MultiTreeQueryPostponed α,
      x.ApplyPostponed sqrt MultiTreeQueryPostponed.SetZero =
        { x with probabilistic_used_error := |x.probabilistic_used_error| } := by
    intro x
    have e : Sqr x.probabilistic_used_error + Sqr (0 : α) = Sqr x.probabilistic_used_error := by
      simp [Sqr]
    simp only [MultiTreeQueryPostponed.ApplyPostponed, MultiTreeQueryPostponed.SetZero, add_zero,
      e, sqrt_Sqr sqrt hsq hnn]
  refine ⟨h0, ?_, ?_, ?_⟩
  · intro x hx
    rw [h0 x, abs_of_nonneg hx]
  · intro x y
    simp only [MultiTreeQueryPostponed.ApplyPostponed, MultiTreeQueryPostponed.mk.injEq]
    refine ⟨funext fun k => add_comm _ _, add_comm _ _, add_comm _ _,
      funext fun k => add_comm _ _, add_comm _ _, add_comm _ _, ?_⟩
    rw [add_comm]
  · intro x y z
    simp only [MultiTreeQueryPostponed.ApplyPostponed, MultiTreeQueryPostponed.mk.injEq]
    refine ⟨funext fun k => add_assoc _ _ _, add_assoc _ _ _, add_assoc _ _ _,
      funext fun k => add_assoc _ _ _, add_assoc _ _ _, add_assoc _ _ _, ?_⟩
    rw [Sqr_sqrt sqrt hsq, Sqr_sqrt sqrt hsq, add_assoc]

/-- C38: whatever the delta held before, after `MultiTreeDelta::Init(t)` the
vector `n_pruned` is `t` in each component (`SetZero` does not clear it), and
`negative_force_vector_e`, `positive_force_vector_e`, both l1-norm vectors,
`used_error` and `probabilistic_used_error` are zero in each component. -/
theorem MultiTreeDelta_Init_spec (self : MultiTreeDelta α) (t : Fin 3 → α) :
    (∀ i, (self.Init t).n_pruned i = t i) ∧
    (∀ i k, (self.Init t).negative_force_vector_e i k = 0) ∧
    (∀ i k, (self.Init t).positive_force_vector_e i k = 0) ∧
    (∀ i, (self.Init t).l1_norm_negative_force_vector_u i = 0) ∧
    (∀ i, (self.Init t).l1_norm_positive_force_vector_l i = 0) ∧
    (∀ i, (self.Init t).used_error i = 0) ∧
    (∀ i, (self.Init t).probabilistic_used_error i = 0) ∧
    (self.SetZero.n_pruned = self.n_pruned) :=
  ⟨fun _ => rfl, fun _ _ => rfl, fun _ _ => rfl, fun _ => rfl, fun _ => rfl, fun _ => rfl,
    fun _ => rfl, rfl⟩

end Claims3638

/-- C36, as stated, fails over the reals: for the postponed whose
`probabilistic_used_error` is `-1` and whose other fields are zero,
`ApplyPostponed` of the value left by `SetZero` leaves `sqrt((-1)^2 + 0^2) = 1`
in `probabilistic_used_error`, not `-1`. -/
theorem force_postponed_zero_identity_counterexample :
    ((⟨fun _ => 0, 0, 0, fun _ => 0, 0, 0, -1⟩ :
        AxilrodTellerForceProblem.MultiTreeQueryPostponed ℝ).ApplyPostponed Real.sqrt
      AxilrodTellerForceProblem.MultiTreeQueryPostponed.SetZero).probabilistic_used_error = 1 ∧
    (⟨fun _ => 0, 0, 0, fun _ => 0, 0, 0, -1⟩ :
        AxilrodTellerForceProblem.MultiTreeQueryPostponed ℝ).ApplyPostponed Real.sqrt
      AxilrodTellerForceProblem.MultiTreeQueryPostponed.SetZero ≠
      (⟨fun _ => 0, 0, 0, fun _ => 0, 0, 0, -1⟩ :
        AxilrodTellerForceProblem.MultiTreeQueryPostponed ℝ) := by
  have h : ((⟨fun _ => 0, 0, 0, fun _ => 0, 0, 0, -1⟩ :
        AxilrodTellerForceProblem.MultiTreeQueryPostponed ℝ).ApplyPostponed Real.sqrt
      AxilrodTellerForceProblem.MultiTreeQueryPostponed.SetZero).probabilistic_used_error = 1 := by
    simp [AxilrodTellerForceProblem.MultiTreeQueryPostponed.ApplyPostponed,
      AxilrodTellerForceProblem.MultiTreeQueryPostponed.SetZero, AxilrodTellerForceProblem.Sqr]
  refine ⟨h, ?_⟩
  intro e
  rw [e] at h
  norm_num at h

theorem force_postponed_zero_identity_witness :
    (0 : ℝ) ≤ (⟨fun _ => 1, 2, 3, fun _ => 4, 5, 6, 7⟩ :
      AxilrodTellerForceProblem.MultiTreeQueryPostponed ℝ).probabilistic_used_error ∧
    (⟨fun _ => 1, 2, 3, fun _ => 4, 5, 6, 7⟩ :
        AxilrodTellerForceProblem.MultiTreeQueryPostponed ℝ).ApplyPostponed Real.sqrt
      AxilrodTellerForceProblem.MultiTreeQueryPostponed.SetZero =
      (⟨fun _ => 1, 2, 3, fun _ => 4, 5, 6, 7⟩ :
        AxilrodTellerForceProblem.MultiTreeQueryPostponed ℝ) :=
  ⟨by norm_num,
    (force_postponed_zero_identity Real.sqrt (fun _ h => Real.mul_self_sqrt h)
      Real.sqrt_nonneg).2.1 _ (by norm_num)⟩

/-! ### Agreement at the inner levels and the iterators of the base case -/

section Claims3435
variable {α : Type} [LinearOrderedField α]

/-- The right child of the internal node still to be refined is agreeable with
the node chosen for the previous slot. -/
theorem Junction.agree_right {m n : TreeType} (h : Junction m n) (hwf : n.tree.WellFormed)
    (hl : n.is_leaf = false) : Agree m n.right := by
  obtain ⟨h1, h2, h3, h4, h5, -⟩ := TreeType.children_ranges hwf hl
  rcases h with h | h | h
  · right; omega
  · rw [hl] at h
    exact absurd h.2 (by decide)
  · rcases h.2 with rfl | rfl
    · right; omega
    · left; rfl

/-- The slot invariant at level 1 or 2 relates the previous slot to the
current one by `Junction`. -/
theorem SlotInv.junction {t : Tree} {level : Nat} {al : Bool} {r : TripleRangeDistanceSq}
    (h : SlotInv t level al r) (hlev : level = 1 ∨ level = 2) :
    Junction (r.node (level - 1)) (r.node level) := by
  obtain ⟨-, -, -, p0, p1, -⟩ := h
  rcases hlev with rfl | rfl
  · simpa [PairInv] using p0
  · simpa [PairInv] using p1

/-- C34: a run of `Compute` on a well-formed tree whose nodes own statistics
returns, and at every entry of `RecursionHelper_` at level 1 or 2 in that run
a leaf in the slot is agreeable with the node of the previous slot (the leaf
branch is not dropped), and of an internal node in the slot at least one of
the two children is agreeable with the node of the previous slot. -/
theorem leaf_drop_unreachable (global : NbodySimulatorGlobal α) (t : Tree) (hwf : t.WellFormed)
    (st : State α) (hpres : StatsPresent st.stat [] t) :
    ∃ st', Compute global t st = some st' ∧ ∃ new, st'.log = st.log ++ new ∧
      ∀ level r al, Event.helper level r al ∈ new → (level = 1 ∨ level = 2) →
        ((r.node level).is_leaf = true →
          NodeIsAgreeable_ (r.node (level - 1)) (r.node level) = true) ∧
        ((r.node level).is_leaf = false →
          NodeIsAgreeable_ (r.node (level - 1)) (r.node level).left = true ∨
            NodeIsAgreeable_ (r.node (level - 1)) (r.node level).right = true) := by
  obtain ⟨st', hrun, -⟩ := Compute_returns global t hwf st hpres
  refine ⟨st', hrun, ?_⟩
  obtain ⟨new, hlog, hP⟩ := Compute_trace global t
    (fun level al r => level ≤ 3 ∧ SlotInv t level al r)
    (fun e => match e with
      | Event.helper level r _ => (level = 1 ∨ level = 2) →
          ((r.node level).is_leaf = true →
            NodeIsAgreeable_ (r.node (level - 1)) (r.node level) = true) ∧
          ((r.node level).is_leaf = false →
            NodeIsAgreeable_ (r.node (level - 1)) (r.node level).left = true ∨
              NodeIsAgreeable_ (r.node (level - 1)) (r.node level).right = true)
      | _ => True)
    (SlotInv.trace_steps hwf).1 (SlotInv.trace_steps hwf).2
    (fun r hi => ⟨Nat.zero_le _, hi.2.restart⟩)
    (fun level al r hi hlev => by
      have hj := hi.2.junction hlev
      constructor
      · intro hl
        exact NodeIsAgreeable_eq_true.2 (hj.agree_of_leaf hl)
      · intro hl
        exact Or.inr (NodeIsAgreeable_eq_true.2
          (hj.agree_right ((hi.2.valid_node level).wf hwf) hl)))
    (fun _ _ => trivial)
    (fun _ _ => trivial)
    (fun _ _ _ _ => trivial)
    ⟨Nat.zero_le _, SlotInv.at_root t⟩ st st' hrun
  exact ⟨new, hlog, fun level r al he hlev => hP _ he hlev⟩

theorem TreeIterator.HasNext_false_iff (it : TreeIterator) :
    it.HasNext = false ↔ it.Next = none := by
  unfold TreeIterator.HasNext TreeIterator.Next
  by_cases h : it.current < it.end_ <;> simp [h]

/-- C35: `Next` fails exactly on an iterator whose `HasNext` is false; the
second, the third and the flush loop return at once on such an iterator, and
the flush loop over a node always returns.  When the node of slot 0 is not
empty its iterator has a next point, the triple loop of `TripletreeBase_`
returns, so no `Next` in it was called on an exhausted iterator, and the base
case returns once the three nodes own statistics.  When the node of slot 0 is
empty, the first `Next` of the triple loop is called on an iterator whose
`HasNext` is false, and the base case fails. -/
theorem TripletreeBase_iterator_safety (global : NbodySimulatorGlobal α)
    (r : TripleRangeDistanceSq) (st : State α) :
    (∀ it : TreeIterator, it.HasNext = false ↔ it.Next = none) ∧
    (∀ n i j (it : TreeIterator) (loc : BaseLocals α) (s : State α), it.HasNext = false →
      TripletreeBase_thirdLoop global i j n it loc s = some (loc, s) ∧
      TripletreeBase_secondLoop global r i n it loc s = some (loc, s)) ∧
    (∀ n postponed (it : TreeIterator) (summary : NbodySimulatorSummary α) qr,
      it.HasNext = false →
      TripletreeBase_flushLoop postponed n it summary qr = some (summary, qr)) ∧
    (∀ postponed node (summary : NbodySimulatorSummary α) qr,
      (TripletreeBase_flushLoop postponed (get_node_iterator node).remaining
        (get_node_iterator node) summary qr).isSome = true) ∧
    ((r.node 0).begin_ < (r.node 0).end_ →
      (get_node_iterator (r.node 0)).HasNext = true ∧
      (TripletreeBase_firstLoop global r ((get_node_iterator (r.node 0)).remaining + 1)
        (get_node_iterator (r.node 0))
        { point_postponeds := List.replicate 3 NbodySimulatorPostponed.SetZero
          distance_sq_set := ⟨0, 0, 0⟩ }
        (st.record (Event.base r))).isSome = true ∧
      ((∀ i, (st.stat (r.node i).addr).isSome = true) →
        (TripletreeBase_ global r st).isSome = true)) ∧
    (¬ (r.node 0).begin_ < (r.node 0).end_ →
      (get_node_iterator (r.node 0)).HasNext = false ∧
      (get_node_iterator (r.node 0)).Next = none ∧
      TripletreeBase_firstLoop global r ((get_node_iterator (r.node 0)).remaining + 1)
        (get_node_iterator (r.node 0))
        { point_postponeds := List.replicate 3 NbodySimulatorPostponed.SetZero
          distance_sq_set := ⟨0, 0, 0⟩ }
        (st.record (Event.base r)) = none ∧
      TripletreeBase_ global r st = none) := by
  refine ⟨TreeIterator.HasNext_false_iff, ?_, ?_, ?_, ?_, ?_⟩
  · intro n i j it loc s h
    constructor
    · cases n with
      | zero => rfl
      | succ n => simp [TripletreeBase_thirdLoop, h]
    · cases n with
      | zero => rfl
      | succ n => simp [TripletreeBase_secondLoop, h]
  · intro n postponed it summary qr h
    cases n with
    | zero => rfl
    | succ n => simp [TripletreeBase_flushLoop, h]
  · intro postponed node summary qr
    rw [flushLoop_spec _ _ _ _ _ (le_refl _)]
    rfl
  · intro hne
    refine ⟨by simpa [TreeIterator.HasNext, get_node_iterator] using hne, ?_, ?_⟩
    · obtain ⟨loc', hrun, -⟩ := firstLoop_spec global r
        ((get_node_iterator (r.node 0)).remaining + 1) (get_node_iterator (r.node 0))
        { point_postponeds := List.replicate 3 NbodySimulatorPostponed.SetZero
          distance_sq_set := ⟨0, 0, 0⟩ }
        (st.record (Event.base r)) hne (Nat.le_succ _) (by simp)
      rw [hrun]
      rfl
    · intro hs
      rw [TripletreeBase_eq global r st hne hs]
      rfl
  · intro hemp
    have hN : (get_node_iterator (r.node 0)).Next = none := by
      simp [TreeIterator.Next, get_node_iterator, hemp]
    have hF : TripletreeBase_firstLoop global r ((get_node_iterator (r.node 0)).remaining + 1)
        (get_node_iterator (r.node 0))
        { point_postponeds := List.replicate 3 NbodySimulatorPostponed.SetZero
          distance_sq_set := ⟨0, 0, 0⟩ }
        (st.record (Event.base r)) = none := by
      rw [TripletreeBase_firstLoop, hN]
    refine ⟨(TreeIterator.HasNext_false_iff _).2 hN, hN, hF, ?_⟩
    unfold TripletreeBase_
    simp only [hF]

end Claims3435

theorem leaf_drop_unreachable_witness :
    exampleTree.WellFormed ∧
    ∃ st', Compute exampleGlobal exampleTree (Init exampleTree exampleState) = some st' ∧
      ∃ new, st'.log = (Init exampleTree exampleState).log ++ new ∧
        ∀ level r al, Event.helper level r al ∈ new → (level = 1 ∨ level = 2) →
          ((r.node level).is_leaf = true →
            NodeIsAgreeable_ (r.node (level - 1)) (r.node level) = true) ∧
          ((r.node level).is_leaf = false →
            NodeIsAgreeable_ (r.node (level - 1)) (r.node level).left = true ∨
              NodeIsAgreeable_ (r.node (level - 1)) (r.node level).right = true) :=
  ⟨by decide,
    leaf_drop_unreachable exampleGlobal exampleTree (by decide) (Init exampleTree exampleState)
      (Init_statsPresent _ _)⟩

theorem TripletreeBase_iterator_safety_witness :
    (exampleLeftTriple.node 0).begin_ < (exampleLeftTriple.node 0).end_ ∧
    (get_node_iterator (exampleLeftTriple.node 0)).HasNext = true ∧
    (TripletreeBase_firstLoop exampleGlobal exampleLeftTriple
      ((get_node_iterator (exampleLeftTriple.node 0)).remaining + 1)
      (get_node_iterator (exampleLeftTriple.node 0))
      { point_postponeds := List.replicate 3 NbodySimulatorPostponed.SetZero
        distance_sq_set := ⟨0, 0, 0⟩ }
      ((Init exampleTree exampleState).record (Event.base exampleLeftTriple))).isSome = true ∧
    ((∀ i, ((Init exampleTree exampleState).stat (exampleLeftTriple.node i).addr).isSome = true) →
      (TripletreeBase_ exampleGlobal exampleLeftTriple
        (Init exampleTree exampleState)).isSome = true) :=
  ⟨by decide,
    (TripletreeBase_iterator_safety exampleGlobal exampleLeftTriple
      (Init exampleTree exampleState)).2.2.2.2.1 (by decide)⟩

/-! ### Sign separation -/

section SignLemmas
variable {α : Type} [LinearOrderedField α]

theorem Signed.zero : (NbodySimulatorPostponed.SetZero : NbodySimulatorPostponed α).Signed := by
  simp [NbodySimulatorPostponed.Signed, NbodySimulatorPostponed.SetZero, Range.Init]

theorem Signed.apply {x y : NbodySimulatorPostponed α} (hx : x.Signed) (hy : y.Signed) :
    (x.ApplyPostponed y).Signed := by
  obtain ⟨a1, a2, a3, a4, a5, a6⟩ := hx
  obtain ⟨b1, b2, b3, b4, b5, b6⟩ := hy
  simp only [NbodySimulatorPostponed.Signed, NbodySimulatorPostponed.ApplyPostponed, Range.add]
  exact ⟨add_le_add a1 b1, add_nonpos a2 b2, add_nonneg a3 b3, add_le_add a4 b4,
    add_nonneg a5 b5, add_nonneg a6 b6⟩

theorem Signed.of_contribution (global : NbodySimulatorGlobal α) (d : TripleDistanceSq) :
    (contribution global d).Signed := by
  unfold contribution
  split
  · rename_i h
    simp only [NbodySimulatorPostponed.Signed, Range.Init]
    exact ⟨le_refl _, le_of_lt h, le_refl _, le_refl _, le_refl _, le_refl _⟩
  · rename_i h
    simp only [NbodySimulatorPostponed.Signed, Range.Init]
    exact ⟨le_refl _, le_refl _, not_lt.1 h, le_refl _, le_refl _, le_refl _⟩

theorem Signed.result_apply {qr : NbodySimulatorResult α} (h : ∀ p, (qr.entry p).Signed)
    (q : Nat) {pp : NbodySimulatorPostponed α} (hpp : pp.Signed) :
    ∀ p, ((qr.ApplyPostponed q pp).entry p).Signed := by
  intro p
  rw [entry_ApplyPostponed]
  split
  · exact Signed.apply (h p) hpp
  · exact h p

theorem Signed.of_applyExact (global : NbodySimulatorGlobal α) {qr : NbodySimulatorResult α}
    (h : ∀ p, (qr.entry p).Signed) (d : TripleDistanceSq) :
    ∀ p, ((applyExact global qr d).entry p).Signed :=
  Signed.result_apply (Signed.result_apply (Signed.result_apply h _ (Signed.of_contribution global d))
    _ (Signed.of_contribution global d)) _ (Signed.of_contribution global d)

theorem Signed.foldl_applyExact (global : NbodySimulatorGlobal α) :
    ∀ (l : List TripleDistanceSq) (qr : NbodySimulatorResult α), (∀ p, (qr.entry p).Signed) →
      ∀ p, ((l.foldl (applyExact global) qr).entry p).Signed
  | [], _, h => h
  | d :: l, qr, h => by
      simp only [List.foldl_cons]
      exact Signed.foldl_applyExact global l _ (Signed.of_applyExact global h d)

theorem Signed.foldl_apply {pp : NbodySimulatorPostponed α} (hpp : pp.Signed) :
    ∀ (l : List Nat) (qr : NbodySimulatorResult α), (∀ p, (qr.entry p).Signed) →
      ∀ p, ((l.foldl (fun acc q => acc.ApplyPostponed q pp) qr).entry p).Signed
  | [], _, h => h
  | q :: l, qr, h => by
      simp only [List.foldl_cons]
      exact Signed.foldl_apply hpp l _ (Signed.result_apply h q hpp)

/-- Flushing one slot keeps sign separation when the tuple count of the slot
is not negative. -/
theorem SignSeparated.sign_flushNodeSpec {global : NbodySimulatorGlobal α} {t : Tree}
    {r : TripleRangeDistanceSq} {st : State α} (node_index : Nat)
    (hv : (r.node node_index).Valid t) (hnt : 0 ≤ global.ext.num_tuples r node_index)
    (h : SignSeparated t st) : SignSeparated t (flushNodeSpec global r node_index st) := by
  refine ⟨(flushNodeSpec_inv global t r node_index st hv h.1).1, ?_⟩
  obtain ⟨s, hs, hz⟩ := h.1 _ hv
  unfold flushNodeSpec
  split
  · simp only [hs]
    rw [flushFold_snd]
    apply Signed.foldl_apply _ _ _ h.2
    rw [hz]
    simp only [NbodySimulatorPostponed.Signed, NbodySimulatorPostponed.SetZero, Range.Init,
      zero_add]
    exact ⟨le_refl _, le_refl _, le_refl _, le_refl _, hnt, le_refl _⟩
  · exact h.2

/-- The base case on a triple of valid nodes keeps sign separation. -/
theorem SignSeparated.sign_base_case_step {global : NbodySimulatorGlobal α} {t : Tree}
    (hwf : t.WellFormed) (hnt : ∀ r i, 0 ≤ global.ext.num_tuples r i) {st : State α}
    (hinv : SignSeparated t st) {r : TripleRangeDistanceSq} (hv : ∀ i, (r.node i).Valid t) :
    ∃ st', TripletreeBase_ global r st = some st' ∧ SignSeparated t st' := by
  have hp3 : ∀ i, (st.stat (r.node i).addr).isSome = true := by
    intro i
    obtain ⟨s, hs, -⟩ := hinv.1 _ (hv i)
    rw [hs]; rfl
  refine ⟨_, TripletreeBase_eq global r st ((hv 0).wf hwf).lt hp3, ?_⟩
  have h0 : SignSeparated t (baseLoopSpec global r st) :=
    ⟨hinv.1, Signed.foldl_applyExact global _ _ hinv.2⟩
  exact SignSeparated.sign_flushNodeSpec 2 (hv 2) (hnt r 2)
    (SignSeparated.sign_flushNodeSpec 1 (hv 1) (hnt r 1)
      (SignSeparated.sign_flushNodeSpec 0 (hv 0) (hnt r 0) h0))

/-- The state in which `Compute` enters the traversal is sign separated. -/
theorem SignSeparated.sign_start (t : Tree) (st : State α) (hpres : StatsPresent st.stat [] t) :
    ∃ st1, PreProcess_ [] t
        { st with query_results := NbodySimulatorResult.Init (t.end_ - t.begin_) } = some st1 ∧
      SignSeparated t st1 := by
  obtain ⟨st1, hrun, -, hqr, -, hz⟩ := PreProcess_spec t []
    { st with query_results := NbodySimulatorResult.Init (t.end_ - t.begin_) } hpres
  refine ⟨st1, hrun, ?_, ?_⟩
  · intro n hn
    have h := hz n.addr n.tree hn
    simp only [List.append_nil] at h
    exact ⟨_, h, rfl⟩
  · intro p
    rw [hqr]
    exact Signed.zero

/-- Every call of `RecursionHelper_` and of `TripletreeCanonical_` with enough
fuel on a well-formed tree returns and keeps sign separation. -/
theorem SignSeparated.sign_traversal (global : NbodySimulatorGlobal α) (t : Tree)
    (hwf : t.WellFormed) (hnt : ∀ r i, 0 ≤ global.ext.num_tuples r i) (fuel : Nat) :
    (∀ level al r re fp (st : State α) d, level ≤ 3 → SlotInv t level al r →
      helperFuel level al r ≤ fuel → SignSeparated t st →
      ∃ st', RecursionHelper_ global fuel r re fp st level al d = some (r, st', d) ∧
        SignSeparated t st') ∧
    (∀ r re fp (st : State α), SlotInv t 0 true r → 5 * (heightSum r + 1) ≤ fuel →
      SignSeparated t st →
      ∃ st', TripletreeCanonical_ global fuel r re fp st = some (true, r, st') ∧
        SignSeparated t st') := by
  obtain ⟨h1, h2⟩ := engine_master global t hwf (fun _ st => SignSeparated t st)
    (fun acc st level al r _ _ hR => hR)
    (fun acc st r _ hR => hR)
    (fun acc st r hs hR => hR.sign_base_case_step hwf hnt hs.valid_node)
    fuel
  exact ⟨fun level al r re fp st d hl hs hf hp => h1 level al r re fp st d 0 hl hs hf hp,
    fun r re fp st hs hf hp => h2 r re fp st 0 hs hf hp⟩

/-- `PostProcess_` from the root keeps sign separation. -/
theorem SignSeparated.sign_post {t : Tree} (hwf : t.WellFormed) {st : State α}
    (hinv : SignSeparated t st) :
    ∃ st', PostProcess_ [] t st = some st' ∧ SignSeparated t st' := by
  have hpres : StatsPresent st.stat [] t := StatsPresent.of_valid (fun n hn => by
    obtain ⟨s, hs, -⟩ := hinv.1 n hn
    rw [hs]; rfl)
  obtain ⟨st', hrun, -, -, hstat, hout, hin⟩ := PostProcess_spec t [] st hwf hpres
  refine ⟨st', hrun, ?_, ?_⟩
  · intro n hn
    obtain ⟨ns, -, h2⟩ := hstat n.addr n.tree hn
    simp only [List.append_nil] at h2
    exact ⟨_, h2, rfl⟩
  · intro p
    by_cases hp : t.begin_ ≤ p ∧ p < t.end_
    · rw [(hin p hp.1 hp.2).1, pathPostponed_eq_zero, ApplyPostponed_zero]
      · exact hinv.2 p
      · intro a ha
        obtain ⟨a', s, hs, rfl⟩ := pathNodes_valid t [] p a ha
        obtain ⟨s', hs', hz⟩ := hinv.1 ⟨a', s⟩ (by simpa [TreeType.Valid] using hs)
        simp only [List.append_nil]
        unfold postponedAt
        simp only at hs'
        rw [hs']
        exact hz
    · rw [(hout p hp).1]
      exact hinv.2 p

end SignLemmas

/-! ### Sign separation of the results -/

section Claim33
variable {α : Type} [LinearOrderedField α]

/-- C33: with tuple counts that are not negative, on a well-formed tree, sign
separation of the results (for every point the negative interval is ordered
and at or below zero, the positive interval is ordered and at or above zero,
`pruned_` and `used_error_` are not negative) holds in the state in which
`Compute` enters the traversal, is kept by every exact contribution applied
in the base case, by every flush of a slot, by the base case, by every call
of `RecursionHelper_` and by every canonical step, which all return, and
holds for every point in the state `Compute` returns. -/
theorem sign_separation_of_results (global : NbodySimulatorGlobal α) (t : Tree)
    (hwf : t.WellFormed) (hnt : ∀ r i, 0 ≤ global.ext.num_tuples r i) :
    (∀ st : State α, StatsPresent st.stat [] t →
      ∃ st1, PreProcess_ [] t
          { st with query_results := NbodySimulatorResult.Init (t.end_ - t.begin_) } =
            some st1 ∧
        SignSeparated t st1) ∧
    (∀ (qr : NbodySimulatorResult α) d, (∀ p, (qr.entry p).Signed) →
      ∀ p, ((applyExact global qr d).entry p).Signed) ∧
    (∀ r i (st : State α), (r.node i).Valid t → SignSeparated t st →
      ∃ st', TripletreeBase_flushNode global r i st = some st' ∧ SignSeparated t st') ∧
    (∀ r (st : State α), SlotInv t 3 true r → SignSeparated t st →
      ∃ st', TripletreeBase_ global r st = some st' ∧ SignSeparated t st') ∧
    (∀ fuel level al r re fp (st : State α) d, level ≤ 3 → SlotInv t level al r →
      helperFuel level al r ≤ fuel → SignSeparated t st →
      ∃ st', RecursionHelper_ global fuel r re fp st level al d = some (r, st', d) ∧
        SignSeparated t st') ∧
    (∀ fuel r re fp (st : State α), SlotInv t 0 true r → 5 * (heightSum r + 1) ≤ fuel →
      SignSeparated t st →
      ∃ st', TripletreeCanonical_ global fuel r re fp st = some (true, r, st') ∧
        SignSeparated t st') ∧
    (∀ st : State α, StatsPresent st.stat [] t →
      ∃ st', Compute global t st = some st' ∧ ∀ p,
        (st'.query_results.negative_potential_ p).lo ≤
            (st'.query_results.negative_potential_ p).hi ∧
          (st'.query_results.negative_potential_ p).hi ≤ 0 ∧
          0 ≤ (st'.query_results.positive_potential_ p).lo ∧
          (st'.query_results.positive_potential_ p).lo ≤
            (st'.query_results.positive_potential_ p).hi ∧
          0 ≤ st'.query_results.pruned_ p ∧ 0 ≤ st'.query_results.used_error_ p) := by
  refine ⟨fun st hpres => SignSeparated.sign_start t st hpres,
    fun qr d h => Signed.of_applyExact global h d, ?_,
    fun _ _ hs hinv => hinv.sign_base_case_step hwf hnt hs.valid_node,
    fun fuel => (SignSeparated.sign_traversal global t hwf hnt fuel).1,
    fun fuel => (SignSeparated.sign_traversal global t hwf hnt fuel).2, ?_⟩
  · intro r i st hv hinv
    refine ⟨_, flushNode_eq global r i st ?_, SignSeparated.sign_flushNodeSpec i hv (hnt r i) hinv⟩
    obtain ⟨s, hs, -⟩ := hinv.1 _ hv
    rw [hs]; rfl
  · intro st hpres
    obtain ⟨st1, h1, hinv1⟩ := SignSeparated.sign_start t st hpres
    obtain ⟨st2, h2, hinv2⟩ := (SignSeparated.sign_traversal global t hwf hnt (computeFuel t)).2
      (TripleRangeDistanceSq.Init (TreeType.root t) (TreeType.root t) (TreeType.root t))
      global.relative_error_ (1 - global.probability_) st1 (SlotInv.at_root t)
      (heightSum_root t) hinv1
    obtain ⟨st3, h3, hinv3⟩ := SignSeparated.sign_post hwf hinv2
    refine ⟨st3, ?_, fun p => hinv3.2 p⟩
    rw [Compute_stages global t st st1 h1, h2]
    exact h3

end Claim33

theorem sign_separation_of_results_witness :
    (exampleTree.WellFormed ∧ ∀ r i, 0 ≤ exampleGlobal.ext.num_tuples r i) ∧
    ∃ st', Compute exampleGlobal exampleTree (Init exampleTree exampleState) = some st' ∧ ∀ p,
      (st'.query_results.negative_potential_ p).lo ≤
          (st'.query_results.negative_potential_ p).hi ∧
        (st'.query_results.negative_potential_ p).hi ≤ 0 ∧
        0 ≤ (st'.query_results.positive_potential_ p).lo ∧
        (st'.query_results.positive_potential_ p).lo ≤
          (st'.query_results.positive_potential_ p).hi ∧
        0 ≤ st'.query_results.pruned_ p ∧ 0 ≤ st'.query_results.used_error_ p :=
  ⟨⟨by decide, fun _ _ => by simp [exampleGlobal]⟩,
    (sign_separation_of_results exampleGlobal exampleTree (by decide)
      (fun _ _ => by simp [exampleGlobal])).2.2.2.2.2.2 (Init exampleTree exampleState)
      (Init_statsPresent _ _)⟩

/-! ### States that are the same on the tree -/

section SameOnTreeLemmas
variable {α : Type} [LinearOrderedField α]

theorem SameOnTree.record {t : Tree} {a b : State α} (h : SameOnTree t a b) (e e' : Event) :
    SameOnTree t (a.record e) (b.record e') := h

theorem SameOnTree.same_flushNodeSpec {global : NbodySimulatorGlobal α} {t : Tree}
    {r : TripleRangeDistanceSq} {a b : State α} (i : Nat) (hv : (r.node i).Valid t)
    (h : SameOnTree t a b) :
    SameOnTree t (flushNodeSpec global r i a) (flushNodeSpec global r i b) := by
  obtain ⟨s, ha, hb⟩ := h.2 _ hv
  by_cases hg : i = 0 ∨ (! (r.node i).ptr_eq (r.node (i - 1))) = true
  · simp only [flushNodeSpec, hg, if_true, ha, hb, h.1]
    refine ⟨rfl, fun n hn => ?_⟩
    by_cases hna : n.addr = (r.node i).addr
    · rw [hna]
      simp only [Function.update_same]
      exact ⟨_, rfl, rfl⟩
    · simp only [Function.update_noteq hna]
      exact h.2 n hn
  · simp only [flushNodeSpec, hg, if_false]
    exact h

theorem SameOnTree.of_baseSpec {global : NbodySimulatorGlobal α} {t : Tree}
    {r : TripleRangeDistanceSq} {a b : State α} (hv : ∀ i, (r.node i).Valid t)
    (h : SameOnTree t a b) : SameOnTree t (baseSpec global r a) (baseSpec global r b) := by
  have h0 : SameOnTree t (baseLoopSpec global r a) (baseLoopSpec global r b) := by
    refine ⟨?_, h.2⟩
    simp only [baseLoopSpec, h.1]
  exact SameOnTree.same_flushNodeSpec 2 (hv 2)
    (SameOnTree.same_flushNodeSpec 1 (hv 1) (SameOnTree.same_flushNodeSpec 0 (hv 0) h0))

/-- The base case on valid nodes of a well-formed tree returns in both of two
states that are the same on the tree, in states that are the same on the
tree. -/
theorem SameOnTree.same_base_case_step (global : NbodySimulatorGlobal α) {t : Tree}
    (hwf : t.WellFormed) {r : TripleRangeDistanceSq} {a b : State α}
    (hv : ∀ i, (r.node i).Valid t) (h : SameOnTree t a b) :
    TripletreeBase_ global r a = some (baseSpec global r a) ∧
      TripletreeBase_ global r b = some (baseSpec global r b) ∧
      SameOnTree t (baseSpec global r a) (baseSpec global r b) := by
  have ha : ∀ i, (a.stat (r.node i).addr).isSome = true := by
    intro i
    obtain ⟨s, hs, -⟩ := h.2 _ (hv i)
    rw [hs]; rfl
  have hb : ∀ i, (b.stat (r.node i).addr).isSome = true := by
    intro i
    obtain ⟨s, -, hs⟩ := h.2 _ (hv i)
    rw [hs]; rfl
  exact ⟨TripletreeBase_eq global r a ((hv 0).wf hwf).lt ha,
    TripletreeBase_eq global r b ((hv 0).wf hwf).lt hb, SameOnTree.of_baseSpec hv h⟩

theorem NbodySimulatorResult.ext_entry {β : Type} {a b : NbodySimulatorResult β}
    (h : ∀ p, a.entry p = b.entry p) (hp : ∀ p, a.potential_e_ p = b.potential_e_ p) :
    a = b := by
  cases a
  cases b
  simp only [NbodySimulatorResult.entry, NbodySimulatorPostponed.mk.injEq] at h
  simp only at hp
  simp only [NbodySimulatorResult.mk.injEq]
  exact ⟨funext fun p => (h p).1, funext fun p => (h p).2.1, funext hp,
    funext fun p => (h p).2.2.1, funext fun p => (h p).2.2.2⟩

end SameOnTreeLemmas

/-! ### Relational induction over the mutual recursion -/

section SameOnTreeInduction
variable {α : Type} [LinearOrderedField α]

/-- Relational induction over the mutual recursion: two calls with the same
arguments on valid nodes of a well-formed tree, started in states that are the
same on the tree, return (if both return) in states that are the same on the
tree. -/
theorem same_master
    (cs : TripleRangeDistanceSq → NbodySimulatorDelta α → NbodySimulatorResult α → Bool)
    (global : NbodySimulatorGlobal α) (t : Tree) (hwf : t.WellFormed) : ∀ fuel,
    (∀ r re fp (s1 s2 : State α) level al d x1 x2, (∀ i, (r.node i).Valid t) →
      SameOnTree t s1 s2 →
      RecursionHelperWith cs global fuel r re fp s1 level al d = some x1 →
      RecursionHelperWith cs global fuel r re fp s2 level al d = some x2 →
      SameOnTree t x1.2.1 x2.2.1) ∧
    (∀ r re fp (s1 s2 : State α) x1 x2, (∀ i, (r.node i).Valid t) → SameOnTree t s1 s2 →
      TripletreeCanonicalWith cs global fuel r re fp s1 = some x1 →
      TripletreeCanonicalWith cs global fuel r re fp s2 = some x2 →
      SameOnTree t x1.2.2 x2.2.2) := by
  intro fuel
  induction fuel with
  | zero =>
    constructor
    · intro r re fp s1 s2 level al d x1 x2 _ _ h
      simp [RecursionHelperWith] at h
    · intro r re fp s1 s2 x1 x2 _ _ h
      simp [TripletreeCanonicalWith] at h
  | succ n ih =>
    obtain ⟨ihH, ihC⟩ := ih
    have key := (trace_master cs global (fun _ _ _ => True)
      (fun _ => True) (fun _ _ _ _ _ _ _ => trivial) (fun _ _ _ _ _ _ _ _ _ => trivial)
      (fun _ _ => trivial) (fun _ _ _ _ => trivial) (fun _ _ => trivial) (fun _ _ => trivial)
      (fun _ _ _ _ => trivial) n).1
    constructor
    · intro r re fp s1 s2 level al d x1 x2 hv hs h1 h2
      rw [RecursionHelperWith] at h1 h2
      by_cases h3 : level = 3
      · subst h3
        simp only [if_true] at h1 h2
        cases al with
        | true =>
          simp only [if_true] at h1 h2
          obtain ⟨e1, e2, e3⟩ := SameOnTree.same_base_case_step global hwf hv
            (hs.record (Event.helper 3 r true) (Event.helper 3 r true))
          rw [e1] at h1
          rw [e2] at h2
          simp only [Option.some.injEq] at h1 h2
          subst h1
          subst h2
          exact e3
        | false =>
          simp only [Bool.false_eq_true, if_false] at h1 h2
          cases hc1 : TripletreeCanonicalWith cs global n r re fp
              (s1.record (Event.helper 3 r false)) with
          | none => rw [hc1] at h1; simp at h1
          | some y1 =>
            cases hc2 : TripletreeCanonicalWith cs global n r re fp
                (s2.record (Event.helper 3 r false)) with
            | none => rw [hc2] at h2; simp at h2
            | some y2 =>
              rw [hc1] at h1
              rw [hc2] at h2
              simp only [Option.some.injEq] at h1 h2
              subst h1
              subst h2
              exact ihC _ _ _ _ _ _ _ hv (hs.record _ _) hc1 hc2
      · simp only [h3, if_false] at h1 h2
        by_cases hl : (r.node level).is_leaf = true
        · simp only [hl, if_true] at h1 h2
          by_cases hg : level = 0 ∨ NodeIsAgreeable_ (r.node (level - 1)) (r.node level) = true
          · simp only [hg, if_true] at h1 h2
            exact ihH _ _ _ _ _ _ _ _ _ _ hv (hs.record _ _) h1 h2
          · simp only [hg, if_false, Option.some.injEq] at h1 h2
            subst h1
            subst h2
            exact hs.record _ _
        · have hl' : (r.node level).is_leaf = false := by
            cases hh : (r.node level).is_leaf
            · rfl
            · exact absurd hh hl
          have hv1 : ∀ i, ((r.ReplaceOneNode (r.node level).left level).node i).Valid t :=
            ReplaceOneNode_valid level hv ((hv level).left hl')
          have hv2 : ∀ i, ((r.ReplaceOneNode (r.node level).right level).node i).Valid t :=
            ReplaceOneNode_valid level hv ((hv level).right hl')
          simp only [hl, Bool.false_eq_true, if_false] at h1 h2
          by_cases hg1 : level = 0 ∨
              NodeIsAgreeable_ (r.node (level - 1)) (r.node level).left = true
          · simp only [hg1, if_true] at h1 h2
            cases hc1 : RecursionHelperWith cs global n
                (r.ReplaceOneNode (r.node level).left level) re fp
                (s1.record (Event.helper level r al)) (level + 1) false d with
            | none => rw [hc1] at h1; simp at h1
            | some y1 =>
              cases hc1' : RecursionHelperWith cs global n
                  (r.ReplaceOneNode (r.node level).left level) re fp
                  (s2.record (Event.helper level r al)) (level + 1) false d with
              | none => rw [hc1'] at h2; simp at h2
              | some y1' =>
                rw [hc1] at h1
                rw [hc1'] at h2
                obtain ⟨a1, f1, -⟩ := key _ _ _ _ _ _ _ _ hc1 trivial
                obtain ⟨a1', f1', -⟩ := key _ _ _ _ _ _ _ _ hc1' trivial
                have hs1 := ihH _ _ _ _ _ _ _ _ _ _ hv1 (hs.record _ _) hc1 hc1'
                obtain ⟨r1, st1, d1⟩ := y1
                obtain ⟨r1', st1', d1'⟩ := y1'
                simp only at h1 h2 a1 a1' f1 f1' hs1
                subst a1
                subst a1'
                rw [f1] at h1
                rw [f1'] at h2
                by_cases hg2 : level = 0 ∨
                    NodeIsAgreeable_
                      ((r.ReplaceOneNode (r.node level).left level).node (level - 1))
                      (r.node level).right = true
                · simp only [hg2, if_true] at h1 h2
                  rw [ReplaceOneNode_twice] at h1 h2
                  cases hc2 : RecursionHelperWith cs global n
                      (r.ReplaceOneNode (r.node level).right level) re fp st1 (level + 1) false
                      d with
                  | none => rw [hc2] at h1; simp at h1
                  | some y2 =>
                    cases hc2' : RecursionHelperWith cs global n
                        (r.ReplaceOneNode (r.node level).right level) re fp st1' (level + 1)
                        false d with
                    | none => rw [hc2'] at h2; simp at h2
                    | some y2' =>
                      rw [hc2] at h1
                      rw [hc2'] at h2
                      have hs2 := ihH _ _ _ _ _ _ _ _ _ _ hv2 hs1 hc2 hc2'
                      simp only [if_true, Option.some.injEq] at h1 h2
                      subst h1
                      subst h2
                      exact hs2
                · simp only [hg2, if_false, if_true, Option.some.injEq] at h1 h2
                  subst h1
                  subst h2
                  exact hs1
          · simp only [hg1, if_false] at h1 h2
            by_cases hg2 : level = 0 ∨
                NodeIsAgreeable_ (r.node (level - 1)) (r.node level).right = true
            · simp only [hg2, if_true] at h1 h2
              cases hc2 : RecursionHelperWith cs global n
                  (r.ReplaceOneNode (r.node level).right level) re fp
                  (s1.record (Event.helper level r al)) (level + 1) false d with
              | none => rw [hc2] at h1; simp at h1
              | some y2 =>
                cases hc2' : RecursionHelperWith cs global n
                    (r.ReplaceOneNode (r.node level).right level) re fp
                    (s2.record (Event.helper level r al)) (level + 1) false d with
                | none => rw [hc2'] at h2; simp at h2
                | some y2' =>
                  rw [hc2] at h1
                  rw [hc2'] at h2
                  have hs2 := ihH _ _ _ _ _ _ _ _ _ _ hv2 (hs.record _ _) hc2 hc2'
                  simp only [if_true, Option.some.injEq] at h1 h2
                  subst h1
                  subst h2
                  exact hs2
            · simp only [hg2, if_false, Bool.false_eq_true, Option.some.injEq] at h1 h2
              subst h1
              subst h2
              exact hs.record _ _
    · intro r re fp s1 s2 x1 x2 hv hs h1 h2
      rw [TripletreeCanonicalWith] at h1 h2
      have hq : (s2.record (Event.canonical r)).query_results =
          (s1.record (Event.canonical r)).query_results := hs.1.symm
      rw [hq] at h2
      by_cases hcs : cs r
          ((NbodySimulatorDelta.SetZero : NbodySimulatorDelta α).DeterministicCompute global r)
          (s1.record (Event.canonical r)).query_results = true
      · simp only [hcs, if_true, Option.some.injEq] at h1 h2
        subst h1
        subst h2
        exact hs.record _ _
      · simp only [hcs, if_false] at h1 h2
        cases hc1 : RecursionHelperWith cs global n r re fp (s1.record (Event.canonical r)) 0
            true true with
        | none => rw [hc1] at h1; simp at h1
        | some y1 =>
          cases hc2 : RecursionHelperWith cs global n r re fp (s2.record (Event.canonical r)) 0
              true true with
          | none => rw [hc2] at h2; simp at h2
          | some y2 =>
            rw [hc1] at h1
            rw [hc2] at h2
            simp only [Bool.false_eq_true, if_false, Option.some.injEq] at h1 h2
            subst h1
            subst h2
            exact ihH _ _ _ _ _ _ _ _ _ _ hv (hs.record _ _) hc1 hc2

end SameOnTreeInduction

/-! ### Independence of leftover state -/

section Claim32
variable {α : Type} [LinearOrderedField α]

/-- `PostProcess_` from the root, run in two states that are the same on a
well-formed tree, returns the same result buffer and the same statistic of
every node of the tree. -/
theorem SameOnTree.same_post {t : Tree} (hwf : t.WellFormed) {a b : State α}
    (h : SameOnTree t a b) :
    ∃ a' b', PostProcess_ [] t a = some a' ∧ PostProcess_ [] t b = some b' ∧
      a'.query_results = b'.query_results ∧
      ∀ c s, t.subtree c = some s → a'.stat c = b'.stat c := by
  have hpa : StatsPresent a.stat [] t := StatsPresent.of_valid (fun n hn => by
    obtain ⟨s, hs, -⟩ := h.2 n hn
    rw [hs]; rfl)
  have hpb : StatsPresent b.stat [] t := StatsPresent.of_valid (fun n hn => by
    obtain ⟨s, -, hs⟩ := h.2 n hn
    rw [hs]; rfl)
  obtain ⟨a', hra, -, -, hsa, houta, hina⟩ := PostProcess_spec t [] a hwf hpa
  obtain ⟨b', hrb, -, -, hsb, houtb, hinb⟩ := PostProcess_spec t [] b hwf hpb
  have hstat : ∀ c s, t.subtree c = some s → a.stat c = b.stat c := by
    intro c s hc
    obtain ⟨x, hx1, hx2⟩ := h.2 ⟨c, s⟩ hc
    simp only at hx1 hx2
    rw [hx1, hx2]
  have hent : ∀ p, a'.query_results.entry p = b'.query_results.entry p := by
    intro p
    by_cases hp : t.begin_ ≤ p ∧ p < t.end_
    · rw [(hina p hp.1 hp.2).1, (hinb p hp.1 hp.2).1, h.1]
      congr 1
      apply pathPostponed_congr
      intro c hc
      obtain ⟨c', s, hs, rfl⟩ := pathNodes_valid t [] p c hc
      simp only [List.append_nil]
      exact hstat c' s hs
    · rw [(houta p hp).1, (houtb p hp).1, h.1]
  refine ⟨a', b', hra, hrb, NbodySimulatorResult.ext_entry hent ?_, ?_⟩
  · intro p
    by_cases hp : t.begin_ ≤ p ∧ p < t.end_
    · rw [(hina p hp.1 hp.2).2, (hinb p hp.1 hp.2).2, hent p]
    · rw [(houta p hp).2, (houtb p hp).2, h.1]
  · intro c s hc
    obtain ⟨na, hna, hna'⟩ := hsa c s hc
    obtain ⟨nb, hnb, hnb'⟩ := hsb c s hc
    simp only [List.append_nil] at hna hna' hnb hnb'
    have := hstat c s hc
    rw [hna, hnb] at this
    rw [hna', hnb', Option.some.inj this]

/-- C32: on a well-formed tree, two runs of `Compute` with the same
configuration, started in states that hold arbitrary statistics in the nodes
of the tree and arbitrary result buffers, both return, with the same result
buffer and the same statistic of every node of the tree. -/
theorem Compute_independent_of_leftover_state (global : NbodySimulatorGlobal α) (t : Tree)
    (hwf : t.WellFormed) (st1 st2 : State α) (h1 : StatsPresent st1.stat [] t)
    (h2 : StatsPresent st2.stat [] t) :
    ∃ s1 s2, Compute global t st1 = some s1 ∧ Compute global t st2 = some s2 ∧
      s1.query_results = s2.query_results ∧
      ∀ a s, t.subtree a = some s → s1.stat a = s2.stat a := by
  obtain ⟨s1, hr1, -⟩ := Compute_returns global t hwf st1 h1
  obtain ⟨s2, hr2, -⟩ := Compute_returns global t hwf st2 h2
  obtain ⟨a1, x1, ha1, hx1, hp1⟩ := Compute_inv global t st1 s1 hr1
  obtain ⟨a2, x2, ha2, hx2, hp2⟩ := Compute_inv global t st2 s2 hr2
  obtain ⟨a1', ha1', -, hq1, -, hz1⟩ := PreProcess_spec t []
    { st1 with query_results := NbodySimulatorResult.Init (t.end_ - t.begin_) } h1
  obtain ⟨a2', ha2', -, hq2, -, hz2⟩ := PreProcess_spec t []
    { st2 with query_results := NbodySimulatorResult.Init (t.end_ - t.begin_) } h2
  rw [ha1] at ha1'
  rw [ha2] at ha2'
  cases ha1'
  cases ha2'
  have hsim : SameOnTree t a1 a2 := by
    refine ⟨by rw [hq1, hq2], fun n hn => ?_⟩
    have e1 := hz1 n.addr n.tree hn
    have e2 := hz2 n.addr n.tree hn
    simp only [List.append_nil] at e1 e2
    exact ⟨_, e1, e2⟩
  have hsim2 : SameOnTree t x1.2.2 x2.2.2 :=
    (same_master CanSummarize_ global t hwf (computeFuel t)).2 _ _ _ _ _ _ _
      (SlotInv.at_root t).valid_node hsim hx1 hx2
  obtain ⟨b1, b2, hb1, hb2, hq, hs⟩ := SameOnTree.same_post hwf hsim2
  rw [hp1] at hb1
  rw [hp2] at hb2
  cases hb1
  cases hb2
  exact ⟨s1, s2, hr1, hr2, hq, hs⟩

end Claim32

theorem Compute_independent_of_leftover_state_witness :
    (exampleTree.WellFormed ∧ StatsPresent (Init exampleTree exampleState).stat [] exampleTree ∧
      StatsPresent exampleDirtyState.stat [] exampleTree ∧
      (Init exampleTree exampleState).query_results.pruned_ 0 ≠
        exampleDirtyState.query_results.pruned_ 0 ∧
      (Init exampleTree exampleState).stat [] ≠ exampleDirtyState.stat []) ∧
    ∃ s1 s2, Compute exampleGlobal exampleTree (Init exampleTree exampleState) = some s1 ∧
      Compute exampleGlobal exampleTree exampleDirtyState = some s2 ∧
      s1.query_results = s2.query_results ∧
      ∀ a s, exampleTree.subtree a = some s → s1.stat a = s2.stat a :=
  ⟨⟨by decide, Init_statsPresent _ _, fun _ _ _ => rfl, by decide!, by decide!⟩,
    Compute_independent_of_leftover_state exampleGlobal exampleTree (by decide)
      (Init exampleTree exampleState) exampleDirtyState
      (Init_statsPresent _ _) (fun _ _ _ => rfl)⟩

/-! ### The loops of the single-tree traverser -/

namespace SingleTreeTraverser

section TraverseLemmas
variable {σ α : Type} [LinearOrderedField α]

theorem Traverse_leafLoop_eq {τ β : Type} (rule : RuleType τ β) (q : Nat) :
    ∀ (pts : List Nat) (s : τ),
      Traverse_leafLoop rule q pts s = pts.foldl (fun s p => rule.BaseCase s q p) s
  | [], _ => rfl
  | p :: rest, s => by
      simp only [Traverse_leafLoop, List.foldl_cons]
      exact Traverse_leafLoop_eq rule q rest _

theorem Traverse_scoreLoop_nodes {τ β : Type} (rule : RuleType τ β) (q : Nat) :
    ∀ (l : List RectangleTree) (s : τ),
      (Traverse_scoreLoop rule q l s).1.map NodeAndScore.node = l
  | [], _ => rfl
  | c :: rest, s => by
      simp only [Traverse_scoreLoop, List.map_cons]
      rw [Traverse_scoreLoop_nodes rule q rest]

theorem RectangleTree.height_le_heightList {n : RectangleTree} :
    ∀ {l : List RectangleTree}, n ∈ l → n.height ≤ RectangleTree.heightList l
  | [], h => by simp at h
  | c :: rest, h => by
      rw [RectangleTree.heightList]
      rcases List.mem_cons.1 h with rfl | h
      · exact le_max_left _ _
      · exact le_trans (RectangleTree.height_le_heightList h) (le_max_right _ _)

theorem RectangleTree.height_child {n c : RectangleTree} (h : c ∈ n.Children) :
    c.height + 1 ≤ n.height := by
  cases n with
  | mk b p cs =>
    rw [RectangleTree.height]
    exact Nat.succ_le_succ (RectangleTree.height_le_heightList h)

/-- The last loop of `Traverse` traverses a prefix of the entries in order and
then either has reached the end or has met an entry for which `Rescore`
returned `DBL_MAX`, where it adds the number of the entries left to the
counter. -/
theorem Traverse_pruneLoop_spec (rule : RuleType σ α) (dbl_max : α)
    (descend : RectangleTree → Traverser σ → Option (Traverser σ)) (q k : Nat) :
    ∀ (entries : List (NodeAndScore α)) (i : Nat) (tr out : Traverser σ),
      Traverse_pruneLoop rule dbl_max descend q k i entries tr = some out →
      ∃ m mid, m ≤ entries.length ∧
        traverseInOrder rule dbl_max descend q (entries.take m) tr = some mid ∧
        ((m = entries.length ∧ out = mid) ∨
          ∃ e, entries.get? m = some e ∧
            (rule.Rescore mid.rule q e.node e.score).1 = dbl_max ∧
            out = { rule := (rule.Rescore mid.rule q e.node e.score).2
                    numPrunes := (mid.numPrunes + (k - (i + m))) % 2 ^ 64 })
  | [], i, tr, out, h => by
      simp only [Traverse_pruneLoop, Option.some.injEq] at h
      exact ⟨0, tr, le_refl _, rfl, Or.inl ⟨rfl, h.symm⟩⟩
  | e :: rest, i, tr, out, h => by
      rw [Traverse_pruneLoop] at h
      by_cases hr : (rule.Rescore tr.rule q e.node e.score).1 = dbl_max
      · simp only [hr, ne_eq, not_true_eq_false, if_false, Option.some.injEq] at h
        refine ⟨0, tr, Nat.zero_le _, rfl, Or.inr ⟨e, rfl, hr, ?_⟩⟩
        rw [← h]
        rfl
      · simp only [hr, ne_eq, not_false_eq_true, if_true] at h
        cases hd : descend e.node
            { tr with rule := (rule.Rescore tr.rule q e.node e.score).2 } with
        | none => rw [hd] at h; simp at h
        | some tr1 =>
          rw [hd] at h
          simp only at h
          obtain ⟨m, mid, hm, hpre, hout⟩ :=
            Traverse_pruneLoop_spec rule dbl_max descend q k rest (i + 1) tr1 out h
          refine ⟨m + 1, mid, Nat.succ_le_succ hm, ?_, ?_⟩
          · simp only [List.take_succ_cons, traverseInOrder, hr, if_false, hd, Option.some_bind]
            exact hpre
          · rcases hout with ⟨h1, h2⟩ | ⟨e', h1, h2, h3⟩
            · exact Or.inl ⟨by rw [h1]; rfl, h2⟩
            · refine Or.inr ⟨e', by simpa using h1, h2, ?_⟩
              rw [h3]
              have : i + 1 + m = i + (m + 1) := by omega
              rw [this]

/-- The last loop of `Traverse` returns when the recursive call returns on
every entry. -/
theorem Traverse_pruneLoop_returns (rule : RuleType σ α) (dbl_max : α)
    (descend : RectangleTree → Traverser σ → Option (Traverser σ)) (q k : Nat) :
    ∀ (entries : List (NodeAndScore α)) (i : Nat) (tr : Traverser σ),
      (∀ e ∈ entries, ∀ tr, (descend e.node tr).isSome = true) →
      (Traverse_pruneLoop rule dbl_max descend q k i entries tr).isSome = true
  | [], _, _, _ => rfl
  | e :: rest, i, tr, h => by
      rw [Traverse_pruneLoop]
      by_cases hr : (rule.Rescore tr.rule q e.node e.score).1 = dbl_max
      · simp only [hr, ne_eq, not_true_eq_false, if_false, Option.isSome_some]
      · simp only [hr, ne_eq, not_false_eq_true, if_true]
        obtain ⟨tr1, hd⟩ := Option.isSome_iff_exists.1
          (h e (List.mem_cons_self _ _)
            { tr with rule := (rule.Rescore tr.rule q e.node e.score).2 })
        rw [hd]
        exact Traverse_pruneLoop_returns rule dbl_max descend q k rest (i + 1) tr1
          (fun e' he' => h e' (List.mem_cons_of_mem _ he'))

/-- Traversing entries in order leaves the counter alone when the recursive
call does. -/
theorem traverseInOrder_numPrunes (rule : RuleType σ α) (dbl_max : α)
    (descend : RectangleTree → Traverser σ → Option (Traverser σ)) (q : Nat)
    (hd : ∀ n tr tr', descend n tr = some tr' → tr'.numPrunes = tr.numPrunes) :
    ∀ (entries : List (NodeAndScore α)) (tr mid : Traverser σ),
      traverseInOrder rule dbl_max descend q entries tr = some mid →
      mid.numPrunes = tr.numPrunes
  | [], tr, mid, h => by
      simp only [traverseInOrder, Option.some.injEq] at h
      rw [← h]
  | e :: rest, tr, mid, h => by
      rw [traverseInOrder] at h
      split at h
      · cases h
      · cases hx : descend e.node
            { tr with rule := (rule.Rescore tr.rule q e.node e.score).2 } with
        | none => rw [hx] at h; simp at h
        | some tr1 =>
          rw [hx] at h
          simp only [Option.some_bind] at h
          rw [traverseInOrder_numPrunes rule dbl_max descend q hd rest tr1 mid h,
            hd _ _ _ hx]

theorem Traverse_returns (rule : RuleType σ α)
    (sortEntries : List (NodeAndScore α) → List (NodeAndScore α)) (dbl_max : α)
    (hsort : ∀ l, (sortEntries l).Perm l) (q : Nat) :
    ∀ (fuel : Nat) (node : RectangleTree) (tr : Traverser σ), node.height ≤ fuel →
      (Traverse rule sortEntries dbl_max fuel q node tr).isSome = true
  | 0, node, tr, h => by
      cases node with
      | mk b p cs => rw [RectangleTree.height] at h; omega
  | fuel + 1, node, tr, h => by
      rw [Traverse]
      split
      · rfl
      · simp only
        apply Traverse_pruneLoop_returns
        intro e he tr'
        apply Traverse_returns rule sortEntries dbl_max hsort q fuel
        have h1 : e ∈ (Traverse_scoreLoop rule q node.Children tr.rule).1 :=
          (hsort _).mem_iff.1 he
        have h2 : e.node ∈ node.Children := by
          rw [← Traverse_scoreLoop_nodes rule q node.Children tr.rule]
          exact List.mem_map_of_mem _ h1
        have := RectangleTree.height_child h2
        omega

end TraverseLemmas

end SingleTreeTraverser

/-! ### Prune accounting of the single-tree traverser -/

namespace SingleTreeTraverser

section Claim37
variable {σ α : Type} [LinearOrderedField α]

/-- C37: with `sortEntries` sorting by score, `Traverse` on a leaf calls
`BaseCase` once for each point of the node, in index order, and leaves
`numPrunes` unchanged.  On a node that is not a leaf with `k` children the
entries examined are the children with their scores, sorted by score; a call
that returns has traversed exactly the entries at the sorted positions
`0 .. m - 1`, in order, each after a `Rescore` that did not return `DBL_MAX`,
and then either `m = k` and nothing else was done, so `numPrunes` was not
changed at this node, or `Rescore` returned `DBL_MAX` at position `m`, no
further entry was traversed and `numPrunes` was advanced by `k - m` (modulo
`2 ^ 64`, exactly when the counter stays below `2 ^ 64`).  The traversals of
the entries change `numPrunes` only through their own recursive calls, and
`Traverse` returns once the bound on the depth covers the levels of the
node. -/
theorem Traverse_prune_accounting (rule : RuleType σ α)
    (sortEntries : List (NodeAndScore α) → List (NodeAndScore α)) (dbl_max : α)
    (hsort : ∀ l, (sortEntries l).Perm l ∧
      (sortEntries l).Sorted (fun a b => a.score ≤ b.score)) :
    (∀ fuel q (node : RectangleTree) (tr : Traverser σ), node.IsLeaf = true →
      Traverse rule sortEntries dbl_max (fuel + 1) q node tr =
        some { rule := node.Points.foldl (fun s p => rule.BaseCase s q p) tr.rule
               numPrunes := tr.numPrunes }) ∧
    (∀ fuel q (node : RectangleTree) (tr : Traverser σ), node.IsLeaf = false →
      ((sortEntries (Traverse_scoreLoop rule q node.Children tr.rule).1).Perm
          (Traverse_scoreLoop rule q node.Children tr.rule).1 ∧
        (sortEntries (Traverse_scoreLoop rule q node.Children tr.rule).1).Sorted
          (fun a b => a.score ≤ b.score) ∧
        (Traverse_scoreLoop rule q node.Children tr.rule).1.map NodeAndScore.node =
          node.Children ∧
        (sortEntries (Traverse_scoreLoop rule q node.Children tr.rule).1).length =
          node.NumChildren) ∧
      ∀ out, Traverse rule sortEntries dbl_max (fuel + 1) q node tr = some out →
        ∃ m mid, m ≤ node.NumChildren ∧
          traverseInOrder rule dbl_max (Traverse rule sortEntries dbl_max fuel q) q
            ((sortEntries (Traverse_scoreLoop rule q node.Children tr.rule).1).take m)
            { tr with rule := (Traverse_scoreLoop rule q node.Children tr.rule).2 } =
              some mid ∧
          ((m = node.NumChildren ∧ out = mid) ∨
            ∃ e, (sortEntries (Traverse_scoreLoop rule q node.Children tr.rule).1).get? m =
                some e ∧
              (rule.Rescore mid.rule q e.node e.score).1 = dbl_max ∧
              out = { rule := (rule.Rescore mid.rule q e.node e.score).2
                      numPrunes := (mid.numPrunes + (node.NumChildren - m)) % 2 ^ 64 } ∧
              (mid.numPrunes + (node.NumChildren - m) < 2 ^ 64 →
                out.numPrunes = mid.numPrunes + (node.NumChildren - m)))) ∧
    (∀ (descend : RectangleTree → Traverser σ → Option (Traverser σ)) q entries
        (tr mid : Traverser σ),
      (∀ n tr tr', descend n tr = some tr' → tr'.numPrunes = tr.numPrunes) →
      traverseInOrder rule dbl_max descend q entries tr = some mid →
      mid.numPrunes = tr.numPrunes) ∧
    (∀ fuel q (node : RectangleTree) (tr : Traverser σ), node.height ≤ fuel →
      (Traverse rule sortEntries dbl_max fuel q node tr).isSome = true) := by
  refine ⟨?_, ?_, ?_, ?_⟩
  · intro fuel q node tr hl
    rw [Traverse]
    simp only [hl, if_true, Traverse_leafLoop_eq]
  · intro fuel q node tr hl
    have hlen : (sortEntries (Traverse_scoreLoop rule q node.Children tr.rule).1).length =
        node.NumChildren := by
      rw [(hsort _).1.length_eq, ← List.length_map _ NodeAndScore.node,
        Traverse_scoreLoop_nodes]
      rfl
    refine ⟨⟨(hsort _).1, (hsort _).2, Traverse_scoreLoop_nodes rule q _ _, hlen⟩, ?_⟩
    intro out h
    rw [Traverse] at h
    simp only [hl, Bool.false_eq_true, if_false] at h
    obtain ⟨m, mid, hm, hpre, hout⟩ := Traverse_pruneLoop_spec rule dbl_max _ q _ _ 0 _ out h
    rw [hlen] at hm
    refine ⟨m, mid, hm, hpre, ?_⟩
    rcases hout with ⟨h1, h2⟩ | ⟨e, h1, h2, h3⟩
    · exact Or.inl ⟨by rw [h1, hlen], h2⟩
    · rw [Nat.zero_add] at h3
      refine Or.inr ⟨e, h1, h2, h3, ?_⟩
      intro hlt
      rw [h3]
      exact Nat.mod_eq_of_lt hlt
  · intro descend q entries tr mid hd h
    exact traverseInOrder_numPrunes rule dbl_max descend q hd entries tr mid h
  · intro fuel q node tr h
    exact Traverse_returns rule sortEntries dbl_max (fun l => (hsort l).1) q fuel node tr h

end Claim37

theorem exampleSort_sorts (l : List (NodeAndScore ℚ)) :
    (exampleSort l).Perm l ∧ (exampleSort l).Sorted (fun a b => a.score ≤ b.score) := by
  haveI : IsTotal (NodeAndScore ℚ) (fun a b => a.score ≤ b.score) :=
    ⟨fun a b => le_total a.score b.score⟩
  haveI : IsTrans (NodeAndScore ℚ) (fun a b => a.score ≤ b.score) :=
    ⟨fun a b c hab hbc => le_trans hab hbc⟩
  exact ⟨List.perm_insertionSort _ l, List.sorted_insertionSort _ l⟩

theorem Traverse_prune_accounting_witness :
    (∀ l, (exampleSort l).Perm l ∧ (exampleSort l).Sorted (fun a b => a.score ≤ b.score)) ∧
    exampleRectangleTree.IsLeaf = false ∧
    Traverse exampleRule exampleSort 1000 2 0 exampleRectangleTree (Traverser.init []) =
      some { rule := [7, 4, 5], numPrunes := 1 } ∧
    ∃ m mid, m ≤ exampleRectangleTree.NumChildren ∧
      traverseInOrder exampleRule 1000 (Traverse exampleRule exampleSort 1000 1 0) 0
        ((exampleSort
          (Traverse_scoreLoop exampleRule 0 exampleRectangleTree.Children
            (Traverser.init ([] : List Nat)).rule).1).take m)
        { Traverser.init ([] : List Nat) with
          rule := (Traverse_scoreLoop exampleRule 0 exampleRectangleTree.Children
            (Traverser.init ([] : List Nat)).rule).2 } = some mid ∧
      ((m = exampleRectangleTree.NumChildren ∧
          ({ rule := [7, 4, 5], numPrunes := 1 } : Traverser (List Nat)) = mid) ∨
        ∃ e, (exampleSort
            (Traverse_scoreLoop exampleRule 0 exampleRectangleTree.Children
              (Traverser.init ([] : List Nat)).rule).1).get? m = some e ∧
          (exampleRule.Rescore mid.rule 0 e.node e.score).1 = 1000 ∧
          ({ rule := [7, 4, 5], numPrunes := 1 } : Traverser (List Nat)) =
            { rule := (exampleRule.Rescore mid.rule 0 e.node e.score).2
              numPrunes := (mid.numPrunes + (exampleRectangleTree.NumChildren - m)) % 2 ^ 64 } ∧
          (mid.numPrunes + (exampleRectangleTree.NumChildren - m) < 2 ^ 64 →
            ({ rule := [7, 4, 5], numPrunes := 1 } : Traverser (List Nat)).numPrunes =
              mid.numPrunes + (exampleRectangleTree.NumChildren - m))) :=
  have hrun : Traverse exampleRule exampleSort 1000 2 0 exampleRectangleTree
      (Traverser.init []) = some { rule := [7, 4, 5], numPrunes := 1 } := by decide!
  ⟨exampleSort_sorts, rfl, hrun,
    ((Traverse_prune_accounting exampleRule exampleSort 1000 exampleSort_sorts).2.1 1 0
      exampleRectangleTree (Traverser.init []) rfl).2 _ hrun⟩

end SingleTreeTraverser

/-! ### The gradient of the SDP cones -/

/-- C39: on the object left by `Init` for one observed value (columns `w = 0`,
`h = 1`, `t1 = 2`, `t2 = 3`, `v = 4`, pairwise distinct) and coordinates with
determinant `3`, the gradient row before the loop over the SDP cones is
`0, 0, 1, 1, 0` and `dt2 = 2/3`.  `ComputeGradient` leaves `2`, `2`, `1/3` and
`-2/3` in the entries of `w`, `h`, `t1` and `v`, each its previous value minus
its own derivative term, but leaves `-1/3` in the entry of `t2`: the updated
entry of `t1` minus `dt2`, not the previous value `1` of the entry of `t2`
minus `dt2`, which is `1/3`. -/
theorem ComputeGradient_t2_reads_t1 :
    exampleSdp.map (fun s =>
        (s.offset_h_, s.offset_tw_, s.offset_th_, s.offset_v_)) = some (1, 2, 3, 4) ∧
    exampleSdp.map (fun s =>
        (List.range 5).map
          (s.ComputeGradient_lpCones exampleCoordinates s.ComputeGradient_objective 0)) =
      some [0, 0, 1, 1, 0] ∧
    exampleSdp.map (fun s => s.dt2 exampleCoordinates 0 0) = some (2 / 3) ∧
    exampleSdp.map (fun s =>
        (List.range 5).map (s.ComputeGradient exampleCoordinates (fun _ _ => 0) 0)) =
      some [2, 2, 1 / 3, -1 / 3, -2 / 3] ∧
    exampleSdp.map (fun s =>
        decide (s.ComputeGradient exampleCoordinates (fun _ _ => 0) 0 3 =
          s.ComputeGradient_lpCones exampleCoordinates s.ComputeGradient_objective 0 3 -
            s.dt2 exampleCoordinates 0 0)) = some false := by
  decide!

end Tripletree
